import Mathlib

/-!
PGF wavelet transform: a shallow embedding and its verification.

The development embeds `src/src/WaveletTransform.cpp`, `src/src/WaveletTransform.h`
and the class methods `LevelWidth` / `LevelHeight` of `src/include/PGFimage.h`.

Conventions of the embedding

* A coefficient is an integer (`Int`); `>>` on a coefficient is the arithmetic shift
  `Int.shiftRight`. The row filters and the transforms are embedded on exact integers
  (`ForwardRow`, `InverseRow`, `ForwardTransform`, `InverseTransform`): the arithmetic of
  the code as long as no sum leaves the range of `int` and no stored coefficient the range
  of `DataT`. These definitions carry the statements that do not depend on coefficient
  values (memory accesses, cursors, error codes, quantized subbands) and the round trip on
  exact integers.
* The row filters and the forward transform are embedded a second time with the
  arithmetic of the code on `DataT` (`ForwardRowT`, `InverseRowT`, `ForwardTransformT`):
  sums and differences are those of the 32-bit `int`, stores keep the low 16 or 32 bits.
  These definitions carry the statements about coefficient values.
* `UINT32` values are natural numbers; where the source can wrap, the reduction
  modulo `2 ^ 32` is written out.
* A buffer is a `List Int`, a pointer into it is an offset. Every load and store is
  bounds-checked: an access outside the buffer ends the run with
  `Fault.outOfBounds`, a dereference of a null buffer with `Fault.nullPointer`.
* C loops are run by `whileLoop` with an iteration budget; a budget that is used up
  while the loop condition still holds ends the run with `Fault.outOfFuel`.
* `InverseTransform` and `MallatToLinear` are embedded in their variant without
  `__PGFROISUPPORT__`; the ROI helper class `CRoiIndices` is embedded as it stands.
* `ASSERT`s are not executed; where a theorem needs what an `ASSERT` states, it is a
  hypothesis of the theorem.
-/

namespace PGF

/-! ## Execution model -/

/-- Ways in which a run of the embedded code can go wrong. -/
inductive Fault where
  | outOfBounds
  | nullPointer
  | outOfFuel
  deriving DecidableEq, Repr

deriving instance DecidableEq for Except

/-- Result of running embedded code: a value or a fault. -/
abbrev Exec (α : Type) : Type := Except Fault α

/-- Load `mem[p]`. -/
def rd (mem : List Int) (p : Nat) : Exec Int :=
  match mem[p]? with
  | some v => .ok v
  | none => .error .outOfBounds

/-- Store `mem[p] = v`. -/
def wr (mem : List Int) (p : Nat) (v : Int) : Exec (List Int) :=
  if p < mem.length then .ok (mem.set p v) else .error .outOfBounds

/-- The statement `mem[p] -= v`. -/
def subAt (mem : List Int) (p : Nat) (v : Int) : Exec (List Int) := do
  let x ← rd mem p
  wr mem p (x - v)

/-- The statement `mem[p] += v`. -/
def addAt (mem : List Int) (p : Nat) (v : Int) : Exec (List Int) := do
  let x ← rd mem p
  wr mem p (x + v)

/-- The loop `while (cond) body` with an iteration budget. -/
def whileLoop {σ : Type} (cond : σ → Bool) (body : σ → Exec σ) : Nat → σ → Exec σ
  | 0, s => if cond s then .error .outOfFuel else .ok s
  | fuel + 1, s => if cond s then body s >>= whileLoop cond body fuel else .ok s

/-! ## Constants (`WaveletTransform.cpp`, `WaveletTransform.h`, `PGFtypes.h`) -/

/-- Rounding constant `c1` of `WaveletTransform.cpp`. -/
def c1 : Int := 1
/-- Rounding constant `c2` of `WaveletTransform.cpp`. -/
def c2 : Int := 2
/-- Number of coefficients of the row wavelet filter. -/
def FilterWidth : Nat := 5
/-- Number of coefficients of the column wavelet filter. -/
def FilterHeight : Nat := 3
/-- Maximum number of transform levels. -/
def MaxLevel : Nat := 30
/-- Number of subbands per level. -/
def NSubbands : Nat := 4

/-! ## Row filters -/

/-- `CWaveletTransform::ForwardRow(DataT* src, UINT32 width)`; `src` is an offset
into `mem`. -/
def ForwardRow (mem : List Int) (src width : Nat) : Exec (List Int) :=
  if width ≥ FilterWidth then do
    -- left border handling
    let mem ← subAt mem (src + 1) (((← rd mem (src + 0)) + (← rd mem (src + 2)) + c1) >>> 1)
    let mem ← addAt mem (src + 0) (((← rd mem (src + 1)) + c1) >>> 1)
    -- middle part
    let (i, mem) ← whileLoop (fun (s : Nat × List Int) => decide (s.1 < width - 1))
      (fun (s : Nat × List Int) => do
        let i := s.1
        let mem := s.2
        let mem ← subAt mem (src + i)
          (((← rd mem (src + (i - 1))) + (← rd mem (src + (i + 1))) + c1) >>> 1)
        let mem ← addAt mem (src + (i - 1))
          (((← rd mem (src + (i - 2))) + (← rd mem (src + i)) + c2) >>> 2)
        pure (i + 2, mem))
      width (3, mem)
    -- right border handling
    if width % 2 = 1 then do
      addAt mem (src + (i - 1)) (((← rd mem (src + (i - 2))) + c1) >>> 1)
    else do
      let mem ← subAt mem (src + i) (← rd mem (src + (i - 1)))
      addAt mem (src + (i - 1)) (((← rd mem (src + (i - 2))) + (← rd mem (src + i)) + c2) >>> 2)
  else
    pure mem

/-- `CWaveletTransform::InverseRow(DataT* dest, UINT32 width)`; `dest` is an offset
into `mem`. -/
def InverseRow (mem : List Int) (dest width : Nat) : Exec (List Int) :=
  if width ≥ FilterWidth then do
    -- left border handling
    let mem ← subAt mem (dest + 0) (((← rd mem (dest + 1)) + c1) >>> 1)
    -- middle part
    let (i, mem) ← whileLoop (fun (s : Nat × List Int) => decide (s.1 < width - 1))
      (fun (s : Nat × List Int) => do
        let i := s.1
        let mem := s.2
        let mem ← subAt mem (dest + i)
          (((← rd mem (dest + (i - 1))) + (← rd mem (dest + (i + 1))) + c2) >>> 2)
        let mem ← addAt mem (dest + (i - 1))
          (((← rd mem (dest + (i - 2))) + (← rd mem (dest + i)) + c1) >>> 1)
        pure (i + 2, mem))
      width (2, mem)
    -- right border handling
    if width % 2 = 1 then do
      let mem ← subAt mem (dest + i) (((← rd mem (dest + (i - 1))) + c1) >>> 1)
      addAt mem (dest + (i - 1)) (((← rd mem (dest + (i - 2))) + (← rd mem (dest + i)) + c1) >>> 1)
    else do
      addAt mem (dest + (i - 1)) (← rd mem (dest + (i - 2)))
  else
    pure mem

/-! ## Row filters on `DataT`

The coefficient type `DataT` is `INT16`, or `INT32` with `__PGF32SUPPORT__`
(`PGFtypes.h`). In a lifting statement such as `src[i] -= ((src[i-1] + src[i+1] + c1) >> 1)`
every operand is promoted to `int`, the sum, the shift and the difference are taken in
`int`, and the store converts the result to `DataT`. The functions of this section follow
that arithmetic for a `DataT` of `bits` bits (16 or 32) and an `int` of 32 bits; an `int`
operation whose exact result leaves the 32-bit range wraps around modulo `2 ^ 32`, as
two's-complement hardware does, and a conversion to `DataT` keeps the low `bits` bits.
`ForwardRow` and `InverseRow` above are the same statements on exact integers: the
arithmetic of the code as long as no value leaves the range. -/

/-- The value of a wide integer `x` converted to a two's-complement integer of `bits`
bits: `x` modulo `2 ^ bits`, in `[-2 ^ (bits - 1), 2 ^ (bits - 1))`. -/
def toDataT (bits : Nat) (x : Int) : Int :=
  (x + ((2 ^ (bits - 1) : Nat) : Int)) % ((2 ^ bits : Nat) : Int) - ((2 ^ (bits - 1) : Nat) : Int)

/-- The value of `a + b` on `int` (32 bits, two's complement). -/
def addInt (a b : Int) : Int := toDataT 32 (a + b)

/-- The value of `a - b` on `int` (32 bits, two's complement). -/
def subInt (a b : Int) : Int := toDataT 32 (a - b)

/-- The statement `mem[p] -= v` on a `DataT` of `bits` bits, `v` an `int`. -/
def subAtT (bits : Nat) (mem : List Int) (p : Nat) (v : Int) : Exec (List Int) := do
  let x ← rd mem p
  wr mem p (toDataT bits (subInt x v))

/-- The statement `mem[p] += v` on a `DataT` of `bits` bits, `v` an `int`. -/
def addAtT (bits : Nat) (mem : List Int) (p : Nat) (v : Int) : Exec (List Int) := do
  let x ← rd mem p
  wr mem p (toDataT bits (addInt x v))

/-- `CWaveletTransform::ForwardRow(DataT* src, UINT32 width)` on a `DataT` of `bits`
bits; `src` is an offset into `mem`. -/
def ForwardRowT (bits : Nat) (mem : List Int) (src width : Nat) : Exec (List Int) :=
  if width ≥ FilterWidth then do
    -- left border handling
    let mem ← subAtT bits mem (src + 1)
      ((addInt (addInt (← rd mem (src + 0)) (← rd mem (src + 2))) c1) >>> 1)
    let mem ← addAtT bits mem (src + 0) ((addInt (← rd mem (src + 1)) c1) >>> 1)
    -- middle part
    let (i, mem) ← whileLoop (fun (s : Nat × List Int) => decide (s.1 < width - 1))
      (fun (s : Nat × List Int) => do
        let i := s.1
        let mem := s.2
        let mem ← subAtT bits mem (src + i)
          ((addInt (addInt (← rd mem (src + (i - 1))) (← rd mem (src + (i + 1)))) c1) >>> 1)
        let mem ← addAtT bits mem (src + (i - 1))
          ((addInt (addInt (← rd mem (src + (i - 2))) (← rd mem (src + i))) c2) >>> 2)
        pure (i + 2, mem))
      width (3, mem)
    -- right border handling
    if width % 2 = 1 then do
      addAtT bits mem (src + (i - 1)) ((addInt (← rd mem (src + (i - 2))) c1) >>> 1)
    else do
      let mem ← subAtT bits mem (src + i) (← rd mem (src + (i - 1)))
      addAtT bits mem (src + (i - 1))
        ((addInt (addInt (← rd mem (src + (i - 2))) (← rd mem (src + i))) c2) >>> 2)
  else
    pure mem

/-- `CWaveletTransform::InverseRow(DataT* dest, UINT32 width)` on a `DataT` of `bits`
bits; `dest` is an offset into `mem`. -/
def InverseRowT (bits : Nat) (mem : List Int) (dest width : Nat) : Exec (List Int) :=
  if width ≥ FilterWidth then do
    -- left border handling
    let mem ← subAtT bits mem (dest + 0) ((addInt (← rd mem (dest + 1)) c1) >>> 1)
    -- middle part
    let (i, mem) ← whileLoop (fun (s : Nat × List Int) => decide (s.1 < width - 1))
      (fun (s : Nat × List Int) => do
        let i := s.1
        let mem := s.2
        let mem ← subAtT bits mem (dest + i)
          ((addInt (addInt (← rd mem (dest + (i - 1))) (← rd mem (dest + (i + 1)))) c2) >>> 2)
        let mem ← addAtT bits mem (dest + (i - 1))
          ((addInt (addInt (← rd mem (dest + (i - 2))) (← rd mem (dest + i))) c1) >>> 1)
        pure (i + 2, mem))
      width (2, mem)
    -- right border handling
    if width % 2 = 1 then do
      let mem ← subAtT bits mem (dest + i) ((addInt (← rd mem (dest + (i - 1))) c1) >>> 1)
      addAtT bits mem (dest + (i - 1))
        ((addInt (addInt (← rd mem (dest + (i - 2))) (← rd mem (dest + i))) c1) >>> 1)
    else do
      addAtT bits mem (dest + (i - 1)) (← rd mem (dest + (i - 2)))
  else
    pure mem

/-! ## Subbands

`Subband.h` and `Subband.cpp` are not among the sources; the class is modelled from the
specification (sections 3 and 4.1) and from the way `WaveletTransform.cpp` uses it. -/

/-- Orientation of a subband (`enum Orientation` of `PGFtypes.h`). -/
inductive Orientation where
  | LL
  | HL
  | LH
  | HH
  deriving DecidableEq, Repr

/-- Error codes returned by the transform. -/
inductive OSError where
  | NoError
  | InsufficientMemory
  deriving DecidableEq, Repr

/-- `PGFRect` of `PGFtypes.h`. -/
structure PGFRect where
  left : Nat
  top : Nat
  right : Nat
  bottom : Nat
  deriving DecidableEq, Repr

/-- `PGFRect::Width()`: `right - left` on `UINT32`. -/
def PGFRect.Width (r : PGFRect) : Nat := (r.right + 2 ^ 32 - r.left) % 2 ^ 32

/-- `PGFRect::Height()`: `bottom - top` on `UINT32`. -/
def PGFRect.Height (r : PGFRect) : Nat := (r.bottom + 2 ^ 32 - r.top) % 2 ^ 32

/-- Modelled from the spec: class `CSubband` (`Subband.h` is missing). A subband is the
tuple `(level, orientation, width, height, buffer?, roi?, tiles?)` of section 3; `buffer`
is a dense row-major array of coefficients, present only while allocated, and `cursor` is
the read/write cursor of section 4.1 as a position in that array. `roi` is the ROI
rectangle in the coordinates of the subband and `nTiles` the tile count per axis; the code
without `__PGFROISUPPORT__` does not look at them. -/
structure CSubband where
  width : Nat
  height : Nat
  level : Nat
  orientation : Orientation
  buffer : Option (List Int)
  cursor : Nat
  roi : PGFRect
  nTiles : Nat
  deriving DecidableEq, Repr

namespace CSubband

/-- Modelled from the spec: `CSubband::Initialize` (`Subband.h` is missing): sets the
dimensions, level and orientation of a subband that owns no buffer yet; its ROI is the
whole subband, the default. -/
def Initialize (width height level : Nat) (orient : Orientation) : CSubband :=
  { width := width, height := height, level := level, orientation := orient,
    buffer := none, cursor := 0, roi := ⟨0, 0, width, height⟩, nTiles := 0 }

/-- Modelled from the spec: `set_buffer(ptr)` (`Subband.h` is missing): adopt an
external buffer. -/
def SetBuffer (b : CSubband) (data : List Int) : CSubband :=
  { b with buffer := some data }

/-- Modelled from the spec: `allocate()` (`Subband.h` is missing): the buffer of
`width * height` coefficients is allocated on demand; `ok` says whether the system grants
the memory. Returns the success flag and the subband. -/
def AllocMemory (b : CSubband) (ok : Bool) : Bool × CSubband :=
  match b.buffer with
  | some _ => (true, b)
  | none =>
    if ok then (true, { b with buffer := some (List.replicate (b.width * b.height) 0) })
    else (false, b)

/-- Modelled from the spec: `free()` (`Subband.h` is missing): release the buffer. -/
def FreeMemory (b : CSubband) : CSubband :=
  { b with buffer := none }

/-- Modelled from the spec: `write_coeff(c)` (`Subband.h` is missing): store `c` at the
cursor and advance the cursor by one coefficient. -/
def WriteBuffer (b : CSubband) (val : Int) : Exec CSubband :=
  match b.buffer with
  | none => .error .nullPointer
  | some data => do
    let data ← wr data b.cursor val
    pure { b with buffer := some data, cursor := b.cursor + 1 }

/-- Modelled from the spec: `read_coeff()` (`Subband.h` is missing): load the coefficient
at the cursor and advance the cursor by one coefficient. -/
def ReadBuffer (b : CSubband) : Exec (Int × CSubband) :=
  match b.buffer with
  | none => .error .nullPointer
  | some data => do
    let v ← rd data b.cursor
    pure (v, { b with cursor := b.cursor + 1 })

/-- Modelled from the spec: `init_cursor` without ROI (`Subband.h` is missing): put the
cursor at the start of the buffer. -/
def InitBuffPos (b : CSubband) : CSubband :=
  { b with cursor := 0 }

/-- Modelled from the spec: `quantize(q)` (`Subband.h` is missing): shift every
coefficient right by `q` bits, arithmetically. -/
def Quantize (b : CSubband) (quantParam : Nat) : Exec CSubband :=
  match b.buffer with
  | none => .error .nullPointer
  | some data => pure { b with buffer := some (data.map (fun (c : Int) => c >>> quantParam)) }

/-- Modelled from the spec: `GetROI()` (`Subband.h` is missing). -/
def GetROI (b : CSubband) : PGFRect := b.roi

/-- Modelled from the spec: `set_roi(rect)` (`Subband.h` is missing). -/
def SetROI (b : CSubband) (r : PGFRect) : CSubband := { b with roi := r }

/-- Modelled from the spec: `set_n_tiles(n)` (`Subband.h` is missing). -/
def SetNTiles (b : CSubband) (n : Nat) : CSubband := { b with nTiles := n }

/-- Modelled from the spec: `buffer_width()` (`Subband.h` is missing): in ROI mode the
buffer holds the ROI sub-rectangle, so a buffer row is as wide as the ROI. -/
def BufferWidth (b : CSubband) : Nat := b.roi.Width

/-- Modelled from the spec: `GetBuffPos()` (`Subband.h` is missing): the cursor. -/
def GetBuffPos (b : CSubband) : Nat := b.cursor

/-- Modelled from the spec: `init_cursor(col, row)` in ROI mode (`Subband.h` is
missing): put the cursor on column `left` of row `top` of the buffer. -/
def InitBuffPosAt (b : CSubband) (left top : Nat) : CSubband :=
  { b with cursor := (top * b.BufferWidth + left) % 2 ^ 32 }

/-- Modelled from the spec: `advance_row_cursor(saved_pos)` (`Subband.h` is missing):
move the cursor to the start of the buffer row after the one that began at `pos`. -/
def IncBuffRow (b : CSubband) (pos : Nat) : CSubband :=
  { b with cursor := (pos + b.BufferWidth) % 2 ^ 32 }

/-- Modelled from the spec: `allocate()` in ROI mode (`Subband.h` is missing): the buffer
holds the ROI sub-rectangle, `BufferWidth × roi.Height` coefficients. -/
def AllocMemoryROI (b : CSubband) (ok : Bool) : Bool × CSubband :=
  match b.buffer with
  | some _ => (true, b)
  | none =>
    if ok then
      (true, { b with buffer := some (List.replicate (b.BufferWidth * b.roi.Height) 0) })
    else (false, b)

/-- The descent of `TilePosition` along one axis: `n` rounds remain, `[lo, hi)` is the
current range of tile indices and `[pos, pos + len)` the current range of positions. -/
def tileRange (tile : Nat) : Nat → Nat → Nat → Nat → Nat → Nat × Nat
  | 0, _, _, pos, len => (pos, len)
  | n + 1, lo, hi, pos, len =>
    let m := lo + (hi - lo) / 2
    let mid := (pos + (pos + len)) / 2
    if tile ≥ m then tileRange tile n m hi mid (pos + len - mid)
    else tileRange tile n lo m pos (mid - pos)

/-- The number of times a tile count `n` is halved before it reaches 1; a `UINT32` is
halved at most 32 times, `fuel` bounds the count. -/
def halvings : Nat → Nat → Nat
  | 0, _ => 0
  | fuel + 1, n => if n > 1 then halvings fuel (n / 2) + 1 else 0

/-- Modelled from the spec: `tile_position(ti, tj) -> (x, y, w, h)` (`Subband.h` is
missing): tiles divide the subband by repeated halving, with the dyadic descent of
section 4.2 (midpoint `(min + max) / 2`), once per factor two of the tile count. -/
def TilePosition (b : CSubband) (tileX tileY : Nat) : Nat × Nat × Nat × Nat :=
  let x := tileRange tileX (halvings 32 b.nTiles) 0 b.nTiles 0 b.width
  let y := tileRange tileY (halvings 32 b.nTiles) 0 b.nTiles 0 b.height
  (x.1, y.1, x.2, y.2)

end CSubband

/-- The four subbands `m_subband[level][LL..HH]` of one pyramid level. -/
structure Bands where
  ll : CSubband
  hl : CSubband
  lh : CSubband
  hh : CSubband
  deriving DecidableEq, Repr

/-- `CWaveletTransform`, build without `__PGFROISUPPORT__`. -/
structure CWaveletTransform where
  m_nLevels : Nat
  m_subband : List Bands
  deriving DecidableEq, Repr

/-- The loop of `CWaveletTransform::InitSubbands`: `n` levels remain to be initialised,
starting at `level`; the arguments are the current values of the four `UINT32` locals. -/
def InitSubbands.loop : Nat → Nat → Nat → Nat → Nat → Nat → List Bands
  | 0, _, _, _, _, _ => []
  | n + 1, level, loWidth, hiWidth, loHeight, hiHeight =>
    { ll := CSubband.Initialize loWidth loHeight level .LL,
      hl := CSubband.Initialize hiWidth loHeight level .HL,
      lh := CSubband.Initialize loWidth hiHeight level .LH,
      hh := CSubband.Initialize hiWidth hiHeight level .HH } ::
    InitSubbands.loop n (level + 1)
      (((loWidth + 1) % 2 ^ 32) >>> 1) (loWidth >>> 1)
      (((loHeight + 1) % 2 ^ 32) >>> 1) (loHeight >>> 1)

/-- `CWaveletTransform::InitSubbands(width, height, data)` for a pyramid of `m_nLevels`
levels; `data = none` is the null pointer. -/
def InitSubbands (m_nLevels width height : Nat) (data : Option (List Int)) : List Bands :=
  let m_subband := InitSubbands.loop m_nLevels 0 width width height height
  match data, m_subband with
  | some d, b :: rest => { b with ll := b.ll.SetBuffer d } :: rest
  | _, _ => m_subband

/-- Constructor `CWaveletTransform(width, height, levels, data)`. -/
def CWaveletTransform.new (width height levels : Nat) (data : Option (List Int)) :
    CWaveletTransform :=
  { m_nLevels := levels + 1, m_subband := InitSubbands (levels + 1) width height data }

/-- `CPGFImage::LevelWidth(width, level)` of `PGFimage.h`, on `UINT32`. The shifts are
those of C for `level ≤ 31`; C leaves a shift of a `UINT32` by 32 or more undefined, and
the theorems about this function are stated for `level ≤ 31`. -/
def LevelWidth (width level : Nat) : Nat :=
  let w := width >>> level
  if (w <<< level) % 2 ^ 32 = width then w else (w + 1) % 2 ^ 32

/-- `CPGFImage::LevelHeight(height, level)` of `PGFimage.h`, on `UINT32`; as for
`LevelWidth`, the shifts are those of C for `level ≤ 31`. -/
def LevelHeight (height level : Nat) : Nat :=
  let h := height >>> level
  if (h <<< level) % 2 ^ 32 = height then h else (h + 1) % 2 ^ 32

/-- `CPGFImage::Width(level)` of `PGFimage.h`: the image width at a level, computed
from the header field `m_header.width`. -/
def CPGFImage.Width (m_header_width level : Nat) : Nat := LevelWidth m_header_width level

/-- `CPGFImage::Height(level)` of `PGFimage.h`: the image height at a level, computed
from the header field `m_header.height`. -/
def CPGFImage.Height (m_header_height level : Nat) : Nat := LevelHeight m_header_height level

/-! ## Specification vocabulary -/

/-- `CPGFImage::Clamp4(DataT v)` of `PGFimage.h`. The test `v & 0xFFFFFFF0` is taken on
the 32-bit two's-complement pattern of `v`; the result is a `UINT8`. -/
def CPGFImage.Clamp4 (v : Int) : Nat :=
  if (v % ((2 ^ 32 : Nat) : Int)).toNat &&& 0xFFFFFFF0 ≠ 0 then (if v < 0 then 0 else 15)
  else (v % ((2 ^ 8 : Nat) : Int)).toNat

/-- `CPGFImage::Clamp6(DataT v)` of `PGFimage.h`. The test `v & 0xFFFFFFC0` is taken on
the 32-bit two's-complement pattern of `v`; the result is a `UINT16`. -/
def CPGFImage.Clamp6 (v : Int) : Nat :=
  if (v % ((2 ^ 32 : Nat) : Int)).toNat &&& 0xFFFFFFC0 ≠ 0 then (if v < 0 then 0 else 63)
  else (v % ((2 ^ 16 : Nat) : Int)).toNat

/-- Content of cell `p` of a buffer (`0` outside the buffer). -/
def ld (mem : List Int) (p : Nat) : Int := mem.getD p 0

/-- Pointwise description of the effect of `ForwardRow` on a row of `w` cells at offset
`b`: `s` is the buffer before the call, `d` the buffer after it. -/
def ForwardRowPost (s d : List Int) (b w : Nat) : Prop :=
  d.length = s.length ∧
  (∀ p, (p < b ∨ b + w ≤ p) → ld d p = ld s p) ∧
  (∀ j, j % 2 = 1 → j + 1 < w →
    ld d (b + j) = ld s (b + j) - ((ld s (b + (j - 1)) + ld s (b + (j + 1)) + 1) >>> 1)) ∧
  ld d b = ld s b + ((ld d (b + 1) + 1) >>> 1) ∧
  (∀ j, j % 2 = 0 → 2 ≤ j → j + 1 < w →
    ld d (b + j) = ld s (b + j) + ((ld d (b + (j - 1)) + ld d (b + (j + 1)) + 2) >>> 2)) ∧
  (w % 2 = 1 → ld d (b + (w - 1)) = ld s (b + (w - 1)) + ((ld d (b + (w - 2)) + 1) >>> 1)) ∧
  (w % 2 = 0 → ld d (b + (w - 1)) = ld s (b + (w - 1)) - ld s (b + (w - 2)))

/-- Invariant of the middle loop of `ForwardRow`, at loop state `st = (i, mem)`. -/
def ForwardRowInv (s : List Int) (b w : Nat) (st : Nat × List Int) : Prop :=
  st.1 % 2 = 1 ∧ 3 ≤ st.1 ∧ st.1 ≤ w ∧
  st.2.length = s.length ∧
  (∀ p, (p < b ∨ b + w ≤ p) → ld st.2 p = ld s p) ∧
  (∀ j, st.1 ≤ j + 1 → j < w → ld st.2 (b + j) = ld s (b + j)) ∧
  (∀ j, j % 2 = 1 → j + 1 < st.1 →
    ld st.2 (b + j) = ld s (b + j) - ((ld s (b + (j - 1)) + ld s (b + (j + 1)) + 1) >>> 1)) ∧
  ld st.2 b = ld s b + ((ld st.2 (b + 1) + 1) >>> 1) ∧
  (∀ j, j % 2 = 0 → 2 ≤ j → j + 2 < st.1 →
    ld st.2 (b + j) =
      ld s (b + j) + ((ld st.2 (b + (j - 1)) + ld st.2 (b + (j + 1)) + 2) >>> 2))

/-- Pointwise description of the effect of `InverseRow` on a row of `w` cells at offset
`b`: `d` is the buffer before the call, `t` the buffer after it. -/
def InverseRowPost (d t : List Int) (b w : Nat) : Prop :=
  t.length = d.length ∧
  (∀ p, (p < b ∨ b + w ≤ p) → ld t p = ld d p) ∧
  ld t b = ld d b - ((ld d (b + 1) + 1) >>> 1) ∧
  (∀ j, j % 2 = 0 → 2 ≤ j → j + 1 < w →
    ld t (b + j) = ld d (b + j) - ((ld d (b + (j - 1)) + ld d (b + (j + 1)) + 2) >>> 2)) ∧
  (∀ j, j % 2 = 1 → j + 1 < w →
    ld t (b + j) = ld d (b + j) + ((ld t (b + (j - 1)) + ld t (b + (j + 1)) + 1) >>> 1)) ∧
  (w % 2 = 1 → ld t (b + (w - 1)) = ld d (b + (w - 1)) - ((ld d (b + (w - 2)) + 1) >>> 1)) ∧
  (w % 2 = 0 → ld t (b + (w - 1)) = ld d (b + (w - 1)) + ld t (b + (w - 2)))

/-- Invariant of the middle loop of `InverseRow`, at loop state `st = (i, mem)`. -/
def InverseRowInv (d : List Int) (b w : Nat) (st : Nat × List Int) : Prop :=
  st.1 % 2 = 0 ∧ 2 ≤ st.1 ∧ st.1 ≤ w ∧
  st.2.length = d.length ∧
  (∀ p, (p < b ∨ b + w ≤ p) → ld st.2 p = ld d p) ∧
  (∀ j, st.1 ≤ j + 1 → j < w → ld st.2 (b + j) = ld d (b + j)) ∧
  ld st.2 b = ld d b - ((ld d (b + 1) + 1) >>> 1) ∧
  (∀ j, j % 2 = 0 → 2 ≤ j → j + 1 < st.1 →
    ld st.2 (b + j) = ld d (b + j) - ((ld d (b + (j - 1)) + ld d (b + (j + 1)) + 2) >>> 2)) ∧
  (∀ j, j % 2 = 1 → j + 2 < st.1 →
    ld st.2 (b + j) =
      ld d (b + j) + ((ld st.2 (b + (j - 1)) + ld st.2 (b + (j + 1)) + 1) >>> 1))

/-- Pointwise description of the effect of `ForwardRowT` on a row of `w` cells at offset
`b`: `s` is the buffer before the call, `d` the buffer after it. -/
def ForwardRowPostT (bits : Nat) (s d : List Int) (b w : Nat) : Prop :=
  d.length = s.length ∧
  (∀ p, (p < b ∨ b + w ≤ p) → ld d p = ld s p) ∧
  (∀ j, j % 2 = 1 → j + 1 < w →
    ld d (b + j) =
      toDataT bits
        (subInt (ld s (b + j))
          ((addInt (addInt (ld s (b + (j - 1))) (ld s (b + (j + 1)))) 1) >>> 1))) ∧
  ld d b = toDataT bits (addInt (ld s b) ((addInt (ld d (b + 1)) 1) >>> 1)) ∧
  (∀ j, j % 2 = 0 → 2 ≤ j → j + 1 < w →
    ld d (b + j) =
      toDataT bits
        (addInt (ld s (b + j))
          ((addInt (addInt (ld d (b + (j - 1))) (ld d (b + (j + 1)))) 2) >>> 2))) ∧
  (w % 2 = 1 → ld d (b + (w - 1)) =
    toDataT bits (addInt (ld s (b + (w - 1))) ((addInt (ld d (b + (w - 2))) 1) >>> 1))) ∧
  (w % 2 = 0 → ld d (b + (w - 1)) = toDataT bits (subInt (ld s (b + (w - 1))) (ld s (b + (w - 2)))))

/-- Invariant of the middle loop of `ForwardRowT`, at loop state `st = (i, mem)`. -/
def ForwardRowInvT (bits : Nat) (s : List Int) (b w : Nat) (st : Nat × List Int) : Prop :=
  st.1 % 2 = 1 ∧ 3 ≤ st.1 ∧ st.1 ≤ w ∧
  st.2.length = s.length ∧
  (∀ p, (p < b ∨ b + w ≤ p) → ld st.2 p = ld s p) ∧
  (∀ j, st.1 ≤ j + 1 → j < w → ld st.2 (b + j) = ld s (b + j)) ∧
  (∀ j, j % 2 = 1 → j + 1 < st.1 →
    ld st.2 (b + j) =
      toDataT bits
        (subInt (ld s (b + j))
          ((addInt (addInt (ld s (b + (j - 1))) (ld s (b + (j + 1)))) 1) >>> 1))) ∧
  ld st.2 b = toDataT bits (addInt (ld s b) ((addInt (ld st.2 (b + 1)) 1) >>> 1)) ∧
  (∀ j, j % 2 = 0 → 2 ≤ j → j + 2 < st.1 →
    ld st.2 (b + j) =
      toDataT bits
        (addInt (ld s (b + j))
          ((addInt (addInt (ld st.2 (b + (j - 1))) (ld st.2 (b + (j + 1)))) 2) >>> 2)))

/-- Pointwise description of the effect of `InverseRowT` on a row of `w` cells at offset
`b`: `d` is the buffer before the call, `t` the buffer after it. -/
def InverseRowPostT (bits : Nat) (d t : List Int) (b w : Nat) : Prop :=
  t.length = d.length ∧
  (∀ p, (p < b ∨ b + w ≤ p) → ld t p = ld d p) ∧
  ld t b = toDataT bits (subInt (ld d b) ((addInt (ld d (b + 1)) 1) >>> 1)) ∧
  (∀ j, j % 2 = 0 → 2 ≤ j → j + 1 < w →
    ld t (b + j) =
      toDataT bits
        (subInt (ld d (b + j))
          ((addInt (addInt (ld d (b + (j - 1))) (ld d (b + (j + 1)))) 2) >>> 2))) ∧
  (∀ j, j % 2 = 1 → j + 1 < w →
    ld t (b + j) =
      toDataT bits
        (addInt (ld d (b + j))
          ((addInt (addInt (ld t (b + (j - 1))) (ld t (b + (j + 1)))) 1) >>> 1))) ∧
  (w % 2 = 1 → ld t (b + (w - 1)) =
    toDataT bits (subInt (ld d (b + (w - 1))) ((addInt (ld d (b + (w - 2))) 1) >>> 1))) ∧
  (w % 2 = 0 → ld t (b + (w - 1)) = toDataT bits (addInt (ld d (b + (w - 1))) (ld t (b + (w - 2)))))

/-- Invariant of the middle loop of `InverseRowT`, at loop state `st = (i, mem)`. -/
def InverseRowInvT (bits : Nat) (d : List Int) (b w : Nat) (st : Nat × List Int) : Prop :=
  st.1 % 2 = 0 ∧ 2 ≤ st.1 ∧ st.1 ≤ w ∧
  st.2.length = d.length ∧
  (∀ p, (p < b ∨ b + w ≤ p) → ld st.2 p = ld d p) ∧
  (∀ j, st.1 ≤ j + 1 → j < w → ld st.2 (b + j) = ld d (b + j)) ∧
  ld st.2 b = toDataT bits (subInt (ld d b) ((addInt (ld d (b + 1)) 1) >>> 1)) ∧
  (∀ j, j % 2 = 0 → 2 ≤ j → j + 1 < st.1 →
    ld st.2 (b + j) =
      toDataT bits
        (subInt (ld d (b + j))
          ((addInt (addInt (ld d (b + (j - 1))) (ld d (b + (j + 1)))) 2) >>> 2))) ∧
  (∀ j, j % 2 = 1 → j + 2 < st.1 →
    ld st.2 (b + j) =
      toDataT bits
        (addInt (ld d (b + j))
          ((addInt (addInt (ld st.2 (b + (j - 1))) (ld st.2 (b + (j + 1)))) 1) >>> 1)))

/-- The predict step of the lifting on a signal `v` of length `n`: the value of the odd
cell `j` after `v[j] -= (v[j-1] + v[j+1] + 1) >> 1`, or after the border step
`v[j] -= v[j-1]` when `j` is the last cell. -/
def liftOdd (v : Nat → Int) (n j : Nat) : Int :=
  if j + 1 < n then v j - ((v (j - 1) + v (j + 1) + 1) >>> 1) else v j - v (j - 1)

/-- One lifting pass over a signal `v` of length `n`, in the words of the spec: odd cells
are predicted from their even neighbours; cell 0 is updated with `(d[1] + 1) >> 1`, an
inner even cell with `(d[i-1] + d[i+1] + 2) >> 2`, and a last even cell with
`(d[i-1] + 1) >> 1`. -/
def liftCell (v : Nat → Int) (n i : Nat) : Int :=
  if i % 2 = 1 then liftOdd v n i
  else if i = 0 then v 0 + ((liftOdd v n 1 + 1) >>> 1)
  else if i + 1 < n then v i + ((liftOdd v n (i - 1) + liftOdd v n (i + 1) + 2) >>> 2)
  else v i + ((liftOdd v n (i - 1) + 1) >>> 1)

/-- The first step of the inverse lifting on a signal `d` of length `n`: the value of the
even cell `j` after the update is taken back. -/
def unliftEven (d : Nat → Int) (n j : Nat) : Int :=
  if j = 0 then d 0 - ((d 1 + 1) >>> 1)
  else if j + 1 < n then d j - ((d (j - 1) + d (j + 1) + 2) >>> 2)
  else d j - ((d (j - 1) + 1) >>> 1)

/-- One inverse lifting pass over a signal `d` of length `n`, in the words of the spec:
even cells first, then an odd cell gets `(t[i-1] + t[i+1] + 1) >> 1` back, a last odd cell
`t[i-1]`. -/
def unliftCell (d : Nat → Int) (n i : Nat) : Int :=
  if i % 2 = 0 then unliftEven d n i
  else if i + 1 < n then d i + ((unliftEven d n (i - 1) + unliftEven d n (i + 1) + 1) >>> 1)
  else d i + unliftEven d n (i - 1)

/-- The row filter on a row `v` of width `w`: the lifting pass for `w ≥ 5`, nothing
below. -/
def rowLift (w : Nat) (v : Nat → Int) (k : Nat) : Int :=
  if w < FilterWidth then v k else liftCell v w k

/-- The inverse row filter on a row `d` of width `w`. -/
def rowUnlift (w : Nat) (d : Nat → Int) (k : Nat) : Int :=
  if w < FilterWidth then d k else unliftCell d w k

/-- The column filter on a column `v` of height `h`: the lifting pass for `h ≥ 3`,
nothing below. -/
def colLift (h : Nat) (v : Nat → Int) (r : Nat) : Int :=
  if h < FilterHeight then v r else liftCell v h r

/-- The inverse column filter on a column `d` of height `h`. -/
def colUnlift (h : Nat) (d : Nat → Int) (r : Nat) : Int :=
  if h < FilterHeight then d r else unliftCell d h r

/-- The predict step of the lifting on a signal `v` of length `n` of `DataT` values: the
value of the odd cell `j` after `v[j] -= (v[j-1] + v[j+1] + 1) >> 1`, or after the border
step `v[j] -= v[j-1]` when `j` is the last cell. -/
def liftOddT (bits : Nat) (v : Nat → Int) (n j : Nat) : Int :=
  if j + 1 < n then
    toDataT bits (subInt (v j) ((addInt (addInt (v (j - 1)) (v (j + 1))) 1) >>> 1))
  else toDataT bits (subInt (v j) (v (j - 1)))

/-- One lifting pass over a signal `v` of length `n` of `DataT` values, in the words of
the spec and with the arithmetic of `DataT`: odd cells are predicted from their even
neighbours; cell 0 is updated with `(d[1] + 1) >> 1`, an inner even cell with
`(d[i-1] + d[i+1] + 2) >> 2`, and a last even cell with `(d[i-1] + 1) >> 1`. -/
def liftCellT (bits : Nat) (v : Nat → Int) (n i : Nat) : Int :=
  if i % 2 = 1 then liftOddT bits v n i
  else if i = 0 then toDataT bits (addInt (v 0) ((addInt (liftOddT bits v n 1) 1) >>> 1))
  else if i + 1 < n then
    toDataT bits
      (addInt (v i)
        ((addInt (addInt (liftOddT bits v n (i - 1)) (liftOddT bits v n (i + 1))) 2) >>> 2))
  else toDataT bits (addInt (v i) ((addInt (liftOddT bits v n (i - 1)) 1) >>> 1))

/-- The row filter on a row `v` of width `w` of `DataT` values: the lifting pass for
`w ≥ 5`, nothing below. -/
def rowLiftT (bits : Nat) (w : Nat) (v : Nat → Int) (k : Nat) : Int :=
  if w < FilterWidth then v k else liftCellT bits v w k

/-- The column filter on a column `v` of height `h` of `DataT` values: the lifting pass
for `h ≥ 3`, nothing below. -/
def colLiftT (bits : Nat) (h : Nat) (v : Nat → Int) (r : Nat) : Int :=
  if h < FilterHeight then v r else liftCellT bits v h r

/-- The buffer `mem` holds the `h × w` matrix `M`, row by row. -/
def Rows (mem : List Int) (w h : Nat) (M : Nat → Nat → Int) : Prop :=
  mem.length = h * w ∧ ∀ r k, r < h → k < w → ld mem (r * w + k) = M r k

/-- The matrix `M` of `rows × cols` cells as a list, row after row. -/
def rowMajor (cols : Nat) (M : Nat → Nat → Int) : Nat → List Int
  | 0 => []
  | rows + 1 => rowMajor cols M rows ++ (List.range cols).map (M rows)

/-- One step of the low-pass size in `InitSubbands`: `(x + 1) >> 1` on `UINT32`. -/
def halveUp (x : Nat) : Nat := ((x + 1) % 2 ^ 32) >>> 1

/-- Value of `hiWidth` (or `hiHeight`) at level `k` of the loop of `InitSubbands`, for
initial values `lo` and `hi` of the low-pass and high-pass size. -/
def hiAfter (lo hi : Nat) : Nat → Nat
  | 0 => hi
  | k + 1 => (halveUp^[k] lo) >>> 1

/-- The subband of orientation `o` of a level, `m_subband[level][o]`. -/
def Bands.get (d : Bands) : Orientation → CSubband
  | .LL => d.ll
  | .HL => d.hl
  | .LH => d.lh
  | .HH => d.hh

/-- All four subbands of a level own a buffer. -/
def Bands.allocated (d : Bands) : Prop :=
  d.ll.buffer.isSome = true ∧ d.hl.buffer.isSome = true ∧ d.lh.buffer.isSome = true ∧
    d.hh.buffer.isSome = true

/-- A subband after `quantize(q)` in the words of the spec: every coefficient is shifted
right by `q` bits, arithmetically; nothing else changes. -/
def CSubband.quantized (b : CSubband) (q : Nat) : CSubband :=
  { b with buffer := b.buffer.map (List.map (fun (c : Int) => c >>> q)) }

/-- The set of destination subbands that `ForwardTransform(l, q)` quantizes, in the words
of the spec: none for `q ≤ 0`; for `q > 0` the subbands HL, LH and HH of level
`destLevel = l + 1`, and LL of that level if and only if `destLevel` is the final level
`m_nLevels - 1`. -/
def quantizedSet (quant : Int) (destLevel m_nLevels : Nat) : Orientation → Bool
  | .LL => decide (quant > 0) && decide (destLevel = m_nLevels - 1)
  | _ => decide (quant > 0)

/-- The subbands of a level after quantizing those of the set `S` by `q` bits and leaving
the others alone. -/
def quantizeBands (S : Orientation → Bool) (q : Nat) (d : Bands) : Bands :=
  { ll := if S .LL then d.ll.quantized q else d.ll,
    hl := if S .HL then d.hl.quantized q else d.hl,
    lh := if S .LH then d.lh.quantized q else d.lh,
    hh := if S .HH then d.hh.quantized q else d.hh }

/-- A subband after appending the coefficients `vals` at its cursor, in the words of the
spec: the cells from the cursor on take the values in order, and the cursor moves behind
them; nothing else changes. -/
def CSubband.appended (b : CSubband) (vals : List Int) : CSubband :=
  { b with
    buffer := b.buffer.map
      (fun buf => buf.take b.cursor ++ vals ++ buf.drop (b.cursor + vals.length)),
    cursor := b.cursor + vals.length }

/-- The cells `row[0], row[2], ...` of the row of width `w` at offset `row` of a buffer:
`ceil(w / 2)` cells. -/
def evenCells (mem : List Int) (row w : Nat) : List Int :=
  (List.range ((w + 1) / 2)).map (fun k => ld mem (row + 2 * k))

/-- The cells `row[1], row[3], ...` of the row of width `w` at offset `row` of a buffer:
`floor(w / 2)` cells. -/
def oddCells (mem : List Int) (row w : Nat) : List Int :=
  (List.range (w / 2)).map (fun k => ld mem (row + 2 * k + 1))

/-- The subband owns a buffer with at least `n` cells from its cursor on. -/
def CSubband.hasRoom (b : CSubband) (n : Nat) : Bool :=
  match b.buffer with
  | some buf => decide (b.cursor + n ≤ buf.length)
  | none => false

/-- A subband whose cursor has moved `n` cells forward. -/
def CSubband.advanced (b : CSubband) (n : Nat) : CSubband :=
  { b with cursor := b.cursor + n }

/-! ## The transform (`CWaveletTransform`, build without `__PGFROISUPPORT__`) -/

/-- The loop `for (UINT32 k = 0; k < width; k++) body` over a buffer. -/
def forK (width : Nat) (body : Nat → List Int → Exec (List Int)) (mem : List Int) :
    Exec (List Int) := do
  let s ← whileLoop (fun (s : Nat × List Int) => decide (s.1 < width))
    (fun (s : Nat × List Int) => do
      let mem ← body s.1 s.2
      pure (s.1 + 1, mem))
    width (0, mem)
  pure s.2

/-- `m_subband[level]`; an index outside the array is an out-of-bounds access. -/
def CWaveletTransform.bands (t : CWaveletTransform) (level : Nat) : Exec Bands :=
  match t.m_subband[level]? with
  | some b => .ok b
  | none => .error .outOfBounds

/-- Write back `m_subband[level]`. -/
def CWaveletTransform.setBands (t : CWaveletTransform) (level : Nat) (b : Bands) :
    CWaveletTransform :=
  { t with m_subband := t.m_subband.set level b }

/-- Loop state of `LinearToMallat` and `MallatToLinear`: the counter `i`, the two row
pointers, the four subbands and the buffer the row pointers point into. -/
structure MallatState where
  i : Nat
  loRow : Nat
  hiRow : Nat
  d : Bands
  mem : List Int
  deriving DecidableEq, Repr

/-- `CWaveletTransform::LinearToMallat(destLevel, loRow, hiRow, width)`: `d` is
`m_subband[destLevel]`, `mem` the buffer that `loRow` and `hiRow` point into, and
`hiRow = none` is the null pointer. -/
def LinearToMallat (d : Bands) (mem : List Int) (loRow : Nat) (hiRow : Option Nat)
    (width : Nat) : Exec Bands :=
  let wquot := width >>> 1
  let wrem := width % 2 = 1
  match hiRow with
  | some hiRow => do
    let s ← whileLoop (fun (s : MallatState) => decide (s.i < wquot))
      (fun (s : MallatState) => do
        let ll ← s.d.ll.WriteBuffer (← rd s.mem s.loRow)
        let hl ← s.d.hl.WriteBuffer (← rd s.mem (s.loRow + 1))
        let lh ← s.d.lh.WriteBuffer (← rd s.mem s.hiRow)
        let hh ← s.d.hh.WriteBuffer (← rd s.mem (s.hiRow + 1))
        pure { s with i := s.i + 1, loRow := s.loRow + 2, hiRow := s.hiRow + 2,
                      d := { ll := ll, hl := hl, lh := lh, hh := hh } })
      wquot { i := 0, loRow := loRow, hiRow := hiRow, d := d, mem := mem }
    if wrem then do
      let ll ← s.d.ll.WriteBuffer (← rd s.mem s.loRow)
      let lh ← s.d.lh.WriteBuffer (← rd s.mem s.hiRow)
      pure { s.d with ll := ll, lh := lh }
    else
      pure s.d
  | none => do
    let s ← whileLoop (fun (s : MallatState) => decide (s.i < wquot))
      (fun (s : MallatState) => do
        let ll ← s.d.ll.WriteBuffer (← rd s.mem s.loRow)
        let hl ← s.d.hl.WriteBuffer (← rd s.mem (s.loRow + 1))
        pure { s with i := s.i + 1, loRow := s.loRow + 2, d := { s.d with ll := ll, hl := hl } })
      wquot { i := 0, loRow := loRow, hiRow := 0, d := d, mem := mem }
    if wrem then do
      let ll ← s.d.ll.WriteBuffer (← rd s.mem s.loRow)
      pure { s.d with ll := ll }
    else
      pure s.d

/-- `CWaveletTransform::MallatToLinear(srcLevel, loRow, hiRow, width)`, build without
`__PGFROISUPPORT__`: `d` is `m_subband[srcLevel]`, `mem` the buffer that `loRow` and
`hiRow` point into, and `hiRow = none` is the null pointer. Returns the subbands (their
cursors have moved) and the buffer. -/
def MallatToLinear (d : Bands) (mem : List Int) (loRow : Nat) (hiRow : Option Nat)
    (width : Nat) : Exec (Bands × List Int) :=
  let wquot := width >>> 1
  let wrem := width % 2 = 1
  match hiRow with
  | some hiRow => do
    let s ← whileLoop (fun (s : MallatState) => decide (s.i < wquot))
      (fun (s : MallatState) => do
        let (v, ll) ← s.d.ll.ReadBuffer
        let mem ← wr s.mem s.loRow v
        let (v, hl) ← s.d.hl.ReadBuffer
        let mem ← wr mem (s.loRow + 1) v
        let (v, lh) ← s.d.lh.ReadBuffer
        let mem ← wr mem s.hiRow v
        let (v, hh) ← s.d.hh.ReadBuffer
        let mem ← wr mem (s.hiRow + 1) v
        pure { i := s.i + 1, loRow := s.loRow + 2, hiRow := s.hiRow + 2,
               d := { ll := ll, hl := hl, lh := lh, hh := hh }, mem := mem })
      wquot { i := 0, loRow := loRow, hiRow := hiRow, d := d, mem := mem }
    if wrem then do
      let (v, ll) ← s.d.ll.ReadBuffer
      let mem ← wr s.mem s.loRow v
      let (v, lh) ← s.d.lh.ReadBuffer
      let mem ← wr mem s.hiRow v
      pure ({ s.d with ll := ll, lh := lh }, mem)
    else
      pure (s.d, s.mem)
  | none => do
    let s ← whileLoop (fun (s : MallatState) => decide (s.i < wquot))
      (fun (s : MallatState) => do
        let (v, ll) ← s.d.ll.ReadBuffer
        let mem ← wr s.mem s.loRow v
        let (v, hl) ← s.d.hl.ReadBuffer
        let mem ← wr mem (s.loRow + 1) v
        pure { s with i := s.i + 1, loRow := s.loRow + 2,
                      d := { s.d with ll := ll, hl := hl }, mem := mem })
      wquot { i := 0, loRow := loRow, hiRow := 0, d := d, mem := mem }
    if wrem then do
      let (v, ll) ← s.d.ll.ReadBuffer
      let mem ← wr s.mem s.loRow v
      pure ({ s.d with ll := ll }, mem)
    else
      pure (s.d, s.mem)

/-- The value that the gather puts into cell `k` of an output row, in the words of the
spec: the coefficients are read interleaved, cell `2j` from the subband `a` and cell
`2j + 1` from the subband `b`, each `j` cells behind the cursor. -/
def gathered (a b : CSubband) (k : Nat) : Int :=
  if k % 2 = 0 then ld (a.buffer.getD []) (a.cursor + k / 2)
  else ld (b.buffer.getD []) (b.cursor + k / 2)

/-- What one call of `LinearToMallat` needs: the row `lo` (and `hi`, if present) of width
`w` lies in the buffer `mem`, and LL, HL (and LH, HH, if `hi` is present) have room for
`ceil(w / 2)` and `floor(w / 2)` more coefficients. -/
def scatterRoom (d : Bands) (mem : List Int) (lo : Nat) (hiRow : Option Nat) (w : Nat) : Bool :=
  decide (lo + w ≤ mem.length) && d.ll.hasRoom ((w + 1) / 2) && d.hl.hasRoom (w / 2) &&
    match hiRow with
    | some hi => decide (hi + w ≤ mem.length) && d.lh.hasRoom ((w + 1) / 2) &&
        d.hh.hasRoom (w / 2)
    | none => true

/-- The scatter in the words of the spec: `lo[2k]` goes to LL and `lo[2k+1]` to HL,
`hi[2k]` to LH and `hi[2k+1]` to HH, a trailing `lo[2k]` and `hi[2k]` of an odd width to
LL and LH only; when `hi` is absent only LL and HL receive coefficients. -/
def scattered (d : Bands) (mem : List Int) (lo : Nat) (hiRow : Option Nat) (w : Nat) : Bands :=
  match hiRow with
  | some hi =>
    { ll := d.ll.appended (evenCells mem lo w), hl := d.hl.appended (oddCells mem lo w),
      lh := d.lh.appended (evenCells mem hi w), hh := d.hh.appended (oddCells mem hi w) }
  | none =>
    { d with ll := d.ll.appended (evenCells mem lo w), hl := d.hl.appended (oddCells mem lo w) }

/-- The row of width `w` at offset `row` of a buffer, as a list. -/
def rowOf (mem : List Int) (row w : Nat) : List Int :=
  (List.range w).map (fun k => ld mem (row + k))

/-- The subbands `d1` with every cursor put back where the cursor of `d` is: the read
cursors reset to where the writes began. -/
def Bands.withCursorsOf (d1 d : Bands) : Bands :=
  { ll := { d1.ll with cursor := d.ll.cursor }, hl := { d1.hl with cursor := d.hl.cursor },
    lh := { d1.lh with cursor := d.lh.cursor }, hh := { d1.hh with cursor := d.hh.cursor } }

/-- The output rows of one call of `MallatToLinear` lie in the buffer `dest` and do not
overlap. -/
def rowsFit (dest : List Int) (lo : Nat) (hiRow : Option Nat) (w : Nat) : Bool :=
  decide (lo + w ≤ dest.length) &&
    match hiRow with
    | some hi => decide (hi + w ≤ dest.length) && (decide (lo + w ≤ hi) || decide (hi + w ≤ lo))
    | none => true

/-- What one call of `MallatToLinear` needs from the subbands: LL and HL (and LH and HH,
if `hi` is present) hold `ceil(w / 2)` and `floor(w / 2)` coefficients from their cursor
on. -/
def gatherRoom (d : Bands) (hiRow : Option Nat) (w : Nat) : Bool :=
  d.ll.hasRoom ((w + 1) / 2) && d.hl.hasRoom (w / 2) &&
    match hiRow with
    | some _ => d.lh.hasRoom ((w + 1) / 2) && d.hh.hasRoom (w / 2)
    | none => true

/-- The allocation loop of `ForwardTransform`: `AllocMemory` on LL, HL, LH, HH of the
destination level in turn, stopping at the first failure; `alloc o` says whether the
system grants the buffer of subband `o`. -/
def allocBands (d : Bands) (alloc : Orientation → Bool) : Bool × Bands :=
  let r := d.ll.AllocMemory (alloc .LL)
  let d := { d with ll := r.2 }
  if !r.1 then (false, d) else
  let r := d.hl.AllocMemory (alloc .HL)
  let d := { d with hl := r.2 }
  if !r.1 then (false, d) else
  let r := d.lh.AllocMemory (alloc .LH)
  let d := { d with lh := r.2 }
  if !r.1 then (false, d) else
  let r := d.hh.AllocMemory (alloc .HH)
  let d := { d with hh := r.2 }
  if !r.1 then (false, d) else (true, d)

/-- State of the row loops of `ForwardTransform` and `InverseTransform`: the loop
variable, the row pointers `row0 .. row3`, the buffer they point into (the source LL
buffer in the forward, the destination LL buffer in the inverse transform) and the four
subbands of the other level. -/
structure RowState where
  i : Nat
  row0 : Nat
  row1 : Nat
  row2 : Nat
  row3 : Nat
  mem : List Int
  d : Bands
  deriving DecidableEq, Repr

/-- The matrix `S` of width `w` with the row filter applied to every row. -/
def filteredM (S : Nat → Nat → Int) (w : Nat) : Nat → Nat → Int :=
  fun r k => rowLift w (S r) k

/-- The separable transform of the `h × w` matrix `S`: the row filter on every row, then
the column filter on every column. -/
def transformedM (S : Nat → Nat → Int) (w h : Nat) : Nat → Nat → Int :=
  fun r k => colLift h (fun r' => rowLift w (S r') k) r

/-- The subbands `d0` after the scatter of the even rows `0, 2, ..., 2n - 2` and the odd
rows `1, 3, ..., 2m - 1` of the matrix `D` of width `w`: element `(r, c)` goes to LL if
`r` and `c` are even, to HL if `r` is even and `c` odd, to LH if `r` is odd and `c` even,
to HH if both are odd, each subband filled row after row. -/
def scatteredRows (d0 : Bands) (D : Nat → Nat → Int) (w n m : Nat) : Bands :=
  { ll := d0.ll.appended (rowMajor ((w + 1) / 2) (fun a j => D (2 * a) (2 * j)) n),
    hl := d0.hl.appended (rowMajor (w / 2) (fun a j => D (2 * a) (2 * j + 1)) n),
    lh := d0.lh.appended (rowMajor ((w + 1) / 2) (fun a j => D (2 * a + 1) (2 * j)) m),
    hh := d0.hh.appended (rowMajor (w / 2) (fun a j => D (2 * a + 1) (2 * j + 1)) m) }

/-- The four destination subbands have room for the transform of a `h × w` source:
`ceil(h/2) * ceil(w/2)` cells in LL, `ceil(h/2) * floor(w/2)` in HL,
`floor(h/2) * ceil(w/2)` in LH and `floor(h/2) * floor(w/2)` in HH, from the cursor on. -/
def transformRoom (d0 : Bands) (w h : Nat) : Bool :=
  d0.ll.hasRoom ((h + 1) / 2 * ((w + 1) / 2)) && d0.hl.hasRoom ((h + 1) / 2 * (w / 2)) &&
    d0.lh.hasRoom (h / 2 * ((w + 1) / 2)) && d0.hh.hasRoom (h / 2 * (w / 2))

/-- Invariant of the middle loop of `ForwardTransform` (heights of 3 and more) for the
source matrix `S` and the destination subbands `d0` at the start, at `i = 2t + 3`: the
rows `0 .. 2t + 1` are transformed and scattered, row `2t + 2` is row-filtered, the rows
from `2t + 3` on are untouched. -/
def ForwardRowsInv (S : Nat → Nat → Int) (d0 : Bands) (w h : Nat) (s : RowState) : Prop :=
  ∃ t, s.i = 2 * t + 3 ∧ s.i ≤ h ∧
    s.row0 = (2 * t + 1) * w ∧ s.row1 = (2 * t + 2) * w ∧ s.row2 = (2 * t + 3) * w ∧
    s.row3 = (2 * t + 4) * w ∧
    Rows s.mem w h (fun r k =>
      if r < 2 * t + 2 then transformedM S w h r k
      else if r = 2 * t + 2 then filteredM S w r k else S r k) ∧
    s.d = scatteredRows d0 (transformedM S w h) w (t + 1) (t + 1)

/-- A subband as `InitSubbands` leaves it for the size `bw × bh`: the cursor at 0 and no
buffer yet, or a buffer of `bw * bh` cells. -/
def CSubband.freshFor (b : CSubband) (bw bh : Nat) : Bool :=
  decide (b.width = bw) && decide (b.height = bh) && decide (b.cursor = 0) &&
    match b.buffer with
    | none => true
    | some buf => decide (buf.length = bw * bh)

/-- The four subbands of a level as `InitSubbands` leaves them below a `h × w` LL: LL is
`ceil(w/2) × ceil(h/2)`, HL `floor(w/2) × ceil(h/2)`, LH `ceil(w/2) × floor(h/2)` and HH
`floor(w/2) × floor(h/2)`. -/
def Bands.freshFor (d : Bands) (w h : Nat) : Bool :=
  d.ll.freshFor ((w + 1) / 2) ((h + 1) / 2) && d.hl.freshFor (w / 2) ((h + 1) / 2) &&
    d.lh.freshFor ((w + 1) / 2) (h / 2) && d.hh.freshFor (w / 2) (h / 2)

/-- The matrix stored row by row in a buffer of width `w`. -/
def matrixOf (mem : List Int) (w : Nat) : Nat → Nat → Int :=
  fun r k => ld mem (r * w + k)

/-- The matrix `D` of height `h` with the column filter undone on every column. -/
def colUnliftedM (D : Nat → Nat → Int) (h : Nat) : Nat → Nat → Int :=
  fun r k => colUnlift h (fun r' => D r' k) r

/-- The inverse separable transform of the `h × w` matrix `D`: the column filter undone on
every column, then the row filter undone on every row. -/
def restoredM (D : Nat → Nat → Int) (w h : Nat) : Nat → Nat → Int :=
  fun r k => rowUnlift w (colUnliftedM D h r) k

/-- The four subbands hold the `h × w` matrix `D` in Mallat order, each from position 0
on, cursors at 0: element `(r, c)` is in LL if `r` and `c` are even, in HL if `r` is even
and `c` odd, in LH if `r` is odd and `c` even, in HH if both are odd. -/
def Bands.holds (d : Bands) (D : Nat → Nat → Int) (w h : Nat) : Prop :=
  (d.ll.buffer = some (rowMajor ((w + 1) / 2) (fun a j => D (2 * a) (2 * j)) ((h + 1) / 2)) ∧
    d.ll.cursor = 0) ∧
  (d.hl.buffer = some (rowMajor (w / 2) (fun a j => D (2 * a) (2 * j + 1)) ((h + 1) / 2)) ∧
    d.hl.cursor = 0) ∧
  (d.lh.buffer = some (rowMajor ((w + 1) / 2) (fun a j => D (2 * a + 1) (2 * j)) (h / 2)) ∧
    d.lh.cursor = 0) ∧
  (d.hh.buffer = some (rowMajor (w / 2) (fun a j => D (2 * a + 1) (2 * j + 1)) (h / 2)) ∧
    d.hh.cursor = 0)

/-- The subbands `d0` after the gather of `n` even and `m` odd rows of width `w`: the
cursors of LL and HL are `n`, those of LH and HH `m` subband rows further. -/
def gatheredRows (d0 : Bands) (w n m : Nat) : Bands :=
  { ll := d0.ll.advanced (n * ((w + 1) / 2)), hl := d0.hl.advanced (n * (w / 2)),
    lh := d0.lh.advanced (m * ((w + 1) / 2)), hh := d0.hh.advanced (m * (w / 2)) }

/-- Invariant of the middle loop of `InverseTransform` (heights of 3 and more) for the
subbands `d0` holding the matrix `D` and the destination content `Z` at the start, at
`i = 2t + 2`: the rows below `2t` are restored, row `2t` has its column filter undone, row
`2t + 1` is as gathered, the rows from `2t + 2` on are untouched. -/
def InverseRowsInv (D Z : Nat → Nat → Int) (d0 : Bands) (w h : Nat) (s : RowState) : Prop :=
  ∃ t, s.i = 2 * t + 2 ∧ s.i ≤ h ∧
    s.row0 = (2 * t) * w ∧ s.row1 = (2 * t + 1) * w ∧ s.row2 = (2 * t + 2) * w ∧
    s.row3 = (2 * t + 3) * w ∧
    Rows s.mem w h (fun r k =>
      if r < 2 * t then restoredM D w h r k
      else if r = 2 * t then colUnliftedM D h r k
      else if r = 2 * t + 1 then D r k else Z r k) ∧
    s.d = gatheredRows d0 w (t + 1) (t + 1)

/-- The part of `ForwardTransform` between the allocation and the quantization: the
transform of the `width × height` buffer `src` into the subbands `d` of the destination
level. The pointer updates after the last `LinearToMallat` of a branch are dead code and
left out. -/
def ForwardTransform.rows (src : List Int) (d : Bands) (width height : Nat) : Exec Bands :=
  if height ≥ FilterHeight then do
    -- top border handling
    let row0 := 0
    let row1 := row0 + width
    let row2 := row1 + width
    let src ← ForwardRow src row0 width
    let src ← ForwardRow src row1 width
    let src ← ForwardRow src row2 width
    let src ← forK width (fun k mem => do
      let mem ← subAt mem (row1 + k) (((← rd mem (row0 + k)) + (← rd mem (row2 + k)) + c1) >>> 1)
      addAt mem (row0 + k) (((← rd mem (row1 + k)) + c1) >>> 1)) src
    let d ← LinearToMallat d src row0 (some row1) width
    let row0 := row1
    let row1 := row2
    let row2 := row2 + width
    let row3 := row2 + width
    -- middle part
    let s ← whileLoop (fun (s : RowState) => decide (s.i < height - 1))
      (fun (s : RowState) => do
        let src ← ForwardRow s.mem s.row2 width
        let src ← ForwardRow src s.row3 width
        let src ← forK width (fun k mem => do
          let mem ← subAt mem (s.row2 + k)
            (((← rd mem (s.row1 + k)) + (← rd mem (s.row3 + k)) + c1) >>> 1)
          addAt mem (s.row1 + k) (((← rd mem (s.row0 + k)) + (← rd mem (s.row2 + k)) + c2) >>> 2))
          src
        let d ← LinearToMallat s.d src s.row1 (some s.row2) width
        pure { i := s.i + 2, row0 := s.row2, row1 := s.row3, row2 := s.row3 + width,
               row3 := s.row3 + width + width, mem := src, d := d })
      height { i := 3, row0 := row0, row1 := row1, row2 := row2, row3 := row3, mem := src, d := d }
    -- bottom border handling
    if height % 2 = 1 then do
      let src ← forK width (fun k mem =>
        do addAt mem (s.row1 + k) (((← rd mem (s.row0 + k)) + c1) >>> 1)) s.mem
      LinearToMallat s.d src s.row1 none width
    else do
      let src ← ForwardRow s.mem s.row2 width
      let src ← forK width (fun k mem => do
        let mem ← subAt mem (s.row2 + k) (← rd mem (s.row1 + k))
        addAt mem (s.row1 + k) (((← rd mem (s.row0 + k)) + (← rd mem (s.row2 + k)) + c2) >>> 2))
        src
      LinearToMallat s.d src s.row1 (some s.row2) width
  else do
    -- if height is too small
    let row0 := 0
    let row1 := row0 + width
    -- first part
    let s ← whileLoop (fun (s : RowState) => decide (s.i < height))
      (fun (s : RowState) => do
        let src ← ForwardRow s.mem s.row0 width
        let src ← ForwardRow src s.row1 width
        let d ← LinearToMallat s.d src s.row0 (some s.row1) width
        pure { s with i := s.i + 2, row0 := s.row0 + (width <<< 1) % 2 ^ 32,
                      row1 := s.row1 + (width <<< 1) % 2 ^ 32, mem := src, d := d })
      height { i := 0, row0 := row0, row1 := row1, row2 := 0, row3 := 0, mem := src, d := d }
    -- bottom
    if height % 2 = 1 then
      LinearToMallat s.d s.mem s.row0 none width
    else
      pure s.d

/-- `CWaveletTransform::ForwardTransform(level, quant)`. `alloc o` says whether the
system grants the buffer of the destination subband `o`. The result is the returned
`OSError` and the pyramid after the call. -/
def ForwardTransform (t : CWaveletTransform) (level : Nat) (quant : Int)
    (alloc : Orientation → Bool) : Exec (OSError × CWaveletTransform) := do
  let destLevel := level + 1
  let dest ← t.bands destLevel
  let srcBands ← t.bands level
  let srcBand := srcBands.ll
  let width := srcBand.width
  let height := srcBand.height
  -- Allocate memory for next transform level
  let a := allocBands dest alloc
  if !a.1 then
    pure (.InsufficientMemory, t.setBands destLevel a.2)
  else
    match srcBand.buffer with
    | none => .error .nullPointer
    | some src => do
      let d ← ForwardTransform.rows src a.2 width height
      let d ←
        if quant > 0 then do
          -- subband quantization (without LL)
          let hl ← d.hl.Quantize quant.toNat
          let lh ← d.lh.Quantize quant.toNat
          let hh ← d.hh.Quantize quant.toNat
          -- LL subband quantization
          if destLevel = t.m_nLevels - 1 then do
            let ll ← d.ll.Quantize quant.toNat
            pure { ll := ll, hl := hl, lh := lh, hh := hh }
          else
            pure { d with hl := hl, lh := lh, hh := hh }
        else
          pure d
      -- free source band
      let t := t.setBands destLevel d
      let t := t.setBands level { srcBands with ll := srcBand.FreeMemory }
      pure (.NoError, t)

/-! ## The forward transform on `DataT`

`ForwardTransform` with the arithmetic of a `DataT` of `bits` bits (see the row filters on
`DataT`): the row filter is `ForwardRowT`, and the column steps store through `subAtT` and
`addAtT`. Everything else is as in `ForwardTransform`. -/

/-- The matrix `S` of width `w` of `DataT` values with the row filter applied to every
row. -/
def filteredMT (bits : Nat) (S : Nat → Nat → Int) (w : Nat) : Nat → Nat → Int :=
  fun r k => rowLiftT bits w (S r) k

/-- The separable transform of the `h × w` matrix `S` of `DataT` values: the row filter on
every row, then the column filter on every column. -/
def transformedMT (bits : Nat) (S : Nat → Nat → Int) (w h : Nat) : Nat → Nat → Int :=
  fun r k => colLiftT bits h (fun r' => rowLiftT bits w (S r') k) r

/-- Invariant of the middle loop of `ForwardTransformT` (heights of 3 and more) for the
source matrix `S` and the destination subbands `d0` at the start, at `i = 2t + 3`: the
rows `0 .. 2t + 1` are transformed and scattered, row `2t + 2` is row-filtered, the rows
from `2t + 3` on are untouched. -/
def ForwardRowsInvT (bits : Nat) (S : Nat → Nat → Int) (d0 : Bands) (w h : Nat)
    (s : RowState) : Prop :=
  ∃ t, s.i = 2 * t + 3 ∧ s.i ≤ h ∧
    s.row0 = (2 * t + 1) * w ∧ s.row1 = (2 * t + 2) * w ∧ s.row2 = (2 * t + 3) * w ∧
    s.row3 = (2 * t + 4) * w ∧
    Rows s.mem w h (fun r k =>
      if r < 2 * t + 2 then transformedMT bits S w h r k
      else if r = 2 * t + 2 then filteredMT bits S w r k else S r k) ∧
    s.d = scatteredRows d0 (transformedMT bits S w h) w (t + 1) (t + 1)

/-- Reference transform on `DataT`, step 1: cell `k` of `ForwardRowT` applied to row `r`
of the `w`-wide source buffer, the row taken on its own. -/
def refRowT (bits : Nat) (src : List Int) (w r k : Nat) : Int :=
  match ForwardRowT bits (rowOf src (r * w) w) 0 w with
  | .ok d => ld d k
  | .error _ => 0

/-- Reference transform on `DataT`, step 2: cell `r` of column `k` after the vertical
predict, update and border steps on the row-filtered source of height `h`. -/
def refCellT (bits : Nat) (src : List Int) (w h r k : Nat) : Int :=
  liftCellT bits (fun r' => refRowT bits src w r' k) h r

/-- Reference transform on `DataT`, step 3: the contents of LL, HL, LH and HH: element
`(r, c)` of the result goes to LL if `r` and `c` are even, to HL if `r` is even and `c`
odd, to LH if `r` is odd and `c` even, to HH if both are odd, each subband in row-major
order. -/
def referenceTransformT (bits : Nat) (src : List Int) (w h : Nat) :
    List (Option (List Int)) :=
  [some (rowMajor ((w + 1) / 2) (fun a j => refCellT bits src w h (2 * a) (2 * j))
    ((h + 1) / 2)),
   some (rowMajor (w / 2) (fun a j => refCellT bits src w h (2 * a) (2 * j + 1))
    ((h + 1) / 2)),
   some (rowMajor ((w + 1) / 2) (fun a j => refCellT bits src w h (2 * a + 1) (2 * j))
    (h / 2)),
   some (rowMajor (w / 2) (fun a j => refCellT bits src w h (2 * a + 1) (2 * j + 1))
    (h / 2))]

/-- The part of `ForwardTransform` between the allocation and the quantization, on a
`DataT` of `bits` bits: the transform of the `width × height` buffer `src` into the
subbands `d` of the destination level. The pointer updates after the last
`LinearToMallat` of a branch are dead code and left out. -/
def ForwardTransformT.rows (bits : Nat) (src : List Int) (d : Bands) (width height : Nat) :
    Exec Bands :=
  if height ≥ FilterHeight then do
    -- top border handling
    let row0 := 0
    let row1 := row0 + width
    let row2 := row1 + width
    let src ← ForwardRowT bits src row0 width
    let src ← ForwardRowT bits src row1 width
    let src ← ForwardRowT bits src row2 width
    let src ← forK width (fun k mem => do
      let mem ← subAtT bits mem (row1 + k)
        ((addInt (addInt (← rd mem (row0 + k)) (← rd mem (row2 + k))) c1) >>> 1)
      addAtT bits mem (row0 + k) ((addInt (← rd mem (row1 + k)) c1) >>> 1)) src
    let d ← LinearToMallat d src row0 (some row1) width
    let row0 := row1
    let row1 := row2
    let row2 := row2 + width
    let row3 := row2 + width
    -- middle part
    let s ← whileLoop (fun (s : RowState) => decide (s.i < height - 1))
      (fun (s : RowState) => do
        let src ← ForwardRowT bits s.mem s.row2 width
        let src ← ForwardRowT bits src s.row3 width
        let src ← forK width (fun k mem => do
          let mem ← subAtT bits mem (s.row2 + k)
            ((addInt (addInt (← rd mem (s.row1 + k)) (← rd mem (s.row3 + k))) c1) >>> 1)
          addAtT bits mem (s.row1 + k)
            ((addInt (addInt (← rd mem (s.row0 + k)) (← rd mem (s.row2 + k))) c2) >>> 2))
          src
        let d ← LinearToMallat s.d src s.row1 (some s.row2) width
        pure { i := s.i + 2, row0 := s.row2, row1 := s.row3, row2 := s.row3 + width,
               row3 := s.row3 + width + width, mem := src, d := d })
      height { i := 3, row0 := row0, row1 := row1, row2 := row2, row3 := row3, mem := src, d := d }
    -- bottom border handling
    if height % 2 = 1 then do
      let src ← forK width (fun k mem =>
        do addAtT bits mem (s.row1 + k) ((addInt (← rd mem (s.row0 + k)) c1) >>> 1)) s.mem
      LinearToMallat s.d src s.row1 none width
    else do
      let src ← ForwardRowT bits s.mem s.row2 width
      let src ← forK width (fun k mem => do
        let mem ← subAtT bits mem (s.row2 + k) (← rd mem (s.row1 + k))
        addAtT bits mem (s.row1 + k)
          ((addInt (addInt (← rd mem (s.row0 + k)) (← rd mem (s.row2 + k))) c2) >>> 2))
        src
      LinearToMallat s.d src s.row1 (some s.row2) width
  else do
    -- if height is too small
    let row0 := 0
    let row1 := row0 + width
    -- first part
    let s ← whileLoop (fun (s : RowState) => decide (s.i < height))
      (fun (s : RowState) => do
        let src ← ForwardRowT bits s.mem s.row0 width
        let src ← ForwardRowT bits src s.row1 width
        let d ← LinearToMallat s.d src s.row0 (some s.row1) width
        pure { s with i := s.i + 2, row0 := s.row0 + (width <<< 1) % 2 ^ 32,
                      row1 := s.row1 + (width <<< 1) % 2 ^ 32, mem := src, d := d })
      height { i := 0, row0 := row0, row1 := row1, row2 := 0, row3 := 0, mem := src, d := d }
    -- bottom
    if height % 2 = 1 then
      LinearToMallat s.d s.mem s.row0 none width
    else
      pure s.d

/-- `CWaveletTransform::ForwardTransform(level, quant)` on a `DataT` of `bits` bits.
`alloc o` says whether the system grants the buffer of the destination subband `o`. The
result is the returned `OSError` and the pyramid after the call. -/
def ForwardTransformT (bits : Nat) (t : CWaveletTransform) (level : Nat) (quant : Int)
    (alloc : Orientation → Bool) : Exec (OSError × CWaveletTransform) := do
  let destLevel := level + 1
  let dest ← t.bands destLevel
  let srcBands ← t.bands level
  let srcBand := srcBands.ll
  let width := srcBand.width
  let height := srcBand.height
  -- Allocate memory for next transform level
  let a := allocBands dest alloc
  if !a.1 then
    pure (.InsufficientMemory, t.setBands destLevel a.2)
  else
    match srcBand.buffer with
    | none => .error .nullPointer
    | some src => do
      let d ← ForwardTransformT.rows bits src a.2 width height
      let d ←
        if quant > 0 then do
          -- subband quantization (without LL)
          let hl ← d.hl.Quantize quant.toNat
          let lh ← d.lh.Quantize quant.toNat
          let hh ← d.hh.Quantize quant.toNat
          -- LL subband quantization
          if destLevel = t.m_nLevels - 1 then do
            let ll ← d.ll.Quantize quant.toNat
            pure { ll := ll, hl := hl, lh := lh, hh := hh }
          else
            pure { d with hl := hl, lh := lh, hh := hh }
        else
          pure d
      -- free source band
      let t := t.setBands destLevel d
      let t := t.setBands level { srcBands with ll := srcBand.FreeMemory }
      pure (.NoError, t)

/-- The part of `InverseTransform` between the cursor reset and the release of the source
subbands: the transform of the subbands `d` of the source level into the
`width × height` buffer `dest` (non-ROI build: `origin = dest`, `destWidth = width`,
`destHeight = height`, `destROI = (0, 0, width, height)`). The pointer updates after the
last `InverseRow` of a branch are dead code and left out. -/
def InverseTransform.rows (dest : List Int) (d : Bands) (width height : Nat) :
    Exec (List Int × Bands) :=
  let destWidth := width
  let destHeight := height
  let origin := 0
  if destHeight ≥ FilterHeight then do
    -- top border handling
    let row0 := origin
    let row1 := row0 + destWidth
    let (d, dest) ← MallatToLinear d dest row0 (some row1) width
    let dest ← forK width (fun k mem =>
      do subAt mem (row0 + k) (((← rd mem (row1 + k)) + c1) >>> 1)) dest
    -- middle part
    let row2 := row1 + destWidth
    let row3 := row2 + destWidth
    let s ← whileLoop (fun (s : RowState) => decide (s.i < height - 1))
      (fun (s : RowState) => do
        let (d, dest) ← MallatToLinear s.d s.mem s.row2 (some s.row3) width
        let dest ← forK width (fun k mem => do
          let mem ← subAt mem (s.row2 + k)
            (((← rd mem (s.row1 + k)) + (← rd mem (s.row3 + k)) + c2) >>> 2)
          addAt mem (s.row1 + k) (((← rd mem (s.row0 + k)) + (← rd mem (s.row2 + k)) + c1) >>> 1))
          dest
        let dest ← InverseRow dest s.row0 width
        let dest ← InverseRow dest s.row1 width
        pure { i := s.i + 2, row0 := s.row2, row1 := s.row3, row2 := s.row3 + destWidth,
               row3 := s.row3 + destWidth + destWidth, mem := dest, d := d })
      height { i := 0 + 2, row0 := row0, row1 := row1, row2 := row2, row3 := row3,
               mem := dest, d := d }
    -- bottom border handling
    if height % 2 = 1 then do
      let (d, dest) ← MallatToLinear s.d s.mem s.row2 none width
      let dest ← forK width (fun k mem => do
        let mem ← subAt mem (s.row2 + k) (((← rd mem (s.row1 + k)) + c1) >>> 1)
        addAt mem (s.row1 + k) (((← rd mem (s.row0 + k)) + (← rd mem (s.row2 + k)) + c1) >>> 1))
        dest
      let dest ← InverseRow dest s.row0 width
      let dest ← InverseRow dest s.row1 width
      let dest ← InverseRow dest s.row2 width
      pure (dest, d)
    else do
      let dest ← forK width (fun k mem =>
        do addAt mem (s.row1 + k) (← rd mem (s.row0 + k))) s.mem
      let dest ← InverseRow dest s.row0 width
      let dest ← InverseRow dest s.row1 width
      pure (dest, s.d)
  else do
    -- height is too small
    let row0 := origin
    let row1 := row0 + destWidth
    -- first part
    let s ← whileLoop (fun (s : RowState) => decide (s.i < height))
      (fun (s : RowState) => do
        let (d, dest) ← MallatToLinear s.d s.mem s.row0 (some s.row1) width
        let dest ← InverseRow dest s.row0 width
        let dest ← InverseRow dest s.row1 width
        pure { s with i := s.i + 2, row0 := s.row0 + (destWidth <<< 1) % 2 ^ 32,
                      row1 := s.row1 + (destWidth <<< 1) % 2 ^ 32, mem := dest, d := d })
      height { i := 0, row0 := row0, row1 := row1, row2 := 0, row3 := 0, mem := dest, d := d }
    -- bottom
    if height % 2 = 1 then do
      let (d, dest) ← MallatToLinear s.d s.mem s.row0 none width
      let dest ← InverseRow dest s.row0 width
      pure (dest, d)
    else
      pure (s.mem, s.d)

/-- `CWaveletTransform::InverseTransform(srcLevel, w, h, data)`, build without
`__PGFROISUPPORT__`. `alloc` says whether the system grants the destination buffer. The
result is the returned `OSError`, the values stored through the out-parameters
`(*w, *h, *data)` if any, and the pyramid after the call. `srcLevel = 0` makes
`destLevel = -1` an index outside `m_subband`. -/
def InverseTransform (t : CWaveletTransform) (srcLevel : Nat) (alloc : Bool) :
    Exec (OSError × Option (Nat × Nat × List Int) × CWaveletTransform) :=
  if srcLevel = 0 then .error .outOfBounds else do
  let destLevel := srcLevel - 1
  let destBands ← t.bands destLevel
  -- allocate memory for the results of the inverse transform
  let a := destBands.ll.AllocMemory alloc
  if !a.1 then
    pure (.InsufficientMemory, none, t)
  else
    let destBand := a.2
    match destBand.buffer with
    | none => .error .nullPointer
    | some dest => do
      let width := destBand.width
      let height := destBand.height
      -- init source buffer position
      let src ← t.bands srcLevel
      let src : Bands := { ll := src.ll.InitBuffPos, hl := src.hl.InitBuffPos,
                           lh := src.lh.InitBuffPos, hh := src.hh.InitBuffPos }
      let (dest, src) ← InverseTransform.rows dest src width height
      -- free memory of the current srcLevel
      let src : Bands := { ll := src.ll.FreeMemory, hl := src.hl.FreeMemory,
                           lh := src.lh.FreeMemory, hh := src.hh.FreeMemory }
      let t := t.setBands destLevel { destBands with ll := { destBand with buffer := some dest } }
      let t := t.setBands srcLevel src
      -- return info
      pure (.NoError, some (width, height, dest), t)

/-! ## ROI tile indices (`CRoiIndices`) -/

/-- `CRoiIndices` of `WaveletTransform.h`; `m_indices = none` is the null pointer. -/
structure CRoiIndices where
  m_nLevels : Nat
  m_indices : Option (List PGFRect)
  deriving DecidableEq, Repr

namespace CRoiIndices

/-- Constructor `CRoiIndices()`. -/
def new : CRoiIndices := { m_nLevels := 0, m_indices := none }

/-- `CRoiIndices::SetLevels(levels)`. -/
def SetLevels (r : CRoiIndices) (levels : Nat) : CRoiIndices :=
  { r with m_nLevels := levels }

/-- `CRoiIndices::CreateIndices()`: `new PGFRect[m_nLevels]` default-constructs every
rectangle to `(0, 0, 0, 0)`. -/
def CreateIndices (r : CRoiIndices) : CRoiIndices :=
  match r.m_indices with
  | none => { r with m_indices := some (List.replicate r.m_nLevels ⟨0, 0, 0, 0⟩) }
  | some _ => r

/-- `CRoiIndices::GetNofTiles(level)`: `1 << (m_nLevels - level - 1)`, as `UINT32`. -/
def GetNofTiles (r : CRoiIndices) (level : Nat) : Nat :=
  (1 <<< (r.m_nLevels - level - 1)) % 2 ^ 32

/-- `CRoiIndices::GetIndices(level)`. -/
def GetIndices (r : CRoiIndices) (level : Nat) : Exec PGFRect :=
  match r.m_indices with
  | none => .error .nullPointer
  | some ind =>
    match ind[level]? with
    | some rect => .ok rect
    | none => .error .outOfBounds

/-- The "store values" part of the loop body of `ComputeTileIndex`. -/
def storeIndex (rect : PGFRect) (horizontal isMin : Bool) (tileIndex : Nat) : PGFRect :=
  if horizontal then
    if isMin then { rect with left := tileIndex }
    else { rect with right := (tileIndex + 1) % 2 ^ 32 }
  else
    if isMin then { rect with top := tileIndex }
    else { rect with bottom := (tileIndex + 1) % 2 ^ 32 }

/-- The loop `for (int i = m_nLevels - 1; i >= 0; i--)` of `ComputeTileIndex`; the first
argument is `i + 1`, the others are `m_indices`, `tileIndex`, `tileMin` and `tileMax`. -/
def ComputeTileIndex.loop (pos : Nat) (horizontal isMin : Bool) :
    Nat → List PGFRect → Nat → Nat → Nat → Exec (List PGFRect)
  | 0, ind, _, _, _ => pure ind
  | i + 1, ind, tileIndex, tileMin, tileMax =>
    -- store values
    match ind[i]? with
    | none => .error .outOfBounds
    | some rect =>
      let ind := ind.set i (storeIndex rect horizontal isMin tileIndex)
      -- compute values
      let tileIndex := (tileIndex <<< 1) % 2 ^ 32
      let m := ((tileMin + tileMax) % 2 ^ 32) / 2
      if pos ≥ m then
        ComputeTileIndex.loop pos horizontal isMin i ind ((tileIndex + 1) % 2 ^ 32) m tileMax
      else
        ComputeTileIndex.loop pos horizontal isMin i ind tileIndex tileMin m

/-- `CRoiIndices::ComputeTileIndex(width, height, pos, horizontal, isMin)`. -/
def ComputeTileIndex (r : CRoiIndices) (width height pos : Nat) (horizontal isMin : Bool) :
    Exec CRoiIndices :=
  match r.m_indices with
  | none => if r.m_nLevels = 0 then pure r else .error .nullPointer
  | some ind => do
    let ind ← ComputeTileIndex.loop pos horizontal isMin r.m_nLevels ind 0 0
      (if horizontal then width else height)
    pure { r with m_indices := some ind }

/-- `CRoiIndices::ComputeIndices(width, height, rect)`. -/
def ComputeIndices (r : CRoiIndices) (width height : Nat) (rect : PGFRect) : Exec CRoiIndices := do
  let r ← r.ComputeTileIndex width height rect.left true true
  let r ← r.ComputeTileIndex width height rect.top false true
  let r ← r.ComputeTileIndex width height rect.right true false
  r.ComputeTileIndex width height rect.bottom false false

end CRoiIndices

/-- State `(tileIndex, tileMin, tileMax)` of the binary descent of `ComputeTileIndex`
after `k` further rounds of its "compute values" part, for position `pos`. -/
def descend (pos : Nat) : Nat → Nat × Nat × Nat → Nat × Nat × Nat
  | 0, s => s
  | k + 1, (tileIndex, tileMin, tileMax) =>
    let tileIndex := (tileIndex <<< 1) % 2 ^ 32
    let m := ((tileMin + tileMax) % 2 ^ 32) / 2
    if pos ≥ m then descend pos k ((tileIndex + 1) % 2 ^ 32, m, tileMax)
    else descend pos k (tileIndex, tileMin, m)

/-- Tile index that the descent of `ComputeTileIndex` over an axis of length `len`
reaches for position `pos` after `k` rounds. -/
def tileIndexAfter (len pos k : Nat) : Nat := (descend pos k (0, 0, len)).1

/-- Tile column that the descent of `ComputeTileIndex` assigns to the pixel column (or
position) `x` at level `l`: the `left` index stored by a min-descent for `x`. -/
def tileColumnOf (r : CRoiIndices) (width height x l : Nat) : Exec Nat := do
  let rx ← r.ComputeTileIndex width height x true true
  let a ← rx.GetIndices l
  pure a.left

/-- Tile row that the descent of `ComputeTileIndex` assigns to the pixel row (or
position) `y` at level `l`: the `top` index stored by a min-descent for `y`. -/
def tileRowOf (r : CRoiIndices) (width height y l : Nat) : Exec Nat := do
  let ry ← r.ComputeTileIndex width height y false true
  let a ← ry.GetIndices l
  pure a.top

/-! ## Level-length table (`CPGFImage`, `PGFimage.h`) -/

/-- The index expression `m_header.nLevels - level - 1` of `GetEncodedLevelLength`,
computed in `int`. -/
def levelLengthIndex (nLevels : Nat) (level : Int) : Int := (nLevels : Int) - level - 1

/-- `CPGFImage::GetEncodedLevelLength(level)`: `m_levelLength[m_header.nLevels - level - 1]`;
`nLevels` is the header field, `m_levelLength` the table. A negative index or an index
past the table is an access outside the table. -/
def GetEncodedLevelLength (nLevels : Nat) (m_levelLength : List Nat) (level : Int) : Exec Nat :=
  if levelLengthIndex nLevels level < 0 then .error .outOfBounds
  else
    match m_levelLength[(levelLengthIndex nLevels level).toNat]? with
    | some v => .ok v
    | none => .error .outOfBounds

/-! ## The transform, build with `__PGFROISUPPORT__`

`ForwardTransform`, `ForwardRow`, `InverseRow` and `LinearToMallat` are the same in both
builds. The member `m_ROIindices` of `CWaveletTransform` is passed explicitly. -/

/-- The body of the inner loop of `SetROI` for one subband: `SetNTiles`, the two calls of
`TilePosition` and `SetROI`. -/
def setSubbandROI (sub : CSubband) (indices : PGFRect) (nTiles : Nat) : CSubband :=
  let sub := sub.SetNTiles nTiles
  let p := sub.TilePosition indices.left indices.top
  let q := sub.TilePosition (indices.right - 1) (indices.bottom - 1)
  sub.SetROI { left := p.1, top := p.2.1, right := q.1 + q.2.2.1, bottom := q.2.1 + q.2.2.2 }

/-- The loop `for (int i = 0; i < m_nLevels; i++)` of `SetROI` over the levels that
remain, `i` being the level of the head of the list. -/
def setROILevels (r : CRoiIndices) : Nat → List Bands → Exec (List Bands)
  | _, [] => pure []
  | i, b :: rest => do
    let indices ← r.GetIndices i
    let n := r.GetNofTiles i
    let b : Bands := { ll := setSubbandROI b.ll indices n, hl := setSubbandROI b.hl indices n,
                       lh := setSubbandROI b.lh indices n, hh := setSubbandROI b.hh indices n }
    let rest ← setROILevels r (i + 1) rest
    pure (b :: rest)

/-- `CWaveletTransform::SetROI(rect)`; `r` is the member `m_ROIindices`. -/
def CWaveletTransform.SetROI (t : CWaveletTransform) (r : CRoiIndices) (rect : PGFRect) :
    Exec (CRoiIndices × CWaveletTransform) := do
  -- create tile indices
  let r := r.CreateIndices
  -- compute tile indices
  let b0 ← t.bands 0
  let r ← r.ComputeIndices b0.ll.width b0.ll.height rect
  -- compute ROIs
  let m ← setROILevels r 0 t.m_subband
  pure (r, { t with m_subband := m })

/-- `CWaveletTransform::MallatToLinear(srcLevel, loRow, hiRow, width)`, build with
`__PGFROISUPPORT__`: the statements outside the `#ifdef` blocks are those of
`MallatToLinear`; before them the cursors are saved when `wquot < ll.BufferWidth()`, and
after them they are moved to the next buffer row by `IncBuffRow`. -/
def MallatToLinearROI (d : Bands) (mem : List Int) (loRow : Nat) (hiRow : Option Nat)
    (width : Nat) : Exec (Bands × List Int) :=
  let wquot := width >>> 1
  let storePos := decide (wquot < d.ll.BufferWidth)
  -- save current src buffer positions
  let llPos := if storePos then d.ll.GetBuffPos else 0
  let hlPos := if storePos then d.hl.GetBuffPos else 0
  let lhPos := if storePos then d.lh.GetBuffPos else 0
  let hhPos := if storePos then d.hh.GetBuffPos else 0
  match hiRow with
  | some hiRow => do
    let r ← MallatToLinear d mem loRow (some hiRow) width
    if storePos then
      -- increment src buffer positions
      pure ({ ll := r.1.ll.IncBuffRow llPos, hl := r.1.hl.IncBuffRow hlPos,
              lh := r.1.lh.IncBuffRow lhPos, hh := r.1.hh.IncBuffRow hhPos }, r.2)
    else
      pure r
  | none => do
    let r ← MallatToLinear d mem loRow none width
    if storePos then
      -- increment src buffer positions
      pure ({ r.1 with ll := r.1.ll.IncBuffRow llPos, hl := r.1.hl.IncBuffRow hlPos }, r.2)
    else
      pure r

/-- The part of `InverseTransform` (build with `__PGFROISUPPORT__`) between the cursor
initialisation and the release of the source subbands. `origin`, `destWidth`,
`destHeight`, `width`, `height` are the locals of the function after the ROI update and
`top`, `bottom` are `destROI.top`, `destROI.bottom` after it. The pointer updates after
the last `InverseRow` of a branch are dead code and left out. -/
def InverseTransformROI.rows (dest : List Int) (d : Bands)
    (origin destWidth destHeight width height top bottom : Nat) : Exec (List Int × Bands) :=
  if destHeight ≥ FilterHeight then do
    -- top border handling
    let row0 := origin
    let row1 := row0 + destWidth
    let (d, dest) ← MallatToLinearROI d dest row0 (some row1) width
    let dest ← forK width (fun k mem =>
      do subAt mem (row0 + k) (((← rd mem (row1 + k)) + c1) >>> 1)) dest
    -- middle part
    let row2 := row1 + destWidth
    let row3 := row2 + destWidth
    let s ← whileLoop (fun (s : RowState) => decide (s.i < bottom - 1))
      (fun (s : RowState) => do
        let (d, dest) ← MallatToLinearROI s.d s.mem s.row2 (some s.row3) width
        let dest ← forK width (fun k mem => do
          let mem ← subAt mem (s.row2 + k)
            (((← rd mem (s.row1 + k)) + (← rd mem (s.row3 + k)) + c2) >>> 2)
          addAt mem (s.row1 + k) (((← rd mem (s.row0 + k)) + (← rd mem (s.row2 + k)) + c1) >>> 1))
          dest
        let dest ← InverseRow dest s.row0 width
        let dest ← InverseRow dest s.row1 width
        pure { i := s.i + 2, row0 := s.row2, row1 := s.row3, row2 := s.row3 + destWidth,
               row3 := s.row3 + destWidth + destWidth, mem := dest, d := d })
      bottom { i := top + 2, row0 := row0, row1 := row1, row2 := row2, row3 := row3,
               mem := dest, d := d }
    -- bottom border handling
    if height % 2 = 1 then do
      let (d, dest) ← MallatToLinearROI s.d s.mem s.row2 none width
      let dest ← forK width (fun k mem => do
        let mem ← subAt mem (s.row2 + k) (((← rd mem (s.row1 + k)) + c1) >>> 1)
        addAt mem (s.row1 + k) (((← rd mem (s.row0 + k)) + (← rd mem (s.row2 + k)) + c1) >>> 1))
        dest
      let dest ← InverseRow dest s.row0 width
      let dest ← InverseRow dest s.row1 width
      let dest ← InverseRow dest s.row2 width
      pure (dest, d)
    else do
      let dest ← forK width (fun k mem =>
        do addAt mem (s.row1 + k) (← rd mem (s.row0 + k))) s.mem
      let dest ← InverseRow dest s.row0 width
      let dest ← InverseRow dest s.row1 width
      pure (dest, s.d)
  else do
    -- height is too small
    let row0 := origin
    let row1 := row0 + destWidth
    -- first part
    let s ← whileLoop (fun (s : RowState) => decide (s.i < height))
      (fun (s : RowState) => do
        let (d, dest) ← MallatToLinearROI s.d s.mem s.row0 (some s.row1) width
        let dest ← InverseRow dest s.row0 width
        let dest ← InverseRow dest s.row1 width
        pure { s with i := s.i + 2, row0 := s.row0 + (destWidth <<< 1) % 2 ^ 32,
                      row1 := s.row1 + (destWidth <<< 1) % 2 ^ 32, mem := dest, d := d })
      height { i := 0, row0 := row0, row1 := row1, row2 := 0, row3 := 0, mem := dest, d := d }
    -- bottom
    if height % 2 = 1 then do
      let (d, dest) ← MallatToLinearROI s.d s.mem s.row0 none width
      let dest ← InverseRow dest s.row0 width
      pure (dest, d)
    else
      pure (s.mem, s.d)

/-- The statements of the loop "init source buffer position" of `InverseTransform` (build
with `__PGFROISUPPORT__`) for one source subband; `left`, `top` are `destROI.left`,
`destROI.top` after the ROI update. -/
def initSourcePos (sub : CSubband) (left top : Nat) : CSubband :=
  sub.InitBuffPosAt (((left >>> 1) + 2 ^ 32 - sub.GetROI.left) % 2 ^ 32)
    (((top >>> 1) + 2 ^ 32 - sub.GetROI.top) % 2 ^ 32)

/-- `CWaveletTransform::InverseTransform(srcLevel, w, h, data)`, build with
`__PGFROISUPPORT__`. `alloc` says whether the system grants the destination buffer. The
result is the returned `OSError`, the values stored through the out-parameters
`(*w, *h, *data)` if any, and the pyramid after the call. -/
def InverseTransformROI (t : CWaveletTransform) (srcLevel : Nat) (alloc : Bool) :
    Exec (OSError × Option (Nat × Nat × List Int) × CWaveletTransform) :=
  if srcLevel = 0 then .error .outOfBounds else do
  let destLevel := srcLevel - 1
  let destBands ← t.bands destLevel
  -- allocate memory for the results of the inverse transform
  let a := destBands.ll.AllocMemoryROI alloc
  if !a.1 then
    pure (.InsufficientMemory, none, t)
  else
    let destBand := a.2
    match destBand.buffer with
    | none => .error .nullPointer
    | some dest => do
      let destROI := destBand.GetROI
      let width := destROI.Width
      let height := destROI.Height
      let destWidth := width
      let destHeight := height
      let origin := 0
      -- update destination ROI
      let oddTop := destROI.top % 2 = 1
      let top := if oddTop then (destROI.top + 1) % 2 ^ 32 else destROI.top
      let origin := if oddTop then origin + destWidth else origin
      let height := if oddTop then (height + 2 ^ 32 - 1) % 2 ^ 32 else height
      let oddLeft := destROI.left % 2 = 1
      let left := if oddLeft then (destROI.left + 1) % 2 ^ 32 else destROI.left
      let origin := if oddLeft then origin + 1 else origin
      let width := if oddLeft then (width + 2 ^ 32 - 1) % 2 ^ 32 else width
      -- init source buffer position
      let src ← t.bands srcLevel
      let src : Bands := { ll := initSourcePos src.ll left top, hl := initSourcePos src.hl left top,
                           lh := initSourcePos src.lh left top, hh := initSourcePos src.hh left top }
      let (dest, src) ← InverseTransformROI.rows dest src origin destWidth destHeight width
        height top destROI.bottom
      -- free memory of the current srcLevel
      let src : Bands := { ll := src.ll.FreeMemory, hl := src.hl.FreeMemory,
                           lh := src.lh.FreeMemory, hh := src.hh.FreeMemory }
      let t := t.setBands destLevel { destBands with ll := { destBand with buffer := some dest } }
      let t := t.setBands srcLevel src
      -- return info
      pure (.NoError, some (destWidth, height, dest), t)

/-! ## Encode/decode scenarios

The drivers that call the transform level by level (`CPGFImage::Write`, `CPGFImage::Read`)
are not among the sources; the scenarios below chain the calls the way the specification
describes the data flow (section 2), with the entropy coder as the identity on subband
contents and every allocation granted. -/

/-- One-level scenario: a pyramid built with `levels = 1` around the `W × H` buffer `B`,
then `ForwardTransform(0, quant = 0)`, then `InverseTransform(1)`. The result is the error
code of the inverse transform and the values stored through its out-parameters
`(*w, *h, *data)`. -/
def roundTripOneLevel (W H : Nat) (B : List Int) :
    Exec (OSError × Option (Nat × Nat × List Int)) := do
  let t := CWaveletTransform.new W H 1 (some B)
  let r ← ForwardTransform t 0 0 (fun _ => true)
  let q ← InverseTransform r.2 1 true
  pure (q.1, q.2.1)

/-- `ForwardTransform(level, quant)` for `level, level + 1, ..., level + n - 1`, in this
order. -/
def forwardLevels (quant : Int) : Nat → Nat → CWaveletTransform → Exec CWaveletTransform
  | 0, _, t => pure t
  | n + 1, level, t => do
    let r ← ForwardTransform t level quant (fun _ => true)
    forwardLevels quant n (level + 1) r.2

/-- `InverseTransform(srcLevel)` for `srcLevel = L, L - 1, ..., 1`, in this order. -/
def inverseLevels : Nat → CWaveletTransform → Exec CWaveletTransform
  | 0, t => pure t
  | L + 1, t => do
    let r ← InverseTransform t (L + 1) true
    inverseLevels L r.2.2

/-- Multi-level scenario: a pyramid built with `levels = L` around the `W × H` buffer `B`,
the forward transform at levels `0, ..., L - 1` with quant 0, then the inverse transform
at levels `L, ..., 1`. The result is the buffer of the level-0 LL subband at the end. -/
def roundTrip (W H L : Nat) (B : List Int) : Exec (Option (List Int)) := do
  let t := CWaveletTransform.new W H L (some B)
  let t ← forwardLevels 0 L 0 t
  let t ← inverseLevels L t
  let b ← t.bands 0
  pure b.ll.buffer


/-- The decoder's part in `decodeROI`: the four subbands adopt the coefficient arrays. -/
def fillBands (ll hl lh hh : List Int) (b : Bands) : Bands :=
  { ll := b.ll.SetBuffer ll, hl := b.hl.SetBuffer hl, lh := b.lh.SetBuffer lh,
    hh := b.hh.SetBuffer hh }

/-- What `decodeROI` observes: the ROI rectangle of the destination LL subband, the error
code of `InverseTransform` and the values stored through the out-parameters
`(*w, *h, *data)`. -/
structure DecodeResult where
  roi : PGFRect
  error : OSError
  out : Option (Nat × Nat × List Int)
  deriving DecidableEq, Repr

/-- ROI scenario of the build with `__PGFROISUPPORT__`: a pyramid built with
`levels = L` for a `W × H` image without data, `SetROI(rect)`, the subbands LL, HL, LH, HH
of level `srcLevel` take the decoded coefficients `c`, then `InverseTransform(srcLevel)`. -/
def decodeROI (W H L : Nat) (rect : PGFRect) (srcLevel : Nat) (c : Bands → Bands) :
    Exec DecodeResult := do
  let t := CWaveletTransform.new W H L none
  let p ← t.SetROI ((CRoiIndices.new).SetLevels (L + 1)) rect
  let b ← p.2.bands srcLevel
  let t := p.2.setBands srcLevel (c b)
  let dest ← t.bands (srcLevel - 1)
  let q ← InverseTransformROI t srcLevel true
  pure { roi := dest.ll.GetROI, error := q.1, out := q.2.1 }

/-- Decoding scenario of the build without `__PGFROISUPPORT__`: a pyramid built with
`levels = L` for a `W × H` image without data, the subbands LL, HL, LH, HH of level
`srcLevel` take the decoded coefficients `c`, then `InverseTransform(srcLevel)`. The
result is the error code and the values stored through the out-parameters
`(*w, *h, *data)`. -/
def decodeLevel (W H L srcLevel : Nat) (c : Bands → Bands) :
    Exec (OSError × Option (Nat × Nat × List Int)) := do
  let t := CWaveletTransform.new W H L none
  let b ← t.bands srcLevel
  let q ← InverseTransform (t.setBands srcLevel (c b)) srcLevel true
  pure (q.1, q.2.1)

/-- The cursors of the subbands LL, HL, LH, HH of a level: the number of coefficients
written to (or read from) each since its cursor was reset. -/
def Bands.cursors (d : Bands) : Nat × Nat × Nat × Nat :=
  (d.ll.cursor, d.hl.cursor, d.lh.cursor, d.hh.cursor)

/-- The sizes `width * height` of the subbands LL, HL, LH, HH of a level. -/
def Bands.sizes (d : Bands) : Nat × Nat × Nat × Nat :=
  (d.ll.width * d.ll.height, d.hl.width * d.hl.height, d.lh.width * d.lh.height,
    d.hh.width * d.hh.height)

/-- The subbands of a level with `n` cells of memory behind each cursor: the declared
sizes stay, each buffer is `n` zero cells. Used to follow a row pass beyond the declared
sizes. -/
def Bands.withRoom (d : Bands) (n : Nat) : Bands :=
  { ll := d.ll.SetBuffer (List.replicate n 0), hl := d.hl.SetBuffer (List.replicate n 0),
    lh := d.lh.SetBuffer (List.replicate n 0), hh := d.hh.SetBuffer (List.replicate n 0) }

/-- The subband is in the state of the build without a region of interest: its ROI is the
whole subband, its width is `bw`, and its buffer (if any) has fewer than `2 ^ 32`
coefficients. -/
def CSubband.wholeROI (b : CSubband) (bw : Nat) : Bool :=
  decide (b.roi = ⟨0, 0, b.width, b.height⟩) && decide (b.width = bw) &&
    decide ((b.buffer.getD []).length < 2 ^ 32)

/-- The four source subbands of a destination of width `w`, each with the default ROI:
LL and LH are `ceil(w / 2)` wide, HL and HH `floor(w / 2)`. -/
def Bands.wholeROI (d : Bands) (w : Nat) : Bool :=
  d.ll.wholeROI ((w + 1) / 2) && d.hl.wholeROI (w / 2) && d.lh.wholeROI ((w + 1) / 2) &&
    d.hh.wholeROI (w / 2)

/-- A buffer row of the subband is `n` coefficients wide, and the cursor lies in the
buffer, whose positions fit a `UINT32`. -/
def CSubband.gatherReady (b : CSubband) (n : Nat) : Prop :=
  b.BufferWidth = n ∧ b.cursor ≤ (b.buffer.getD []).length ∧
    (b.buffer.getD []).length < 2 ^ 32

/-- The four source subbands are ready for the gather of rows of width `w`. -/
def Bands.gatherReady (d : Bands) (w : Nat) : Prop :=
  d.ll.gatherReady ((w + 1) / 2) ∧ d.hl.gatherReady (w / 2) ∧
    d.lh.gatherReady ((w + 1) / 2) ∧ d.hh.gatherReady (w / 2)

/-- The buffers of the subbands LL, HL, LH, HH of a level. -/
def Bands.buffers (d : Bands) : List (Option (List Int)) :=
  [d.ll.buffer, d.hl.buffer, d.lh.buffer, d.hh.buffer]

theorem ok_bind {α β : Type} (a : α) (f : α → Exec β) : (Except.ok a >>= f) = f a := rfl

theorem pure_eq_ok {α : Type} (a : α) : (pure a : Exec α) = Except.ok a := rfl

theorem rd_ok {mem : List Int} {p : Nat} (h : p < mem.length) : rd mem p = .ok (ld mem p) := by
  simp [rd, ld, List.getD, List.getElem?_eq_getElem h]

theorem wr_ok {mem : List Int} {p : Nat} (h : p < mem.length) (v : Int) :
    wr mem p v = .ok (mem.set p v) := by
  simp [wr, h]

theorem subAt_ok {mem : List Int} {p : Nat} (h : p < mem.length) (v : Int) :
    subAt mem p v = .ok (mem.set p (ld mem p - v)) := by
  simp [subAt, rd_ok h, wr_ok h, ok_bind]

theorem addAt_ok {mem : List Int} {p : Nat} (h : p < mem.length) (v : Int) :
    addAt mem p v = .ok (mem.set p (ld mem p + v)) := by
  simp [addAt, rd_ok h, wr_ok h, ok_bind]

theorem ld_set (mem : List Int) (p q : Nat) (v : Int) (h : p < mem.length) :
    ld (mem.set p v) q = if q = p then v else ld mem q := by
  unfold ld
  by_cases hq : q = p
  · subst hq
    simp [List.getD, h]
  · have hne : p ≠ q := fun e => hq e.symm
    simp [List.getD, hq, List.getElem?_set_ne hne]

theorem ld_set_eq (mem : List Int) (p : Nat) (v : Int) (h : p < mem.length) :
    ld (mem.set p v) p = v := by
  simp [ld_set mem p p v h]

theorem ld_set_ne (mem : List Int) (p q : Nat) (v : Int) (h : q ≠ p) :
    ld (mem.set p v) q = ld mem q := by
  have hne : p ≠ q := fun e => h e.symm
  simp [ld, List.getD, List.getElem?_set_ne hne]

theorem ext_ld {a b : List Int} (hl : a.length = b.length)
    (h : ∀ p, p < b.length → ld a p = ld b p) : a = b := by
  apply List.ext_getElem hl
  intro n h1 h2
  have := h n h2
  simpa [ld, List.getD, List.getElem?_eq_getElem h1, List.getElem?_eq_getElem h2] using this

/-- Invariant rule for `whileLoop`: an invariant that the body keeps, together with a
measure that the body decreases and the budget covers, gives a fault-free run that
ends in a state satisfying the invariant and the negated condition. -/
theorem whileLoop_inv {σ : Type} (cond : σ → Bool) (body : σ → Exec σ) (I : σ → Prop)
    (μ : σ → Nat)
    (step : ∀ s, I s → cond s = true → ∃ s', body s = .ok s' ∧ I s' ∧ μ s' < μ s) :
    ∀ (fuel : Nat) (s : σ), I s → μ s ≤ fuel →
      ∃ s', whileLoop cond body fuel s = .ok s' ∧ I s' ∧ cond s' = false := by
  intro fuel
  induction fuel with
  | zero =>
    intro s hI hμ
    by_cases hc : cond s = true
    · obtain ⟨s', _, _, hlt⟩ := step s hI hc
      omega
    · refine ⟨s, ?_, hI, by simpa using hc⟩
      simp [whileLoop, hc]
  | succ n ih =>
    intro s hI hμ
    by_cases hc : cond s = true
    · obtain ⟨s', hb, hI', hlt⟩ := step s hI hc
      obtain ⟨s'', hrun, hI'', hc''⟩ := ih s' hI' (by omega)
      refine ⟨s'', ?_, hI'', hc''⟩
      simp [whileLoop, hc, hb, ok_bind, hrun]
    · refine ⟨s, ?_, hI, by simpa using hc⟩
      simp [whileLoop, hc]

/-! ## Row filters: pointwise description -/

theorem ld_set2 (m : List Int) (p1 p2 q : Nat) (v1 v2 : Int) (h1 : p1 < m.length)
    (h2 : p2 < m.length) :
    ld ((m.set p1 v1).set p2 v2) q = if q = p2 then v2 else if q = p1 then v1 else ld m q := by
  rw [ld_set _ _ _ _ (by simpa using h2), ld_set _ _ _ _ h1]

theorem ForwardRow_body_inv (s : List Int) (b w : Nat) (hb : b + w ≤ s.length)
    (st : Nat × List Int) (hI : ForwardRowInv s b w st) (hc : st.1 < w - 1) :
    ∃ st', (do
        let i := st.1
        let mem := st.2
        let mem ← subAt mem (b + i)
          (((← rd mem (b + (i - 1))) + (← rd mem (b + (i + 1))) + c1) >>> 1)
        let mem ← addAt mem (b + (i - 1))
          (((← rd mem (b + (i - 2))) + (← rd mem (b + i)) + c2) >>> 2)
        pure (i + 2, mem) : Exec (Nat × List Int)) = .ok st' ∧
      ForwardRowInv s b w st' ∧ w - st'.1 < w - st.1 := by
  obtain ⟨i, m⟩ := st
  obtain ⟨hodd, h3, hiw, hlen, hframe, hun, hodds, h0, hev⟩ := hI
  simp only at hodd h3 hiw hlen hframe hun hodds h0 hev hc
  have hi1 : b + (i - 1) < m.length := by omega
  have hi2 : b + (i - 2) < m.length := by omega
  have hi : b + i < m.length := by omega
  have hi' : b + (i + 1) < m.length := by omega
  simp only [rd_ok hi1, rd_ok hi', subAt_ok hi, ok_bind]
  have hl1 : ∀ v, b + (i - 1) < (m.set (b + i) v).length := by intro v; simpa using hi1
  have hl2 : ∀ v, b + (i - 2) < (m.set (b + i) v).length := by intro v; simpa using hi2
  have hl0 : ∀ v, b + i < (m.set (b + i) v).length := by intro v; simpa using hi
  simp only [rd_ok (hl2 _), rd_ok (hl0 _), addAt_ok (hl1 _), ok_bind, pure_eq_ok]
  refine ⟨_, rfl, ?_, ?_⟩
  · simp only [c1, c2]
    generalize hv1 : ld m (b + i) - (ld m (b + (i - 1)) + ld m (b + (i + 1)) + 1) >>> 1 = v1
    rw [ld_set_ne _ _ _ _ (show b + (i - 1) ≠ b + i by omega),
      ld_set_ne _ _ _ _ (show b + (i - 2) ≠ b + i by omega), ld_set_eq _ _ _ hi]
    generalize hv2 : ld m (b + (i - 1)) + (ld m (b + (i - 2)) + v1 + 2) >>> 2 = v2
    have key : ∀ q, ld ((m.set (b + i) v1).set (b + (i - 1)) v2) q =
        if q = b + (i - 1) then v2 else if q = b + i then v1 else ld m q :=
      fun q => ld_set2 m _ _ q v1 v2 hi hi1
    have e1 : ld m (b + i) = ld s (b + i) := hun i (by omega) (by omega)
    have e2 : ld m (b + (i - 1)) = ld s (b + (i - 1)) := hun (i - 1) (by omega) (by omega)
    have e3 : ld m (b + (i + 1)) = ld s (b + (i + 1)) := hun (i + 1) (by omega) (by omega)
    rw [e1, e2, e3] at hv1
    rw [e2] at hv2
    refine ⟨by omega, by omega, by omega, by simpa using hlen, ?_, ?_, ?_, ?_, ?_⟩
    · intro p hp
      rw [key, if_neg (by omega), if_neg (by omega)]
      exact hframe p hp
    · intro j h1 h2
      simp only at h1
      rw [key, if_neg (by omega), if_neg (by omega)]
      exact hun j (by omega) h2
    · intro j hj1 hj2
      simp only at hj2 ⊢
      rw [key, if_neg (by omega)]
      by_cases hji : j = i
      · subst hji
        rw [if_pos rfl, ← hv1]
      · rw [if_neg (by omega)]
        exact hodds j hj1 (by omega)
    · simp only
      rw [key, key, if_neg (by omega), if_neg (by omega), if_neg (by omega), if_neg (by omega)]
      exact h0
    · intro j hj0 hj2 hj3
      simp only at hj3 ⊢
      rw [key, key, key]
      by_cases hji : j = i - 1
      · subst hji
        rw [if_pos rfl, if_neg (by omega), if_neg (by omega), if_neg (by omega),
          if_pos (by omega), ← hv2]
        have : i - 1 - 1 = i - 2 := by omega
        rw [this]
      · rw [if_neg (by omega), if_neg (by omega), if_neg (by omega), if_neg (by omega),
          if_neg (by omega), if_neg (by omega)]
        exact hev j hj0 hj2 (by omega)
  · simp only; omega

theorem ForwardRow_spec (s : List Int) (b w : Nat) (hw : 5 ≤ w) (hb : b + w ≤ s.length) :
    ∃ d, ForwardRow s b w = .ok d ∧ ForwardRowPost s d b w := by
  have p0 : b + 0 < s.length := by omega
  have p1 : b + 1 < s.length := by omega
  have p2 : b + 2 < s.length := by omega
  unfold ForwardRow
  rw [if_pos (show w ≥ FilterWidth by simpa [FilterWidth] using hw)]
  simp only [rd_ok p0, rd_ok p2, subAt_ok p1, ok_bind]
  have q0 : ∀ v, b + 0 < (s.set (b + 1) v).length := by intro v; simpa using p0
  have q1 : ∀ v, b + 1 < (s.set (b + 1) v).length := by intro v; simpa using p1
  simp only [rd_ok (q1 _), addAt_ok (q0 _), ok_bind, c1, c2]
  rw [ld_set_eq _ _ _ p1, ld_set_ne _ _ _ _ (show b + 0 ≠ b + 1 by omega)]
  generalize hv1 : ld s (b + 1) - (ld s (b + 0) + ld s (b + 2) + 1) >>> 1 = v1
  generalize hv0 : ld s (b + 0) + (v1 + 1) >>> 1 = v0
  have key : ∀ q, ld ((s.set (b + 1) v1).set (b + 0) v0) q =
      if q = b + 0 then v0 else if q = b + 1 then v1 else ld s q :=
    fun q => ld_set2 s _ _ q v1 v0 p1 p0
  have hinit : ForwardRowInv s b w (3, (s.set (b + 1) v1).set (b + 0) v0) := by
    refine ⟨by simp, by simp, by simpa using (show 3 ≤ w by omega), by simp, ?_, ?_, ?_, ?_, ?_⟩
    · intro p hp
      simp only
      rw [key, if_neg (by omega), if_neg (by omega)]
    · intro j h1 h2
      simp only at h1 ⊢
      rw [key, if_neg (by omega), if_neg (by omega)]
    · intro j hj1 hj2
      simp only at hj2 ⊢
      have hj : j = 1 := by omega
      subst hj
      rw [key, if_neg (by omega), if_pos rfl, ← hv1]
    · simp only
      rw [key, key, if_pos (by omega), if_neg (by omega), if_pos rfl, ← hv0]
      simp
    · intro j hj0 hj2 hj3
      simp only at hj3
      omega
  obtain ⟨⟨i, m⟩, hrun, hI, hcond⟩ :=
    whileLoop_inv (fun (st : Nat × List Int) => decide (st.1 < w - 1)) _
      (ForwardRowInv s b w) (fun st => w - st.1)
      (fun st hI hc => ForwardRow_body_inv s b w hb st hI (by simpa using hc))
      w (3, (s.set (b + 1) v1).set (b + 0) v0) hinit (by simp)
  simp only [c1, c2] at hrun
  rw [hrun]
  simp only [ok_bind]
  obtain ⟨hodd, h3, hiw, hlen, hframe, hun, hodds, h0, hev⟩ := hI
  simp only at hodd h3 hiw hlen hframe hun hodds h0 hev
  have hge : w - 1 ≤ i := by simpa using hcond
  have hi1 : b + (i - 1) < m.length := by omega
  have hi2 : b + (i - 2) < m.length := by omega
  by_cases hpar : w % 2 = 1
  · -- odd width
    have hiw' : i = w := by omega
    subst hiw'
    rw [if_pos hpar]
    simp only [rd_ok hi2, addAt_ok hi1, ok_bind]
    refine ⟨_, rfl, by simpa using hlen, ?_, ?_, ?_, ?_, ?_, ?_⟩
    · intro p hp
      rw [ld_set_ne _ _ _ _ (by omega)]
      exact hframe p hp
    · intro j hj1 hj2
      rw [ld_set_ne _ _ _ _ (by omega)]
      exact hodds j hj1 hj2
    · rw [ld_set_ne _ _ _ _ (by omega), ld_set_ne _ _ _ _ (by omega)]
      exact h0
    · intro j hj0 hj2 hj3
      rw [ld_set_ne _ _ _ _ (by omega), ld_set_ne _ _ _ _ (by omega),
        ld_set_ne _ _ _ _ (by omega)]
      exact hev j hj0 hj2 (by omega)
    · intro _
      rw [ld_set_eq _ _ _ hi1, ld_set_ne _ _ _ _ (by omega),
        hun (i - 1) (by omega) (by omega)]
    · intro h; omega
  · -- even width
    have hiw' : i = w - 1 := by omega
    have hi : b + i < m.length := by omega
    rw [if_neg hpar]
    simp only [rd_ok hi1, subAt_ok hi, ok_bind]
    have r1 : ∀ v, b + (i - 1) < (m.set (b + i) v).length := by intro v; simpa using hi1
    have r2 : ∀ v, b + (i - 2) < (m.set (b + i) v).length := by intro v; simpa using hi2
    have r0 : ∀ v, b + i < (m.set (b + i) v).length := by intro v; simpa using hi
    simp only [rd_ok (r2 _), rd_ok (r0 _), addAt_ok (r1 _), ok_bind]
    rw [ld_set_ne _ _ _ _ (show b + (i - 1) ≠ b + i by omega),
      ld_set_ne _ _ _ _ (show b + (i - 2) ≠ b + i by omega), ld_set_eq _ _ _ hi]
    generalize hw1 : ld m (b + i) - ld m (b + (i - 1)) = u1
    generalize hw2 : ld m (b + (i - 1)) + (ld m (b + (i - 2)) + u1 + 2) >>> 2 = u2
    have key2 : ∀ q, ld ((m.set (b + i) u1).set (b + (i - 1)) u2) q =
        if q = b + (i - 1) then u2 else if q = b + i then u1 else ld m q :=
      fun q => ld_set2 m _ _ q u1 u2 hi hi1
    have e1 : ld m (b + i) = ld s (b + i) := hun i (by omega) (by omega)
    have e2 : ld m (b + (i - 1)) = ld s (b + (i - 1)) := hun (i - 1) (by omega) (by omega)
    rw [e1, e2] at hw1
    rw [e2] at hw2
    refine ⟨_, rfl, by simpa using hlen, ?_, ?_, ?_, ?_, ?_, ?_⟩
    · intro p hp
      rw [key2, if_neg (by omega), if_neg (by omega)]
      exact hframe p hp
    · intro j hj1 hj2
      rw [key2, if_neg (by omega), if_neg (by omega)]
      exact hodds j hj1 (by omega)
    · rw [key2, key2, if_neg (by omega), if_neg (by omega), if_neg (by omega),
        if_neg (by omega)]
      exact h0
    · intro j hj0 hj2 hj3
      rw [key2, key2, key2]
      by_cases hji : j = i - 1
      · subst hji
        rw [if_pos rfl, if_neg (by omega), if_neg (by omega), if_neg (by omega),
          if_pos (by omega), ← hw2]
        have : i - 1 - 1 = i - 2 := by omega
        rw [this]
      · rw [if_neg (by omega), if_neg (by omega), if_neg (by omega), if_neg (by omega),
          if_neg (by omega), if_neg (by omega)]
        exact hev j hj0 hj2 (by omega)
    · intro h; omega
    · intro _
      have a1 : w - 1 = i := by omega
      have a2 : w - 2 = i - 1 := by omega
      rw [a1, a2, key2, if_neg (by omega), if_pos rfl, ← hw1]

theorem InverseRow_body_inv (d : List Int) (b w : Nat) (hb : b + w ≤ d.length)
    (st : Nat × List Int) (hI : InverseRowInv d b w st) (hc : st.1 < w - 1) :
    ∃ st', (do
        let i := st.1
        let mem := st.2
        let mem ← subAt mem (b + i)
          (((← rd mem (b + (i - 1))) + (← rd mem (b + (i + 1))) + c2) >>> 2)
        let mem ← addAt mem (b + (i - 1))
          (((← rd mem (b + (i - 2))) + (← rd mem (b + i)) + c1) >>> 1)
        pure (i + 2, mem) : Exec (Nat × List Int)) = .ok st' ∧
      InverseRowInv d b w st' ∧ w - st'.1 < w - st.1 := by
  obtain ⟨i, m⟩ := st
  obtain ⟨hpar, h2, hiw, hlen, hframe, hun, h0, hev, hodds⟩ := hI
  simp only at hpar h2 hiw hlen hframe hun h0 hev hodds hc
  have hi1 : b + (i - 1) < m.length := by omega
  have hi2 : b + (i - 2) < m.length := by omega
  have hi : b + i < m.length := by omega
  have hi' : b + (i + 1) < m.length := by omega
  simp only [rd_ok hi1, rd_ok hi', subAt_ok hi, ok_bind]
  have hl1 : ∀ v, b + (i - 1) < (m.set (b + i) v).length := by intro v; simpa using hi1
  have hl2 : ∀ v, b + (i - 2) < (m.set (b + i) v).length := by intro v; simpa using hi2
  have hl0 : ∀ v, b + i < (m.set (b + i) v).length := by intro v; simpa using hi
  simp only [rd_ok (hl2 _), rd_ok (hl0 _), addAt_ok (hl1 _), ok_bind, pure_eq_ok]
  refine ⟨_, rfl, ?_, ?_⟩
  · simp only [c1, c2]
    generalize hv1 : ld m (b + i) - (ld m (b + (i - 1)) + ld m (b + (i + 1)) + 2) >>> 2 = v1
    rw [ld_set_ne _ _ _ _ (show b + (i - 1) ≠ b + i by omega),
      ld_set_ne _ _ _ _ (show b + (i - 2) ≠ b + i by omega), ld_set_eq _ _ _ hi]
    generalize hv2 : ld m (b + (i - 1)) + (ld m (b + (i - 2)) + v1 + 1) >>> 1 = v2
    have key : ∀ q, ld ((m.set (b + i) v1).set (b + (i - 1)) v2) q =
        if q = b + (i - 1) then v2 else if q = b + i then v1 else ld m q :=
      fun q => ld_set2 m _ _ q v1 v2 hi hi1
    have e1 : ld m (b + i) = ld d (b + i) := hun i (by omega) (by omega)
    have e2 : ld m (b + (i - 1)) = ld d (b + (i - 1)) := hun (i - 1) (by omega) (by omega)
    have e3 : ld m (b + (i + 1)) = ld d (b + (i + 1)) := hun (i + 1) (by omega) (by omega)
    rw [e1, e2, e3] at hv1
    rw [e2] at hv2
    refine ⟨by omega, by omega, by omega, by simpa using hlen, ?_, ?_, ?_, ?_, ?_⟩
    · intro p hp
      rw [key, if_neg (by omega), if_neg (by omega)]
      exact hframe p hp
    · intro j h1 h2
      simp only at h1
      rw [key, if_neg (by omega), if_neg (by omega)]
      exact hun j (by omega) h2
    · simp only
      rw [key, if_neg (by omega), if_neg (by omega)]
      exact h0
    · intro j hj0 hj2 hj3
      simp only at hj3 ⊢
      rw [key, if_neg (by omega)]
      by_cases hji : j = i
      · subst hji
        rw [if_pos rfl, ← hv1]
      · rw [if_neg (by omega)]
        exact hev j hj0 hj2 (by omega)
    · intro j hj1 hj3
      simp only at hj3 ⊢
      rw [key, key, key]
      by_cases hji : j = i - 1
      · subst hji
        rw [if_pos rfl, if_neg (by omega), if_neg (by omega), if_neg (by omega),
          if_pos (by omega), ← hv2]
        have : i - 1 - 1 = i - 2 := by omega
        rw [this]
      · rw [if_neg (by omega), if_neg (by omega), if_neg (by omega), if_neg (by omega),
          if_neg (by omega), if_neg (by omega)]
        exact hodds j hj1 (by omega)
  · simp only; omega

theorem InverseRow_spec (d : List Int) (b w : Nat) (hw : 5 ≤ w) (hb : b + w ≤ d.length) :
    ∃ t, InverseRow d b w = .ok t ∧ InverseRowPost d t b w := by
  have p0 : b + 0 < d.length := by omega
  have p1 : b + 1 < d.length := by omega
  unfold InverseRow
  rw [if_pos (show w ≥ FilterWidth by simpa [FilterWidth] using hw)]
  simp only [rd_ok p1, subAt_ok p0, ok_bind]
  generalize hv0 : ld d (b + 0) - (ld d (b + 1) + c1) >>> 1 = v0
  have hinit : InverseRowInv d b w (2, d.set (b + 0) v0) := by
    refine ⟨by simp, by simp, by simpa using (show 2 ≤ w by omega), by simp, ?_, ?_, ?_, ?_, ?_⟩
    · intro p hp
      simp only
      rw [ld_set_ne _ _ _ _ (by omega)]
    · intro j h1 h2
      simp only at h1 ⊢
      rw [ld_set_ne _ _ _ _ (by omega)]
    · simp only
      rw [show b = b + 0 by omega, ld_set_eq _ _ _ p0, ← hv0]
      simp [c1]
    · intro j hj0 hj2 hj3
      simp only at hj3
      omega
    · intro j hj1 hj3
      simp only at hj3
      omega
  obtain ⟨⟨i, m⟩, hrun, hI, hcond⟩ :=
    whileLoop_inv (fun (st : Nat × List Int) => decide (st.1 < w - 1)) _
      (InverseRowInv d b w) (fun st => w - st.1)
      (fun st hI hc => InverseRow_body_inv d b w hb st hI (by simpa using hc))
      w (2, d.set (b + 0) v0) hinit (by simp)
  simp only at hrun
  rw [hrun]
  simp only [ok_bind, c1, c2]
  obtain ⟨hpar, h2, hiw, hlen, hframe, hun, h0, hev, hodds⟩ := hI
  simp only at hpar h2 hiw hlen hframe hun h0 hev hodds
  have hge : w - 1 ≤ i := by simpa using hcond
  have hi1 : b + (i - 1) < m.length := by omega
  have hi2 : b + (i - 2) < m.length := by omega
  by_cases hwpar : w % 2 = 1
  · -- odd width
    have hiw' : i = w - 1 := by omega
    have hi : b + i < m.length := by omega
    rw [if_pos hwpar]
    simp only [rd_ok hi1, subAt_ok hi, ok_bind]
    have r1 : ∀ v, b + (i - 1) < (m.set (b + i) v).length := by intro v; simpa using hi1
    have r2 : ∀ v, b + (i - 2) < (m.set (b + i) v).length := by intro v; simpa using hi2
    have r0 : ∀ v, b + i < (m.set (b + i) v).length := by intro v; simpa using hi
    simp only [rd_ok (r2 _), rd_ok (r0 _), addAt_ok (r1 _), ok_bind]
    rw [ld_set_ne _ _ _ _ (show b + (i - 1) ≠ b + i by omega),
      ld_set_ne _ _ _ _ (show b + (i - 2) ≠ b + i by omega), ld_set_eq _ _ _ hi]
    generalize hw1 : ld m (b + i) - (ld m (b + (i - 1)) + 1) >>> 1 = u1
    generalize hw2 : ld m (b + (i - 1)) + (ld m (b + (i - 2)) + u1 + 1) >>> 1 = u2
    have key2 : ∀ q, ld ((m.set (b + i) u1).set (b + (i - 1)) u2) q =
        if q = b + (i - 1) then u2 else if q = b + i then u1 else ld m q :=
      fun q => ld_set2 m _ _ q u1 u2 hi hi1
    have e1 : ld m (b + i) = ld d (b + i) := hun i (by omega) (by omega)
    have e2 : ld m (b + (i - 1)) = ld d (b + (i - 1)) := hun (i - 1) (by omega) (by omega)
    rw [e1, e2] at hw1
    rw [e2] at hw2
    refine ⟨_, rfl, by simpa using hlen, ?_, ?_, ?_, ?_, ?_, ?_⟩
    · intro p hp
      rw [key2, if_neg (by omega), if_neg (by omega)]
      exact hframe p hp
    · rw [key2, if_neg (by omega), if_neg (by omega)]
      exact h0
    · intro j hj0 hj2 hj3
      rw [key2, if_neg (by omega), if_neg (by omega)]
      exact hev j hj0 hj2 (by omega)
    · intro j hj1 hj3
      rw [key2, key2, key2]
      by_cases hji : j = i - 1
      · subst hji
        rw [if_pos rfl, if_neg (by omega), if_neg (by omega), if_neg (by omega),
          if_pos (by omega), ← hw2]
        have : i - 1 - 1 = i - 2 := by omega
        rw [this]
      · rw [if_neg (by omega), if_neg (by omega), if_neg (by omega), if_neg (by omega),
          if_neg (by omega), if_neg (by omega)]
        exact hodds j hj1 (by omega)
    · intro _
      have a1 : w - 1 = i := by omega
      have a2 : w - 2 = i - 1 := by omega
      rw [a1, a2, key2, if_neg (by omega), if_pos rfl, ← hw1]
    · intro h; omega
  · -- even width
    have hiw' : i = w := by omega
    subst hiw'
    rw [if_neg hwpar]
    simp only [rd_ok hi2, addAt_ok hi1, ok_bind]
    refine ⟨_, rfl, by simpa using hlen, ?_, ?_, ?_, ?_, ?_, ?_⟩
    · intro p hp
      rw [ld_set_ne _ _ _ _ (by omega)]
      exact hframe p hp
    · rw [ld_set_ne _ _ _ _ (by omega)]
      exact h0
    · intro j hj0 hj2 hj3
      rw [ld_set_ne _ _ _ _ (by omega)]
      exact hev j hj0 hj2 hj3
    · intro j hj1 hj3
      rw [ld_set_ne _ _ _ _ (by omega), ld_set_ne _ _ _ _ (by omega),
        ld_set_ne _ _ _ _ (by omega)]
      exact hodds j hj1 (by omega)
    · intro h; omega
    · intro _
      rw [ld_set_eq _ _ _ hi1, ld_set_ne _ _ _ _ (by omega),
        hun (i - 1) (by omega) (by omega)]

/-! ## Row filters: the inverse filter undoes the forward filter -/

theorem InverseRowPost_ForwardRowPost (s d t : List Int) (b w : Nat) (hw : 5 ≤ w)
    (hF : ForwardRowPost s d b w) (hG : InverseRowPost d t b w) : t = s := by
  obtain ⟨fl, fframe, fodd, f0, fev, fbo, fbe⟩ := hF
  obtain ⟨gl, gframe, g0, gev, godd, gbo, gbe⟩ := hG
  have hE : ∀ j, j % 2 = 0 → j < w → ld t (b + j) = ld s (b + j) := by
    intro j hj hjw
    by_cases hj0 : j = 0
    · subst hj0
      have := g0
      have := f0
      simp only [Nat.add_zero]
      omega
    · by_cases hlast : j + 1 < w
      · have h1 := gev j hj (by omega) hlast
        have h2 := fev j hj (by omega) hlast
        omega
      · have hjw' : j = w - 1 := by omega
        have hwodd : w % 2 = 1 := by omega
        have h1 := gbo hwodd
        have h2 := fbo hwodd
        rw [hjw']
        omega
  have hO : ∀ j, j % 2 = 1 → j < w → ld t (b + j) = ld s (b + j) := by
    intro j hj hjw
    by_cases hlast : j + 1 < w
    · have h1 := godd j hj hlast
      have h2 := fodd j hj hlast
      have h3 := hE (j - 1) (by omega) (by omega)
      have h4 := hE (j + 1) (by omega) (by omega)
      rw [h3, h4] at h1
      omega
    · have hjw' : j = w - 1 := by omega
      have hweven : w % 2 = 0 := by omega
      have h1 := gbe hweven
      have h2 := fbe hweven
      have h3 := hE (w - 2) (by omega) (by omega)
      rw [h3] at h1
      rw [hjw']
      omega
  apply ext_ld (by omega)
  intro p _
  by_cases hp : p < b ∨ b + w ≤ p
  · rw [gframe p hp, fframe p hp]
  · obtain ⟨j, rfl⟩ : ∃ j, p = b + j := ⟨p - b, by omega⟩
    by_cases hj : j % 2 = 0
    · exact hE j hj (by omega)
    · exact hO j (by omega) (by omega)

theorem InverseRow_ForwardRow_at (s : List Int) (b w : Nat) (hb : b + w ≤ s.length) :
    (ForwardRow s b w >>= fun d => InverseRow d b w) = .ok s := by
  by_cases hw : 5 ≤ w
  · obtain ⟨d, hd, hF⟩ := ForwardRow_spec s b w hw hb
    obtain ⟨t, ht, hG⟩ := InverseRow_spec d b w hw (by rw [hF.1]; exact hb)
    rw [hd, ok_bind, ht, InverseRowPost_ForwardRowPost s d t b w hw hF hG]
  · have hlt : ¬ w ≥ FilterWidth := by simpa [FilterWidth] using hw
    simp [ForwardRow, InverseRow, hlt, pure_eq_ok, ok_bind]

/-- C4 (as the code behaves): `ForwardRow` on the row `[0, 1, 2, 3, 4]` of width 5 gives
`[0, 0, 2, 0, 4]`: the three odd-indexed and border cells of a linear ramp lose their
high-pass part, the even cells keep their value. -/
theorem ForwardRow_ramp : ForwardRow [0, 1, 2, 3, 4] 0 5 = .ok [0, 0, 2, 0, 4] := by
  decide

/-- C4 (as stated) fails: `ForwardRow` on `[0, 1, 2, 3, 4]` does not give
`[1, -1, 3, -1, 3]`. -/
theorem ForwardRow_ramp_ne : ForwardRow [0, 1, 2, 3, 4] 0 5 ≠ .ok [1, -1, 3, -1, 3] := by
  decide

/-! ## Subband dimensions -/

theorem ceilDiv_mul_add (P q r : Nat) (hr : r < P) :
    (P * q + r + P - 1) / P = if r = 0 then q else q + 1 := by
  have hP : 0 < P := by omega
  split_ifs with h0
  · subst h0
    have e : P * q + 0 + P - 1 = P * q + (P - 1) := by omega
    rw [e, Nat.mul_add_div hP, Nat.div_eq_of_lt (by omega)]
    rfl
  · have e : P * q + r + P - 1 = P * (q + 1) + (r - 1) := by
      rw [Nat.mul_add, Nat.mul_one]; omega
    rw [e, Nat.mul_add_div hP, Nat.div_eq_of_lt (by omega)]

theorem natCeil_mul_add (P q r : Nat) (hr : r < P) :
    ⌈((P * q + r : Nat) : ℚ) / P⌉₊ = if r = 0 then q else q + 1 := by
  have hP : 0 < P := by omega
  have hPq : (0 : ℚ) < P := by exact_mod_cast hP
  split_ifs with h0
  · subst h0
    have : ((P * q + 0 : Nat) : ℚ) / P = (q : ℚ) := by
      push_cast
      field_simp
    rw [this, Nat.ceil_natCast]
  · rw [Nat.ceil_eq_iff (by omega)]
    constructor
    · rw [lt_div_iff₀ hPq]
      have h1 : (q + 1 - 1) * P < P * q + r := by
        have : q + 1 - 1 = q := by omega
        rw [this, Nat.mul_comm]; omega
      exact_mod_cast h1
    · rw [div_le_iff₀ hPq]
      have h1 : P * q + r ≤ (q + 1) * P := by
        rw [Nat.add_mul, Nat.one_mul, Nat.mul_comm]; omega
      exact_mod_cast h1

theorem natCeil_div (a b : Nat) (hb : 0 < b) : ⌈(a : ℚ) / b⌉₊ = (a + b - 1) / b := by
  have h := Nat.div_add_mod a b
  have hr := Nat.mod_lt a hb
  have e1 := natCeil_mul_add b (a / b) (a % b) hr
  have e2 := ceilDiv_mul_add b (a / b) (a % b) hr
  rw [h] at e1 e2
  rw [e1, e2]

theorem LevelWidth_mul_add (P k q r : Nat) (hP : P = 2 ^ k) (hr : r < P)
    (hW : P * q + r < 2 ^ 32) :
    LevelWidth (P * q + r) k = (if r = 0 then q else q + 1) ∧
      ((P * q + r) >>> k) <<< k < 2 ^ 32 ∧
      (((P * q + r) >>> k) <<< k = P * q + r ∨ ((P * q + r) >>> k) + 1 < 2 ^ 32) := by
  have hPpos : 0 < P := by omega
  have hq : (P * q + r) >>> k = q := by
    rw [Nat.shiftRight_eq_div_pow, ← hP, Nat.mul_add_div hPpos, Nat.div_eq_of_lt hr]
    rfl
  have hle : P * q ≤ P * q + r := Nat.le_add_right _ _
  have hshl : q <<< k = P * q := by rw [Nat.shiftLeft_eq, ← hP, Nat.mul_comm]
  have hq1 : r ≠ 0 → q + 1 < 2 ^ 32 := by
    intro h0
    have h2 : 2 ≤ P := by omega
    have : 2 * q ≤ P * q := Nat.mul_le_mul_right q h2
    omega
  refine ⟨?_, ?_, ?_⟩
  · unfold LevelWidth
    simp only [hq, hshl]
    rw [Nat.mod_eq_of_lt (by omega)]
    by_cases h0 : r = 0
    · subst h0; simp
    · have hne : ¬ P * q = P * q + r := by omega
      rw [if_neg hne, if_neg h0, Nat.mod_eq_of_lt (hq1 h0)]
  · rw [hq, hshl]; omega
  · rw [hq, hshl]
    by_cases h0 : r = 0
    · left; omega
    · right; exact hq1 h0

theorem LevelWidth_spec (W k : Nat) (hW : W < 2 ^ 32) :
    LevelWidth W k = ⌈(W : ℚ) / 2 ^ k⌉₊ ∧
      (W >>> k) <<< k < 2 ^ 32 ∧ ((W >>> k) <<< k = W ∨ (W >>> k) + 1 < 2 ^ 32) := by
  have hP : 0 < 2 ^ k := Nat.pos_pow_of_pos k (by decide)
  have h := Nat.div_add_mod W (2 ^ k)
  have hr := Nat.mod_lt W hP
  have e1 := natCeil_mul_add (2 ^ k) (W / 2 ^ k) (W % 2 ^ k) hr
  have e2 := LevelWidth_mul_add (2 ^ k) k (W / 2 ^ k) (W % 2 ^ k) rfl hr (by omega)
  rw [h] at e1 e2
  refine ⟨?_, e2.2.1, e2.2.2⟩
  rw [e2.1, ← e1]
  push_cast
  rfl

theorem InitSubbands_loop_get (n : Nat) :
    ∀ (level loW hiW loH hiH k : Nat), k < n →
      (InitSubbands.loop n level loW hiW loH hiH)[k]? = some
        { ll := CSubband.Initialize (halveUp^[k] loW) (halveUp^[k] loH) (level + k) .LL,
          hl := CSubband.Initialize (hiAfter loW hiW k) (halveUp^[k] loH) (level + k) .HL,
          lh := CSubband.Initialize (halveUp^[k] loW) (hiAfter loH hiH k) (level + k) .LH,
          hh := CSubband.Initialize (hiAfter loW hiW k) (hiAfter loH hiH k) (level + k) .HH } := by
  induction n with
  | zero => intro _ _ _ _ _ k hk; omega
  | succ n ih =>
    intro level loW hiW loH hiH k hk
    cases k with
    | zero => simp [InitSubbands.loop, hiAfter]
    | succ k =>
      have h := ih (level + 1) (((loW + 1) % 2 ^ 32) >>> 1) (loW >>> 1)
        (((loH + 1) % 2 ^ 32) >>> 1) (loH >>> 1) k (by omega)
      simp only [InitSubbands.loop, List.getElem?_cons_succ]
      rw [h]
      have e : level + 1 + k = level + (k + 1) := by omega
      have hw : ∀ x, halveUp^[k] (((x + 1) % 2 ^ 32) >>> 1) = halveUp^[k + 1] x := by
        intro x; rfl
      have hh : ∀ lo hi, hiAfter (((lo + 1) % 2 ^ 32) >>> 1) (lo >>> 1) k = hiAfter lo hi (k + 1) := by
        intro lo hi
        cases k with
        | zero => rfl
        | succ k => rfl
      rw [e, hw, hw, hh loW hiW, hh loH hiH]

/-- Dimensions of the four subbands that `InitSubbands` creates at level `k`. -/
theorem InitSubbands_get (n W H : Nat) (data : Option (List Int)) (k : Nat) (hk : k < n) :
    ∃ q, (InitSubbands n W H data)[k]? = some q ∧
      q.ll.width = halveUp^[k] W ∧ q.ll.height = halveUp^[k] H ∧
      q.hl.width = hiAfter W W k ∧ q.hl.height = halveUp^[k] H ∧
      q.lh.width = halveUp^[k] W ∧ q.lh.height = hiAfter H H k ∧
      q.hh.width = hiAfter W W k ∧ q.hh.height = hiAfter H H k := by
  have h := InitSubbands_loop_get n 0 W W H H k hk
  unfold InitSubbands
  cases data with
  | none => exact ⟨_, h, rfl, rfl, rfl, rfl, rfl, rfl, rfl, rfl⟩
  | some d =>
    cases hloop : InitSubbands.loop n 0 W W H H with
    | nil => rw [hloop] at h; simp at h
    | cons b rest =>
      rw [hloop] at h
      cases k with
      | zero =>
        simp only [List.getElem?_cons_zero, Option.some.injEq] at h
        subst h
        simp [CSubband.SetBuffer, CSubband.Initialize]
      | succ k =>
        simp only [List.getElem?_cons_succ] at h ⊢
        exact ⟨_, h, rfl, rfl, rfl, rfl, rfl, rfl, rfl, rfl⟩

theorem halveUp_le (x : Nat) : halveUp x ≤ x := by
  unfold halveUp
  rw [Nat.shiftRight_eq_div_pow]
  have : (x + 1) % 2 ^ 32 ≤ x + 1 := Nat.mod_le _ _
  by_cases h : x + 1 < 2 ^ 32
  · rw [Nat.mod_eq_of_lt h]; omega
  · have h2 : (x + 1) % 2 ^ 32 < 2 ^ 32 := Nat.mod_lt _ (by decide)
    omega

theorem halveUp_iterate_le (k x : Nat) : halveUp^[k] x ≤ x := by
  induction k generalizing x with
  | zero => exact Nat.le_refl _
  | succ k ih => exact Nat.le_trans (ih (halveUp x)) (halveUp_le x)

theorem halveUp_eq (x : Nat) (h : x + 1 < 2 ^ 32) : halveUp x = (x + 1) / 2 := by
  unfold halveUp
  rw [Nat.mod_eq_of_lt h, Nat.shiftRight_eq_div_pow]

theorem halveUp_iterate_eq (k W : Nat) (hW : W + 1 < 2 ^ 32) :
    halveUp^[k] W = (W + 2 ^ k - 1) / 2 ^ k := by
  induction k with
  | zero => simp
  | succ k ih =>
    rw [Function.iterate_succ_apply', ih]
    have hP : 0 < 2 ^ k := Nat.pos_pow_of_pos k (by decide)
    have hle : (W + 2 ^ k - 1) / 2 ^ k ≤ W := by
      rw [← ih]; exact halveUp_iterate_le k W
    rw [halveUp_eq _ (by omega)]
    have e1 : (W + 2 ^ k - 1) / 2 ^ k + 1 = (W + 2 ^ k - 1 + 2 ^ k) / 2 ^ k := by
      rw [Nat.add_div_right _ hP]
    have e2 : W + 2 ^ k - 1 + 2 ^ k = W + 2 ^ (k + 1) - 1 := by
      rw [Nat.pow_succ]; omega
    rw [e1, e2, Nat.div_div_eq_div_mul, ← Nat.pow_succ]

theorem natCeil_half (a : Nat) : ⌈(a : ℚ) / 2⌉₊ = (a + 1) / 2 := by
  have h := natCeil_div a 2 (by decide)
  simpa using h

theorem natFloor_half (a : Nat) : ⌊(a : ℚ) / 2⌋₊ = a / 2 := by
  have h := Nat.floor_div_eq_div (α := ℚ) a 2
  simpa using h

theorem natCeil_pow (a k : Nat) : ⌈(a : ℚ) / 2 ^ k⌉₊ = (a + 2 ^ k - 1) / 2 ^ k := by
  have h := natCeil_div a (2 ^ k) (Nat.pos_pow_of_pos k (by decide))
  simpa using h

/-- C5: for an image of width `W` and height `H` (`1 ≤ W, H < 2 ^ 31`) and every level `l`
with `1 ≤ l < m_nLevels`, the subbands that `InitSubbands` creates at levels `l - 1` and `l`
satisfy: `LL_l` is `ceil(LL_{l-1}.width / 2)` wide and `ceil(LL_{l-1}.height / 2)` high;
`HL_l` is `floor(LL_{l-1}.width / 2)` wide and as high as `LL_l`; `LH_l` is
`floor(LL_{l-1}.height / 2)` high and as wide as `LL_l`; `HH_l` has both floors. -/
theorem InitSubbands_level_step (m_nLevels W H : Nat) (data : Option (List Int))
    (hW1 : 1 ≤ W) (hW : W < 2 ^ 31) (hH1 : 1 ≤ H) (hH : H < 2 ^ 31)
    (l : Nat) (hl1 : 1 ≤ l) (hl : l < m_nLevels) :
    ∃ p q, (InitSubbands m_nLevels W H data)[l - 1]? = some p ∧
      (InitSubbands m_nLevels W H data)[l]? = some q ∧
      q.ll.width = ⌈(p.ll.width : ℚ) / 2⌉₊ ∧ q.ll.height = ⌈(p.ll.height : ℚ) / 2⌉₊ ∧
      q.hl.width = ⌊(p.ll.width : ℚ) / 2⌋₊ ∧ q.hl.height = q.ll.height ∧
      q.lh.height = ⌊(p.ll.height : ℚ) / 2⌋₊ ∧ q.lh.width = q.ll.width ∧
      q.hh.width = ⌊(p.ll.width : ℚ) / 2⌋₊ ∧ q.hh.height = ⌊(p.ll.height : ℚ) / 2⌋₊ := by
  obtain ⟨k, rfl⟩ : ∃ k, l = k + 1 := ⟨l - 1, by omega⟩
  obtain ⟨p, hp, pw, ph, -⟩ := InitSubbands_get m_nLevels W H data k (by omega)
  obtain ⟨q, hq, q1, q2, q3, q4, q5, q6, q7, q8⟩ :=
    InitSubbands_get m_nLevels W H data (k + 1) hl
  have hpw : p.ll.width + 1 < 2 ^ 32 := by
    have := halveUp_iterate_le k W
    omega
  have hph : p.ll.height + 1 < 2 ^ 32 := by
    have := halveUp_iterate_le k H
    omega
  have ew : halveUp^[k + 1] W = (p.ll.width + 1) / 2 := by
    rw [Function.iterate_succ_apply', ← pw, halveUp_eq _ hpw]
  have eh : halveUp^[k + 1] H = (p.ll.height + 1) / 2 := by
    rw [Function.iterate_succ_apply', ← ph, halveUp_eq _ hph]
  have fw : hiAfter W W (k + 1) = p.ll.width / 2 := by
    simp only [hiAfter]
    rw [← pw, Nat.shiftRight_eq_div_pow]
  have fh : hiAfter H H (k + 1) = p.ll.height / 2 := by
    simp only [hiAfter]
    rw [← ph, Nat.shiftRight_eq_div_pow]
  refine ⟨p, q, by simpa using hp, hq, ?_, ?_, ?_, ?_, ?_, ?_, ?_, ?_⟩
  · rw [q1, ew, natCeil_half]
  · rw [q2, eh, natCeil_half]
  · rw [q3, fw, natFloor_half]
  · rw [q4, q2]
  · rw [q6, fh, natFloor_half]
  · rw [q5, q1]
  · rw [q7, fw, natFloor_half]
  · rw [q8, fh, natFloor_half]

theorem InitSubbands_level_step_witness :
    (1 ≤ 5 ∧ 5 < 2 ^ 31 ∧ 1 ≤ 3 ∧ 3 < 2 ^ 31 ∧ 1 ≤ 1 ∧ 1 < 3) ∧
    ∃ p q, (InitSubbands 3 5 3 none)[1 - 1]? = some p ∧
      (InitSubbands 3 5 3 none)[1]? = some q ∧
      q.ll.width = ⌈(p.ll.width : ℚ) / 2⌉₊ ∧ q.ll.height = ⌈(p.ll.height : ℚ) / 2⌉₊ ∧
      q.hl.width = ⌊(p.ll.width : ℚ) / 2⌋₊ ∧ q.hl.height = q.ll.height ∧
      q.lh.height = ⌊(p.ll.height : ℚ) / 2⌋₊ ∧ q.lh.width = q.ll.width ∧
      q.hh.width = ⌊(p.ll.width : ℚ) / 2⌋₊ ∧ q.hh.height = ⌊(p.ll.height : ℚ) / 2⌋₊ :=
  ⟨by decide, InitSubbands_level_step 3 5 3 none (by decide) (by decide) (by decide)
    (by decide) 1 (by decide) (by decide)⟩

/-- C7: for every 32-bit width `W`, height `H` and level `k ≤ 31`, `LevelWidth(W, k)` is
`ceil(W / 2 ^ k)` and `LevelHeight(H, k)` is `ceil(H / 2 ^ k)`, and nothing wraps around
`2 ^ 32`: the shift `w << level` stays below `2 ^ 32`, and so does the increment `w + 1`
whenever it is taken (that is, unless `(w << level) == width`). -/
theorem LevelWidth_LevelHeight_ceil (W H k : Nat) (hW : W < 2 ^ 32) (hH : H < 2 ^ 32)
    (hk : k ≤ 31) :
    (LevelWidth W k = ⌈(W : ℚ) / 2 ^ k⌉₊ ∧
      (W >>> k) <<< k < 2 ^ 32 ∧ ((W >>> k) <<< k = W ∨ (W >>> k) + 1 < 2 ^ 32)) ∧
    (LevelHeight H k = ⌈(H : ℚ) / 2 ^ k⌉₊ ∧
      (H >>> k) <<< k < 2 ^ 32 ∧ ((H >>> k) <<< k = H ∨ (H >>> k) + 1 < 2 ^ 32)) :=
  ⟨LevelWidth_spec W k hW, LevelWidth_spec H k hH⟩

theorem LevelWidth_LevelHeight_ceil_witness :
    (100 < 2 ^ 32 ∧ 37 < 2 ^ 32 ∧ 2 ≤ 31) ∧
    (LevelWidth 100 2 = ⌈(100 : ℚ) / 2 ^ 2⌉₊ ∧
      (100 >>> 2) <<< 2 < 2 ^ 32 ∧ ((100 >>> 2) <<< 2 = 100 ∨ (100 >>> 2) + 1 < 2 ^ 32)) ∧
    (LevelHeight 37 2 = ⌈(37 : ℚ) / 2 ^ 2⌉₊ ∧
      (37 >>> 2) <<< 2 < 2 ^ 32 ∧ ((37 >>> 2) <<< 2 = 37 ∨ (37 >>> 2) + 1 < 2 ^ 32)) :=
  ⟨by decide, by exact_mod_cast LevelWidth_LevelHeight_ceil 100 37 2 (by decide) (by decide) (by decide)⟩

/-- C6: for an image of width `W` and height `H` (`1 ≤ W, H < 2 ^ 31`), a pyramid of at
most `MaxLevel + 1` levels and every level `l < m_nLevels`, the LL subband that
`InitSubbands` creates at level `l` is `ceil(W / 2 ^ l)` wide and `ceil(H / 2 ^ l)` high,
which is `LevelWidth(W, l)` by `LevelHeight(H, l)`. -/
theorem InitSubbands_LL_dims (m_nLevels W H : Nat) (data : Option (List Int))
    (hW1 : 1 ≤ W) (hW : W < 2 ^ 31) (hH1 : 1 ≤ H) (hH : H < 2 ^ 31)
    (hL : m_nLevels ≤ MaxLevel + 1) (l : Nat) (hl : l < m_nLevels) :
    ∃ q, (InitSubbands m_nLevels W H data)[l]? = some q ∧
      q.ll.width = ⌈(W : ℚ) / 2 ^ l⌉₊ ∧ q.ll.height = ⌈(H : ℚ) / 2 ^ l⌉₊ ∧
      q.ll.width = LevelWidth W l ∧ q.ll.height = LevelHeight H l := by
  obtain ⟨q, hq, qw, qh, -⟩ := InitSubbands_get m_nLevels W H data l hl
  have ew : q.ll.width = ⌈(W : ℚ) / 2 ^ l⌉₊ := by
    rw [qw, halveUp_iterate_eq l W (by omega), natCeil_pow]
  have eh : q.ll.height = ⌈(H : ℚ) / 2 ^ l⌉₊ := by
    rw [qh, halveUp_iterate_eq l H (by omega), natCeil_pow]
  refine ⟨q, hq, ew, eh, ?_, ?_⟩
  · rw [ew, (LevelWidth_spec W l (by omega)).1]
  · rw [eh]
    exact ((LevelWidth_spec H l (by omega)).1).symm

theorem InitSubbands_LL_dims_witness :
    (1 ≤ 5 ∧ 5 < 2 ^ 31 ∧ 1 ≤ 3 ∧ 3 < 2 ^ 31 ∧ 3 ≤ MaxLevel + 1 ∧ 2 < 3) ∧
    ∃ q, (InitSubbands 3 5 3 none)[2]? = some q ∧
      q.ll.width = ⌈((5 : Nat) : ℚ) / 2 ^ 2⌉₊ ∧ q.ll.height = ⌈((3 : Nat) : ℚ) / 2 ^ 2⌉₊ ∧
      q.ll.width = LevelWidth 5 2 ∧ q.ll.height = LevelHeight 3 2 :=
  ⟨by decide, InitSubbands_LL_dims 3 5 3 none (by decide) (by decide) (by decide)
    (by decide) (by decide) 2 (by decide)⟩

/-! ## ROI tile indices -/

namespace CRoiIndices

theorem ComputeTileIndex_loop_spec (pos : Nat) (hor isMin : Bool) :
    ∀ (c : Nat) (ind : List PGFRect) (ti mn mx : Nat), c ≤ ind.length →
      ∃ ind', ComputeTileIndex.loop pos hor isMin c ind ti mn mx = .ok ind' ∧
        ind'.length = ind.length ∧
        (∀ j, c ≤ j → ind'[j]? = ind[j]?) ∧
        (∀ j, j < c → ∀ rect, ind[j]? = some rect →
          ind'[j]? = some (storeIndex rect hor isMin (descend pos (c - 1 - j) (ti, mn, mx)).1)) := by
  intro c
  induction c with
  | zero =>
    intro ind ti mn mx _
    exact ⟨ind, rfl, rfl, fun _ _ => rfl, fun j hj => by omega⟩
  | succ c ih =>
    intro ind ti mn mx hc
    have hget : ind[c]? = some ind[c] := List.getElem?_eq_getElem (by omega)
    have hlen1 : ∀ v, c ≤ (ind.set c v).length := by intro v; simp; omega
    by_cases hm : pos ≥ ((mn + mx) % 2 ^ 32) / 2
    · obtain ⟨ind', hrun, hl, hge, hlt⟩ := ih (ind.set c (storeIndex ind[c] hor isMin ti))
        (((ti <<< 1) % 2 ^ 32 + 1) % 2 ^ 32) (((mn + mx) % 2 ^ 32) / 2) mx (hlen1 _)
      refine ⟨ind', ?_, by simpa using hl, ?_, ?_⟩
      · simp only [ComputeTileIndex.loop, hget, if_pos hm]
        exact hrun
      · intro j hj
        rw [hge j (by omega), List.getElem?_set_ne (by omega)]
      · intro j hj rect hrect
        by_cases hjc : j = c
        · subst hjc
          rw [hge j (Nat.le_refl _), List.getElem?_set_eq_of_lt _ (by omega)]
          have : rect = ind[j] := by rw [hget] at hrect; exact (Option.some.inj hrect).symm
          subst this
          simp [descend]
        · have h1 := hlt j (by omega) rect (by rw [List.getElem?_set_ne (by omega)]; exact hrect)
          rw [h1]
          have e : c + 1 - 1 - j = (c - 1 - j) + 1 := by omega
          rw [e]
          simp only [descend, if_pos hm]
    · obtain ⟨ind', hrun, hl, hge, hlt⟩ := ih (ind.set c (storeIndex ind[c] hor isMin ti))
        ((ti <<< 1) % 2 ^ 32) mn (((mn + mx) % 2 ^ 32) / 2) (hlen1 _)
      refine ⟨ind', ?_, by simpa using hl, ?_, ?_⟩
      · simp only [ComputeTileIndex.loop, hget, if_neg hm]
        exact hrun
      · intro j hj
        rw [hge j (by omega), List.getElem?_set_ne (by omega)]
      · intro j hj rect hrect
        by_cases hjc : j = c
        · subst hjc
          rw [hge j (Nat.le_refl _), List.getElem?_set_eq_of_lt _ (by omega)]
          have : rect = ind[j] := by rw [hget] at hrect; exact (Option.some.inj hrect).symm
          subst this
          simp [descend]
        · have h1 := hlt j (by omega) rect (by rw [List.getElem?_set_ne (by omega)]; exact hrect)
          rw [h1]
          have e : c + 1 - 1 - j = (c - 1 - j) + 1 := by omega
          rw [e]
          simp only [descend, if_neg hm]


theorem ComputeTileIndex_spec (r : CRoiIndices) (ind : List PGFRect)
    (hr : r.m_indices = some ind) (hlen : ind.length = r.m_nLevels)
    (width height pos : Nat) (hor isMin : Bool) :
    ∃ ind', r.ComputeTileIndex width height pos hor isMin
        = .ok { r with m_indices := some ind' } ∧
      ind'.length = r.m_nLevels ∧
      ∀ j, j < r.m_nLevels → ∀ rect, ind[j]? = some rect →
        ind'[j]? = some (storeIndex rect hor isMin
          (tileIndexAfter (if hor then width else height) pos (r.m_nLevels - 1 - j))) := by
  obtain ⟨ind', hrun, hl, -, hlt⟩ := ComputeTileIndex_loop_spec pos hor isMin r.m_nLevels ind 0 0
    (if hor then width else height) (by omega)
  refine ⟨ind', ?_, by omega, ?_⟩
  · simp only [ComputeTileIndex, hr]
    rw [hrun]
    rfl
  · intro j hj rect hrect
    exact hlt j hj rect hrect

/-- Rectangle that `ComputeIndices` stores at level `j` of a table of `n` levels. -/
theorem ComputeIndices_spec (r : CRoiIndices) (ind : List PGFRect)
    (hr : r.m_indices = some ind) (hlen : ind.length = r.m_nLevels)
    (width height : Nat) (rect : PGFRect) :
    ∃ ind', r.ComputeIndices width height rect = .ok { r with m_indices := some ind' } ∧
      ind'.length = r.m_nLevels ∧
      ∀ j, j < r.m_nLevels → ind'[j]? = some
        { left := tileIndexAfter width rect.left (r.m_nLevels - 1 - j),
          top := tileIndexAfter height rect.top (r.m_nLevels - 1 - j),
          right := (tileIndexAfter width rect.right (r.m_nLevels - 1 - j) + 1) % 2 ^ 32,
          bottom := (tileIndexAfter height rect.bottom (r.m_nLevels - 1 - j) + 1) % 2 ^ 32 } := by
  obtain ⟨i1, h1, l1, s1⟩ := ComputeTileIndex_spec r ind hr hlen width height rect.left true true
  obtain ⟨i2, h2, l2, s2⟩ := ComputeTileIndex_spec { r with m_indices := some i1 } i1 rfl l1
    width height rect.top false true
  obtain ⟨i3, h3, l3, s3⟩ := ComputeTileIndex_spec { r with m_indices := some i2 } i2 rfl l2
    width height rect.right true false
  obtain ⟨i4, h4, l4, s4⟩ := ComputeTileIndex_spec { r with m_indices := some i3 } i3 rfl l3
    width height rect.bottom false false
  refine ⟨i4, ?_, l4, ?_⟩
  · simp only [ComputeIndices, h1, ok_bind, h2, h3, h4]
  · intro j hj
    have hj' : j < ind.length := by omega
    have a1 := s1 j hj _ (List.getElem?_eq_getElem hj')
    have a2 := s2 j hj _ a1
    have a3 := s3 j hj _ a2
    have a4 := s4 j hj _ a3
    rw [a4]
    simp [storeIndex]

end CRoiIndices

theorem descend_add (pos : Nat) : ∀ (a b : Nat) (s : Nat × Nat × Nat),
    descend pos (a + b) s = descend pos b (descend pos a s) := by
  intro a
  induction a with
  | zero => intro b s; simp [descend]
  | succ a ih =>
    intro b s
    obtain ⟨ti, mn, mx⟩ := s
    have e : a + 1 + b = (a + b) + 1 := by omega
    rw [e]
    simp only [descend]
    split_ifs <;> exact ih b _

theorem descend_index_bounds (pos : Nat) : ∀ (k ti mn mx : Nat), (ti + 1) * 2 ^ k ≤ 2 ^ 32 →
    ti * 2 ^ k ≤ (descend pos k (ti, mn, mx)).1 ∧
      (descend pos k (ti, mn, mx)).1 < (ti + 1) * 2 ^ k := by
  intro k
  induction k with
  | zero => intro ti mn mx _; simp [descend]
  | succ k ih =>
    intro ti mn mx hb
    have hP : 0 < 2 ^ k := Nat.pos_pow_of_pos k (by decide)
    have e1 : (ti + 1) * 2 ^ (k + 1) = 2 * (ti * 2 ^ k) + 2 * 2 ^ k := by ring
    have e0 : ti * 2 ^ (k + 1) = 2 * (ti * 2 ^ k) := by ring
    have hti : ti ≤ ti * 2 ^ k := Nat.le_mul_of_pos_right ti hP
    have hshl : (ti <<< 1) % 2 ^ 32 = 2 * ti := by
      rw [Nat.shiftLeft_eq, Nat.mod_eq_of_lt (by omega)]; omega
    have hinc : (2 * ti + 1) % 2 ^ 32 = 2 * ti + 1 := Nat.mod_eq_of_lt (by omega)
    simp only [descend, hshl, hinc]
    split_ifs
    · have h := ih (2 * ti + 1) (((mn + mx) % 2 ^ 32) / 2) mx (by
        have : (2 * ti + 1 + 1) * 2 ^ k = 2 * (ti * 2 ^ k) + 2 * 2 ^ k := by ring
        omega)
      have e2 : (2 * ti + 1) * 2 ^ k = 2 * (ti * 2 ^ k) + 2 ^ k := by ring
      have e3 : (2 * ti + 1 + 1) * 2 ^ k = 2 * (ti * 2 ^ k) + 2 * 2 ^ k := by ring
      rw [e2, e3] at h
      rw [e0, e1]
      omega
    · have h := ih (2 * ti) mn (((mn + mx) % 2 ^ 32) / 2) (by
        have : (2 * ti + 1) * 2 ^ k = 2 * (ti * 2 ^ k) + 2 ^ k := by ring
        omega)
      have e2 : (2 * ti) * 2 ^ k = 2 * (ti * 2 ^ k) := by ring
      have e3 : (2 * ti + 1) * 2 ^ k = 2 * (ti * 2 ^ k) + 2 ^ k := by ring
      rw [e2, e3] at h
      rw [e0, e1]
      omega

theorem descend_mono (pos pos' : Nat) (hpos : pos ≤ pos') :
    ∀ (k ti mn mx : Nat), (ti + 1) * 2 ^ k ≤ 2 ^ 32 →
      (descend pos k (ti, mn, mx)).1 ≤ (descend pos' k (ti, mn, mx)).1 := by
  intro k
  induction k with
  | zero => intro ti mn mx _; simp [descend]
  | succ k ih =>
    intro ti mn mx hb
    have hP : 0 < 2 ^ k := Nat.pos_pow_of_pos k (by decide)
    have e1 : (ti + 1) * 2 ^ (k + 1) = 2 * (ti * 2 ^ k) + 2 * 2 ^ k := by ring
    have hti : ti ≤ ti * 2 ^ k := Nat.le_mul_of_pos_right ti hP
    have hshl : (ti <<< 1) % 2 ^ 32 = 2 * ti := by
      rw [Nat.shiftLeft_eq, Nat.mod_eq_of_lt (by omega)]; omega
    have hinc : (2 * ti + 1) % 2 ^ 32 = 2 * ti + 1 := Nat.mod_eq_of_lt (by omega)
    have b1 : (2 * ti + 1 + 1) * 2 ^ k ≤ 2 ^ 32 := by
      have : (2 * ti + 1 + 1) * 2 ^ k = 2 * (ti * 2 ^ k) + 2 * 2 ^ k := by ring
      omega
    have b0 : (2 * ti + 1) * 2 ^ k ≤ 2 ^ 32 := by
      have : (2 * ti + 1) * 2 ^ k = 2 * (ti * 2 ^ k) + 2 ^ k := by ring
      omega
    simp only [descend, hshl, hinc]
    by_cases h1 : pos ≥ ((mn + mx) % 2 ^ 32) / 2
    · have h2 : pos' ≥ ((mn + mx) % 2 ^ 32) / 2 := by omega
      rw [if_pos h1, if_pos h2]
      exact ih _ _ _ b1
    · by_cases h2 : pos' ≥ ((mn + mx) % 2 ^ 32) / 2
      · rw [if_neg h1, if_pos h2]
        have lo := (descend_index_bounds pos k (2 * ti) mn (((mn + mx) % 2 ^ 32) / 2) b0).2
        have hi := (descend_index_bounds pos' k (2 * ti + 1) (((mn + mx) % 2 ^ 32) / 2) mx b1).1
        omega
      · rw [if_neg h1, if_neg h2]
        exact ih _ _ _ b0

theorem tileIndexAfter_lt (len pos k : Nat) (hk : k ≤ 32) : tileIndexAfter len pos k < 2 ^ k := by
  have h := (descend_index_bounds pos k 0 0 len (by
    rw [Nat.zero_add, Nat.one_mul]; exact Nat.pow_le_pow_right (by decide) hk)).2
  simpa [tileIndexAfter] using h

theorem tileIndexAfter_shiftRight (len pos k j : Nat) (hk : k + j ≤ 32) :
    tileIndexAfter len pos (k + j) >>> j = tileIndexAfter len pos k := by
  unfold tileIndexAfter
  rw [descend_add]
  rcases hs : descend pos k (0, 0, len) with ⟨ti, mn, mx⟩
  have hti : ti < 2 ^ k := by
    have := tileIndexAfter_lt len pos k (by omega)
    simpa [tileIndexAfter, hs] using this
  have hb : (ti + 1) * 2 ^ j ≤ 2 ^ 32 := by
    calc (ti + 1) * 2 ^ j ≤ 2 ^ k * 2 ^ j := Nat.mul_le_mul_right _ hti
      _ = 2 ^ (k + j) := (Nat.pow_add 2 k j).symm
      _ ≤ 2 ^ 32 := Nat.pow_le_pow_right (by decide) hk
  obtain ⟨h1, h2⟩ := descend_index_bounds pos j ti mn mx hb
  rw [Nat.shiftRight_eq_div_pow]
  have hP : 0 < 2 ^ j := Nat.pos_pow_of_pos j (by decide)
  apply Nat.div_eq_of_lt_le
  · simpa using h1
  · simpa using h2

theorem tileIndexAfter_mono (len pos pos' k : Nat) (hpos : pos ≤ pos') (hk : k ≤ 32) :
    tileIndexAfter len pos k ≤ tileIndexAfter len pos' k := by
  unfold tileIndexAfter
  exact descend_mono pos pos' hpos k 0 0 len (by
    rw [Nat.zero_add, Nat.one_mul]; exact Nat.pow_le_pow_right (by decide) hk)

namespace CRoiIndices

theorem GetIndices_mk (n : Nat) (ind : List PGFRect) (l : Nat) (rect : PGFRect)
    (h : ind[l]? = some rect) :
    GetIndices { m_nLevels := n, m_indices := some ind } l = .ok rect := by
  simp [GetIndices, h]

/-- Every rectangle of the table after `ComputeIndices`, in closed form. -/
theorem ComputeIndices_get (r : CRoiIndices) (ind : List PGFRect)
    (hr : r.m_indices = some ind) (hlen : ind.length = r.m_nLevels)
    (hn : r.m_nLevels ≤ MaxLevel + 1) (width height : Nat) (rect : PGFRect) :
    ∃ r', r.ComputeIndices width height rect = .ok r' ∧ r'.m_nLevels = r.m_nLevels ∧
      ∀ l, l < r.m_nLevels → r'.GetIndices l = .ok
        { left := tileIndexAfter width rect.left (r.m_nLevels - 1 - l),
          top := tileIndexAfter height rect.top (r.m_nLevels - 1 - l),
          right := tileIndexAfter width rect.right (r.m_nLevels - 1 - l) + 1,
          bottom := tileIndexAfter height rect.bottom (r.m_nLevels - 1 - l) + 1 } := by
  obtain ⟨ind', hrun, hl', hs⟩ := ComputeIndices_spec r ind hr hlen width height rect
  refine ⟨_, hrun, rfl, ?_⟩
  intro l hl
  have hM : r.m_nLevels ≤ 31 := by simpa [MaxLevel] using hn
  have hk : r.m_nLevels - 1 - l ≤ 31 := by omega
  have b1 := tileIndexAfter_lt width rect.right (r.m_nLevels - 1 - l) (by omega)
  have b2 := tileIndexAfter_lt height rect.bottom (r.m_nLevels - 1 - l) (by omega)
  have hp : 2 ^ (r.m_nLevels - 1 - l) ≤ 2 ^ 31 := Nat.pow_le_pow_right (by decide) hk
  have e1 : (tileIndexAfter width rect.right (r.m_nLevels - 1 - l) + 1) % 2 ^ 32
      = tileIndexAfter width rect.right (r.m_nLevels - 1 - l) + 1 :=
    Nat.mod_eq_of_lt (by omega)
  have e2 : (tileIndexAfter height rect.bottom (r.m_nLevels - 1 - l) + 1) % 2 ^ 32
      = tileIndexAfter height rect.bottom (r.m_nLevels - 1 - l) + 1 :=
    Nat.mod_eq_of_lt (by omega)
  have := hs l hl
  rw [e1, e2] at this
  exact GetIndices_mk _ _ _ _ this

/-- The `left` (or `top`) index that a single min-descent `ComputeTileIndex` stores at
every level, in closed form. -/
theorem ComputeTileIndex_min_get (r : CRoiIndices) (ind : List PGFRect)
    (hr : r.m_indices = some ind) (hlen : ind.length = r.m_nLevels)
    (width height pos : Nat) (hor : Bool) :
    ∃ r', r.ComputeTileIndex width height pos hor true = .ok r' ∧
      ∀ l, l < r.m_nLevels → ∃ a, r'.GetIndices l = .ok a ∧
        (if hor then a.left else a.top)
          = tileIndexAfter (if hor then width else height) pos (r.m_nLevels - 1 - l) := by
  obtain ⟨ind', hrun, hl', hs⟩ := ComputeTileIndex_spec r ind hr hlen width height pos hor true
  refine ⟨_, hrun, ?_⟩
  intro l hl
  have h := hs l hl _ (List.getElem?_eq_getElem (by omega))
  refine ⟨_, GetIndices_mk _ _ _ _ h, ?_⟩
  cases hor <;> simp [storeIndex]

/-- C8: after `ComputeIndices`, on a table of at most `MaxLevel + 1` levels, the tile
rectangle of every level `l` is the dyadic image of the level-0 rectangle:
`left_l = left_0 >> l`, `top_l = top_0 >> l`, `right_l = ((right_0 - 1) >> l) + 1`,
`bottom_l = ((bottom_0 - 1) >> l) + 1`; and from one level to the next the min bounds
halve with floor and the half-open max bounds halve with ceiling. -/
theorem ComputeIndices_dyadic (r : CRoiIndices) (ind : List PGFRect)
    (hr : r.m_indices = some ind) (hlen : ind.length = r.m_nLevels)
    (hn : r.m_nLevels ≤ MaxLevel + 1) (width height : Nat) (rect : PGFRect)
    (l : Nat) (hl : l < r.m_nLevels) :
    ∃ r' a0 al, r.ComputeIndices width height rect = .ok r' ∧
      r'.GetIndices 0 = .ok a0 ∧ r'.GetIndices l = .ok al ∧
      al.left = a0.left >>> l ∧ al.top = a0.top >>> l ∧
      al.right = ((a0.right - 1) >>> l) + 1 ∧ al.bottom = ((a0.bottom - 1) >>> l) + 1 := by
  obtain ⟨r', hrun, -, hget⟩ := ComputeIndices_get r ind hr hlen hn width height rect
  have hM : r.m_nLevels ≤ 31 := by simpa [MaxLevel] using hn
  have e : r.m_nLevels - 1 - 0 = (r.m_nLevels - 1 - l) + l := by omega
  have sh : ∀ len pos, tileIndexAfter len pos (r.m_nLevels - 1 - 0) >>> l
      = tileIndexAfter len pos (r.m_nLevels - 1 - l) := by
    intro len pos
    rw [e]
    exact tileIndexAfter_shiftRight len pos _ l (by omega)
  refine ⟨r', _, _, hrun, hget 0 (by omega), hget l hl, ?_, ?_, ?_, ?_⟩
  · exact (sh _ _).symm
  · exact (sh _ _).symm
  · simp only [Nat.add_sub_cancel]
    rw [sh]
  · simp only [Nat.add_sub_cancel]
    rw [sh]

theorem ComputeIndices_dyadic_witness :
    (((CRoiIndices.new.SetLevels 3).CreateIndices).m_indices
        = some (List.replicate 3 ⟨0, 0, 0, 0⟩) ∧
      (List.replicate 3 (⟨0, 0, 0, 0⟩ : PGFRect)).length
        = ((CRoiIndices.new.SetLevels 3).CreateIndices).m_nLevels ∧
      ((CRoiIndices.new.SetLevels 3).CreateIndices).m_nLevels ≤ MaxLevel + 1 ∧
      1 < ((CRoiIndices.new.SetLevels 3).CreateIndices).m_nLevels) ∧
    ∃ r' a0 al, ((CRoiIndices.new.SetLevels 3).CreateIndices).ComputeIndices 16 16 ⟨4, 4, 12, 12⟩
        = .ok r' ∧
      r'.GetIndices 0 = .ok a0 ∧ r'.GetIndices 1 = .ok al ∧
      al.left = a0.left >>> 1 ∧ al.top = a0.top >>> 1 ∧
      al.right = ((a0.right - 1) >>> 1) + 1 ∧ al.bottom = ((a0.bottom - 1) >>> 1) + 1 :=
  ⟨by decide, ComputeIndices_dyadic ((CRoiIndices.new.SetLevels 3).CreateIndices)
    (List.replicate 3 ⟨0, 0, 0, 0⟩) (by decide) (by decide) (by decide) 16 16 ⟨4, 4, 12, 12⟩ 1
    (by decide)⟩

/-- Companion of C8: from level `l` to level `l + 1` the min bounds halve with floor and
the half-open max bounds halve with ceiling. -/
theorem ComputeIndices_halving (r : CRoiIndices) (ind : List PGFRect)
    (hr : r.m_indices = some ind) (hlen : ind.length = r.m_nLevels)
    (hn : r.m_nLevels ≤ MaxLevel + 1) (width height : Nat) (rect : PGFRect)
    (l : Nat) (hl : l + 1 < r.m_nLevels) :
    ∃ r' a b, r.ComputeIndices width height rect = .ok r' ∧
      r'.GetIndices l = .ok a ∧ r'.GetIndices (l + 1) = .ok b ∧
      b.left = a.left / 2 ∧ b.top = a.top / 2 ∧
      b.right = (a.right + 1) / 2 ∧ b.bottom = (a.bottom + 1) / 2 := by
  obtain ⟨r', hrun, -, hget⟩ := ComputeIndices_get r ind hr hlen hn width height rect
  have hM : r.m_nLevels ≤ 31 := by simpa [MaxLevel] using hn
  refine ⟨r', _, _, hrun, hget l (by omega), hget (l + 1) hl, ?_, ?_, ?_, ?_⟩
  all_goals
    simp only
    have e1 : r.m_nLevels - 1 - l = (r.m_nLevels - 1 - (l + 1)) + 1 := by omega
    rw [e1]
    have := tileIndexAfter_shiftRight width rect.left (r.m_nLevels - 1 - (l + 1)) 1 (by omega)
    have := tileIndexAfter_shiftRight height rect.top (r.m_nLevels - 1 - (l + 1)) 1 (by omega)
    have := tileIndexAfter_shiftRight width rect.right (r.m_nLevels - 1 - (l + 1)) 1 (by omega)
    have := tileIndexAfter_shiftRight height rect.bottom (r.m_nLevels - 1 - (l + 1)) 1 (by omega)
    simp only [Nat.shiftRight_eq_div_pow, Nat.pow_one] at *
    omega

theorem GetNofTiles_eq (r : CRoiIndices) (l : Nat) (hn : r.m_nLevels ≤ MaxLevel + 1) :
    r.GetNofTiles l = 2 ^ (r.m_nLevels - l - 1) := by
  have hM : r.m_nLevels ≤ 31 := by simpa [MaxLevel] using hn
  unfold GetNofTiles
  rw [Nat.shiftLeft_eq, Nat.one_mul]
  apply Nat.mod_eq_of_lt
  exact Nat.pow_lt_pow_right (by decide) (by omega)

/-- C9: for a ROI with `left ≤ right ≤ W` and `top ≤ bottom ≤ H`, on a table of at most
`MaxLevel + 1` levels, the rectangle that `ComputeIndices` stores at every level `l`
satisfies `0 ≤ left_l < right_l ≤ GetNofTiles(l)` and `0 ≤ top_l < bottom_l ≤ GetNofTiles(l)`
with `GetNofTiles(l) = 2 ^ (m_nLevels - l - 1)`; the rectangle of the coarsest level is
`(0, 0, 1, 1)`. -/
theorem ComputeIndices_bounds (r : CRoiIndices) (ind : List PGFRect)
    (hr : r.m_indices = some ind) (hlen : ind.length = r.m_nLevels)
    (hn : r.m_nLevels ≤ MaxLevel + 1) (width height : Nat) (rect : PGFRect)
    (hlr : rect.left ≤ rect.right) (hrw : rect.right ≤ width)
    (htb : rect.top ≤ rect.bottom) (hbh : rect.bottom ≤ height)
    (l : Nat) (hl : l < r.m_nLevels) :
    ∃ r' a, r.ComputeIndices width height rect = .ok r' ∧ r'.GetIndices l = .ok a ∧
      0 ≤ a.left ∧ a.left < a.right ∧ a.right ≤ r'.GetNofTiles l ∧
      0 ≤ a.top ∧ a.top < a.bottom ∧ a.bottom ≤ r'.GetNofTiles l ∧
      r'.GetNofTiles l = 2 ^ (r'.m_nLevels - l - 1) ∧
      r'.GetIndices (r'.m_nLevels - 1) = .ok ⟨0, 0, 1, 1⟩ := by
  obtain ⟨r', hrun, hn', hget⟩ := ComputeIndices_get r ind hr hlen hn width height rect
  have hM : r.m_nLevels ≤ 31 := by simpa [MaxLevel] using hn
  have hk : r.m_nLevels - 1 - l ≤ 32 := by omega
  have hN := GetNofTiles_eq r' l (by rw [hn']; exact hn)
  have e : r'.m_nLevels - l - 1 = r.m_nLevels - 1 - l := by rw [hn']; omega
  have m1 := tileIndexAfter_mono width rect.left rect.right _ hlr hk
  have m2 := tileIndexAfter_mono height rect.top rect.bottom _ htb hk
  have b1 := tileIndexAfter_lt width rect.right _ hk
  have b2 := tileIndexAfter_lt height rect.bottom _ hk
  refine ⟨r', _, hrun, hget l hl, Nat.zero_le _, ?_, ?_, Nat.zero_le _, ?_, ?_, hN, ?_⟩
  · simp only; omega
  · rw [hN, e]; simp only; omega
  · simp only; omega
  · rw [hN, e]; simp only; omega
  · rw [hn', hget (r.m_nLevels - 1) (by omega)]
    have z : r.m_nLevels - 1 - (r.m_nLevels - 1) = 0 := by omega
    rw [z]
    simp [tileIndexAfter, descend]

theorem ComputeIndices_bounds_witness :
    (((CRoiIndices.new.SetLevels 3).CreateIndices).m_indices
        = some (List.replicate 3 ⟨0, 0, 0, 0⟩) ∧
      (List.replicate 3 (⟨0, 0, 0, 0⟩ : PGFRect)).length
        = ((CRoiIndices.new.SetLevels 3).CreateIndices).m_nLevels ∧
      ((CRoiIndices.new.SetLevels 3).CreateIndices).m_nLevels ≤ MaxLevel + 1 ∧
      (⟨4, 4, 12, 12⟩ : PGFRect).left ≤ (⟨4, 4, 12, 12⟩ : PGFRect).right ∧
      (⟨4, 4, 12, 12⟩ : PGFRect).right ≤ 16 ∧
      (⟨4, 4, 12, 12⟩ : PGFRect).top ≤ (⟨4, 4, 12, 12⟩ : PGFRect).bottom ∧
      (⟨4, 4, 12, 12⟩ : PGFRect).bottom ≤ 16 ∧
      0 < ((CRoiIndices.new.SetLevels 3).CreateIndices).m_nLevels) ∧
    ∃ r' a, ((CRoiIndices.new.SetLevels 3).CreateIndices).ComputeIndices 16 16 ⟨4, 4, 12, 12⟩
        = .ok r' ∧ r'.GetIndices 0 = .ok a ∧
      0 ≤ a.left ∧ a.left < a.right ∧ a.right ≤ r'.GetNofTiles 0 ∧
      0 ≤ a.top ∧ a.top < a.bottom ∧ a.bottom ≤ r'.GetNofTiles 0 ∧
      r'.GetNofTiles 0 = 2 ^ (r'.m_nLevels - 0 - 1) ∧
      r'.GetIndices (r'.m_nLevels - 1) = .ok ⟨0, 0, 1, 1⟩ :=
  ⟨by decide, ComputeIndices_bounds ((CRoiIndices.new.SetLevels 3).CreateIndices)
    (List.replicate 3 ⟨0, 0, 0, 0⟩) (by decide) (by decide) (by decide) 16 16 ⟨4, 4, 12, 12⟩
    (by decide) (by decide) (by decide) (by decide) 0 (by decide)⟩

/-- C10: for a ROI with `left ≤ right ≤ W` and `top ≤ bottom ≤ H`, every pixel column `x`
with `left ≤ x < right`, every pixel row `y` with `top ≤ y < bottom` and every level `l`:
the tile index that the binary descent of `ComputeTileIndex` assigns to `x` at level `l`
lies in `[left_l, right_l)`, and the one it assigns to `y` lies in `[top_l, bottom_l)`. -/
theorem ComputeIndices_covers (r : CRoiIndices) (ind : List PGFRect)
    (hr : r.m_indices = some ind) (hlen : ind.length = r.m_nLevels)
    (hn : r.m_nLevels ≤ MaxLevel + 1) (width height : Nat) (rect : PGFRect)
    (hlr : rect.left ≤ rect.right) (hrw : rect.right ≤ width)
    (htb : rect.top ≤ rect.bottom) (hbh : rect.bottom ≤ height)
    (x y : Nat) (hx1 : rect.left ≤ x) (hx2 : x < rect.right)
    (hy1 : rect.top ≤ y) (hy2 : y < rect.bottom)
    (l : Nat) (hl : l < r.m_nLevels) :
    ∃ r' a rx ax ry ay, r.ComputeIndices width height rect = .ok r' ∧
      r'.GetIndices l = .ok a ∧
      r.ComputeTileIndex width height x true true = .ok rx ∧ rx.GetIndices l = .ok ax ∧
      r.ComputeTileIndex width height y false true = .ok ry ∧ ry.GetIndices l = .ok ay ∧
      a.left ≤ ax.left ∧ ax.left < a.right ∧ a.top ≤ ay.top ∧ ay.top < a.bottom := by
  obtain ⟨r', hrun, -, hget⟩ := ComputeIndices_get r ind hr hlen hn width height rect
  obtain ⟨rx, hrx, hgx⟩ := ComputeTileIndex_min_get r ind hr hlen width height x true
  obtain ⟨ry, hry, hgy⟩ := ComputeTileIndex_min_get r ind hr hlen width height y false
  obtain ⟨ax, hax, eax⟩ := hgx l hl
  obtain ⟨ay, hay, eay⟩ := hgy l hl
  simp only [if_true] at eax
  simp only [Bool.false_eq_true, if_false] at eay
  have hM : r.m_nLevels ≤ 31 := by simpa [MaxLevel] using hn
  have hk : r.m_nLevels - 1 - l ≤ 32 := by omega
  have m1 := tileIndexAfter_mono width rect.left x _ hx1 hk
  have m2 := tileIndexAfter_mono width x rect.right _ (Nat.le_of_lt hx2) hk
  have m3 := tileIndexAfter_mono height rect.top y _ hy1 hk
  have m4 := tileIndexAfter_mono height y rect.bottom _ (Nat.le_of_lt hy2) hk
  refine ⟨r', _, rx, ax, ry, ay, hrun, hget l hl, hrx, hax, hry, hay, ?_, ?_, ?_, ?_⟩
  · simp only; omega
  · simp only; omega
  · simp only; omega
  · simp only; omega

theorem ComputeIndices_covers_witness :
    (((CRoiIndices.new.SetLevels 3).CreateIndices).m_indices
        = some (List.replicate 3 ⟨0, 0, 0, 0⟩) ∧
      (List.replicate 3 (⟨0, 0, 0, 0⟩ : PGFRect)).length
        = ((CRoiIndices.new.SetLevels 3).CreateIndices).m_nLevels ∧
      ((CRoiIndices.new.SetLevels 3).CreateIndices).m_nLevels ≤ MaxLevel + 1 ∧
      (⟨4, 4, 12, 12⟩ : PGFRect).left ≤ (⟨4, 4, 12, 12⟩ : PGFRect).right ∧
      (⟨4, 4, 12, 12⟩ : PGFRect).right ≤ 16 ∧
      (⟨4, 4, 12, 12⟩ : PGFRect).top ≤ (⟨4, 4, 12, 12⟩ : PGFRect).bottom ∧
      (⟨4, 4, 12, 12⟩ : PGFRect).bottom ≤ 16 ∧
      (⟨4, 4, 12, 12⟩ : PGFRect).left ≤ 7 ∧ 7 < (⟨4, 4, 12, 12⟩ : PGFRect).right ∧
      (⟨4, 4, 12, 12⟩ : PGFRect).top ≤ 11 ∧ 11 < (⟨4, 4, 12, 12⟩ : PGFRect).bottom ∧
      0 < ((CRoiIndices.new.SetLevels 3).CreateIndices).m_nLevels) ∧
    ∃ r' a rx ax ry ay,
      ((CRoiIndices.new.SetLevels 3).CreateIndices).ComputeIndices 16 16 ⟨4, 4, 12, 12⟩
        = .ok r' ∧
      r'.GetIndices 0 = .ok a ∧
      ((CRoiIndices.new.SetLevels 3).CreateIndices).ComputeTileIndex 16 16 7 true true
        = .ok rx ∧ rx.GetIndices 0 = .ok ax ∧
      ((CRoiIndices.new.SetLevels 3).CreateIndices).ComputeTileIndex 16 16 11 false true
        = .ok ry ∧ ry.GetIndices 0 = .ok ay ∧
      a.left ≤ ax.left ∧ ax.left < a.right ∧ a.top ≤ ay.top ∧ ay.top < a.bottom :=
  ⟨by decide, ComputeIndices_covers ((CRoiIndices.new.SetLevels 3).CreateIndices)
    (List.replicate 3 ⟨0, 0, 0, 0⟩) (by decide) (by decide) (by decide) 16 16 ⟨4, 4, 12, 12⟩
    (by decide) (by decide) (by decide) (by decide) 7 11 (by decide) (by decide) (by decide)
    (by decide) 0 (by decide)⟩

end CRoiIndices

/-! ## The transform on concrete buffers -/

/-- A 5 × 3 buffer survives the one-level round trip (sanity check of the embedding). -/
theorem roundTripOneLevel_5x3 :
    roundTripOneLevel 5 3 [1, 2, 3, 4, 5, 9, -8, 7, 6, 5, 1, 1, 2, 3, 7]
      = .ok (.NoError, some (5, 3, [1, 2, 3, 4, 5, 9, -8, 7, 6, 5, 1, 1, 2, 3, 7])) := by
  decide

/-- A 4 × 4 buffer survives the two-level round trip (sanity check of the embedding). -/
theorem roundTrip_4x4_two_levels :
    roundTrip 4 4 2 [1, 2, 3, 4, 5, 6, 7, 8, 1, 2, 3, 4, 5, 6, 7, 8]
      = .ok (some [1, 2, 3, 4, 5, 6, 7, 8, 1, 2, 3, 4, 5, 6, 7, 8]) := by
  decide

/-- C1 (failing input): for the 1 × 1 buffer `[42]` at level 0 of a pyramid built with
`levels = 1`, `ForwardTransform(0, quant = 0)` followed by `InverseTransform(1)` does not
return the buffer: already `ForwardTransform` leaves the source buffer, because the loop
for heights below 3 treats the single row as a pair of rows and `LinearToMallat` loads
`hiRow[0] = src[1]`, one cell past the one-cell buffer. -/
theorem roundTripOneLevel_1x1_fault :
    ForwardTransform (CWaveletTransform.new 1 1 1 (some [42])) 0 0 (fun _ => true)
        = .error .outOfBounds ∧
      roundTripOneLevel 1 1 [42] = .error .outOfBounds ∧
      roundTripOneLevel 1 1 [42] ≠ .ok (.NoError, some (1, 1, [42])) :=
  ⟨by decide, by decide, by decide⟩

/-- C3 (failing input): for the 2 × 2 buffer `[1, 2, 3, 4]` and `L = 2` levels, the forward
transform at levels 0 and 1 followed by the inverse transform at levels 2 and 1 does not
reproduce the buffer: the LL subband of level 1 is 1 × 1, and `ForwardTransform(1, 0)`
leaves that one-cell buffer (the same defect as in C1). With `L = 1` the same buffer
survives. -/
theorem roundTrip_2x2_two_levels_fault :
    roundTrip 2 2 2 [1, 2, 3, 4] = .error .outOfBounds ∧
      roundTrip 2 2 2 [1, 2, 3, 4] ≠ .ok (some [1, 2, 3, 4]) ∧
      roundTrip 2 2 1 [1, 2, 3, 4] = .ok (some [1, 2, 3, 4]) :=
  ⟨by decide, by decide, by decide⟩

/-! ## Level-length table -/

/-- C18 (as the code behaves): for every `level` with `0 ≤ level < nLevels` and a table of
`nLevels` entries, `GetEncodedLevelLength(level)` returns the entry
`m_levelLength[nLevels - 1 - level]` (the table is in stream order, entry 0 belongs to the
coarsest level `nLevels - 1` and the last entry to the finest level 0), and the index it
uses lies in `[0, nLevels)`. -/
theorem GetEncodedLevelLength_spec (nLevels : Nat) (m_levelLength : List Nat) (level : Nat)
    (hlen : m_levelLength.length = nLevels) (hl : level < nLevels) :
    0 ≤ levelLengthIndex nLevels level ∧ levelLengthIndex nLevels level < nLevels ∧
      levelLengthIndex nLevels level = ((nLevels - 1 - level : Nat) : Int) ∧
      GetEncodedLevelLength nLevels m_levelLength level
        = .ok (m_levelLength.getD (nLevels - 1 - level) 0) := by
  have hidx : levelLengthIndex nLevels level = ((nLevels - 1 - level : Nat) : Int) := by
    unfold levelLengthIndex; omega
  refine ⟨by rw [hidx]; omega, by rw [hidx]; omega, hidx, ?_⟩
  unfold GetEncodedLevelLength
  rw [hidx]
  have hlt : nLevels - 1 - level < m_levelLength.length := by omega
  simp [List.getD, List.getElem?_eq_getElem hlt]

theorem GetEncodedLevelLength_spec_witness :
    (([30, 20, 10] : List Nat).length = 3 ∧ 0 < 3) ∧
    0 ≤ levelLengthIndex 3 (0 : Nat) ∧ levelLengthIndex 3 (0 : Nat) < 3 ∧
      levelLengthIndex 3 (0 : Nat) = ((3 - 1 - 0 : Nat) : Int) ∧
      GetEncodedLevelLength 3 [30, 20, 10] (0 : Nat)
        = .ok (([30, 20, 10] : List Nat).getD (3 - 1 - 0) 0) :=
  ⟨by decide, GetEncodedLevelLength_spec 3 [30, 20, 10] 0 (by decide) (by decide)⟩

/-- C18 (as stated) fails: with two levels and the table `[10, 20]`,
`GetEncodedLevelLength(0)` returns `20`, the entry of index 1, not the entry `10` of
index 0 = `level`. -/
theorem GetEncodedLevelLength_ne_entry_of_level :
    GetEncodedLevelLength 2 [10, 20] 0 = .ok 20 ∧
      GetEncodedLevelLength 2 [10, 20] 0 ≠ .ok (([10, 20] : List Nat).getD 0 0) :=
  ⟨by decide, by decide⟩

/-! ## ROI tile indices: extreme tiles and multiples of the tile count -/

namespace CRoiIndices

theorem tileColumnOf_eq (r : CRoiIndices) (ind : List PGFRect)
    (hr : r.m_indices = some ind) (hlen : ind.length = r.m_nLevels)
    (width height x l : Nat) (hl : l < r.m_nLevels) :
    tileColumnOf r width height x l = .ok (tileIndexAfter width x (r.m_nLevels - 1 - l)) := by
  obtain ⟨rx, hrx, hg⟩ := ComputeTileIndex_min_get r ind hr hlen width height x true
  obtain ⟨a, ha, ea⟩ := hg l hl
  simp only [if_true] at ea
  simp only [tileColumnOf, hrx, ok_bind, ha, pure_eq_ok, ea]

theorem tileRowOf_eq (r : CRoiIndices) (ind : List PGFRect)
    (hr : r.m_indices = some ind) (hlen : ind.length = r.m_nLevels)
    (width height y l : Nat) (hl : l < r.m_nLevels) :
    tileRowOf r width height y l = .ok (tileIndexAfter height y (r.m_nLevels - 1 - l)) := by
  obtain ⟨ry, hry, hg⟩ := ComputeTileIndex_min_get r ind hr hlen width height y false
  obtain ⟨a, ha, ea⟩ := hg l hl
  simp only [Bool.false_eq_true, if_false] at ea
  simp only [tileRowOf, hry, ok_bind, ha, pure_eq_ok, ea]

/-- C11 (as stated) fails: for the 16 × 16 image with three levels and the ROI
`[4, 8) × [4, 8)`, the rectangle of level 0 is `(1, 1, 3, 3)`, but each of the pixel
columns 4, 5, 6, 7 of the ROI (and each of its pixel rows) lies in tile 1: the last tile
column `right_0 - 1 = 2` and the last tile row `bottom_0 - 1 = 2` contain no pixel of the
ROI. -/
theorem ComputeIndices_not_minimal :
    (((CRoiIndices.new.SetLevels 3).CreateIndices).ComputeIndices 16 16 ⟨4, 4, 8, 8⟩
        >>= fun r' => r'.GetIndices 0) = .ok ⟨1, 1, 3, 3⟩ ∧
      tileColumnOf ((CRoiIndices.new.SetLevels 3).CreateIndices) 16 16 4 0 = .ok 1 ∧
      tileColumnOf ((CRoiIndices.new.SetLevels 3).CreateIndices) 16 16 5 0 = .ok 1 ∧
      tileColumnOf ((CRoiIndices.new.SetLevels 3).CreateIndices) 16 16 6 0 = .ok 1 ∧
      tileColumnOf ((CRoiIndices.new.SetLevels 3).CreateIndices) 16 16 7 0 = .ok 1 ∧
      tileRowOf ((CRoiIndices.new.SetLevels 3).CreateIndices) 16 16 4 0 = .ok 1 ∧
      tileRowOf ((CRoiIndices.new.SetLevels 3).CreateIndices) 16 16 5 0 = .ok 1 ∧
      tileRowOf ((CRoiIndices.new.SetLevels 3).CreateIndices) 16 16 6 0 = .ok 1 ∧
      tileRowOf ((CRoiIndices.new.SetLevels 3).CreateIndices) 16 16 7 0 = .ok 1 := by
  refine ⟨by decide, by decide, by decide, by decide, by decide, by decide, by decide,
    by decide, by decide⟩

end CRoiIndices

namespace CRoiIndices

/-- C11 (amended): for every ROI `[left, right) × [top, bottom)` with `left ≤ right` and
`top ≤ bottom` and every level `l`, the tile rectangle `(left_l, top_l, right_l, bottom_l)`
that `ComputeIndices` stores is the smallest tile rectangle that covers the closed range
`[left, right] × [top, bottom]`: the tile column of every position `x` with
`left ≤ x ≤ right` lies in `[left_l, right_l)` and the tile row of every `y` with
`top ≤ y ≤ bottom` in `[top_l, bottom_l)`; and every tile rectangle `c` with that property
contains it. The tile column (row) of a position is the one the binary descent of
`ComputeTileIndex` assigns to it. The positions `right` and `bottom` are the first ones
after the ROI, so the rectangle has one tile column (row) more than the pixels of the ROI
need whenever `right` (`bottom`) is the first position of a tile. -/
theorem ComputeIndices_smallest_cover (r : CRoiIndices) (ind : List PGFRect)
    (hr : r.m_indices = some ind) (hlen : ind.length = r.m_nLevels)
    (hn : r.m_nLevels ≤ MaxLevel + 1) (width height : Nat) (rect : PGFRect)
    (hlr : rect.left ≤ rect.right) (htb : rect.top ≤ rect.bottom)
    (l : Nat) (hl : l < r.m_nLevels)
    (x y : Nat) (hx1 : rect.left ≤ x) (hx2 : x ≤ rect.right)
    (hy1 : rect.top ≤ y) (hy2 : y ≤ rect.bottom) (c : PGFRect)
    (hcx : ∀ x', rect.left ≤ x' → x' ≤ rect.right →
      (tileColumnOf r width height x' l).map (fun i => decide (c.left ≤ i ∧ i < c.right))
        = .ok true)
    (hcy : ∀ y', rect.top ≤ y' → y' ≤ rect.bottom →
      (tileRowOf r width height y' l).map (fun i => decide (c.top ≤ i ∧ i < c.bottom))
        = .ok true) :
    ∃ r' a, r.ComputeIndices width height rect = .ok r' ∧ r'.GetIndices l = .ok a ∧
      (tileColumnOf r width height x l).map (fun i => decide (a.left ≤ i ∧ i < a.right))
        = .ok true ∧
      (tileRowOf r width height y l).map (fun i => decide (a.top ≤ i ∧ i < a.bottom))
        = .ok true ∧
      c.left ≤ a.left ∧ a.right ≤ c.right ∧ c.top ≤ a.top ∧ a.bottom ≤ c.bottom := by
  obtain ⟨r', hrun, -, hget⟩ := ComputeIndices_get r ind hr hlen hn width height rect
  have hM : r.m_nLevels ≤ 31 := by simpa [MaxLevel] using hn
  have hk : r.m_nLevels - 1 - l ≤ 32 := by omega
  have ecol := fun p => tileColumnOf_eq r ind hr hlen width height p l hl
  have erow := fun p => tileRowOf_eq r ind hr hlen width height p l hl
  have m1 := tileIndexAfter_mono width rect.left x _ hx1 hk
  have m2 := tileIndexAfter_mono width x rect.right _ hx2 hk
  have m3 := tileIndexAfter_mono height rect.top y _ hy1 hk
  have m4 := tileIndexAfter_mono height y rect.bottom _ hy2 hk
  have c1 := hcx rect.left (Nat.le_refl _) hlr
  have c2 := hcx rect.right hlr (Nat.le_refl _)
  have c3 := hcy rect.top (Nat.le_refl _) htb
  have c4 := hcy rect.bottom htb (Nat.le_refl _)
  rw [ecol] at c1 c2
  rw [erow] at c3 c4
  simp only [Except.map, Except.ok.injEq, decide_eq_true_eq] at c1 c2 c3 c4
  refine ⟨r', _, hrun, hget l hl, ?_, ?_, ?_, ?_, ?_, ?_⟩
  · rw [ecol]
    simp only [Except.map, Except.ok.injEq, decide_eq_true_eq]
    omega
  · rw [erow]
    simp only [Except.map, Except.ok.injEq, decide_eq_true_eq]
    omega
  · simp only; omega
  · simp only; omega
  · simp only; omega
  · simp only; omega

theorem ComputeIndices_smallest_cover_witness :
    (((CRoiIndices.new.SetLevels 3).CreateIndices).m_indices
        = some (List.replicate 3 ⟨0, 0, 0, 0⟩) ∧
      (List.replicate 3 (⟨0, 0, 0, 0⟩ : PGFRect)).length
        = ((CRoiIndices.new.SetLevels 3).CreateIndices).m_nLevels ∧
      ((CRoiIndices.new.SetLevels 3).CreateIndices).m_nLevels ≤ MaxLevel + 1 ∧
      (⟨4, 4, 8, 8⟩ : PGFRect).left ≤ (⟨4, 4, 8, 8⟩ : PGFRect).right ∧
      (⟨4, 4, 8, 8⟩ : PGFRect).top ≤ (⟨4, 4, 8, 8⟩ : PGFRect).bottom ∧
      0 < ((CRoiIndices.new.SetLevels 3).CreateIndices).m_nLevels ∧
      (⟨4, 4, 8, 8⟩ : PGFRect).left ≤ 8 ∧ 8 ≤ (⟨4, 4, 8, 8⟩ : PGFRect).right ∧
      (⟨4, 4, 8, 8⟩ : PGFRect).top ≤ 5 ∧ 5 ≤ (⟨4, 4, 8, 8⟩ : PGFRect).bottom ∧
      (∀ x', (⟨4, 4, 8, 8⟩ : PGFRect).left ≤ x' → x' ≤ (⟨4, 4, 8, 8⟩ : PGFRect).right →
        (tileColumnOf ((CRoiIndices.new.SetLevels 3).CreateIndices) 16 16 x' 0).map
          (fun i => decide ((⟨0, 1, 4, 3⟩ : PGFRect).left ≤ i ∧ i < (⟨0, 1, 4, 3⟩ : PGFRect).right))
          = .ok true) ∧
      (∀ y', (⟨4, 4, 8, 8⟩ : PGFRect).top ≤ y' → y' ≤ (⟨4, 4, 8, 8⟩ : PGFRect).bottom →
        (tileRowOf ((CRoiIndices.new.SetLevels 3).CreateIndices) 16 16 y' 0).map
          (fun i => decide ((⟨0, 1, 4, 3⟩ : PGFRect).top ≤ i ∧ i < (⟨0, 1, 4, 3⟩ : PGFRect).bottom))
          = .ok true)) ∧
    ∃ r' a, ((CRoiIndices.new.SetLevels 3).CreateIndices).ComputeIndices 16 16 ⟨4, 4, 8, 8⟩
        = .ok r' ∧ r'.GetIndices 0 = .ok a ∧
      (tileColumnOf ((CRoiIndices.new.SetLevels 3).CreateIndices) 16 16 8 0).map
          (fun i => decide (a.left ≤ i ∧ i < a.right)) = .ok true ∧
      (tileRowOf ((CRoiIndices.new.SetLevels 3).CreateIndices) 16 16 5 0).map
          (fun i => decide (a.top ≤ i ∧ i < a.bottom)) = .ok true ∧
      (⟨0, 1, 4, 3⟩ : PGFRect).left ≤ a.left ∧ a.right ≤ (⟨0, 1, 4, 3⟩ : PGFRect).right ∧
      (⟨0, 1, 4, 3⟩ : PGFRect).top ≤ a.top ∧ a.bottom ≤ (⟨0, 1, 4, 3⟩ : PGFRect).bottom :=
  ⟨⟨by decide, by decide, by decide, by decide, by decide, by decide, by decide, by decide,
      by decide, by decide,
      fun x' h1 h2 => by
        simp only at h1 h2
        interval_cases x' <;> decide,
      fun y' h1 h2 => by
        simp only at h1 h2
        interval_cases y' <;> decide⟩,
    ComputeIndices_smallest_cover ((CRoiIndices.new.SetLevels 3).CreateIndices)
      (List.replicate 3 ⟨0, 0, 0, 0⟩) (by decide) (by decide) (by decide) 16 16 ⟨4, 4, 8, 8⟩
      (by decide) (by decide) 0 (by decide) 8 5 (by decide) (by decide) (by decide) (by decide)
      ⟨0, 1, 4, 3⟩
      (fun x' h1 h2 => by
        simp only at h1 h2
        interval_cases x' <;> decide)
      (fun y' h1 h2 => by
        simp only at h1 h2
        interval_cases y' <;> decide)⟩

end CRoiIndices

theorem descend_exact (pos s : Nat) (hs : 0 < s) : ∀ (k ti mn mx : Nat),
    (ti + 1) * 2 ^ k ≤ 2 ^ 32 → mx = mn + s * 2 ^ k → mn ≤ pos → pos < mx →
    2 * mx ≤ 2 ^ 32 →
    (descend pos k (ti, mn, mx)).1 = ti * 2 ^ k + (pos - mn) / s := by
  intro k
  induction k with
  | zero =>
    intro ti mn mx _ hmx hlo hhi _
    have : (pos - mn) / s = 0 := Nat.div_eq_of_lt (by omega)
    simp [descend, this]
  | succ k ih =>
    intro ti mn mx hb hmx hlo hhi hsum
    have hP : 0 < 2 ^ k := Nat.pos_pow_of_pos k (by decide)
    have e1 : (ti + 1) * 2 ^ (k + 1) = 2 * (ti * 2 ^ k) + 2 * 2 ^ k := by ring
    have e0 : ti * 2 ^ (k + 1) = 2 * (ti * 2 ^ k) := by ring
    have eQ : s * 2 ^ (k + 1) = 2 * (s * 2 ^ k) := by ring
    have hti : ti ≤ ti * 2 ^ k := Nat.le_mul_of_pos_right ti hP
    have hshl : (ti <<< 1) % 2 ^ 32 = 2 * ti := by
      rw [Nat.shiftLeft_eq, Nat.mod_eq_of_lt (by omega)]; omega
    have hinc : (2 * ti + 1) % 2 ^ 32 = 2 * ti + 1 := Nat.mod_eq_of_lt (by omega)
    have hm : ((mn + mx) % 2 ^ 32) / 2 = mn + s * 2 ^ k := by
      rw [Nat.mod_eq_of_lt (by omega)]; omega
    simp only [descend, hshl, hinc, hm]
    by_cases hge : pos ≥ mn + s * 2 ^ k
    · rw [if_pos hge]
      have h := ih (2 * ti + 1) (mn + s * 2 ^ k) mx (by
        have : (2 * ti + 1 + 1) * 2 ^ k = 2 * (ti * 2 ^ k) + 2 * 2 ^ k := by ring
        omega) (by omega) hge hhi (by omega)
      rw [h]
      have e2 : (2 * ti + 1) * 2 ^ k = 2 * (ti * 2 ^ k) + 2 ^ k := by ring
      have e3 : pos - (mn + s * 2 ^ k) = (pos - mn) - s * 2 ^ k := by omega
      have e4 : ((pos - mn) - s * 2 ^ k) / s = (pos - mn) / s - 2 ^ k :=
        Nat.sub_mul_div _ _ _ (by omega)
      have e5 : 2 ^ k ≤ (pos - mn) / s := by
        rw [Nat.le_div_iff_mul_le hs, Nat.mul_comm]; omega
      rw [e2, e3, e4, e0]
      omega
    · rw [if_neg hge]
      have h := ih (2 * ti) mn (mn + s * 2 ^ k) (by
        have : (2 * ti + 1) * 2 ^ k = 2 * (ti * 2 ^ k) + 2 ^ k := by ring
        omega) rfl hlo (by omega) (by omega)
      rw [h]
      have e2 : (2 * ti) * 2 ^ k = 2 * (ti * 2 ^ k) := by ring
      rw [e2, e0]

theorem tileIndexAfter_exact (len pos k s : Nat) (hk : k ≤ 32) (hlen : len = 2 ^ k * s)
    (hpos : pos < len) (hno : len < 2 ^ 31) :
    tileIndexAfter len pos k = pos / (len / 2 ^ k) := by
  have hP : 0 < 2 ^ k := Nat.pos_pow_of_pos k (by decide)
  have hs : 0 < s := by
    rcases Nat.eq_zero_or_pos s with h | h
    · subst h; omega
    · exact h
  have hdiv : len / 2 ^ k = s := by rw [hlen, Nat.mul_div_cancel_left _ hP]
  have h := descend_exact pos s hs k 0 0 len (by
    rw [Nat.zero_add, Nat.one_mul]; exact Nat.pow_le_pow_right (by decide) hk)
    (by rw [hlen, Nat.zero_add, Nat.mul_comm]) (Nat.zero_le _) hpos (by omega)
  simpa [tileIndexAfter, hdiv] using h

namespace CRoiIndices

/-- C12 (as the code behaves): on a table of at most `MaxLevel + 1` levels, for an image
whose width and height are below `2 ^ 31` and multiples of `N = GetNofTiles(0)` (tile
sides `W / N` and `H / N`) and every ROI with bounds strictly below the width and the
height, the rectangle of level 0 is `(floor(left / (W / N)), floor(top / (H / N)),
floor(right / (W / N)) + 1, floor(bottom / (H / N)) + 1)`: the tile containing `left`,
`top`, and one more than the tile containing `right`, `bottom`. -/
theorem ComputeIndices_level0_multiple (r : CRoiIndices) (ind : List PGFRect)
    (hr : r.m_indices = some ind) (hlen : ind.length = r.m_nLevels)
    (hn : r.m_nLevels ≤ MaxLevel + 1) (h0 : 0 < r.m_nLevels) (width height : Nat)
    (rect : PGFRect)
    (hW : r.GetNofTiles 0 ∣ width) (hH : r.GetNofTiles 0 ∣ height)
    (hWb : width < 2 ^ 31) (hHb : height < 2 ^ 31)
    (h1 : rect.left < width) (h2 : rect.right < width)
    (h3 : rect.top < height) (h4 : rect.bottom < height) :
    ∃ r', r.ComputeIndices width height rect = .ok r' ∧
      r'.GetIndices 0 = .ok
        { left := rect.left / (width / r'.GetNofTiles 0),
          top := rect.top / (height / r'.GetNofTiles 0),
          right := rect.right / (width / r'.GetNofTiles 0) + 1,
          bottom := rect.bottom / (height / r'.GetNofTiles 0) + 1 } := by
  obtain ⟨r', hrun, hn', hget⟩ := ComputeIndices_get r ind hr hlen hn width height rect
  have hM : r.m_nLevels ≤ 31 := by simpa [MaxLevel] using hn
  have hN : r.GetNofTiles 0 = 2 ^ (r.m_nLevels - 1 - 0) := by
    rw [GetNofTiles_eq r 0 hn, Nat.sub_right_comm]
  have hN' : r'.GetNofTiles 0 = 2 ^ (r.m_nLevels - 1 - 0) := by
    rw [GetNofTiles_eq r' 0 (by rw [hn']; exact hn), hn', Nat.sub_right_comm]
  obtain ⟨sx, hsx⟩ := hW
  obtain ⟨sy, hsy⟩ := hH
  rw [hN] at hsx hsy
  have k32 : r.m_nLevels - 1 - 0 ≤ 32 := by omega
  refine ⟨r', hrun, ?_⟩
  rw [hget 0 h0, hN']
  rw [tileIndexAfter_exact width rect.left _ sx k32 hsx h1 hWb,
    tileIndexAfter_exact width rect.right _ sx k32 hsx h2 hWb,
    tileIndexAfter_exact height rect.top _ sy k32 hsy h3 hHb,
    tileIndexAfter_exact height rect.bottom _ sy k32 hsy h4 hHb]

theorem ComputeIndices_level0_multiple_witness :
    (((CRoiIndices.new.SetLevels 3).CreateIndices).m_indices
        = some (List.replicate 3 ⟨0, 0, 0, 0⟩) ∧
      (List.replicate 3 (⟨0, 0, 0, 0⟩ : PGFRect)).length
        = ((CRoiIndices.new.SetLevels 3).CreateIndices).m_nLevels ∧
      ((CRoiIndices.new.SetLevels 3).CreateIndices).m_nLevels ≤ MaxLevel + 1 ∧
      0 < ((CRoiIndices.new.SetLevels 3).CreateIndices).m_nLevels ∧
      ((CRoiIndices.new.SetLevels 3).CreateIndices).GetNofTiles 0 ∣ 16 ∧
      ((CRoiIndices.new.SetLevels 3).CreateIndices).GetNofTiles 0 ∣ 16 ∧
      16 < 2 ^ 31 ∧ 16 < 2 ^ 31 ∧
      (⟨4, 4, 12, 12⟩ : PGFRect).left < 16 ∧ (⟨4, 4, 12, 12⟩ : PGFRect).right < 16 ∧
      (⟨4, 4, 12, 12⟩ : PGFRect).top < 16 ∧ (⟨4, 4, 12, 12⟩ : PGFRect).bottom < 16) ∧
    ∃ r', ((CRoiIndices.new.SetLevels 3).CreateIndices).ComputeIndices 16 16 ⟨4, 4, 12, 12⟩
        = .ok r' ∧
      r'.GetIndices 0 = .ok
        { left := (⟨4, 4, 12, 12⟩ : PGFRect).left / (16 / r'.GetNofTiles 0),
          top := (⟨4, 4, 12, 12⟩ : PGFRect).top / (16 / r'.GetNofTiles 0),
          right := (⟨4, 4, 12, 12⟩ : PGFRect).right / (16 / r'.GetNofTiles 0) + 1,
          bottom := (⟨4, 4, 12, 12⟩ : PGFRect).bottom / (16 / r'.GetNofTiles 0) + 1 } :=
  ⟨by decide, ComputeIndices_level0_multiple ((CRoiIndices.new.SetLevels 3).CreateIndices)
    (List.replicate 3 ⟨0, 0, 0, 0⟩) (by decide) (by decide) (by decide) (by decide) 16 16
    ⟨4, 4, 12, 12⟩ (by decide) (by decide) (by decide) (by decide) (by decide) (by decide)
    (by decide) (by decide)⟩

/-- C12 (as stated) fails for large axis lengths: with three levels (`N = 4`), the width
`4000000000` (a multiple of 4, tile side `1000000000`) and the ROI
`(2500000000, 0, 2500000001, 1)`, the rectangle of level 0 has `left = 3` and `right = 4`,
whereas `floor(left / s) = 2` and `floor(right / s) + 1 = 3`: in the second round of the
descent `tileMin + tileMax = 6000000000` wraps around `2 ^ 32`. -/
theorem ComputeIndices_level0_wraps :
    (((CRoiIndices.new.SetLevels 3).CreateIndices).ComputeIndices 4000000000 4
        ⟨2500000000, 0, 2500000001, 1⟩ >>= fun r' => r'.GetIndices 0)
        = .ok ⟨3, 0, 4, 2⟩ ∧
      ((CRoiIndices.new.SetLevels 3).CreateIndices).GetNofTiles 0 = 4 ∧
      4000000000 % 4 = 0 ∧ 4 % 4 = 0 ∧
      2500000000 / (4000000000 / 4) = 2 ∧ 2500000001 / (4000000000 / 4) + 1 = 3 :=
  ⟨by decide, by decide, by decide, by decide, by decide, by decide⟩

end CRoiIndices

/-! ## Quantization after the forward transform -/

theorem bind_eq_ok {α β : Type} {x : Exec α} {f : α → Exec β} {b : β}
    (h : (x >>= f) = .ok b) : ∃ a, x = .ok a ∧ f a = .ok b := by
  cases x with
  | error e => cases h
  | ok a => exact ⟨a, rfl, h⟩

/-- Partial-correctness rule for `whileLoop`: a property that holds before the loop and
that every fault-free run of the body keeps holds after every fault-free run of the
loop. -/
theorem whileLoop_keeps {σ : Type} (cond : σ → Bool) (body : σ → Exec σ) (I : σ → Prop)
    (step : ∀ s s', I s → body s = .ok s' → I s') :
    ∀ (fuel : Nat) (s s' : σ), I s → whileLoop cond body fuel s = .ok s' → I s' := by
  intro fuel
  induction fuel with
  | zero =>
    intro s s' hI h
    by_cases hc : cond s = true
    · simp [whileLoop, hc] at h
    · simp [whileLoop, hc] at h
      cases h
      exact hI
  | succ n ih =>
    intro s s' hI h
    by_cases hc : cond s = true
    · simp only [whileLoop, hc, if_true] at h
      obtain ⟨s1, h1, h2⟩ := bind_eq_ok h
      exact ih s1 s' (step s s1 hI h1) h2
    · simp [whileLoop, hc] at h
      cases h
      exact hI

theorem CSubband.WriteBuffer_isSome {b b' : CSubband} {v : Int}
    (h : b.WriteBuffer v = .ok b') : b'.buffer.isSome = true := by
  unfold CSubband.WriteBuffer at h
  cases hb : b.buffer with
  | none => simp [hb] at h
  | some data =>
    simp only [hb] at h
    obtain ⟨m, _, h2⟩ := bind_eq_ok h
    cases h2
    rfl

theorem LinearToMallat_allocated {d d' : Bands} {mem : List Int} {loRow width : Nat}
    {hiRow : Option Nat} (hd : d.allocated)
    (h : LinearToMallat d mem loRow hiRow width = .ok d') : d'.allocated := by
  unfold LinearToMallat at h
  cases hiRow with
  | some hi =>
    simp only at h
    obtain ⟨s, hs, h⟩ := bind_eq_ok h
    have hI : s.d.allocated := by
      refine whileLoop_keeps _ _ (fun (s : MallatState) => s.d.allocated) ?_ _ _ _ hd hs
      intro a a' _ hb
      obtain ⟨_, _, hb⟩ := bind_eq_ok hb
      obtain ⟨ll, hll, hb⟩ := bind_eq_ok hb
      obtain ⟨_, _, hb⟩ := bind_eq_ok hb
      obtain ⟨hl, hhl, hb⟩ := bind_eq_ok hb
      obtain ⟨_, _, hb⟩ := bind_eq_ok hb
      obtain ⟨lh, hlh, hb⟩ := bind_eq_ok hb
      obtain ⟨_, _, hb⟩ := bind_eq_ok hb
      obtain ⟨hh, hhh, hb⟩ := bind_eq_ok hb
      cases hb
      exact ⟨CSubband.WriteBuffer_isSome hll, CSubband.WriteBuffer_isSome hhl,
        CSubband.WriteBuffer_isSome hlh, CSubband.WriteBuffer_isSome hhh⟩
    split at h
    · obtain ⟨_, _, h⟩ := bind_eq_ok h
      obtain ⟨ll, hll, h⟩ := bind_eq_ok h
      obtain ⟨_, _, h⟩ := bind_eq_ok h
      obtain ⟨lh, hlh, h⟩ := bind_eq_ok h
      cases h
      exact ⟨CSubband.WriteBuffer_isSome hll, hI.2.1, CSubband.WriteBuffer_isSome hlh, hI.2.2.2⟩
    · cases h
      exact hI
  | none =>
    simp only at h
    obtain ⟨s, hs, h⟩ := bind_eq_ok h
    have hI : s.d.allocated := by
      refine whileLoop_keeps _ _ (fun (s : MallatState) => s.d.allocated) ?_ _ _ _ hd hs
      intro a a' ha hb
      obtain ⟨_, _, hb⟩ := bind_eq_ok hb
      obtain ⟨ll, hll, hb⟩ := bind_eq_ok hb
      obtain ⟨_, _, hb⟩ := bind_eq_ok hb
      obtain ⟨hl, hhl, hb⟩ := bind_eq_ok hb
      cases hb
      exact ⟨CSubband.WriteBuffer_isSome hll, CSubband.WriteBuffer_isSome hhl, ha.2.2.1,
        ha.2.2.2⟩
    split at h
    · obtain ⟨_, _, h⟩ := bind_eq_ok h
      obtain ⟨ll, hll, h⟩ := bind_eq_ok h
      cases h
      exact ⟨CSubband.WriteBuffer_isSome hll, hI.2.1, hI.2.2.1, hI.2.2.2⟩
    · cases h
      exact hI

theorem ForwardTransform.rows_allocated {src : List Int} {d d' : Bands} {width height : Nat}
    (hd : d.allocated) (h : ForwardTransform.rows src d width height = .ok d') :
    d'.allocated := by
  unfold ForwardTransform.rows at h
  split at h
  · obtain ⟨_, _, h⟩ := bind_eq_ok h
    obtain ⟨_, _, h⟩ := bind_eq_ok h
    obtain ⟨_, _, h⟩ := bind_eq_ok h
    obtain ⟨_, _, h⟩ := bind_eq_ok h
    obtain ⟨d1, hd1, h⟩ := bind_eq_ok h
    have h1 := LinearToMallat_allocated hd hd1
    obtain ⟨s, hs, h⟩ := bind_eq_ok h
    have hI : s.d.allocated := by
      refine whileLoop_keeps _ _ (fun (s : RowState) => s.d.allocated) ?_ _ _ _ h1 hs
      intro a a' ha hb
      obtain ⟨_, _, hb⟩ := bind_eq_ok hb
      obtain ⟨_, _, hb⟩ := bind_eq_ok hb
      obtain ⟨_, _, hb⟩ := bind_eq_ok hb
      obtain ⟨d2, hd2, hb⟩ := bind_eq_ok hb
      cases hb
      exact LinearToMallat_allocated ha hd2
    split at h
    · obtain ⟨_, _, h⟩ := bind_eq_ok h
      exact LinearToMallat_allocated hI h
    · obtain ⟨_, _, h⟩ := bind_eq_ok h
      obtain ⟨_, _, h⟩ := bind_eq_ok h
      exact LinearToMallat_allocated hI h
  · obtain ⟨s, hs, h⟩ := bind_eq_ok h
    have hI : s.d.allocated := by
      refine whileLoop_keeps _ _ (fun (s : RowState) => s.d.allocated) ?_ _ _ _ hd hs
      intro a a' ha hb
      obtain ⟨_, _, hb⟩ := bind_eq_ok hb
      obtain ⟨_, _, hb⟩ := bind_eq_ok hb
      obtain ⟨d2, hd2, hb⟩ := bind_eq_ok hb
      cases hb
      exact LinearToMallat_allocated ha hd2
    split at h
    · exact LinearToMallat_allocated hI h
    · cases h
      exact hI

theorem CSubband.AllocMemory_isSome {b : CSubband} {ok : Bool}
    (h : (b.AllocMemory ok).1 = true) : (b.AllocMemory ok).2.buffer.isSome = true := by
  unfold CSubband.AllocMemory at h ⊢
  cases hb : b.buffer with
  | some data => simp [hb]
  | none =>
    cases ok with
    | true => simp
    | false => simp [hb] at h

theorem CSubband.AllocMemory_keeps {b : CSubband} {ok : Bool}
    (h : b.buffer.isSome = true) : (b.AllocMemory ok).2.buffer.isSome = true := by
  unfold CSubband.AllocMemory
  cases hb : b.buffer with
  | some data => simp [hb]
  | none => simp [hb] at h

theorem allocBands_allocated {d : Bands} {alloc : Orientation → Bool}
    (h : (allocBands d alloc).1 = true) : (allocBands d alloc).2.allocated := by
  unfold allocBands at h ⊢
  simp only at h ⊢
  by_cases h1 : (d.ll.AllocMemory (alloc .LL)).1 = true
  · by_cases h2 : (d.hl.AllocMemory (alloc .HL)).1 = true
    · by_cases h3 : (d.lh.AllocMemory (alloc .LH)).1 = true
      · by_cases h4 : (d.hh.AllocMemory (alloc .HH)).1 = true
        · simp only [h1, h2, h3, h4, Bool.not_true, Bool.false_eq_true, if_false]
          exact ⟨CSubband.AllocMemory_isSome h1, CSubband.AllocMemory_isSome h2,
            CSubband.AllocMemory_isSome h3, CSubband.AllocMemory_isSome h4⟩
        · simp [h1, h2, h3, h4] at h
      · simp [h1, h2, h3] at h
    · simp [h1, h2] at h
  · simp [h1] at h

theorem CSubband.Quantize_ok {b : CSubband} (q : Nat) (h : b.buffer.isSome = true) :
    b.Quantize q = .ok (b.quantized q) := by
  unfold CSubband.Quantize CSubband.quantized
  cases hb : b.buffer with
  | none => simp [hb] at h
  | some data => rfl

theorem CWaveletTransform.bands_setBands {t : CWaveletTransform} {l : Nat} {b b0 : Bands}
    (h : t.bands l = .ok b0) : (t.setBands l b).bands l = .ok b := by
  unfold CWaveletTransform.bands at h ⊢
  unfold CWaveletTransform.setBands
  cases hl : t.m_subband[l]? with
  | none => simp [hl] at h
  | some x =>
    have hlt : l < t.m_subband.length := by
      by_contra hc
      have : t.m_subband[l]? = none := List.getElem?_eq_none (by omega)
      simp [this] at hl
    simp [List.getElem?_set_self, hlt]

theorem CWaveletTransform.bands_setBands_ne {t : CWaveletTransform} {l k : Nat} {b : Bands}
    (h : l ≠ k) : (t.setBands l b).bands k = t.bands k := by
  unfold CWaveletTransform.bands CWaveletTransform.setBands
  simp [List.getElem?_set_ne h]

/-- The forward transform of a level whose row pass runs without fault: the call returns
`NoError`, the destination level holds the result `d` of the row pass with the subbands
of `quantizedSet` quantized and the others untouched, and the source LL is freed. -/
theorem ForwardTransform_of_rows (t : CWaveletTransform) (level : Nat) (quant : Int)
    (alloc : Orientation → Bool) (dest srcBands d : Bands) (src : List Int)
    (hd : t.bands (level + 1) = .ok dest) (hs : t.bands level = .ok srcBands)
    (hbuf : srcBands.ll.buffer = some src) (halloc : (allocBands dest alloc).1 = true)
    (hrows : ForwardTransform.rows src (allocBands dest alloc).2 srcBands.ll.width
      srcBands.ll.height = .ok d) :
    ForwardTransform t level quant alloc =
      .ok (.NoError, (t.setBands (level + 1)
        (quantizeBands (quantizedSet quant (level + 1) t.m_nLevels) quant.toNat d)).setBands
          level { srcBands with ll := srcBands.ll.FreeMemory }) := by
  have hall : d.allocated := ForwardTransform.rows_allocated (allocBands_allocated halloc) hrows
  obtain ⟨a1, a2, a3, a4⟩ := hall
  unfold ForwardTransform
  simp only [hd, hs, ok_bind, halloc, Bool.not_true, Bool.false_eq_true, if_false, hbuf, hrows]
  by_cases hq : quant > 0
  · by_cases hl : level + 1 = t.m_nLevels - 1
    · simp [hq, hl, CSubband.Quantize_ok _ a1, CSubband.Quantize_ok _ a2,
        CSubband.Quantize_ok _ a3, CSubband.Quantize_ok _ a4, ok_bind, pure_eq_ok,
        quantizeBands, quantizedSet]
    · simp [hq, hl, CSubband.Quantize_ok _ a2,
        CSubband.Quantize_ok _ a3, CSubband.Quantize_ok _ a4, ok_bind, pure_eq_ok,
        quantizeBands, quantizedSet]
  · simp [hq, pure_eq_ok, ok_bind, quantizeBands, quantizedSet]

/-- C13: `ForwardTransform(l, q)` quantizes exactly the destination subbands of
`quantizedSet`: whenever the destination buffers are granted and the row pass over the
source LL runs without fault and leaves the subbands `d`, the call returns `NoError` and
level `l + 1` then holds `d` with `Quantize(q)` applied to HL, LH and HH when `q > 0`, to
LL as well when moreover `l + 1 = m_nLevels - 1`, and to no subband when `q ≤ 0`; every
subband outside that set is `d`'s, untouched. -/
theorem ForwardTransform_quantizes_exactly (t : CWaveletTransform) (level : Nat) (quant : Int)
    (alloc : Orientation → Bool) (dest srcBands d : Bands) (src : List Int)
    (hd : t.bands (level + 1) = .ok dest) (hs : t.bands level = .ok srcBands)
    (hbuf : srcBands.ll.buffer = some src) (halloc : (allocBands dest alloc).1 = true)
    (hrows : ForwardTransform.rows src (allocBands dest alloc).2 srcBands.ll.width
      srcBands.ll.height = .ok d) :
    (ForwardTransform t level quant alloc).map (fun r => (r.1, r.2.bands (level + 1))) =
      .ok (.NoError,
        .ok (quantizeBands (quantizedSet quant (level + 1) t.m_nLevels) quant.toNat d)) := by
  rw [ForwardTransform_of_rows t level quant alloc dest srcBands d src hd hs hbuf halloc hrows]
  simp only [Except.map]
  rw [CWaveletTransform.bands_setBands_ne (Nat.ne_add_one level),
    CWaveletTransform.bands_setBands hd]

theorem ForwardTransform_quantizes_exactly_witness :
    ((CWaveletTransform.new 4 2 2 (some [9, 2, 3, 4, 5, 6, 7, 8])).bands (0 + 1) = .ok
        { ll := CSubband.Initialize 2 1 1 .LL, hl := CSubband.Initialize 2 1 1 .HL,
          lh := CSubband.Initialize 2 1 1 .LH, hh := CSubband.Initialize 2 1 1 .HH } ∧
      (CWaveletTransform.new 4 2 2 (some [9, 2, 3, 4, 5, 6, 7, 8])).bands 0 = .ok
        { ll := (CSubband.Initialize 4 2 0 .LL).SetBuffer [9, 2, 3, 4, 5, 6, 7, 8],
          hl := CSubband.Initialize 4 2 0 .HL, lh := CSubband.Initialize 4 2 0 .LH,
          hh := CSubband.Initialize 4 2 0 .HH }) ∧
    (ForwardTransform (CWaveletTransform.new 4 2 2 (some [9, 2, 3, 4, 5, 6, 7, 8])) 0 1
        (fun _ => true)).map (fun r => (r.1, r.2.bands (0 + 1))) =
      .ok (.NoError, .ok (quantizeBands (quantizedSet 1 (0 + 1) 3) (1 : Int).toNat
        { ll := { CSubband.Initialize 2 1 1 .LL with buffer := some [9, 3], cursor := 2 },
          hl := { CSubband.Initialize 2 1 1 .HL with buffer := some [2, 4], cursor := 2 },
          lh := { CSubband.Initialize 2 1 1 .LH with buffer := some [5, 7], cursor := 2 },
          hh := { CSubband.Initialize 2 1 1 .HH with buffer := some [6, 8], cursor := 2 } })) :=
  ⟨⟨by decide, by decide⟩,
    ForwardTransform_quantizes_exactly (CWaveletTransform.new 4 2 2 (some [9, 2, 3, 4, 5, 6, 7, 8]))
      0 1 (fun _ => true)
      { ll := CSubband.Initialize 2 1 1 .LL, hl := CSubband.Initialize 2 1 1 .HL,
        lh := CSubband.Initialize 2 1 1 .LH, hh := CSubband.Initialize 2 1 1 .HH }
      { ll := (CSubband.Initialize 4 2 0 .LL).SetBuffer [9, 2, 3, 4, 5, 6, 7, 8],
        hl := CSubband.Initialize 4 2 0 .HL, lh := CSubband.Initialize 4 2 0 .LH,
        hh := CSubband.Initialize 4 2 0 .HH }
      { ll := { CSubband.Initialize 2 1 1 .LL with buffer := some [9, 3], cursor := 2 },
        hl := { CSubband.Initialize 2 1 1 .HL with buffer := some [2, 4], cursor := 2 },
        lh := { CSubband.Initialize 2 1 1 .LH with buffer := some [5, 7], cursor := 2 },
        hh := { CSubband.Initialize 2 1 1 .HH with buffer := some [6, 8], cursor := 2 } }
      [9, 2, 3, 4, 5, 6, 7, 8] (by decide) (by decide) rfl (by decide) (by decide)⟩

/-- C14 (as stated) fails: for the one-level pyramid of the 2 × 2 buffer `[9, 2, 3, 4]`
(`levels = 1`, hence `m_nLevels = 2`) the destination level 1 is the final level
`m_nLevels - 1`, so `ForwardTransform(0, 1)` quantizes LL: its coefficient is
`9 >> 1 = 4`, while the lossless call `ForwardTransform(0, 0)` leaves `9`. -/
theorem ForwardTransform_one_level_LL_quantized :
    quantizedSet 1 (0 + 1) (CWaveletTransform.new 2 2 1 (some [9, 2, 3, 4])).m_nLevels .LL
        = true ∧
      (ForwardTransform (CWaveletTransform.new 2 2 1 (some [9, 2, 3, 4])) 0 0
        (fun _ => true)).map (fun r => (r.1, (r.2.bands 1).map (fun b => b.ll.buffer)))
        = .ok (.NoError, .ok (some [9])) ∧
      (ForwardTransform (CWaveletTransform.new 2 2 1 (some [9, 2, 3, 4])) 0 1
        (fun _ => true)).map (fun r => (r.1, (r.2.bands 1).map (fun b => b.ll.buffer)))
        = .ok (.NoError, .ok (some [4])) :=
  ⟨by decide, by decide, by decide⟩

/-- C14 (amended): for a one-level image (`levels = 1`, so `m_nLevels = 2` and level 1 is
the final level) `ForwardTransform(0, q)` with `q > 0` applies `Quantize(q)` to LL of
level 1 as it does to HL, LH and HH: whenever the destination buffers are granted and the
row pass runs without fault and leaves the subbands `d`, the call returns `NoError` and
all four subbands of level 1 are those of `d`, quantized. -/
theorem ForwardTransform_one_level_quantizes_all (W H : Nat) (data : Option (List Int))
    (quant : Int) (alloc : Orientation → Bool) (dest srcBands d : Bands) (src : List Int)
    (hq : quant > 0)
    (hd : (CWaveletTransform.new W H 1 data).bands (0 + 1) = .ok dest)
    (hs : (CWaveletTransform.new W H 1 data).bands 0 = .ok srcBands)
    (hbuf : srcBands.ll.buffer = some src) (halloc : (allocBands dest alloc).1 = true)
    (hrows : ForwardTransform.rows src (allocBands dest alloc).2 srcBands.ll.width
      srcBands.ll.height = .ok d) :
    (ForwardTransform (CWaveletTransform.new W H 1 data) 0 quant alloc).map
        (fun r => (r.1, r.2.bands (0 + 1))) =
      .ok (.NoError, .ok { ll := d.ll.quantized quant.toNat, hl := d.hl.quantized quant.toNat,
                           lh := d.lh.quantized quant.toNat, hh := d.hh.quantized quant.toNat }) := by
  rw [ForwardTransform_of_rows _ 0 quant alloc dest srcBands d src hd hs hbuf halloc hrows]
  simp only [Except.map]
  rw [CWaveletTransform.bands_setBands_ne (Nat.ne_add_one 0),
    CWaveletTransform.bands_setBands hd]
  simp [quantizeBands, quantizedSet, hq, CWaveletTransform.new]

theorem ForwardTransform_one_level_quantizes_all_witness :
    ((1 : Int) > 0 ∧
      (CWaveletTransform.new 2 2 1 (some [9, 2, 3, 4])).bands (0 + 1) = .ok
        { ll := CSubband.Initialize 1 1 1 .LL, hl := CSubband.Initialize 1 1 1 .HL,
          lh := CSubband.Initialize 1 1 1 .LH, hh := CSubband.Initialize 1 1 1 .HH } ∧
      (CWaveletTransform.new 2 2 1 (some [9, 2, 3, 4])).bands 0 = .ok
        { ll := (CSubband.Initialize 2 2 0 .LL).SetBuffer [9, 2, 3, 4],
          hl := CSubband.Initialize 2 2 0 .HL, lh := CSubband.Initialize 2 2 0 .LH,
          hh := CSubband.Initialize 2 2 0 .HH }) ∧
    (ForwardTransform (CWaveletTransform.new 2 2 1 (some [9, 2, 3, 4])) 0 1
        (fun _ => true)).map (fun r => (r.1, r.2.bands (0 + 1))) =
      .ok (.NoError, .ok
        { ll := CSubband.quantized
            { CSubband.Initialize 1 1 1 .LL with buffer := some [9], cursor := 1 } (1 : Int).toNat,
          hl := CSubband.quantized
            { CSubband.Initialize 1 1 1 .HL with buffer := some [2], cursor := 1 } (1 : Int).toNat,
          lh := CSubband.quantized
            { CSubband.Initialize 1 1 1 .LH with buffer := some [3], cursor := 1 } (1 : Int).toNat,
          hh := CSubband.quantized
            { CSubband.Initialize 1 1 1 .HH with buffer := some [4], cursor := 1 }
              (1 : Int).toNat }) :=
  ⟨⟨by decide, by decide, by decide⟩,
    ForwardTransform_one_level_quantizes_all 2 2 (some [9, 2, 3, 4]) 1 (fun _ => true)
      { ll := CSubband.Initialize 1 1 1 .LL, hl := CSubband.Initialize 1 1 1 .HL,
        lh := CSubband.Initialize 1 1 1 .LH, hh := CSubband.Initialize 1 1 1 .HH }
      { ll := (CSubband.Initialize 2 2 0 .LL).SetBuffer [9, 2, 3, 4],
        hl := CSubband.Initialize 2 2 0 .HL, lh := CSubband.Initialize 2 2 0 .LH,
        hh := CSubband.Initialize 2 2 0 .HH }
      { ll := { CSubband.Initialize 1 1 1 .LL with buffer := some [9], cursor := 1 },
        hl := { CSubband.Initialize 1 1 1 .HL with buffer := some [2], cursor := 1 },
        lh := { CSubband.Initialize 1 1 1 .LH with buffer := some [3], cursor := 1 },
        hh := { CSubband.Initialize 1 1 1 .HH with buffer := some [4], cursor := 1 } }
      [9, 2, 3, 4] (by decide) (by decide) (by decide) rfl (by decide) (by decide)⟩

/-! ## Values returned by the inverse transform (build with `__PGFROISUPPORT__`) -/

/-- The out-parameters of a successful `InverseTransform` in the build with
`__PGFROISUPPORT__`: `*w` is the width of the ROI of the destination LL, and `*h` is the
height of that ROI when its top is even but one less (on `UINT32`) when its top is odd:
the local `height`, decremented for the odd top, is stored instead of `destHeight`. -/
theorem InverseTransformROI_returns (t t' : CWaveletTransform) (srcLevel : Nat) (alloc : Bool)
    (destBands : Bands) (w h : Nat) (data : List Int)
    (hb : t.bands (srcLevel - 1) = .ok destBands)
    (hr : InverseTransformROI t srcLevel alloc = .ok (.NoError, some (w, h, data), t')) :
    w = destBands.ll.GetROI.Width ∧
      h = if destBands.ll.GetROI.top % 2 = 1
            then (destBands.ll.GetROI.Height + 2 ^ 32 - 1) % 2 ^ 32
            else destBands.ll.GetROI.Height := by
  unfold InverseTransformROI at hr
  split at hr
  · cases hr
  · simp only [hb, ok_bind] at hr
    split at hr
    · cases hr
    · have hroi : (destBands.ll.AllocMemoryROI alloc).2.GetROI = destBands.ll.GetROI := by
        unfold CSubband.AllocMemoryROI CSubband.GetROI
        cases destBands.ll.buffer <;> cases alloc <;> rfl
      split at hr
      · cases hr
      · obtain ⟨src, _, hr⟩ := bind_eq_ok hr
        obtain ⟨p, _, hr⟩ := bind_eq_ok hr
        simp only [pure_eq_ok, Except.ok.injEq, Prod.mk.injEq, Option.some.injEq, true_and] at hr
        obtain ⟨hw, hh, _⟩ := hr.1
        rw [hroi] at hw hh
        exact ⟨hw.symm, hh.symm⟩

/-- C17 (failing input): a 2 × 6 image with one level and the ROI `(0, 3, 2, 6)`, whose
top is odd. The destination LL of `InverseTransform(1)` has the ROI `(0, 3, 2, 6)`, a
buffer of 2 × 3 coefficients, but the call stores `*w = 2` and `*h = 2`: the height comes
back one short. For the 6 × 2 image with the ROI `(3, 0, 6, 2)`, whose left is odd, the
call stores the full buffer size `*w = 3`, `*h = 2`. -/
theorem InverseTransformROI_odd_top_height :
    decodeROI 2 6 1 ⟨0, 3, 2, 6⟩ 1 (fillBands [1, 2, 3] [4, 5, 6] [7, 8, 9] [10, 11, 12])
        = .ok ⟨⟨0, 3, 2, 6⟩, .NoError, some (2, 2, [0, 0, -2, 0, 7, 12])⟩ ∧
      PGFRect.Width ⟨0, 3, 2, 6⟩ = 2 ∧ PGFRect.Height ⟨0, 3, 2, 6⟩ = 3 ∧
      ([0, 0, -2, 0, 7, 12] : List Int).length = 2 * 3 ∧
      decodeROI 6 2 1 ⟨3, 0, 6, 2⟩ 1 (fillBands [1, 2, 3] [4, 5, 6] [7, 8, 9] [10, 11, 12])
        = .ok ⟨⟨3, 0, 6, 2⟩, .NoError, some (3, 2, [0, 3, 6, 0, 9, 12])⟩ ∧
      PGFRect.Width ⟨3, 0, 6, 2⟩ = 3 ∧ PGFRect.Height ⟨3, 0, 6, 2⟩ = 2 :=
  ⟨by decide, by decide, by decide, by decide, by decide, by decide, by decide⟩

/-! ## Height-one levels: counts, zero buffers, error codes -/

/-- C15 (failing input): a 3 × 1 source LL `[1, 2, 3]`. The destination subbands have
the sizes 2, 1, 0, 0 (LL, HL, LH, HH), and `ForwardTransform(0, 0)` leaves the source
buffer. Followed with memory behind every buffer, the row pass writes 4 coefficients to
LL, 2 to HL, 2 to LH and 1 to HH: the pair loop for heights below 3 runs on the single
row, and the bottom step stores that row again. For a 5 × 3 source the counts are the
sizes 6, 4, 3, 2. -/
theorem ForwardTransform_height_one_counts :
    ForwardTransform (CWaveletTransform.new 3 1 1 (some [1, 2, 3])) 0 0 (fun _ => true)
        = .error .outOfBounds ∧
      ((CWaveletTransform.new 3 1 1 (some [1, 2, 3])).bands 1).bind (fun d =>
          (ForwardTransform.rows [1, 2, 3, 0, 0, 0, 0, 0, 0] (d.withRoom 8) 3 1).map
            (fun r => (r.cursors, r.sizes)))
        = .ok ((4, 2, 2, 1), (2, 1, 0, 0)) ∧
      ((CWaveletTransform.new 5 3 1 none).bands 1).bind (fun d =>
          (ForwardTransform.rows (List.replicate 15 1) (allocBands d (fun _ => true)).2 5 3).map
            (fun r => (r.cursors, r.sizes)))
        = .ok ((6, 4, 3, 2), (6, 4, 3, 2)) :=
  ⟨by decide, by decide, by decide⟩

/-- C16 (failing input): a 3 × 1 destination LL whose source level holds the decoded
subbands LL `[5, 6]`, HL `[7]`, LH `[]`, HH `[]` (sizes 2, 1, 0, 0).
`InverseTransform(1)` leaves the buffers. Followed with memory behind every buffer, the
row pass reads 4 coefficients from LL, 2 from HL, 2 from LH and 1 from HH, and it needs
memory behind the 3 destination cells as well. A 3 × 2 destination is rebuilt without
fault. -/
theorem InverseTransform_height_one_reads :
    decodeLevel 3 1 1 1 (fillBands [5, 6] [7] [] []) = .error .outOfBounds ∧
      ((CWaveletTransform.new 3 1 1 none).bands 1).bind (fun d =>
          (InverseTransform.rows (List.replicate 9 0) (d.withRoom 8) 3 1).map
            (fun r => (r.2.cursors, r.2.sizes)))
        = .ok ((4, 2, 2, 1), (2, 1, 0, 0)) ∧
      ((CWaveletTransform.new 3 1 1 none).bands 1).bind (fun d =>
          (InverseTransform.rows (List.replicate 3 0) (d.withRoom 8) 3 1).map
            (fun r => (r.2.cursors, r.2.sizes)))
        = .error .outOfBounds ∧
      decodeLevel 3 2 1 1 (fillBands [5, 6] [7] [1, 2] [3])
        = .ok (.NoError, some (3, 2, [5, 7, 6, 1, 3, 2])) :=
  ⟨by decide, by decide, by decide, by decide⟩

/-- C19 (failing input): an all-zero 8 × 8 buffer with `q = 5`. With three levels every
coefficient of every destination subband is 0. With four levels the LL of level 3 is
1 × 1 and `ForwardTransform(3, 5)` leaves its one-cell buffer, as `ForwardTransform(0, 5)`
does for the all-zero 1 × 1 buffer `[0]`. -/
theorem ForwardTransform_zero_buffer :
    (forwardLevels 5 3 0 (CWaveletTransform.new 8 8 3 (some (List.replicate 64 0)))).map
        (fun t => t.m_subband.map Bands.buffers)
        = .ok [[none, none, none, none],
            [none, some (List.replicate 16 0), some (List.replicate 16 0),
              some (List.replicate 16 0)],
            [none, some (List.replicate 4 0), some (List.replicate 4 0),
              some (List.replicate 4 0)],
            [some [0], some [0], some [0], some [0]]] ∧
      forwardLevels 5 4 0 (CWaveletTransform.new 8 8 4 (some (List.replicate 64 0)))
        = .error .outOfBounds ∧
      ForwardTransform (CWaveletTransform.new 1 1 1 (some [0])) 0 5 (fun _ => true)
        = .error .outOfBounds :=
  ⟨by decide, by decide, by decide⟩

theorem LevelWidth_eq_div (W k : Nat) (hW : W < 2 ^ 32) :
    LevelWidth W k = (W + 2 ^ k - 1) / 2 ^ k := by
  rw [(LevelWidth_spec W k hW).1, ← natCeil_pow]

theorem LevelHeight_eq_LevelWidth (H k : Nat) : LevelHeight H k = LevelWidth H k := rfl

theorem LevelWidth_succ (W k : Nat) (hW : W < 2 ^ 32) :
    LevelWidth W (k + 1) = (LevelWidth W k + 1) / 2 := by
  have hP : 0 < 2 ^ k := Nat.pos_pow_of_pos k (by decide)
  rw [LevelWidth_eq_div W (k + 1) hW, LevelWidth_eq_div W k hW, pow_succ]
  have h1 : (W + 2 ^ k - 1) / 2 ^ k + 1 = (W + 2 ^ k - 1 + 2 ^ k) / 2 ^ k := by
    rw [Nat.add_div_right _ hP]
  rw [h1, Nat.div_div_eq_div_mul]
  congr 1
  omega

/-- C21 (as stated) fails: for the width (or height) 5 the size at level 0 is 5 and the
size at level 1 is 3, not 5 / 2. -/
theorem LevelWidth_not_double :
    CPGFImage.Width 5 0 = 5 ∧ CPGFImage.Width 5 1 = 3 ∧
      CPGFImage.Width 5 0 ≠ 2 * CPGFImage.Width 5 (0 + 1) ∧
      CPGFImage.Height 5 0 ≠ 2 * CPGFImage.Height 5 (0 + 1) := by
  decide

/-- C21 (amended): for every 32-bit width `W` and height `H` and every level `i` with
`i + 1 ≤ 31` (the shift count of `LevelWidth` stays below the 32 bits of the operand), the
size at level `i + 1` is half the size at level `i`, rounded up: the size at level `i` is
twice the size at level `i + 1` when it is even, and one less than twice when it is
odd. -/
theorem LevelWidth_half_rounded_up (W H i : Nat) (hW : W < 2 ^ 32) (hH : H < 2 ^ 32)
    (hi : i + 1 ≤ 31) :
    (CPGFImage.Width W (i + 1) = (CPGFImage.Width W i + 1) / 2 ∧
      2 * CPGFImage.Width W (i + 1) = CPGFImage.Width W i + CPGFImage.Width W i % 2) ∧
    (CPGFImage.Height H (i + 1) = (CPGFImage.Height H i + 1) / 2 ∧
      2 * CPGFImage.Height H (i + 1) = CPGFImage.Height H i + CPGFImage.Height H i % 2) := by
  unfold CPGFImage.Width CPGFImage.Height
  rw [LevelHeight_eq_LevelWidth, LevelHeight_eq_LevelWidth, LevelWidth_succ W i hW,
    LevelWidth_succ H i hH]
  omega

theorem LevelWidth_half_rounded_up_witness :
    (100 < 2 ^ 32 ∧ 37 < 2 ^ 32 ∧ 2 + 1 ≤ 31) ∧
    (CPGFImage.Width 100 (2 + 1) = (CPGFImage.Width 100 2 + 1) / 2 ∧
      2 * CPGFImage.Width 100 (2 + 1) = CPGFImage.Width 100 2 + CPGFImage.Width 100 2 % 2) ∧
    (CPGFImage.Height 37 (2 + 1) = (CPGFImage.Height 37 2 + 1) / 2 ∧
      2 * CPGFImage.Height 37 (2 + 1) = CPGFImage.Height 37 2 + CPGFImage.Height 37 2 % 2) :=
  ⟨by decide, LevelWidth_half_rounded_up 100 37 2 (by decide) (by decide) (by decide)⟩

/-! ## The row filter, cell by cell -/

theorem shiftRight_int_eq (x : Int) (n : Nat) : x >>> (n : Int) = x >>> n := by
  cases x with
  | ofNat m => exact Int.shiftRight_coe_nat m n
  | negSucc m => exact Int.shiftRight_negSucc m n

theorem shiftRight_one_eq_floor (x : Int) : x >>> (1 : Int) = ⌊(x : ℚ) / 2⌋ := by
  have e := shiftRight_int_eq x 1
  rw [Nat.cast_one] at e
  rw [e, Int.shiftRight_eq_div_pow]
  have h := Rat.floor_intCast_div_natCast x 2
  simpa using h.symm

theorem shiftRight_two_eq_floor (x : Int) : x >>> (2 : Int) = ⌊(x : ℚ) / 4⌋ := by
  have e := shiftRight_int_eq x 2
  rw [Nat.cast_ofNat] at e
  rw [e, Int.shiftRight_eq_div_pow]
  have h := Rat.floor_intCast_div_natCast x 4
  simpa using h.symm

/-! ## Scatter: `LinearToMallat` -/

theorem ld_eq_getElem? (l : List Int) (p : Nat) : ld l p = (l[p]?).getD 0 := by
  simp [ld, List.getD]

theorem ld_append_left (a b : List Int) (p : Nat) (h : p < a.length) :
    ld (a ++ b) p = ld a p := by
  simp [ld_eq_getElem?, List.getElem?_append_left h]

theorem ld_append_right (a b : List Int) (p : Nat) (h : a.length ≤ p) :
    ld (a ++ b) p = ld b (p - a.length) := by
  simp [ld_eq_getElem?, List.getElem?_append_right h]

theorem ld_take (l : List Int) (n p : Nat) (h : p < n) : ld (l.take n) p = ld l p := by
  simp [ld_eq_getElem?, List.getElem?_take, h]

theorem ld_drop (l : List Int) (n p : Nat) : ld (l.drop n) p = ld l (n + p) := by
  simp [ld_eq_getElem?, List.getElem?_drop]

theorem length_splice (buf L : List Int) (c : Nat) (hc : c + L.length ≤ buf.length) :
    (buf.take c ++ L ++ buf.drop (c + L.length)).length = buf.length := by
  simp [List.length_take]
  omega

theorem ld_splice (buf L : List Int) (c p : Nat) (hc : c + L.length ≤ buf.length) :
    ld (buf.take c ++ L ++ buf.drop (c + L.length)) p =
      if p < c then ld buf p else if p < c + L.length then ld L (p - c) else ld buf p := by
  have hlt : (buf.take c).length = c := by simp [List.length_take]; omega
  by_cases h1 : p < c
  · rw [if_pos h1, List.append_assoc, ld_append_left _ _ _ (by omega), ld_take _ _ _ h1]
  · rw [if_neg h1]
    by_cases h2 : p < c + L.length
    · rw [if_pos h2, ld_append_left _ _ _ (by simp [List.length_take]; omega),
        ld_append_right _ _ _ (by omega), hlt]
    · rw [if_neg h2, ld_append_right _ _ _ (by simp [List.length_take]; omega), ld_drop]
      congr 1
      simp [List.length_take]
      omega

theorem ld_singleton (v : Int) : ld [v] 0 = v := rfl

theorem splice_set (buf L : List Int) (c : Nat) (v : Int) (hc : c + L.length < buf.length) :
    (buf.take c ++ L ++ buf.drop (c + L.length)).set (c + L.length) v =
      buf.take c ++ (L ++ [v]) ++ buf.drop (c + (L ++ [v]).length) := by
  have hc2 : c + (L ++ [v]).length ≤ buf.length := by
    rw [List.length_append, List.length_singleton]; omega
  have hl1 := length_splice buf L c (by omega)
  have hl2 := length_splice buf (L ++ [v]) c hc2
  apply ext_ld
  · rw [List.length_set, hl1, hl2]
  · intro p _
    rw [ld_set _ _ _ _ (by rw [hl1]; omega), ld_splice buf (L ++ [v]) c p hc2,
      ld_splice buf L c p (by omega)]
    simp only [List.length_append, List.length_singleton]
    by_cases hp : p = c + L.length
    · subst hp
      rw [if_pos rfl, if_neg (by omega), if_pos (by omega),
        ld_append_right _ _ _ (by omega)]
      simp [ld_singleton]
    · rw [if_neg hp]
      by_cases h1 : p < c
      · rw [if_pos h1, if_pos h1]
      · rw [if_neg h1, if_neg h1]
        by_cases h2 : p < c + L.length
        · rw [if_pos h2, if_pos (by omega), ld_append_left _ _ _ (by omega)]
        · rw [if_neg h2, if_neg (by omega)]

theorem CSubband.appended_nil (b : CSubband) (buf : List Int) (hb : b.buffer = some buf) :
    b.appended [] = b := by
  cases b
  simp only [CSubband.appended] at *
  subst hb
  simp

theorem CSubband.appended_write (b : CSubband) (buf L : List Int) (v : Int)
    (hb : b.buffer = some buf) (hc : b.cursor + L.length < buf.length) :
    (b.appended L).WriteBuffer v = .ok (b.appended (L ++ [v])) := by
  unfold CSubband.WriteBuffer CSubband.appended
  simp only [hb, Option.map_some']
  rw [wr_ok (by rw [length_splice _ _ _ (by omega)]; omega), ok_bind, pure_eq_ok,
    splice_set _ _ _ _ hc]
  simp [Nat.add_assoc]

theorem range_map_succ (f : Nat → Int) (n : Nat) :
    (List.range (n + 1)).map f = (List.range n).map f ++ [f n] := by
  rw [List.range_succ, List.map_append, List.map_singleton]

theorem LinearToMallat_some (d : Bands) (mem : List Int) (lo hi w : Nat)
    (bll bhl blh bhh : List Int)
    (hll : d.ll.buffer = some bll) (hhl : d.hl.buffer = some bhl)
    (hlh : d.lh.buffer = some blh) (hhh : d.hh.buffer = some bhh)
    (cll : d.ll.cursor + (w + 1) / 2 ≤ bll.length) (chl : d.hl.cursor + w / 2 ≤ bhl.length)
    (clh : d.lh.cursor + (w + 1) / 2 ≤ blh.length) (chh : d.hh.cursor + w / 2 ≤ bhh.length)
    (hlo : lo + w ≤ mem.length) (hhi : hi + w ≤ mem.length) :
    LinearToMallat d mem lo (some hi) w = .ok
      { ll := d.ll.appended (evenCells mem lo w), hl := d.hl.appended (oddCells mem lo w),
        lh := d.lh.appended (evenCells mem hi w), hh := d.hh.appended (oddCells mem hi w) } := by
  have hq : w >>> 1 = w / 2 := by rw [Nat.shiftRight_eq_div_pow, pow_one]
  unfold LinearToMallat
  simp only [hq]
  obtain ⟨s, hrun, hI, hc⟩ := whileLoop_inv
    (fun (s : MallatState) => decide (s.i < w / 2))
    (fun (s : MallatState) => do
        let ll ← s.d.ll.WriteBuffer (← rd s.mem s.loRow)
        let hl ← s.d.hl.WriteBuffer (← rd s.mem (s.loRow + 1))
        let lh ← s.d.lh.WriteBuffer (← rd s.mem s.hiRow)
        let hh ← s.d.hh.WriteBuffer (← rd s.mem (s.hiRow + 1))
        pure { s with i := s.i + 1, loRow := s.loRow + 2, hiRow := s.hiRow + 2,
                      d := { ll := ll, hl := hl, lh := lh, hh := hh } })
    (fun s => s.i ≤ w / 2 ∧ s.loRow = lo + 2 * s.i ∧ s.hiRow = hi + 2 * s.i ∧ s.mem = mem ∧
      s.d = { ll := d.ll.appended ((List.range s.i).map (fun k => ld mem (lo + 2 * k))),
              hl := d.hl.appended ((List.range s.i).map (fun k => ld mem (lo + 2 * k + 1))),
              lh := d.lh.appended ((List.range s.i).map (fun k => ld mem (hi + 2 * k))),
              hh := d.hh.appended ((List.range s.i).map (fun k => ld mem (hi + 2 * k + 1))) })
    (fun s => w / 2 - s.i)
    (by
      intro s hI hc
      obtain ⟨i, loRow, hiRow, sd, smem⟩ := s
      obtain ⟨_, h2, h3, h4, h5⟩ := hI
      simp only at h2 h3 h4 h5 hc ⊢
      subst h2 h3 h4 h5
      have hi' : i < w / 2 := by simpa using hc
      have e1 : lo + 2 * i < smem.length := by omega
      have e2 : lo + 2 * i + 1 < smem.length := by omega
      have e3 : hi + 2 * i < smem.length := by omega
      have e4 : hi + 2 * i + 1 < smem.length := by omega
      refine ⟨{ i := i + 1, loRow := lo + 2 * i + 2, hiRow := hi + 2 * i + 2, mem := smem,
                d := { ll := d.ll.appended
                         ((List.range (i + 1)).map (fun k => ld smem (lo + 2 * k))),
                       hl := d.hl.appended
                         ((List.range (i + 1)).map (fun k => ld smem (lo + 2 * k + 1))),
                       lh := d.lh.appended
                         ((List.range (i + 1)).map (fun k => ld smem (hi + 2 * k))),
                       hh := d.hh.appended
                         ((List.range (i + 1)).map (fun k => ld smem (hi + 2 * k + 1))) } },
        ?_, ⟨?_, ?_, ?_, rfl, rfl⟩, ?_⟩
      · simp only [rd_ok e1, rd_ok e2, rd_ok e3, rd_ok e4, ok_bind]
        rw [CSubband.appended_write _ bll _ _ hll (by simp; omega), ok_bind,
          CSubband.appended_write _ bhl _ _ hhl (by simp; omega), ok_bind,
          CSubband.appended_write _ blh _ _ hlh (by simp; omega), ok_bind,
          CSubband.appended_write _ bhh _ _ hhh (by simp; omega), ok_bind, pure_eq_ok]
        simp only [← range_map_succ]
      · simp only; omega
      · simp only; omega
      · simp only; omega
      · simp only; omega)
    (w / 2) { i := 0, loRow := lo, hiRow := hi, d := d, mem := mem }
    (by
      refine ⟨Nat.zero_le _, rfl, rfl, rfl, ?_⟩
      simp [CSubband.appended_nil _ _ hll, CSubband.appended_nil _ _ hhl,
        CSubband.appended_nil _ _ hlh, CSubband.appended_nil _ _ hhh])
    (by simp)
  rw [hrun, ok_bind]
  obtain ⟨i, loRow, hiRow, sd, smem⟩ := s
  obtain ⟨h1, h2, h3, h4, h5⟩ := hI
  simp only at h1 h2 h3 h4 h5 hc ⊢
  subst h2 h3 h4 h5
  have hi' : i = w / 2 := by
    have : ¬ i < w / 2 := by simpa using hc
    omega
  subst hi'
  by_cases hr : w % 2 = 1
  · have e1 : lo + 2 * (w / 2) < smem.length := by omega
    have e3 : hi + 2 * (w / 2) < smem.length := by omega
    have hw2 : (w + 1) / 2 = w / 2 + 1 := by omega
    rw [if_pos hr]
    simp only [rd_ok e1, rd_ok e3, ok_bind]
    rw [CSubband.appended_write _ bll _ _ hll (by simp; omega), ok_bind,
      CSubband.appended_write _ blh _ _ hlh (by simp; omega), ok_bind, pure_eq_ok]
    simp only [← range_map_succ, evenCells, oddCells, hw2]
  · have hw2 : (w + 1) / 2 = w / 2 := by omega
    rw [if_neg hr, pure_eq_ok]
    simp only [evenCells, oddCells, hw2]

theorem LinearToMallat_none (d : Bands) (mem : List Int) (lo w : Nat)
    (bll bhl : List Int)
    (hll : d.ll.buffer = some bll) (hhl : d.hl.buffer = some bhl)
    (cll : d.ll.cursor + (w + 1) / 2 ≤ bll.length) (chl : d.hl.cursor + w / 2 ≤ bhl.length)
    (hlo : lo + w ≤ mem.length) :
    LinearToMallat d mem lo none w = .ok
      { d with ll := d.ll.appended (evenCells mem lo w),
               hl := d.hl.appended (oddCells mem lo w) } := by
  have hq : w >>> 1 = w / 2 := by rw [Nat.shiftRight_eq_div_pow, pow_one]
  unfold LinearToMallat
  simp only [hq]
  obtain ⟨s, hrun, hI, hc⟩ := whileLoop_inv
    (fun (s : MallatState) => decide (s.i < w / 2))
    (fun (s : MallatState) => do
        let ll ← s.d.ll.WriteBuffer (← rd s.mem s.loRow)
        let hl ← s.d.hl.WriteBuffer (← rd s.mem (s.loRow + 1))
        pure { s with i := s.i + 1, loRow := s.loRow + 2, d := { s.d with ll := ll, hl := hl } })
    (fun s => s.i ≤ w / 2 ∧ s.loRow = lo + 2 * s.i ∧ s.mem = mem ∧
      s.d = { d with
              ll := d.ll.appended ((List.range s.i).map (fun k => ld mem (lo + 2 * k))),
              hl := d.hl.appended ((List.range s.i).map (fun k => ld mem (lo + 2 * k + 1))) })
    (fun s => w / 2 - s.i)
    (by
      intro s hI hc
      obtain ⟨i, loRow, hiRow, sd, smem⟩ := s
      obtain ⟨_, h2, h4, h5⟩ := hI
      simp only at h2 h4 h5 hc ⊢
      subst h2 h4 h5
      have hi' : i < w / 2 := by simpa using hc
      have e1 : lo + 2 * i < smem.length := by omega
      have e2 : lo + 2 * i + 1 < smem.length := by omega
      refine ⟨{ i := i + 1, loRow := lo + 2 * i + 2, hiRow := hiRow, mem := smem,
                d := { d with
                       ll := d.ll.appended
                         ((List.range (i + 1)).map (fun k => ld smem (lo + 2 * k))),
                       hl := d.hl.appended
                         ((List.range (i + 1)).map (fun k => ld smem (lo + 2 * k + 1))) } },
        ?_, ⟨?_, ?_, rfl, rfl⟩, ?_⟩
      · simp only [rd_ok e1, rd_ok e2, ok_bind]
        rw [CSubband.appended_write _ bll _ _ hll (by simp; omega), ok_bind,
          CSubband.appended_write _ bhl _ _ hhl (by simp; omega), ok_bind, pure_eq_ok]
        simp only [← range_map_succ]
      · simp only; omega
      · simp only; omega
      · simp only; omega)
    (w / 2) { i := 0, loRow := lo, hiRow := 0, d := d, mem := mem }
    (by
      refine ⟨Nat.zero_le _, rfl, rfl, ?_⟩
      simp [CSubband.appended_nil _ _ hll, CSubband.appended_nil _ _ hhl])
    (by simp)
  rw [hrun, ok_bind]
  obtain ⟨i, loRow, hiRow, sd, smem⟩ := s
  obtain ⟨h1, h2, h4, h5⟩ := hI
  simp only at h1 h2 h4 h5 hc ⊢
  subst h2 h4 h5
  have hi' : i = w / 2 := by
    have : ¬ i < w / 2 := by simpa using hc
    omega
  subst hi'
  by_cases hr : w % 2 = 1
  · have e1 : lo + 2 * (w / 2) < smem.length := by omega
    have hw2 : (w + 1) / 2 = w / 2 + 1 := by omega
    rw [if_pos hr]
    simp only [rd_ok e1, ok_bind]
    rw [CSubband.appended_write _ bll _ _ hll (by simp; omega), ok_bind, pure_eq_ok]
    simp only [← range_map_succ, evenCells, oddCells, hw2]
  · have hw2 : (w + 1) / 2 = w / 2 := by omega
    rw [if_neg hr, pure_eq_ok]
    simp only [evenCells, oddCells, hw2]

theorem CSubband.hasRoom_iff (b : CSubband) (n : Nat) (h : b.hasRoom n = true) :
    ∃ buf, b.buffer = some buf ∧ b.cursor + n ≤ buf.length := by
  unfold CSubband.hasRoom at h
  cases hb : b.buffer with
  | none => simp [hb] at h
  | some buf => exact ⟨buf, rfl, by simpa [hb] using h⟩

/-- C25: `LinearToMallat` on the rows `lo` and `hi` of width `w` (any `w ≥ 0`), with the
rows inside the buffer and room in the subbands: the call succeeds and the four subbands
are the ones before the call with `lo[0], lo[2], ...` appended to LL, `lo[1], lo[3], ...`
to HL, `hi[0], hi[2], ...` to LH and `hi[1], hi[3], ...` to HH, in this order, the
trailing cell of an odd width going to LL and LH only; when `hi` is absent, LL and HL
receive the cells of `lo` and LH and HH are unchanged, contents and cursors. -/
theorem LinearToMallat_scatters (d : Bands) (mem : List Int) (lo w : Nat)
    (hiRow : Option Nat) (h : scatterRoom d mem lo hiRow w = true) :
    LinearToMallat d mem lo hiRow w = .ok (scattered d mem lo hiRow w) := by
  unfold scatterRoom at h
  cases hiRow with
  | none =>
    simp only [Bool.and_true, Bool.and_eq_true, decide_eq_true_eq] at h
    obtain ⟨⟨hlo, h1⟩, h2⟩ := h
    obtain ⟨bll, hll, cll⟩ := CSubband.hasRoom_iff _ _ h1
    obtain ⟨bhl, hhl, chl⟩ := CSubband.hasRoom_iff _ _ h2
    exact LinearToMallat_none d mem lo w bll bhl hll hhl cll chl hlo
  | some hi =>
    simp only [Bool.and_eq_true, decide_eq_true_eq] at h
    obtain ⟨⟨⟨hlo, h1⟩, h2⟩, ⟨hhi, h3⟩, h4⟩ := h
    obtain ⟨bll, hll, cll⟩ := CSubband.hasRoom_iff _ _ h1
    obtain ⟨bhl, hhl, chl⟩ := CSubband.hasRoom_iff _ _ h2
    obtain ⟨blh, hlh, clh⟩ := CSubband.hasRoom_iff _ _ h3
    obtain ⟨bhh, hhh, chh⟩ := CSubband.hasRoom_iff _ _ h4
    exact LinearToMallat_some d mem lo hi w bll bhl blh bhh hll hhl hlh hhh cll chl clh chh
      hlo hhi

theorem LinearToMallat_scatters_witness :
    scatterRoom (Bands.withRoom ⟨CSubband.Initialize 2 2 1 .LL, CSubband.Initialize 1 2 1 .HL,
        CSubband.Initialize 2 2 1 .LH, CSubband.Initialize 1 2 1 .HH⟩ 4)
      [1, 2, 3, 4, 5, 6] 0 (some 3) 3 = true ∧
    LinearToMallat (Bands.withRoom ⟨CSubband.Initialize 2 2 1 .LL, CSubband.Initialize 1 2 1 .HL,
        CSubband.Initialize 2 2 1 .LH, CSubband.Initialize 1 2 1 .HH⟩ 4)
      [1, 2, 3, 4, 5, 6] 0 (some 3) 3 =
      .ok (scattered (Bands.withRoom ⟨CSubband.Initialize 2 2 1 .LL,
        CSubband.Initialize 1 2 1 .HL, CSubband.Initialize 2 2 1 .LH,
        CSubband.Initialize 1 2 1 .HH⟩ 4) [1, 2, 3, 4, 5, 6] 0 (some 3) 3) :=
  ⟨by decide, LinearToMallat_scatters _ _ _ _ _ (by decide)⟩

/-! ## Gather: `MallatToLinear` -/

theorem ld_set4 (m : List Int) (p1 p2 p3 p4 q : Nat) (v1 v2 v3 v4 : Int)
    (h1 : p1 < m.length) (h2 : p2 < m.length) (h3 : p3 < m.length) (h4 : p4 < m.length) :
    ld ((((m.set p1 v1).set p2 v2).set p3 v3).set p4 v4) q =
      if q = p4 then v4 else if q = p3 then v3 else if q = p2 then v2
      else if q = p1 then v1 else ld m q := by
  rw [ld_set _ _ _ _ (by simpa using h4), ld_set _ _ _ _ (by simpa using h3),
    ld_set _ _ _ _ (by simpa using h2), ld_set _ _ _ _ h1]

theorem CSubband.advanced_zero (b : CSubband) : b.advanced 0 = b := rfl

theorem CSubband.advanced_read (b : CSubband) (buf : List Int) (n : Nat)
    (hb : b.buffer = some buf) (hc : b.cursor + n < buf.length) :
    (b.advanced n).ReadBuffer = .ok (ld buf (b.cursor + n), b.advanced (n + 1)) := by
  unfold CSubband.ReadBuffer CSubband.advanced
  simp only [hb]
  rw [rd_ok hc, ok_bind, pure_eq_ok]
  simp [Nat.add_assoc]

theorem MallatToLinear_some (d : Bands) (mem : List Int) (lo hi w : Nat)
    (bll bhl blh bhh : List Int)
    (hll : d.ll.buffer = some bll) (hhl : d.hl.buffer = some bhl)
    (hlh : d.lh.buffer = some blh) (hhh : d.hh.buffer = some bhh)
    (cll : d.ll.cursor + (w + 1) / 2 ≤ bll.length) (chl : d.hl.cursor + w / 2 ≤ bhl.length)
    (clh : d.lh.cursor + (w + 1) / 2 ≤ blh.length) (chh : d.hh.cursor + w / 2 ≤ bhh.length)
    (hlo : lo + w ≤ mem.length) (hhi : hi + w ≤ mem.length)
    (hdis : lo + w ≤ hi ∨ hi + w ≤ lo) :
    ∃ mem', MallatToLinear d mem lo (some hi) w = .ok
        ({ ll := d.ll.advanced ((w + 1) / 2), hl := d.hl.advanced (w / 2),
           lh := d.lh.advanced ((w + 1) / 2), hh := d.hh.advanced (w / 2) }, mem') ∧
      mem'.length = mem.length ∧
      (∀ k, k < w → ld mem' (lo + k) = gathered d.ll d.hl k) ∧
      (∀ k, k < w → ld mem' (hi + k) = gathered d.lh d.hh k) ∧
      (∀ p, (p < lo ∨ lo + w ≤ p) → (p < hi ∨ hi + w ≤ p) → ld mem' p = ld mem p) := by
  have hq : w >>> 1 = w / 2 := by rw [Nat.shiftRight_eq_div_pow, pow_one]
  have hg1 : ∀ k, gathered d.ll d.hl k =
      if k % 2 = 0 then ld bll (d.ll.cursor + k / 2) else ld bhl (d.hl.cursor + k / 2) := by
    intro k; simp [gathered, hll, hhl]
  have hg2 : ∀ k, gathered d.lh d.hh k =
      if k % 2 = 0 then ld blh (d.lh.cursor + k / 2) else ld bhh (d.hh.cursor + k / 2) := by
    intro k; simp [gathered, hlh, hhh]
  unfold MallatToLinear
  simp only [hq]
  obtain ⟨s, hrun, hI, hc⟩ := whileLoop_inv
    (fun (s : MallatState) => decide (s.i < w / 2))
    (fun (s : MallatState) => do
        let (v, ll) ← s.d.ll.ReadBuffer
        let mem ← wr s.mem s.loRow v
        let (v, hl) ← s.d.hl.ReadBuffer
        let mem ← wr mem (s.loRow + 1) v
        let (v, lh) ← s.d.lh.ReadBuffer
        let mem ← wr mem s.hiRow v
        let (v, hh) ← s.d.hh.ReadBuffer
        let mem ← wr mem (s.hiRow + 1) v
        pure { i := s.i + 1, loRow := s.loRow + 2, hiRow := s.hiRow + 2,
               d := { ll := ll, hl := hl, lh := lh, hh := hh }, mem := mem })
    (fun s => s.i ≤ w / 2 ∧ s.loRow = lo + 2 * s.i ∧ s.hiRow = hi + 2 * s.i ∧
      s.d = { ll := d.ll.advanced s.i, hl := d.hl.advanced s.i,
              lh := d.lh.advanced s.i, hh := d.hh.advanced s.i } ∧
      s.mem.length = mem.length ∧
      (∀ k, k < 2 * s.i → ld s.mem (lo + k) = gathered d.ll d.hl k) ∧
      (∀ k, k < 2 * s.i → ld s.mem (hi + k) = gathered d.lh d.hh k) ∧
      (∀ p, (p < lo ∨ lo + 2 * s.i ≤ p) → (p < hi ∨ hi + 2 * s.i ≤ p) →
        ld s.mem p = ld mem p))
    (fun s => w / 2 - s.i)
    (by
      intro s hI hc
      obtain ⟨i, loRow, hiRow, sd, smem⟩ := s
      obtain ⟨_, h2, h3, h4, h5, h6, h7, h8⟩ := hI
      simp only at h2 h3 h4 h5 h6 h7 h8 hc ⊢
      subst h2 h3 h4
      have hi' : i < w / 2 := by simpa using hc
      have e1 : lo + 2 * i < smem.length := by omega
      have e2 : lo + 2 * i + 1 < smem.length := by omega
      have e3 : hi + 2 * i < smem.length := by omega
      have e4 : hi + 2 * i + 1 < smem.length := by omega
      refine ⟨{ i := i + 1, loRow := lo + 2 * i + 2, hiRow := hi + 2 * i + 2,
                d := { ll := d.ll.advanced (i + 1), hl := d.hl.advanced (i + 1),
                       lh := d.lh.advanced (i + 1), hh := d.hh.advanced (i + 1) },
                mem := (((smem.set (lo + 2 * i) (ld bll (d.ll.cursor + i))).set
                  (lo + 2 * i + 1) (ld bhl (d.hl.cursor + i))).set
                  (hi + 2 * i) (ld blh (d.lh.cursor + i))).set
                  (hi + 2 * i + 1) (ld bhh (d.hh.cursor + i)) },
        ?_, ⟨?_, ?_, ?_, rfl, ?_, ?_, ?_, ?_⟩, ?_⟩
      · simp only
        rw [CSubband.advanced_read _ bll _ hll (by omega), ok_bind]
        simp only
        rw [wr_ok e1, ok_bind, CSubband.advanced_read _ bhl _ hhl (by omega), ok_bind]
        simp only
        rw [wr_ok (by simpa using e2), ok_bind,
          CSubband.advanced_read _ blh _ hlh (by omega), ok_bind]
        simp only
        rw [wr_ok (by simpa using e3), ok_bind,
          CSubband.advanced_read _ bhh _ hhh (by omega), ok_bind]
        simp only
        rw [wr_ok (by simpa using e4), ok_bind, pure_eq_ok]
      · simp only; omega
      · simp only; omega
      · simp only; omega
      · simp only [List.length_set]; exact h5
      · intro k hk
        simp only at hk ⊢
        rw [ld_set4 _ _ _ _ _ _ _ _ _ _ e1 e2 e3 e4, if_neg (by omega), if_neg (by omega)]
        by_cases hk1 : k = 2 * i + 1
        · subst hk1
          have ee : (2 * i + 1) / 2 = i := by omega
          rw [if_pos (by omega), hg1, if_neg (by omega), ee]
        · rw [if_neg (by omega)]
          by_cases hk0 : k = 2 * i
          · subst hk0
            have ee : 2 * i / 2 = i := by omega
            rw [if_pos rfl, hg1, if_pos (by omega), ee]
          · rw [if_neg (by omega)]
            exact h6 k (by omega)
      · intro k hk
        simp only at hk ⊢
        rw [ld_set4 _ _ _ _ _ _ _ _ _ _ e1 e2 e3 e4]
        by_cases hk1 : k = 2 * i + 1
        · subst hk1
          have ee : (2 * i + 1) / 2 = i := by omega
          rw [if_pos (by omega), hg2, if_neg (by omega), ee]
        · rw [if_neg (by omega)]
          by_cases hk0 : k = 2 * i
          · subst hk0
            have ee : 2 * i / 2 = i := by omega
            rw [if_pos rfl, hg2, if_pos (by omega), ee]
          · rw [if_neg (by omega), if_neg (by omega), if_neg (by omega)]
            exact h7 k (by omega)
      · intro p hp1 hp2
        simp only at hp1 hp2 ⊢
        rw [ld_set4 _ _ _ _ _ _ _ _ _ _ e1 e2 e3 e4, if_neg (by omega), if_neg (by omega),
          if_neg (by omega), if_neg (by omega)]
        exact h8 p (by omega) (by omega)
      · simp only; omega)
    (w / 2) { i := 0, loRow := lo, hiRow := hi, d := d, mem := mem }
    (by
      refine ⟨Nat.zero_le _, rfl, rfl, rfl, rfl, ?_, ?_, ?_⟩
      · intro k hk; simp at hk
      · intro k hk; simp at hk
      · intro p _ _; rfl)
    (by simp)
  rw [hrun, ok_bind]
  obtain ⟨i, loRow, hiRow, sd, smem⟩ := s
  obtain ⟨h1, h2, h3, h4, h5, h6, h7, h8⟩ := hI
  simp only at h1 h2 h3 h4 h5 h6 h7 h8 hc ⊢
  subst h2 h3 h4
  have hi' : i = w / 2 := by
    have : ¬ i < w / 2 := by simpa using hc
    omega
  subst hi'
  by_cases hr : w % 2 = 1
  · have e1 : lo + 2 * (w / 2) < smem.length := by omega
    have e3 : hi + 2 * (w / 2) < smem.length := by omega
    have hw2 : (w + 1) / 2 = w / 2 + 1 := by omega
    rw [if_pos hr]
    refine ⟨(smem.set (lo + 2 * (w / 2)) (ld bll (d.ll.cursor + w / 2))).set
      (hi + 2 * (w / 2)) (ld blh (d.lh.cursor + w / 2)), ?_, ?_, ?_, ?_, ?_⟩
    · rw [CSubband.advanced_read _ bll _ hll (by omega), ok_bind]
      simp only
      rw [wr_ok e1, ok_bind, CSubband.advanced_read _ blh _ hlh (by omega), ok_bind]
      simp only
      rw [wr_ok (by simpa using e3), ok_bind, pure_eq_ok, hw2]
    · simp only [List.length_set]; exact h5
    · intro k hk
      rw [ld_set2 _ _ _ _ _ _ e1 e3, if_neg (by omega)]
      by_cases hk0 : k = 2 * (w / 2)
      · have ee : k / 2 = w / 2 := by omega
        rw [if_pos (by omega), hg1, if_pos (by omega), ee]
      · rw [if_neg (by omega)]
        exact h6 k (by omega)
    · intro k hk
      rw [ld_set2 _ _ _ _ _ _ e1 e3]
      by_cases hk0 : k = 2 * (w / 2)
      · have ee : k / 2 = w / 2 := by omega
        rw [if_pos (by omega), hg2, if_pos (by omega), ee]
      · rw [if_neg (by omega), if_neg (by omega)]
        exact h7 k (by omega)
    · intro p hp1 hp2
      rw [ld_set2 _ _ _ _ _ _ e1 e3, if_neg (by omega), if_neg (by omega)]
      exact h8 p (by omega) (by omega)
  · have hw2 : (w + 1) / 2 = w / 2 := by omega
    rw [if_neg hr, pure_eq_ok, hw2]
    refine ⟨smem, rfl, h5, ?_, ?_, ?_⟩
    · intro k hk; exact h6 k (by omega)
    · intro k hk; exact h7 k (by omega)
    · intro p hp1 hp2; exact h8 p (by omega) (by omega)

theorem MallatToLinear_none (d : Bands) (mem : List Int) (lo w : Nat)
    (bll bhl : List Int)
    (hll : d.ll.buffer = some bll) (hhl : d.hl.buffer = some bhl)
    (cll : d.ll.cursor + (w + 1) / 2 ≤ bll.length) (chl : d.hl.cursor + w / 2 ≤ bhl.length)
    (hlo : lo + w ≤ mem.length) :
    ∃ mem', MallatToLinear d mem lo none w = .ok
        ({ d with ll := d.ll.advanced ((w + 1) / 2), hl := d.hl.advanced (w / 2) }, mem') ∧
      mem'.length = mem.length ∧
      (∀ k, k < w → ld mem' (lo + k) = gathered d.ll d.hl k) ∧
      (∀ p, (p < lo ∨ lo + w ≤ p) → ld mem' p = ld mem p) := by
  have hq : w >>> 1 = w / 2 := by rw [Nat.shiftRight_eq_div_pow, pow_one]
  have hg1 : ∀ k, gathered d.ll d.hl k =
      if k % 2 = 0 then ld bll (d.ll.cursor + k / 2) else ld bhl (d.hl.cursor + k / 2) := by
    intro k; simp [gathered, hll, hhl]
  unfold MallatToLinear
  simp only [hq]
  obtain ⟨s, hrun, hI, hc⟩ := whileLoop_inv
    (fun (s : MallatState) => decide (s.i < w / 2))
    (fun (s : MallatState) => do
        let (v, ll) ← s.d.ll.ReadBuffer
        let mem ← wr s.mem s.loRow v
        let (v, hl) ← s.d.hl.ReadBuffer
        let mem ← wr mem (s.loRow + 1) v
        pure { s with i := s.i + 1, loRow := s.loRow + 2,
                      d := { s.d with ll := ll, hl := hl }, mem := mem })
    (fun s => s.i ≤ w / 2 ∧ s.loRow = lo + 2 * s.i ∧
      s.d = { d with ll := d.ll.advanced s.i, hl := d.hl.advanced s.i } ∧
      s.mem.length = mem.length ∧
      (∀ k, k < 2 * s.i → ld s.mem (lo + k) = gathered d.ll d.hl k) ∧
      (∀ p, (p < lo ∨ lo + 2 * s.i ≤ p) → ld s.mem p = ld mem p))
    (fun s => w / 2 - s.i)
    (by
      intro s hI hc
      obtain ⟨i, loRow, hiRow, sd, smem⟩ := s
      obtain ⟨_, h2, h4, h5, h6, h8⟩ := hI
      simp only at h2 h4 h5 h6 h8 hc ⊢
      subst h2 h4
      have hi' : i < w / 2 := by simpa using hc
      have e1 : lo + 2 * i < smem.length := by omega
      have e2 : lo + 2 * i + 1 < smem.length := by omega
      refine ⟨{ i := i + 1, loRow := lo + 2 * i + 2, hiRow := hiRow,
                d := { d with ll := d.ll.advanced (i + 1), hl := d.hl.advanced (i + 1) },
                mem := (smem.set (lo + 2 * i) (ld bll (d.ll.cursor + i))).set
                  (lo + 2 * i + 1) (ld bhl (d.hl.cursor + i)) },
        ?_, ⟨?_, ?_, rfl, ?_, ?_, ?_⟩, ?_⟩
      · simp only
        rw [CSubband.advanced_read _ bll _ hll (by omega), ok_bind]
        simp only
        rw [wr_ok e1, ok_bind, CSubband.advanced_read _ bhl _ hhl (by omega), ok_bind]
        simp only
        rw [wr_ok (by simpa using e2), ok_bind, pure_eq_ok]
      · simp only; omega
      · simp only; omega
      · simp only [List.length_set]; exact h5
      · intro k hk
        simp only at hk ⊢
        rw [ld_set2 _ _ _ _ _ _ e1 e2]
        by_cases hk1 : k = 2 * i + 1
        · subst hk1
          have ee : (2 * i + 1) / 2 = i := by omega
          rw [if_pos (by omega), hg1, if_neg (by omega), ee]
        · rw [if_neg (by omega)]
          by_cases hk0 : k = 2 * i
          · subst hk0
            have ee : 2 * i / 2 = i := by omega
            rw [if_pos rfl, hg1, if_pos (by omega), ee]
          · rw [if_neg (by omega)]
            exact h6 k (by omega)
      · intro p hp1
        simp only at hp1 ⊢
        rw [ld_set2 _ _ _ _ _ _ e1 e2, if_neg (by omega), if_neg (by omega)]
        exact h8 p (by omega)
      · simp only; omega)
    (w / 2) { i := 0, loRow := lo, hiRow := 0, d := d, mem := mem }
    (by
      refine ⟨Nat.zero_le _, rfl, rfl, rfl, ?_, ?_⟩
      · intro k hk; simp at hk
      · intro p _; rfl)
    (by simp)
  rw [hrun, ok_bind]
  obtain ⟨i, loRow, hiRow, sd, smem⟩ := s
  obtain ⟨h1, h2, h4, h5, h6, h8⟩ := hI
  simp only at h1 h2 h4 h5 h6 h8 hc ⊢
  subst h2 h4
  have hi' : i = w / 2 := by
    have : ¬ i < w / 2 := by simpa using hc
    omega
  subst hi'
  by_cases hr : w % 2 = 1
  · have e1 : lo + 2 * (w / 2) < smem.length := by omega
    have hw2 : (w + 1) / 2 = w / 2 + 1 := by omega
    rw [if_pos hr]
    refine ⟨smem.set (lo + 2 * (w / 2)) (ld bll (d.ll.cursor + w / 2)), ?_, ?_, ?_, ?_⟩
    · rw [CSubband.advanced_read _ bll _ hll (by omega), ok_bind]
      simp only
      rw [wr_ok e1, ok_bind, pure_eq_ok, hw2]
    · simp only [List.length_set]; exact h5
    · intro k hk
      rw [ld_set _ _ _ _ e1]
      by_cases hk0 : k = 2 * (w / 2)
      · have ee : k / 2 = w / 2 := by omega
        rw [if_pos (by omega), hg1, if_pos (by omega), ee]
      · rw [if_neg (by omega)]
        exact h6 k (by omega)
    · intro p hp1
      rw [ld_set _ _ _ _ e1, if_neg (by omega)]
      exact h8 p (by omega)
  · have hw2 : (w + 1) / 2 = w / 2 := by omega
    rw [if_neg hr, pure_eq_ok, hw2]
    refine ⟨smem, rfl, h5, ?_, ?_⟩
    · intro k hk; exact h6 k (by omega)
    · intro p hp1; exact h8 p (by omega)

/-! ## Gather undoes scatter -/

theorem ld_range_map (f : Nat → Int) (n j : Nat) (h : j < n) :
    ld ((List.range n).map f) j = f j := by
  simp [ld_eq_getElem?, List.getElem?_range h]

theorem CSubband.appended_buffer (b : CSubband) (buf L : List Int) (hb : b.buffer = some buf) :
    (b.appended L).buffer = some (buf.take b.cursor ++ L ++ buf.drop (b.cursor + L.length)) := by
  simp [CSubband.appended, hb]

theorem CSubband.reset_advanced (b : CSubband) (L : List Int) :
    CSubband.advanced { b.appended L with cursor := b.cursor } L.length = b.appended L := by
  simp [CSubband.advanced, CSubband.appended]

theorem evenCells_length (mem : List Int) (row w : Nat) :
    (evenCells mem row w).length = (w + 1) / 2 := by simp [evenCells]

theorem oddCells_length (mem : List Int) (row w : Nat) :
    (oddCells mem row w).length = w / 2 := by simp [oddCells]

theorem gathered_appended (a b : CSubband) (ba bb : List Int) (mem : List Int) (row w k : Nat)
    (ha : a.buffer = some ba) (hb : b.buffer = some bb)
    (ca : a.cursor + (w + 1) / 2 ≤ ba.length) (cb : b.cursor + w / 2 ≤ bb.length)
    (hk : k < w) :
    gathered { a.appended (evenCells mem row w) with cursor := a.cursor }
        { b.appended (oddCells mem row w) with cursor := b.cursor } k = ld mem (row + k) := by
  unfold gathered
  simp only [CSubband.appended_buffer _ _ _ ha, CSubband.appended_buffer _ _ _ hb,
    Option.getD_some]
  by_cases he : k % 2 = 0
  · rw [if_pos he, ld_splice _ _ _ _ (by rw [evenCells_length]; exact ca),
      if_neg (by omega), if_pos (by rw [evenCells_length]; omega)]
    have e1 : a.cursor + k / 2 - a.cursor = k / 2 := by omega
    rw [e1]
    unfold evenCells
    rw [ld_range_map _ _ _ (by omega)]
    congr 1
    omega
  · rw [if_neg he, ld_splice _ _ _ _ (by rw [oddCells_length]; exact cb),
      if_neg (by omega), if_pos (by rw [oddCells_length]; omega)]
    have e1 : b.cursor + k / 2 - b.cursor = k / 2 := by omega
    rw [e1]
    unfold oddCells
    rw [ld_range_map _ _ _ (by omega)]
    congr 1
    omega

theorem rowOf_congr (m1 m2 : List Int) (r1 r2 w : Nat)
    (h : ∀ k, k < w → ld m1 (r1 + k) = ld m2 (r2 + k)) : rowOf m1 r1 w = rowOf m2 r2 w := by
  unfold rowOf
  apply List.map_congr_left
  intro k hk
  exact h k (List.mem_range.mp hk)

/-- C26: gather undoes scatter. For rows `lo` and `hi` (possibly absent) of any width `w`
in the buffer `mem`, with room in the subbands, `LinearToMallat` succeeds; then, with the
cursors reset to where the writes began, `MallatToLinear` with the same width into the
rows `lo` and `hi` of a buffer `dest` succeeds, leaves the subbands as the scatter left
them (the read cursors end where the write cursors ended) and the rows of `dest` hold
exactly `lo` and `hi`. -/
theorem MallatToLinear_LinearToMallat (d : Bands) (mem dest : List Int) (lo w : Nat)
    (hiRow : Option Nat) (hroom : scatterRoom d mem lo hiRow w = true)
    (hfit : rowsFit dest lo hiRow w = true) :
    ∃ d1 dest', LinearToMallat d mem lo hiRow w = .ok d1 ∧
      MallatToLinear (d1.withCursorsOf d) dest lo hiRow w = .ok (d1, dest') ∧
      rowOf dest' lo w = rowOf mem lo w ∧
      hiRow.map (fun hi => rowOf dest' hi w) = hiRow.map (fun hi => rowOf mem hi w) := by
  unfold scatterRoom at hroom
  unfold rowsFit at hfit
  cases hiRow with
  | none =>
    simp only [Bool.and_true, Bool.and_eq_true, decide_eq_true_eq] at hroom hfit
    obtain ⟨⟨hlo, h1⟩, h2⟩ := hroom
    obtain ⟨bll, hll, cll⟩ := CSubband.hasRoom_iff _ _ h1
    obtain ⟨bhl, hhl, chl⟩ := CSubband.hasRoom_iff _ _ h2
    have hL : LinearToMallat d mem lo none w = .ok (scattered d mem lo none w) :=
      LinearToMallat_none d mem lo w bll bhl hll hhl cll chl hlo
    obtain ⟨dest', hM, _, hrow, _⟩ := MallatToLinear_none
      (Bands.withCursorsOf (scattered d mem lo none w) d) dest lo w _ _
      (CSubband.appended_buffer _ _ _ hll) (CSubband.appended_buffer _ _ _ hhl)
      (by rw [length_splice _ _ _ (by rw [evenCells_length]; exact cll)]; exact cll)
      (by rw [length_splice _ _ _ (by rw [oddCells_length]; exact chl)]; exact chl) hfit
    refine ⟨_, dest', hL, ?_, ?_, rfl⟩
    · rw [hM]
      have e1 := CSubband.reset_advanced d.ll (evenCells mem lo w)
      have e2 := CSubband.reset_advanced d.hl (oddCells mem lo w)
      rw [evenCells_length] at e1
      rw [oddCells_length] at e2
      simp only [Bands.withCursorsOf, scattered, e1, e2]
    · apply rowOf_congr
      intro k hk
      rw [hrow k hk]
      exact gathered_appended d.ll d.hl bll bhl mem lo w k hll hhl cll chl hk
  | some hi =>
    simp only [Bool.and_eq_true, decide_eq_true_eq, Bool.or_eq_true] at hroom hfit
    obtain ⟨⟨⟨hlo, h1⟩, h2⟩, ⟨hhi, h3⟩, h4⟩ := hroom
    obtain ⟨flo, fhi, fdis⟩ := hfit
    obtain ⟨bll, hll, cll⟩ := CSubband.hasRoom_iff _ _ h1
    obtain ⟨bhl, hhl, chl⟩ := CSubband.hasRoom_iff _ _ h2
    obtain ⟨blh, hlh, clh⟩ := CSubband.hasRoom_iff _ _ h3
    obtain ⟨bhh, hhh, chh⟩ := CSubband.hasRoom_iff _ _ h4
    have hL : LinearToMallat d mem lo (some hi) w = .ok (scattered d mem lo (some hi) w) :=
      LinearToMallat_some d mem lo hi w bll bhl blh bhh hll hhl hlh hhh cll chl clh chh hlo hhi
    obtain ⟨dest', hM, _, hrow1, hrow2, _⟩ := MallatToLinear_some
      (Bands.withCursorsOf (scattered d mem lo (some hi) w) d) dest lo hi w _ _ _ _
      (CSubband.appended_buffer _ _ _ hll) (CSubband.appended_buffer _ _ _ hhl)
      (CSubband.appended_buffer _ _ _ hlh) (CSubband.appended_buffer _ _ _ hhh)
      (by rw [length_splice _ _ _ (by rw [evenCells_length]; exact cll)]; exact cll)
      (by rw [length_splice _ _ _ (by rw [oddCells_length]; exact chl)]; exact chl)
      (by rw [length_splice _ _ _ (by rw [evenCells_length]; exact clh)]; exact clh)
      (by rw [length_splice _ _ _ (by rw [oddCells_length]; exact chh)]; exact chh)
      flo fhi fdis
    refine ⟨_, dest', hL, ?_, ?_, ?_⟩
    · rw [hM]
      have e1 := CSubband.reset_advanced d.ll (evenCells mem lo w)
      have e2 := CSubband.reset_advanced d.hl (oddCells mem lo w)
      have e3 := CSubband.reset_advanced d.lh (evenCells mem hi w)
      have e4 := CSubband.reset_advanced d.hh (oddCells mem hi w)
      rw [evenCells_length] at e1 e3
      rw [oddCells_length] at e2 e4
      simp only [Bands.withCursorsOf, scattered, e1, e2, e3, e4]
    · apply rowOf_congr
      intro k hk
      rw [hrow1 k hk]
      exact gathered_appended d.ll d.hl bll bhl mem lo w k hll hhl cll chl hk
    · simp only [Option.map_some', Option.some.injEq]
      apply rowOf_congr
      intro k hk
      rw [hrow2 k hk]
      exact gathered_appended d.lh d.hh blh bhh mem hi w k hlh hhh clh chh hk

theorem MallatToLinear_LinearToMallat_witness :
    (scatterRoom (Bands.withRoom ⟨CSubband.Initialize 2 2 1 .LL, CSubband.Initialize 1 2 1 .HL,
        CSubband.Initialize 2 2 1 .LH, CSubband.Initialize 1 2 1 .HH⟩ 4)
      [1, 2, 3, 4, 5, 6] 0 (some 3) 3 = true ∧
      rowsFit (List.replicate 6 0) 0 (some 3) 3 = true) ∧
    ∃ d1 dest', LinearToMallat (Bands.withRoom ⟨CSubband.Initialize 2 2 1 .LL,
        CSubband.Initialize 1 2 1 .HL, CSubband.Initialize 2 2 1 .LH,
        CSubband.Initialize 1 2 1 .HH⟩ 4) [1, 2, 3, 4, 5, 6] 0 (some 3) 3 = .ok d1 ∧
      MallatToLinear (d1.withCursorsOf (Bands.withRoom ⟨CSubband.Initialize 2 2 1 .LL,
        CSubband.Initialize 1 2 1 .HL, CSubband.Initialize 2 2 1 .LH,
        CSubband.Initialize 1 2 1 .HH⟩ 4)) (List.replicate 6 0) 0 (some 3) 3 = .ok (d1, dest') ∧
      rowOf dest' 0 3 = rowOf [1, 2, 3, 4, 5, 6] 0 3 ∧
      (some 3).map (fun hi => rowOf dest' hi 3) =
        (some 3).map (fun hi => rowOf [1, 2, 3, 4, 5, 6] hi 3) :=
  ⟨⟨by decide, by decide⟩, MallatToLinear_LinearToMallat _ _ _ _ _ _ (by decide) (by decide)⟩

/-! ## Row alignment of the gather in the ROI build -/

/-- C28: `MallatToLinear` of the build with `__PGFROISUPPORT__`, when
`floor(width / 2) < ll.BufferWidth()`. With the coefficients present in the subbands and
the output rows inside the buffer, the call succeeds, and afterwards the cursor of each of
LL, HL, LH and HH is its cursor before the call plus that subband's own `BufferWidth`
(as a `UINT32` sum); when `hiRow` is absent this holds for LL and HL, and the cursors of
LH and HH are the ones before the call. -/
theorem MallatToLinearROI_cursors (d : Bands) (dest : List Int) (lo w : Nat)
    (hiRow : Option Nat) (hroom : gatherRoom d hiRow w = true)
    (hfit : rowsFit dest lo hiRow w = true) (hw : w / 2 < d.ll.BufferWidth) :
    ∃ r, MallatToLinearROI d dest lo hiRow w = .ok r ∧
      r.1.cursors =
        match hiRow with
        | some _ => ((d.ll.cursor + d.ll.BufferWidth) % 2 ^ 32,
            (d.hl.cursor + d.hl.BufferWidth) % 2 ^ 32,
            (d.lh.cursor + d.lh.BufferWidth) % 2 ^ 32,
            (d.hh.cursor + d.hh.BufferWidth) % 2 ^ 32)
        | none => ((d.ll.cursor + d.ll.BufferWidth) % 2 ^ 32,
            (d.hl.cursor + d.hl.BufferWidth) % 2 ^ 32, d.lh.cursor, d.hh.cursor) := by
  have hq : w >>> 1 = w / 2 := by rw [Nat.shiftRight_eq_div_pow, pow_one]
  unfold gatherRoom at hroom
  unfold rowsFit at hfit
  unfold MallatToLinearROI
  simp only [hq, hw, decide_True, if_true]
  cases hiRow with
  | none =>
    simp only [Bool.and_true, Bool.and_eq_true, decide_eq_true_eq] at hroom hfit
    obtain ⟨h1, h2⟩ := hroom
    obtain ⟨bll, hll, cll⟩ := CSubband.hasRoom_iff _ _ h1
    obtain ⟨bhl, hhl, chl⟩ := CSubband.hasRoom_iff _ _ h2
    obtain ⟨dest', hM, _⟩ := MallatToLinear_none d dest lo w bll bhl hll hhl cll chl hfit
    simp only [hM, ok_bind, pure_eq_ok]
    exact ⟨_, rfl, rfl⟩
  | some hi =>
    simp only [Bool.and_eq_true, decide_eq_true_eq, Bool.or_eq_true] at hroom hfit
    obtain ⟨⟨h1, h2⟩, h3, h4⟩ := hroom
    obtain ⟨flo, fhi, fdis⟩ := hfit
    obtain ⟨bll, hll, cll⟩ := CSubband.hasRoom_iff _ _ h1
    obtain ⟨bhl, hhl, chl⟩ := CSubband.hasRoom_iff _ _ h2
    obtain ⟨blh, hlh, clh⟩ := CSubband.hasRoom_iff _ _ h3
    obtain ⟨bhh, hhh, chh⟩ := CSubband.hasRoom_iff _ _ h4
    obtain ⟨dest', hM, _⟩ := MallatToLinear_some d dest lo hi w bll bhl blh bhh hll hhl hlh hhh
      cll chl clh chh flo fhi fdis
    simp only [hM, ok_bind, pure_eq_ok]
    exact ⟨_, rfl, rfl⟩

theorem MallatToLinearROI_cursors_witness :
    (gatherRoom (Bands.withRoom ⟨CSubband.Initialize 3 2 1 .LL, CSubband.Initialize 3 2 1 .HL,
        CSubband.Initialize 3 2 1 .LH, CSubband.Initialize 3 2 1 .HH⟩ 6) (some 3) 3 = true ∧
      rowsFit (List.replicate 6 0) 0 (some 3) 3 = true ∧
      3 / 2 < CSubband.BufferWidth (Bands.withRoom ⟨CSubband.Initialize 3 2 1 .LL,
        CSubband.Initialize 3 2 1 .HL, CSubband.Initialize 3 2 1 .LH,
        CSubband.Initialize 3 2 1 .HH⟩ 6).ll) ∧
    ∃ r, MallatToLinearROI (Bands.withRoom ⟨CSubband.Initialize 3 2 1 .LL,
        CSubband.Initialize 3 2 1 .HL, CSubband.Initialize 3 2 1 .LH,
        CSubband.Initialize 3 2 1 .HH⟩ 6) (List.replicate 6 0) 0 (some 3) 3 = .ok r ∧
      r.1.cursors = ((0 + 3) % 2 ^ 32, (0 + 3) % 2 ^ 32, (0 + 3) % 2 ^ 32, (0 + 3) % 2 ^ 32) :=
  ⟨⟨by decide, by decide, by decide⟩,
    MallatToLinearROI_cursors _ _ _ _ _ (by decide) (by decide) (by decide)⟩

/-! ## Buffers as matrices -/

theorem cell_lt {w h r k : Nat} (hr : r < h) (hk : k < w) : r * w + k < h * w := by
  have h1 : (r + 1) * w ≤ h * w := Nat.mul_le_mul_right w hr
  have h2 : (r + 1) * w = r * w + w := by ring
  omega

theorem cell_ne {w r a k c : Nat} (hk : k < w) (hc : c < w) (h : r ≠ a) :
    r * w + c ≠ a * w + k := by
  intro e
  rcases Nat.lt_or_gt_of_ne h with h1 | h1
  · have h2 : (r + 1) * w ≤ a * w := Nat.mul_le_mul_right w h1
    have h3 : (r + 1) * w = r * w + w := by ring
    omega
  · have h2 : (a + 1) * w ≤ r * w := Nat.mul_le_mul_right w h1
    have h3 : (a + 1) * w = a * w + w := by ring
    omega

theorem cell_eq_iff {w r a k c : Nat} (hk : k < w) (hc : c < w) :
    r * w + c = a * w + k ↔ r = a ∧ c = k := by
  constructor
  · intro e
    by_cases h : r = a
    · subst h; exact ⟨rfl, by omega⟩
    · exact absurd e (cell_ne hk hc h)
  · rintro ⟨rfl, rfl⟩; rfl

theorem Rows.congr {mem : List Int} {w h : Nat} {M N : Nat → Nat → Int}
    (hR : Rows mem w h M) (hMN : ∀ r k, r < h → k < w → M r k = N r k) : Rows mem w h N :=
  ⟨hR.1, fun r k hr hk => by rw [hR.2 r k hr hk, hMN r k hr hk]⟩

theorem Rows.rd {mem : List Int} {w h : Nat} {M : Nat → Nat → Int} (hR : Rows mem w h M)
    {r k : Nat} (hr : r < h) (hk : k < w) : rd mem (r * w + k) = .ok (M r k) := by
  rw [rd_ok (by rw [hR.1]; exact cell_lt hr hk), hR.2 r k hr hk]

theorem Rows.set {mem : List Int} {w h : Nat} {M : Nat → Nat → Int} (hR : Rows mem w h M)
    {a k : Nat} (ha : a < h) (hk : k < w) (v : Int) :
    Rows (mem.set (a * w + k) v) w h (fun r c => if r = a ∧ c = k then v else M r c) := by
  refine ⟨by rw [List.length_set]; exact hR.1, ?_⟩
  intro r c hr hc
  rw [ld_set _ _ _ _ (by rw [hR.1]; exact cell_lt ha hk)]
  simp only
  by_cases e : r = a ∧ c = k
  · rw [if_pos ((cell_eq_iff hk hc).mpr e), if_pos e]
  · rw [if_neg (fun e' => e ((cell_eq_iff hk hc).mp e')), if_neg e, hR.2 r c hr hc]

theorem Rows.subAt {mem : List Int} {w h : Nat} {M : Nat → Nat → Int} (hR : Rows mem w h M)
    {a k : Nat} (ha : a < h) (hk : k < w) (v : Int) :
    ∃ m', subAt mem (a * w + k) v = .ok m' ∧
      Rows m' w h (fun r c => if r = a ∧ c = k then M a k - v else M r c) := by
  refine ⟨_, subAt_ok (by rw [hR.1]; exact cell_lt ha hk) v, ?_⟩
  rw [hR.2 a k ha hk]
  exact hR.set ha hk _

theorem Rows.addAt {mem : List Int} {w h : Nat} {M : Nat → Nat → Int} (hR : Rows mem w h M)
    {a k : Nat} (ha : a < h) (hk : k < w) (v : Int) :
    ∃ m', addAt mem (a * w + k) v = .ok m' ∧
      Rows m' w h (fun r c => if r = a ∧ c = k then M a k + v else M r c) := by
  refine ⟨_, addAt_ok (by rw [hR.1]; exact cell_lt ha hk) v, ?_⟩
  rw [hR.2 a k ha hk]
  exact hR.set ha hk _

/-- Invariant rule for the column loop `forK`: a property of the loop counter and the
buffer that holds at 0 and that each fault-free step carries from `k` to `k + 1` holds at
`width` after the loop, which runs without fault. -/
theorem forK_spec (w : Nat) (body : Nat → List Int → Exec (List Int)) (mem : List Int)
    (I : Nat → List Int → Prop) (h0 : I 0 mem)
    (hstep : ∀ k m, k < w → I k m → ∃ m', body k m = .ok m' ∧ I (k + 1) m') :
    ∃ m', forK w body mem = .ok m' ∧ I w m' := by
  unfold forK
  obtain ⟨s, hrun, hI, hc⟩ := whileLoop_inv
    (fun (s : Nat × List Int) => decide (s.1 < w))
    (fun (s : Nat × List Int) => do
      let mem ← body s.1 s.2
      pure (s.1 + 1, mem))
    (fun s => s.1 ≤ w ∧ I s.1 s.2) (fun s => w - s.1)
    (by
      intro s hI hc
      have hlt : s.1 < w := by simpa using hc
      obtain ⟨m', hb, hI'⟩ := hstep s.1 s.2 hlt hI.2
      refine ⟨(s.1 + 1, m'), ?_, ⟨by simp only; omega, hI'⟩, by simp only; omega⟩
      simp only [hb, ok_bind, pure_eq_ok])
    w (0, mem) ⟨Nat.zero_le _, h0⟩ (by simp)
  have hw : s.1 = w := by
    have : ¬ s.1 < w := by simpa using hc
    omega
  refine ⟨s.2, ?_, ?_⟩
  · rw [hrun, ok_bind, pure_eq_ok]
  · have := hI.2
    rwa [hw] at this

/-- A column loop whose step rewrites column `k` of the matrix from `M` to `N` turns the
matrix `M` into `N`. -/
theorem forK_cols (w h : Nat) (body : Nat → List Int → Exec (List Int)) (mem : List Int)
    (M N : Nat → Nat → Int) (hR : Rows mem w h M)
    (hstep : ∀ k m, k < w → Rows m w h (fun r c => if c < k then N r c else M r c) →
      ∃ m', body k m = .ok m' ∧ Rows m' w h (fun r c => if c < k + 1 then N r c else M r c)) :
    ∃ m', forK w body mem = .ok m' ∧ Rows m' w h N := by
  obtain ⟨m', hrun, hI⟩ := forK_spec w body mem
    (fun k m => Rows m w h (fun r c => if c < k then N r c else M r c))
    (hR.congr (fun r c _ _ => by simp)) hstep
  exact ⟨m', hrun, hI.congr (fun r c _ hc => by simp [hc])⟩

/-! ## The lifting pass and its inverse -/

theorem liftOdd_congr {v v' : Nat → Int} {n j : Nat} (h : ∀ i, i < n → v i = v' i)
    (hj : j < n) (hodd : j % 2 = 1) : liftOdd v n j = liftOdd v' n j := by
  unfold liftOdd
  by_cases h1 : j + 1 < n
  · rw [if_pos h1, if_pos h1, h j hj, h (j - 1) (by omega), h (j + 1) h1]
  · rw [if_neg h1, if_neg h1, h j hj, h (j - 1) (by omega)]

theorem liftCell_congr {v v' : Nat → Int} {n i : Nat} (h : ∀ i, i < n → v i = v' i)
    (hn : 2 ≤ n) (hi : i < n) : liftCell v n i = liftCell v' n i := by
  unfold liftCell
  by_cases h1 : i % 2 = 1
  · rw [if_pos h1, if_pos h1, liftOdd_congr h hi h1]
  · rw [if_neg h1, if_neg h1]
    by_cases h0 : i = 0
    · rw [if_pos h0, if_pos h0, h 0 (by omega), liftOdd_congr h (by omega) (by omega)]
    · rw [if_neg h0, if_neg h0]
      by_cases h2 : i + 1 < n
      · rw [if_pos h2, if_pos h2, h i hi, liftOdd_congr h (by omega) (by omega),
          liftOdd_congr h h2 (by omega)]
      · rw [if_neg h2, if_neg h2, h i hi, liftOdd_congr h (by omega) (by omega)]

theorem unliftEven_congr {d d' : Nat → Int} {n j : Nat} (h : ∀ i, i < n → d i = d' i)
    (hn : 2 ≤ n) (hj : j < n) (hev : j % 2 = 0) : unliftEven d n j = unliftEven d' n j := by
  unfold unliftEven
  by_cases h0 : j = 0
  · rw [if_pos h0, if_pos h0, h 0 (by omega), h 1 (by omega)]
  · rw [if_neg h0, if_neg h0]
    by_cases h1 : j + 1 < n
    · rw [if_pos h1, if_pos h1, h j hj, h (j - 1) (by omega), h (j + 1) h1]
    · rw [if_neg h1, if_neg h1, h j hj, h (j - 1) (by omega)]

theorem unliftCell_congr {d d' : Nat → Int} {n i : Nat} (h : ∀ i, i < n → d i = d' i)
    (hn : 2 ≤ n) (hi : i < n) : unliftCell d n i = unliftCell d' n i := by
  unfold unliftCell
  by_cases h1 : i % 2 = 0
  · rw [if_pos h1, if_pos h1, unliftEven_congr h hn hi h1]
  · rw [if_neg h1, if_neg h1]
    by_cases h2 : i + 1 < n
    · rw [if_pos h2, if_pos h2, h i hi, unliftEven_congr h hn (by omega) (by omega),
        unliftEven_congr h hn h2 (by omega)]
    · rw [if_neg h2, if_neg h2, h i hi, unliftEven_congr h hn (by omega) (by omega)]

theorem liftCell_odd (v : Nat → Int) (n i : Nat) (h : i % 2 = 1) :
    liftCell v n i = liftOdd v n i := by
  unfold liftCell
  rw [if_pos h]

theorem unliftEven_liftCell (v : Nat → Int) (n j : Nat) (hj : j < n) (hev : j % 2 = 0) :
    unliftEven (liftCell v n) n j = v j := by
  unfold unliftEven
  by_cases h0 : j = 0
  · subst h0
    rw [if_pos rfl, liftCell_odd v n 1 (by decide)]
    unfold liftCell
    rw [if_neg (by decide), if_pos rfl]
    omega
  · rw [if_neg h0]
    by_cases h1 : j + 1 < n
    · rw [if_pos h1, liftCell_odd v n (j - 1) (by omega), liftCell_odd v n (j + 1) (by omega)]
      unfold liftCell
      rw [if_neg (by omega), if_neg h0, if_pos h1]
      omega
    · rw [if_neg h1, liftCell_odd v n (j - 1) (by omega)]
      unfold liftCell
      rw [if_neg (by omega), if_neg h0, if_neg h1]
      omega

/-- The inverse lifting pass undoes the lifting pass, on every signal of length at least
2 and whatever its integer content. -/
theorem unliftCell_liftCell (v : Nat → Int) (n i : Nat) (hi : i < n) :
    unliftCell (liftCell v n) n i = v i := by
  unfold unliftCell
  by_cases h1 : i % 2 = 0
  · rw [if_pos h1, unliftEven_liftCell v n i hi h1]
  · rw [if_neg h1]
    by_cases h2 : i + 1 < n
    · rw [if_pos h2, unliftEven_liftCell v n (i - 1) (by omega) (by omega),
        unliftEven_liftCell v n (i + 1) h2 (by omega), liftCell_odd v n i (by omega)]
      unfold liftOdd
      rw [if_pos h2]
      omega
    · rw [if_neg h2, unliftEven_liftCell v n (i - 1) (by omega) (by omega),
        liftCell_odd v n i (by omega)]
      unfold liftOdd
      rw [if_neg h2]
      omega

theorem ForwardRowPost_liftCell (s d : List Int) (b w : Nat) (hw : 5 ≤ w)
    (hF : ForwardRowPost s d b w) (j : Nat) (hj : j < w) :
    ld d (b + j) = liftCell (fun i => ld s (b + i)) w j := by
  obtain ⟨_, _, fodd, f0, fev, fbo, fbe⟩ := hF
  have hodd : ∀ i, i % 2 = 1 → i < w →
      ld d (b + i) = liftOdd (fun i => ld s (b + i)) w i := by
    intro i hi hlt
    unfold liftOdd
    by_cases h1 : i + 1 < w
    · rw [if_pos h1]
      exact fodd i hi h1
    · rw [if_neg h1]
      have e : i = w - 1 := by omega
      have e2 : i - 1 = w - 2 := by omega
      simp only
      rw [e2, e]
      exact fbe (by omega)
  unfold liftCell
  by_cases h1 : j % 2 = 1
  · rw [if_pos h1]
    exact hodd j h1 hj
  · rw [if_neg h1]
    by_cases h0 : j = 0
    · subst h0
      rw [if_pos rfl, ← hodd 1 (by decide) (by omega)]
      exact f0
    · rw [if_neg h0]
      by_cases h2 : j + 1 < w
      · rw [if_pos h2, ← hodd (j - 1) (by omega) (by omega), ← hodd (j + 1) (by omega) h2]
        exact fev j (by omega) (by omega) h2
      · rw [if_neg h2, ← hodd (j - 1) (by omega) (by omega)]
        have e : j = w - 1 := by omega
        have e2 : j - 1 = w - 2 := by omega
        simp only
        rw [e2, e]
        exact fbo (by omega)

theorem InverseRowPost_unliftCell (d t : List Int) (b w : Nat) (hw : 5 ≤ w)
    (hG : InverseRowPost d t b w) (j : Nat) (hj : j < w) :
    ld t (b + j) = unliftCell (fun i => ld d (b + i)) w j := by
  obtain ⟨_, _, g0, gev, godd, gbo, gbe⟩ := hG
  have hev : ∀ i, i % 2 = 0 → i < w →
      ld t (b + i) = unliftEven (fun i => ld d (b + i)) w i := by
    intro i hi hlt
    unfold unliftEven
    by_cases h0 : i = 0
    · subst h0
      rw [if_pos rfl]
      exact g0
    · rw [if_neg h0]
      by_cases h1 : i + 1 < w
      · rw [if_pos h1]
        exact gev i hi (by omega) h1
      · rw [if_neg h1]
        have e : i = w - 1 := by omega
        have e2 : i - 1 = w - 2 := by omega
        simp only
        rw [e2, e]
        exact gbo (by omega)
  unfold unliftCell
  by_cases h1 : j % 2 = 0
  · rw [if_pos h1]
    exact hev j h1 hj
  · rw [if_neg h1]
    by_cases h2 : j + 1 < w
    · rw [if_pos h2, ← hev (j - 1) (by omega) (by omega), ← hev (j + 1) (by omega) h2]
      exact godd j (by omega) h2
    · rw [if_neg h2, ← hev (j - 1) (by omega) (by omega)]
      have e : j = w - 1 := by omega
      have e2 : j - 1 = w - 2 := by omega
      simp only
      rw [e2, e]
      exact gbe (by omega)

/-! ## The row filters on a row of a matrix -/

theorem cell_outside {w r a c : Nat} (hc : c < w) (h : r ≠ a) :
    r * w + c < a * w ∨ a * w + w ≤ r * w + c := by
  rcases Nat.lt_or_gt_of_ne h with h1 | h1
  · left
    have h2 : (r + 1) * w ≤ a * w := Nat.mul_le_mul_right w h1
    have h3 : (r + 1) * w = r * w + w := by ring
    omega
  · right
    have h2 : (a + 1) * w ≤ r * w := Nat.mul_le_mul_right w h1
    have h3 : (a + 1) * w = a * w + w := by ring
    omega

theorem row_le {w h a : Nat} (ha : a < h) : a * w + w ≤ h * w := by
  have h2 : (a + 1) * w ≤ h * w := Nat.mul_le_mul_right w ha
  have h3 : (a + 1) * w = a * w + w := by ring
  omega

theorem ForwardRow_Rows {mem : List Int} {w h : Nat} {M : Nat → Nat → Int}
    (hR : Rows mem w h M) {a : Nat} (ha : a < h) :
    ∃ mem', ForwardRow mem (a * w) w = .ok mem' ∧
      Rows mem' w h (fun r k => if r = a then rowLift w (M a) k else M r k) := by
  by_cases hw : 5 ≤ w
  · obtain ⟨d, hd, hF⟩ := ForwardRow_spec mem (a * w) w hw (by rw [hR.1]; exact row_le ha)
    refine ⟨d, hd, by rw [hF.1, hR.1], ?_⟩
    intro r k hr hk
    simp only
    by_cases e : r = a
    · subst e
      rw [if_pos rfl, ForwardRowPost_liftCell mem d (r * w) w hw hF k hk]
      unfold rowLift
      rw [if_neg (by simp [FilterWidth]; omega)]
      exact liftCell_congr (fun i hi => hR.2 r i hr hi) (by omega) hk
    · rw [if_neg e, hF.2.1 _ (cell_outside hk e), hR.2 r k hr hk]
  · have hlt : ¬ w ≥ FilterWidth := by simpa [FilterWidth] using hw
    refine ⟨mem, by simp [ForwardRow, hlt, pure_eq_ok], hR.congr ?_⟩
    intro r k _ _
    by_cases e : r = a
    · subst e
      simp [rowLift, FilterWidth]
      omega
    · simp [e]

theorem InverseRow_Rows {mem : List Int} {w h : Nat} {M : Nat → Nat → Int}
    (hR : Rows mem w h M) {a : Nat} (ha : a < h) :
    ∃ mem', InverseRow mem (a * w) w = .ok mem' ∧
      Rows mem' w h (fun r k => if r = a then rowUnlift w (M a) k else M r k) := by
  by_cases hw : 5 ≤ w
  · obtain ⟨t, ht, hG⟩ := InverseRow_spec mem (a * w) w hw (by rw [hR.1]; exact row_le ha)
    refine ⟨t, ht, by rw [hG.1, hR.1], ?_⟩
    intro r k hr hk
    simp only
    by_cases e : r = a
    · subst e
      rw [if_pos rfl, InverseRowPost_unliftCell mem t (r * w) w hw hG k hk]
      unfold rowUnlift
      rw [if_neg (by simp [FilterWidth]; omega)]
      exact unliftCell_congr (fun i hi => hR.2 r i hr hi) (by omega) hk
    · rw [if_neg e, hG.2.1 _ (cell_outside hk e), hR.2 r k hr hk]
  · have hlt : ¬ w ≥ FilterWidth := by simpa [FilterWidth] using hw
    refine ⟨mem, by simp [InverseRow, hlt, pure_eq_ok], hR.congr ?_⟩
    intro r k _ _
    by_cases e : r = a
    · subst e
      simp [rowUnlift, FilterWidth]
      omega
    · simp [e]

theorem rowUnlift_rowLift (w : Nat) (v : Nat → Int) (k : Nat) (hk : k < w) :
    rowUnlift w (rowLift w v) k = v k := by
  unfold rowUnlift
  by_cases hw : w < FilterWidth
  · rw [if_pos hw]
    unfold rowLift
    rw [if_pos hw]
  · rw [if_neg hw]
    have e : unliftCell (rowLift w v) w k = unliftCell (liftCell v w) w k := by
      apply unliftCell_congr _ (by simp [FilterWidth] at hw; omega) hk
      intro i _
      unfold rowLift
      rw [if_neg hw]
    rw [e, unliftCell_liftCell v w k hk]

theorem colUnlift_colLift (h : Nat) (v : Nat → Int) (r : Nat) (hr : r < h) :
    colUnlift h (colLift h v) r = v r := by
  unfold colUnlift
  by_cases hw : h < FilterHeight
  · rw [if_pos hw]
    unfold colLift
    rw [if_pos hw]
  · rw [if_neg hw]
    have e : unliftCell (colLift h v) h r = unliftCell (liftCell v h) h r := by
      apply unliftCell_congr _ (by simp [FilterHeight] at hw; omega) hr
      intro i _
      unfold colLift
      rw [if_neg hw]
    rw [e, unliftCell_liftCell v h r hr]

/-! ## Scatter of matrix rows -/

theorem splice_splice (buf L E : List Int) (c : Nat) (hc : c + L.length + E.length ≤ buf.length) :
    (buf.take c ++ L ++ buf.drop (c + L.length)).take (c + L.length) ++ E ++
        (buf.take c ++ L ++ buf.drop (c + L.length)).drop (c + L.length + E.length) =
      buf.take c ++ (L ++ E) ++ buf.drop (c + (L ++ E).length) := by
  have hcL : c + L.length ≤ buf.length := by omega
  have hl1 := length_splice buf L c hcL
  have hc2 : c + (L ++ E).length ≤ buf.length := by
    rw [List.length_append]; omega
  have hl2 := length_splice buf (L ++ E) c hc2
  have hl3 := length_splice (buf.take c ++ L ++ buf.drop (c + L.length)) E (c + L.length)
    (by rw [hl1]; omega)
  apply ext_ld
  · rw [hl3, hl1, hl2]
  · intro p _
    rw [ld_splice _ E (c + L.length) p (by rw [hl1]; omega), ld_splice buf (L ++ E) c p hc2]
    simp only [List.length_append]
    by_cases h1 : p < c
    · rw [if_pos (by omega), if_pos h1, ld_splice buf L c p hcL, if_pos h1]
    · rw [if_neg h1]
      by_cases h2 : p < c + L.length
      · rw [if_pos h2, if_pos (by omega), ld_splice buf L c p hcL, if_neg h1, if_pos h2,
          ld_append_left _ _ _ (by omega)]
      · rw [if_neg h2]
        by_cases h3 : p < c + L.length + E.length
        · rw [if_pos h3, if_pos (by omega), ld_append_right _ _ _ (by omega)]
          congr 1
          omega
        · rw [if_neg h3, if_neg (by omega), ld_splice buf L c p hcL, if_neg h1, if_neg h2]

theorem CSubband.appended_appended (b : CSubband) (buf L E : List Int)
    (hb : b.buffer = some buf) (hc : b.cursor + L.length + E.length ≤ buf.length) :
    (b.appended L).appended E = b.appended (L ++ E) := by
  unfold CSubband.appended
  simp only [hb, Option.map_some', List.length_append]
  rw [splice_splice buf L E b.cursor hc]
  simp [Nat.add_assoc]

theorem evenCells_Rows {mem : List Int} {w h : Nat} {M : Nat → Nat → Int}
    (hR : Rows mem w h M) {a : Nat} (ha : a < h) :
    evenCells mem (a * w) w = (List.range ((w + 1) / 2)).map (fun j => M a (2 * j)) := by
  unfold evenCells
  apply List.map_congr_left
  intro j hj
  have := List.mem_range.mp hj
  rw [hR.2 a (2 * j) ha (by omega)]

theorem oddCells_Rows {mem : List Int} {w h : Nat} {M : Nat → Nat → Int}
    (hR : Rows mem w h M) {a : Nat} (ha : a < h) :
    oddCells mem (a * w) w = (List.range (w / 2)).map (fun j => M a (2 * j + 1)) := by
  unfold oddCells
  apply List.map_congr_left
  intro j hj
  have := List.mem_range.mp hj
  rw [Nat.add_assoc, hR.2 a (2 * j + 1) ha (by omega)]

theorem LinearToMallat_Rows_some {mem : List Int} {w h : Nat} {M : Nat → Nat → Int}
    (hR : Rows mem w h M) {a b : Nat} (ha : a < h) (hb : b < h) (d0 : Bands)
    (bll bhl blh bhh Lll Lhl Llh Lhh : List Int)
    (hll : d0.ll.buffer = some bll) (hhl : d0.hl.buffer = some bhl)
    (hlh : d0.lh.buffer = some blh) (hhh : d0.hh.buffer = some bhh)
    (cll : d0.ll.cursor + Lll.length + (w + 1) / 2 ≤ bll.length)
    (chl : d0.hl.cursor + Lhl.length + w / 2 ≤ bhl.length)
    (clh : d0.lh.cursor + Llh.length + (w + 1) / 2 ≤ blh.length)
    (chh : d0.hh.cursor + Lhh.length + w / 2 ≤ bhh.length) :
    LinearToMallat { ll := d0.ll.appended Lll, hl := d0.hl.appended Lhl,
                     lh := d0.lh.appended Llh, hh := d0.hh.appended Lhh }
        mem (a * w) (some (b * w)) w = .ok
      { ll := d0.ll.appended (Lll ++ (List.range ((w + 1) / 2)).map (fun j => M a (2 * j))),
        hl := d0.hl.appended (Lhl ++ (List.range (w / 2)).map (fun j => M a (2 * j + 1))),
        lh := d0.lh.appended (Llh ++ (List.range ((w + 1) / 2)).map (fun j => M b (2 * j))),
        hh := d0.hh.appended (Lhh ++ (List.range (w / 2)).map (fun j => M b (2 * j + 1))) } := by
  rw [LinearToMallat_some _ mem (a * w) (b * w) w _ _ _ _
    (CSubband.appended_buffer _ _ _ hll) (CSubband.appended_buffer _ _ _ hhl)
    (CSubband.appended_buffer _ _ _ hlh) (CSubband.appended_buffer _ _ _ hhh)
    (by rw [length_splice _ _ _ (by omega)]; simp only [CSubband.appended]; omega)
    (by rw [length_splice _ _ _ (by omega)]; simp only [CSubband.appended]; omega)
    (by rw [length_splice _ _ _ (by omega)]; simp only [CSubband.appended]; omega)
    (by rw [length_splice _ _ _ (by omega)]; simp only [CSubband.appended]; omega)
    (by rw [hR.1]; exact row_le ha) (by rw [hR.1]; exact row_le hb)]
  simp only
  rw [CSubband.appended_appended _ bll _ _ hll (by rw [evenCells_length]; exact cll),
    CSubband.appended_appended _ bhl _ _ hhl (by rw [oddCells_length]; exact chl),
    CSubband.appended_appended _ blh _ _ hlh (by rw [evenCells_length]; exact clh),
    CSubband.appended_appended _ bhh _ _ hhh (by rw [oddCells_length]; exact chh),
    evenCells_Rows hR ha, oddCells_Rows hR ha, evenCells_Rows hR hb, oddCells_Rows hR hb]

theorem LinearToMallat_Rows_none {mem : List Int} {w h : Nat} {M : Nat → Nat → Int}
    (hR : Rows mem w h M) {a : Nat} (ha : a < h) (d0 : Bands) (lh hh : CSubband)
    (bll bhl Lll Lhl : List Int)
    (hll : d0.ll.buffer = some bll) (hhl : d0.hl.buffer = some bhl)
    (cll : d0.ll.cursor + Lll.length + (w + 1) / 2 ≤ bll.length)
    (chl : d0.hl.cursor + Lhl.length + w / 2 ≤ bhl.length) :
    LinearToMallat { ll := d0.ll.appended Lll, hl := d0.hl.appended Lhl, lh := lh, hh := hh }
        mem (a * w) none w = .ok
      { ll := d0.ll.appended (Lll ++ (List.range ((w + 1) / 2)).map (fun j => M a (2 * j))),
        hl := d0.hl.appended (Lhl ++ (List.range (w / 2)).map (fun j => M a (2 * j + 1))),
        lh := lh, hh := hh } := by
  rw [LinearToMallat_none _ mem (a * w) w _ _
    (CSubband.appended_buffer _ _ _ hll) (CSubband.appended_buffer _ _ _ hhl)
    (by rw [length_splice _ _ _ (by omega)]; simp only [CSubband.appended]; omega)
    (by rw [length_splice _ _ _ (by omega)]; simp only [CSubband.appended]; omega)
    (by rw [hR.1]; exact row_le ha)]
  simp only
  rw [CSubband.appended_appended _ bll _ _ hll (by rw [evenCells_length]; exact cll),
    CSubband.appended_appended _ bhl _ _ hhl (by rw [oddCells_length]; exact chl),
    evenCells_Rows hR ha, oddCells_Rows hR ha]

theorem length_rowMajor (cols : Nat) (M : Nat → Nat → Int) (rows : Nat) :
    (rowMajor cols M rows).length = rows * cols := by
  induction rows with
  | zero => simp [rowMajor]
  | succ n ih =>
    simp only [rowMajor, List.length_append, ih, List.length_map, List.length_range]
    ring

theorem ld_rowMajor (cols : Nat) (M : Nat → Nat → Int) (rows a j : Nat) (ha : a < rows)
    (hj : j < cols) : ld (rowMajor cols M rows) (a * cols + j) = M a j := by
  induction rows with
  | zero => omega
  | succ n ih =>
    simp only [rowMajor]
    by_cases hn : a < n
    · rw [ld_append_left _ _ _ (by rw [length_rowMajor]; exact cell_lt hn hj), ih hn]
    · have e : a = n := by omega
      subst e
      rw [ld_append_right _ _ _ (by rw [length_rowMajor]; omega), length_rowMajor,
        Nat.add_sub_cancel_left, ld_range_map _ _ _ hj]

/-! ## The column steps of the forward transform -/

theorem forK_fwd_mid {mem : List Int} {w h : Nat} {M : Nat → Nat → Int}
    (hR : Rows mem w h M) {a b c e : Nat} (ha : a < h) (hb : b < h) (hc : c < h) (he : e < h)
    (hac : a ≠ c) (hbc : b ≠ c) (hec : e ≠ c) (p0 p1 p2 p3 : Nat)
    (e0 : p0 = a * w) (e1 : p1 = b * w) (e2 : p2 = c * w) (e3 : p3 = e * w) :
    ∃ m', forK w (fun k mem => do
        let mem ← subAt mem (p2 + k) (((← rd mem (p1 + k)) + (← rd mem (p3 + k)) + c1) >>> 1)
        addAt mem (p1 + k) (((← rd mem (p0 + k)) + (← rd mem (p2 + k)) + c2) >>> 2)) mem
        = .ok m' ∧
      Rows m' w h (fun r k =>
        if r = c then M c k - ((M b k + M e k + 1) >>> 1)
        else if r = b then
          M b k + ((M a k + (M c k - ((M b k + M e k + 1) >>> 1)) + 2) >>> 2)
        else M r k) := by
  subst e0 e1 e2 e3
  apply forK_cols w h _ mem M _ hR
  intro k m hk hRk
  have r1 := hRk.rd hb hk
  have r3 := hRk.rd he hk
  simp only [Nat.lt_irrefl, if_false] at r1 r3
  obtain ⟨m1, hs, hR1⟩ := hRk.subAt hc hk ((M b k + M e k + c1) >>> 1)
  have r0 := hR1.rd ha hk
  have r2 := hR1.rd hc hk
  simp only [Nat.lt_irrefl, if_false, hac, false_and, true_and, if_true] at r0 r2
  obtain ⟨m2, hadd, hR2⟩ := hR1.addAt hb hk
    ((M a k + (M c k - ((M b k + M e k + c1) >>> 1)) + c2) >>> 2)
  refine ⟨m2, ?_, hR2.congr ?_⟩
  · simp only [r1, r3, ok_bind, hs, r0, r2, hadd]
  · intro r c' _ _
    simp only [c1, c2, Nat.lt_irrefl, if_false, hbc, false_and]
    by_cases h1 : c' = k
    · subst h1
      simp only [and_true, Nat.lt_succ_self, if_true]
      by_cases h2 : r = b
      · subst h2
        simp [hbc]
      · by_cases h3 : r = c
        · subst h3
          simp [h2]
        · simp [h2, h3]
    · have h4 : (c' < k + 1) = (c' < k) := by
        apply propext; omega
      simp only [h1, and_false, if_false, h4]

theorem forK_fwd_top {mem : List Int} {w h : Nat} {M : Nat → Nat → Int}
    (hR : Rows mem w h M) {a b c : Nat} (ha : a < h) (hb : b < h) (hc : c < h)
    (hab : a ≠ b) (hcb : c ≠ b) (p0 p1 p2 : Nat)
    (e0 : p0 = a * w) (e1 : p1 = b * w) (e2 : p2 = c * w) :
    ∃ m', forK w (fun k mem => do
        let mem ← subAt mem (p1 + k) (((← rd mem (p0 + k)) + (← rd mem (p2 + k)) + c1) >>> 1)
        addAt mem (p0 + k) (((← rd mem (p1 + k)) + c1) >>> 1)) mem
        = .ok m' ∧
      Rows m' w h (fun r k =>
        if r = b then M b k - ((M a k + M c k + 1) >>> 1)
        else if r = a then M a k + (((M b k - ((M a k + M c k + 1) >>> 1)) + 1) >>> 1)
        else M r k) := by
  subst e0 e1 e2
  apply forK_cols w h _ mem M _ hR
  intro k m hk hRk
  have r0 := hRk.rd ha hk
  have r2 := hRk.rd hc hk
  simp only [Nat.lt_irrefl, if_false] at r0 r2
  obtain ⟨m1, hs, hR1⟩ := hRk.subAt hb hk ((M a k + M c k + c1) >>> 1)
  have r1 := hR1.rd hb hk
  simp only [Nat.lt_irrefl, if_false, and_self, if_true] at r1
  obtain ⟨m2, hadd, hR2⟩ := hR1.addAt ha hk
    (((M b k - ((M a k + M c k + c1) >>> 1)) + c1) >>> 1)
  refine ⟨m2, ?_, hR2.congr ?_⟩
  · simp only [r0, r2, ok_bind, hs, r1, hadd]
  · intro r c' _ _
    simp only [c1, Nat.lt_irrefl, if_false, hab, false_and]
    by_cases h1 : c' = k
    · subst h1
      simp only [and_true, Nat.lt_succ_self, if_true]
      by_cases h2 : r = a
      · subst h2
        simp [hab]
      · by_cases h3 : r = b
        · subst h3
          simp [h2]
        · simp [h2, h3]
    · have h4 : (c' < k + 1) = (c' < k) := by
        apply propext; omega
      simp only [h1, and_false, if_false, h4]

theorem forK_fwd_bottom_odd {mem : List Int} {w h : Nat} {M : Nat → Nat → Int}
    (hR : Rows mem w h M) {a b : Nat} (ha : a < h) (hb : b < h)
    (hab : a ≠ b) (p0 p1 : Nat) (e0 : p0 = a * w) (e1 : p1 = b * w) :
    ∃ m', forK w (fun k mem =>
        do addAt mem (p1 + k) (((← rd mem (p0 + k)) + c1) >>> 1)) mem
        = .ok m' ∧
      Rows m' w h (fun r k =>
        if r = b then M b k + ((M a k + 1) >>> 1) else M r k) := by
  subst e0 e1
  apply forK_cols w h _ mem M _ hR
  intro k m hk hRk
  have r0 := hRk.rd ha hk
  simp only [Nat.lt_irrefl, if_false] at r0
  obtain ⟨m2, hadd, hR2⟩ := hRk.addAt hb hk ((M a k + c1) >>> 1)
  refine ⟨m2, ?_, hR2.congr ?_⟩
  · simp only [r0, ok_bind, hadd]
  · intro r c' _ _
    simp only [c1, Nat.lt_irrefl, if_false]
    by_cases h1 : c' = k
    · subst h1
      simp only [and_true, Nat.lt_succ_self, if_true]
      by_cases h3 : r = b
      · subst h3
        simp
      · simp [h3]
    · have h4 : (c' < k + 1) = (c' < k) := by
        apply propext; omega
      simp only [h1, and_false, if_false, h4]

theorem forK_fwd_bottom_even {mem : List Int} {w h : Nat} {M : Nat → Nat → Int}
    (hR : Rows mem w h M) {a b c : Nat} (ha : a < h) (hb : b < h) (hc : c < h)
    (hac : a ≠ c) (hbc : b ≠ c) (p0 p1 p2 : Nat)
    (e0 : p0 = a * w) (e1 : p1 = b * w) (e2 : p2 = c * w) :
    ∃ m', forK w (fun k mem => do
        let mem ← subAt mem (p2 + k) (← rd mem (p1 + k))
        addAt mem (p1 + k) (((← rd mem (p0 + k)) + (← rd mem (p2 + k)) + c2) >>> 2)) mem
        = .ok m' ∧
      Rows m' w h (fun r k =>
        if r = c then M c k - M b k
        else if r = b then M b k + ((M a k + (M c k - M b k) + 2) >>> 2)
        else M r k) := by
  subst e0 e1 e2
  apply forK_cols w h _ mem M _ hR
  intro k m hk hRk
  have r1 := hRk.rd hb hk
  simp only [Nat.lt_irrefl, if_false] at r1
  obtain ⟨m1, hs, hR1⟩ := hRk.subAt hc hk (M b k)
  have r0 := hR1.rd ha hk
  have r2 := hR1.rd hc hk
  simp only [Nat.lt_irrefl, if_false, hac, false_and, true_and, if_true] at r0 r2
  obtain ⟨m2, hadd, hR2⟩ := hR1.addAt hb hk ((M a k + (M c k - M b k) + c2) >>> 2)
  refine ⟨m2, ?_, hR2.congr ?_⟩
  · simp only [r1, ok_bind, hs, r0, r2, hadd]
  · intro r c' _ _
    simp only [c2, Nat.lt_irrefl, if_false, hbc, false_and]
    by_cases h1 : c' = k
    · subst h1
      simp only [and_true, Nat.lt_succ_self, if_true]
      by_cases h2 : r = b
      · subst h2
        simp [hbc]
      · by_cases h3 : r = c
        · subst h3
          simp [h2]
        · simp [h2, h3]
    · have h4 : (c' < k + 1) = (c' < k) := by
        apply propext; omega
      simp only [h1, and_false, if_false, h4]

/-! ## The column steps of the inverse transform -/

theorem forK_inv_top {mem : List Int} {w h : Nat} {M : Nat → Nat → Int}
    (hR : Rows mem w h M) {a b : Nat} (ha : a < h) (hb : b < h)
    (hab : a ≠ b) (p0 p1 : Nat) (e0 : p0 = a * w) (e1 : p1 = b * w) :
    ∃ m', forK w (fun k mem =>
        do subAt mem (p0 + k) (((← rd mem (p1 + k)) + c1) >>> 1)) mem
        = .ok m' ∧
      Rows m' w h (fun r k =>
        if r = a then M a k - ((M b k + 1) >>> 1) else M r k) := by
  subst e0 e1
  apply forK_cols w h _ mem M _ hR
  intro k m hk hRk
  have r1 := hRk.rd hb hk
  simp only [Nat.lt_irrefl, if_false] at r1
  obtain ⟨m2, hsub, hR2⟩ := hRk.subAt ha hk ((M b k + c1) >>> 1)
  refine ⟨m2, ?_, hR2.congr ?_⟩
  · simp only [r1, ok_bind, hsub]
  · intro r c' _ _
    simp only [c1, Nat.lt_irrefl, if_false]
    by_cases h1 : c' = k
    · subst h1
      simp only [and_true, Nat.lt_succ_self, if_true]
      by_cases h3 : r = a
      · subst h3
        simp
      · simp [h3]
    · have h4 : (c' < k + 1) = (c' < k) := by
        apply propext; omega
      simp only [h1, and_false, if_false, h4]

theorem forK_inv_mid {mem : List Int} {w h : Nat} {M : Nat → Nat → Int}
    (hR : Rows mem w h M) {a b c e : Nat} (ha : a < h) (hb : b < h) (hc : c < h) (he : e < h)
    (hac : a ≠ c) (hbc : b ≠ c) (hec : e ≠ c) (p0 p1 p2 p3 : Nat)
    (e0 : p0 = a * w) (e1 : p1 = b * w) (e2 : p2 = c * w) (e3 : p3 = e * w) :
    ∃ m', forK w (fun k mem => do
        let mem ← subAt mem (p2 + k) (((← rd mem (p1 + k)) + (← rd mem (p3 + k)) + c2) >>> 2)
        addAt mem (p1 + k) (((← rd mem (p0 + k)) + (← rd mem (p2 + k)) + c1) >>> 1)) mem
        = .ok m' ∧
      Rows m' w h (fun r k =>
        if r = c then M c k - ((M b k + M e k + 2) >>> 2)
        else if r = b then
          M b k + ((M a k + (M c k - ((M b k + M e k + 2) >>> 2)) + 1) >>> 1)
        else M r k) := by
  subst e0 e1 e2 e3
  apply forK_cols w h _ mem M _ hR
  intro k m hk hRk
  have r1 := hRk.rd hb hk
  have r3 := hRk.rd he hk
  simp only [Nat.lt_irrefl, if_false] at r1 r3
  obtain ⟨m1, hs, hR1⟩ := hRk.subAt hc hk ((M b k + M e k + c2) >>> 2)
  have r0 := hR1.rd ha hk
  have r2 := hR1.rd hc hk
  simp only [Nat.lt_irrefl, if_false, hac, false_and, true_and, if_true] at r0 r2
  obtain ⟨m2, hadd, hR2⟩ := hR1.addAt hb hk
    ((M a k + (M c k - ((M b k + M e k + c2) >>> 2)) + c1) >>> 1)
  refine ⟨m2, ?_, hR2.congr ?_⟩
  · simp only [r1, r3, ok_bind, hs, r0, r2, hadd]
  · intro r c' _ _
    simp only [c1, c2, Nat.lt_irrefl, if_false, hbc, false_and]
    by_cases h1 : c' = k
    · subst h1
      simp only [and_true, Nat.lt_succ_self, if_true]
      by_cases h2 : r = b
      · subst h2
        simp [hbc]
      · by_cases h3 : r = c
        · subst h3
          simp [h2]
        · simp [h2, h3]
    · have h4 : (c' < k + 1) = (c' < k) := by
        apply propext; omega
      simp only [h1, and_false, if_false, h4]

theorem forK_inv_bottom_odd {mem : List Int} {w h : Nat} {M : Nat → Nat → Int}
    (hR : Rows mem w h M) {a b c : Nat} (ha : a < h) (hb : b < h) (hc : c < h)
    (hac : a ≠ c) (hbc : b ≠ c) (p0 p1 p2 : Nat)
    (e0 : p0 = a * w) (e1 : p1 = b * w) (e2 : p2 = c * w) :
    ∃ m', forK w (fun k mem => do
        let mem ← subAt mem (p2 + k) (((← rd mem (p1 + k)) + c1) >>> 1)
        addAt mem (p1 + k) (((← rd mem (p0 + k)) + (← rd mem (p2 + k)) + c1) >>> 1)) mem
        = .ok m' ∧
      Rows m' w h (fun r k =>
        if r = c then M c k - ((M b k + 1) >>> 1)
        else if r = b then M b k + ((M a k + (M c k - ((M b k + 1) >>> 1)) + 1) >>> 1)
        else M r k) := by
  subst e0 e1 e2
  apply forK_cols w h _ mem M _ hR
  intro k m hk hRk
  have r1 := hRk.rd hb hk
  simp only [Nat.lt_irrefl, if_false] at r1
  obtain ⟨m1, hs, hR1⟩ := hRk.subAt hc hk ((M b k + c1) >>> 1)
  have r0 := hR1.rd ha hk
  have r2 := hR1.rd hc hk
  simp only [Nat.lt_irrefl, if_false, hac, false_and, true_and, if_true] at r0 r2
  obtain ⟨m2, hadd, hR2⟩ := hR1.addAt hb hk
    ((M a k + (M c k - ((M b k + c1) >>> 1)) + c1) >>> 1)
  refine ⟨m2, ?_, hR2.congr ?_⟩
  · simp only [r1, ok_bind, hs, r0, r2, hadd]
  · intro r c' _ _
    simp only [c1, Nat.lt_irrefl, if_false, hbc, false_and]
    by_cases h1 : c' = k
    · subst h1
      simp only [and_true, Nat.lt_succ_self, if_true]
      by_cases h2 : r = b
      · subst h2
        simp [hbc]
      · by_cases h3 : r = c
        · subst h3
          simp [h2]
        · simp [h2, h3]
    · have h4 : (c' < k + 1) = (c' < k) := by
        apply propext; omega
      simp only [h1, and_false, if_false, h4]

theorem forK_inv_bottom_even {mem : List Int} {w h : Nat} {M : Nat → Nat → Int}
    (hR : Rows mem w h M) {a b : Nat} (ha : a < h) (hb : b < h)
    (hab : a ≠ b) (p0 p1 : Nat) (e0 : p0 = a * w) (e1 : p1 = b * w) :
    ∃ m', forK w (fun k mem =>
        do addAt mem (p1 + k) (← rd mem (p0 + k))) mem
        = .ok m' ∧
      Rows m' w h (fun r k => if r = b then M b k + M a k else M r k) := by
  subst e0 e1
  apply forK_cols w h _ mem M _ hR
  intro k m hk hRk
  have r0 := hRk.rd ha hk
  simp only [Nat.lt_irrefl, if_false] at r0
  obtain ⟨m2, hadd, hR2⟩ := hRk.addAt hb hk (M a k)
  refine ⟨m2, ?_, hR2.congr ?_⟩
  · simp only [r0, ok_bind, hadd]
  · intro r c' _ _
    simp only [Nat.lt_irrefl, if_false]
    by_cases h1 : c' = k
    · subst h1
      simp only [and_true, Nat.lt_succ_self, if_true]
      by_cases h3 : r = b
      · subst h3
        simp
      · simp [h3]
    · have h4 : (c' < k + 1) = (c' < k) := by
        apply propext; omega
      simp only [h1, and_false, if_false, h4]

/-! ## The forward transform of a level, for heights of 2 and more -/

theorem ForwardRow_at {mem : List Int} {w h : Nat} {M : Nat → Nat → Int}
    (hR : Rows mem w h M) {a : Nat} (ha : a < h) (p : Nat) (hp : p = a * w) :
    ∃ mem', ForwardRow mem p w = .ok mem' ∧
      Rows mem' w h (fun r k => if r = a then rowLift w (M a) k else M r k) := by
  subst hp
  exact ForwardRow_Rows hR ha

theorem InverseRow_at {mem : List Int} {w h : Nat} {M : Nat → Nat → Int}
    (hR : Rows mem w h M) {a : Nat} (ha : a < h) (p : Nat) (hp : p = a * w) :
    ∃ mem', InverseRow mem p w = .ok mem' ∧
      Rows mem' w h (fun r k => if r = a then rowUnlift w (M a) k else M r k) := by
  subst hp
  exact InverseRow_Rows hR ha

theorem liftCell_zero (v : Nat → Int) (n : Nat) :
    liftCell v n 0 = v 0 + ((liftCell v n 1 + 1) >>> 1) := by
  rw [liftCell_odd v n 1 (by decide)]
  unfold liftCell
  rw [if_neg (by decide), if_pos rfl]

theorem liftCell_even (v : Nat → Int) (n r : Nat) (hr : r % 2 = 0) (h2 : 2 ≤ r)
    (hlt : r + 1 < n) :
    liftCell v n r = v r + ((liftCell v n (r - 1) + liftCell v n (r + 1) + 2) >>> 2) := by
  rw [liftCell_odd v n (r - 1) (by omega), liftCell_odd v n (r + 1) (by omega)]
  unfold liftCell
  rw [if_neg (by omega), if_neg (by omega), if_pos hlt]

theorem liftCell_even_last (v : Nat → Int) (n r : Nat) (hr : r % 2 = 0) (h2 : 2 ≤ r)
    (hlt : ¬ r + 1 < n) :
    liftCell v n r = v r + ((liftCell v n (r - 1) + 1) >>> 1) := by
  rw [liftCell_odd v n (r - 1) (by omega)]
  unfold liftCell
  rw [if_neg (by omega), if_neg (by omega), if_neg hlt]

theorem transformedM_eq (S : Nat → Nat → Int) (w h r k : Nat) (h3 : 3 ≤ h) :
    transformedM S w h r k = liftCell (fun r' => filteredM S w r' k) h r := by
  unfold transformedM colLift filteredM
  rw [if_neg (by simp [FilterHeight]; omega)]

theorem transformedM_odd (S : Nat → Nat → Int) (w h r k : Nat) (h3 : 3 ≤ h)
    (hr : r % 2 = 1) (hlt : r + 1 < h) :
    transformedM S w h r k =
      filteredM S w r k - ((filteredM S w (r - 1) k + filteredM S w (r + 1) k + 1) >>> 1) := by
  rw [transformedM_eq S w h r k h3, liftCell_odd _ _ _ hr]
  unfold liftOdd
  rw [if_pos hlt]

theorem transformedM_odd_last (S : Nat → Nat → Int) (w h r k : Nat) (h3 : 3 ≤ h)
    (hr : r % 2 = 1) (hlt : r + 1 = h) :
    transformedM S w h r k = filteredM S w r k - filteredM S w (r - 1) k := by
  rw [transformedM_eq S w h r k h3, liftCell_odd _ _ _ hr]
  unfold liftOdd
  rw [if_neg (by omega)]

theorem transformedM_zero (S : Nat → Nat → Int) (w h k : Nat) (h3 : 3 ≤ h) :
    transformedM S w h 0 k = filteredM S w 0 k + ((transformedM S w h 1 k + 1) >>> 1) := by
  rw [transformedM_eq S w h 0 k h3, transformedM_eq S w h 1 k h3, liftCell_zero]

theorem transformedM_even (S : Nat → Nat → Int) (w h r k : Nat) (h3 : 3 ≤ h)
    (hr : r % 2 = 0) (h2 : 2 ≤ r) (hlt : r + 1 < h) :
    transformedM S w h r k = filteredM S w r k +
      ((transformedM S w h (r - 1) k + transformedM S w h (r + 1) k + 2) >>> 2) := by
  rw [transformedM_eq S w h r k h3, transformedM_eq S w h (r - 1) k h3,
    transformedM_eq S w h (r + 1) k h3, liftCell_even _ _ _ hr h2 hlt]

theorem transformedM_even_last (S : Nat → Nat → Int) (w h r k : Nat) (h3 : 3 ≤ h)
    (hr : r % 2 = 0) (h2 : 2 ≤ r) (hlt : r + 1 = h) :
    transformedM S w h r k = filteredM S w r k +
      ((transformedM S w h (r - 1) k + 1) >>> 1) := by
  rw [transformedM_eq S w h r k h3, transformedM_eq S w h (r - 1) k h3,
    liftCell_even_last _ _ _ hr h2 (by omega)]

theorem transformedM_small (S : Nat → Nat → Int) (w h r k : Nat) (h3 : h < 3) :
    transformedM S w h r k = filteredM S w r k := by
  unfold transformedM colLift filteredM
  rw [if_pos (by simp [FilterHeight]; omega)]

theorem room_step {c n N q L : Nat} (hn : n < N) (hL : c + N * q ≤ L) :
    c + n * q + q ≤ L := by
  have h1 : (n + 1) * q ≤ N * q := Nat.mul_le_mul_right q hn
  have h2 : (n + 1) * q = n * q + q := by ring
  omega

theorem LinearToMallat_scatteredRows_some {mem : List Int} {w h : Nat}
    {M D : Nat → Nat → Int} (hR : Rows mem w h M) (d0 : Bands) (n m : Nat)
    (hn : 2 * n < h) (hm : 2 * m + 1 < h)
    (hroom : transformRoom d0 w h = true)
    (he : ∀ k, k < w → M (2 * n) k = D (2 * n) k)
    (ho : ∀ k, k < w → M (2 * m + 1) k = D (2 * m + 1) k)
    (p q : Nat) (hp : p = 2 * n * w) (hq : q = (2 * m + 1) * w) :
    LinearToMallat (scatteredRows d0 D w n m) mem p (some q) w =
      .ok (scatteredRows d0 D w (n + 1) (m + 1)) := by
  subst hp hq
  unfold transformRoom at hroom
  simp only [Bool.and_eq_true] at hroom
  obtain ⟨⟨⟨h1, h2⟩, h3⟩, h4⟩ := hroom
  obtain ⟨bll, hll, cll⟩ := CSubband.hasRoom_iff _ _ h1
  obtain ⟨bhl, hhl, chl⟩ := CSubband.hasRoom_iff _ _ h2
  obtain ⟨blh, hlh, clh⟩ := CSubband.hasRoom_iff _ _ h3
  obtain ⟨bhh, hhh, chh⟩ := CSubband.hasRoom_iff _ _ h4
  unfold scatteredRows
  rw [LinearToMallat_Rows_some hR hn hm d0 bll bhl blh bhh _ _ _ _ hll hhl hlh hhh
    (by rw [length_rowMajor]; exact room_step (by omega) cll)
    (by rw [length_rowMajor]; exact room_step (by omega) chl)
    (by rw [length_rowMajor]; exact room_step (by omega) clh)
    (by rw [length_rowMajor]; exact room_step (by omega) chh)]
  simp only [rowMajor]
  have e1 : (List.range ((w + 1) / 2)).map (fun j => M (2 * n) (2 * j)) =
      (List.range ((w + 1) / 2)).map (fun j => D (2 * n) (2 * j)) :=
    List.map_congr_left (fun j hj => he _ (by have := List.mem_range.mp hj; omega))
  have e2 : (List.range (w / 2)).map (fun j => M (2 * n) (2 * j + 1)) =
      (List.range (w / 2)).map (fun j => D (2 * n) (2 * j + 1)) :=
    List.map_congr_left (fun j hj => he _ (by have := List.mem_range.mp hj; omega))
  have e3 : (List.range ((w + 1) / 2)).map (fun j => M (2 * m + 1) (2 * j)) =
      (List.range ((w + 1) / 2)).map (fun j => D (2 * m + 1) (2 * j)) :=
    List.map_congr_left (fun j hj => ho _ (by have := List.mem_range.mp hj; omega))
  have e4 : (List.range (w / 2)).map (fun j => M (2 * m + 1) (2 * j + 1)) =
      (List.range (w / 2)).map (fun j => D (2 * m + 1) (2 * j + 1)) :=
    List.map_congr_left (fun j hj => ho _ (by have := List.mem_range.mp hj; omega))
  rw [e1, e2, e3, e4]

theorem LinearToMallat_scatteredRows_none {mem : List Int} {w h : Nat}
    {M D : Nat → Nat → Int} (hR : Rows mem w h M) (d0 : Bands) (n m : Nat)
    (hn : 2 * n < h) (hroom : transformRoom d0 w h = true)
    (he : ∀ k, k < w → M (2 * n) k = D (2 * n) k)
    (p : Nat) (hp : p = 2 * n * w) :
    LinearToMallat (scatteredRows d0 D w n m) mem p none w =
      .ok (scatteredRows d0 D w (n + 1) m) := by
  subst hp
  unfold transformRoom at hroom
  simp only [Bool.and_eq_true] at hroom
  obtain ⟨⟨⟨h1, h2⟩, _⟩, _⟩ := hroom
  obtain ⟨bll, hll, cll⟩ := CSubband.hasRoom_iff _ _ h1
  obtain ⟨bhl, hhl, chl⟩ := CSubband.hasRoom_iff _ _ h2
  unfold scatteredRows
  rw [LinearToMallat_Rows_none hR hn d0 _ _ bll bhl _ _ hll hhl
    (by rw [length_rowMajor]; exact room_step (by omega) cll)
    (by rw [length_rowMajor]; exact room_step (by omega) chl)]
  simp only [rowMajor]
  have e1 : (List.range ((w + 1) / 2)).map (fun j => M (2 * n) (2 * j)) =
      (List.range ((w + 1) / 2)).map (fun j => D (2 * n) (2 * j)) :=
    List.map_congr_left (fun j hj => he _ (by have := List.mem_range.mp hj; omega))
  have e2 : (List.range (w / 2)).map (fun j => M (2 * n) (2 * j + 1)) =
      (List.range (w / 2)).map (fun j => D (2 * n) (2 * j + 1)) :=
    List.map_congr_left (fun j hj => he _ (by have := List.mem_range.mp hj; omega))
  rw [e1, e2]

theorem rowLift_ext {w : Nat} {v v' : Nat → Int} (k : Nat) (h : ∀ j, v j = v' j) :
    rowLift w v k = rowLift w v' k := by
  rw [funext h]

theorem ForwardTransform.rows_step (S : Nat → Nat → Int) (d0 : Bands) (w h : Nat)
    (h3 : 3 ≤ h) (hroom : transformRoom d0 w h = true) (s : RowState)
    (hI : ForwardRowsInv S d0 w h s) (hc : s.i < h - 1) :
    ∃ s', (fun (s : RowState) => (do
        let src ← ForwardRow s.mem s.row2 w
        let src ← ForwardRow src s.row3 w
        let src ← forK w (fun k mem => do
          let mem ← subAt mem (s.row2 + k)
            (((← rd mem (s.row1 + k)) + (← rd mem (s.row3 + k)) + c1) >>> 1)
          addAt mem (s.row1 + k) (((← rd mem (s.row0 + k)) + (← rd mem (s.row2 + k)) + c2) >>> 2))
          src
        let d ← LinearToMallat s.d src s.row1 (some s.row2) w
        pure { i := s.i + 2, row0 := s.row2, row1 := s.row3, row2 := s.row3 + w,
               row3 := s.row3 + w + w, mem := src, d := d } : Exec RowState)) s = .ok s' ∧
      ForwardRowsInv S d0 w h s' ∧ s'.i = s.i + 2 := by
  obtain ⟨i, row0, row1, row2, row3, mem, d⟩ := s
  obtain ⟨t, hi, hle, e0, e1, e2, e3, hR, hd⟩ := hI
  simp only at hi hle e0 e1 e2 e3 hR hd hc ⊢
  subst hi hd
  have hlt : 2 * t + 4 < h := by omega
  obtain ⟨m1, hm1, hR1⟩ := ForwardRow_at hR (a := 2 * t + 3) (by omega) row2 e2
  obtain ⟨m2, hm2, hR2⟩ := ForwardRow_at hR1 (a := 2 * t + 4) (by omega) row3 e3
  have hR2' : Rows m2 w h (fun r k =>
      if r < 2 * t + 2 then transformedM S w h r k
      else if r ≤ 2 * t + 4 then filteredM S w r k else S r k) := by
    apply hR2.congr
    intro r k _ _
    try simp only
    by_cases c4 : r = 2 * t + 4
    · subst c4
      rw [if_pos rfl, if_neg (by omega), if_pos (by omega)]
      unfold filteredM
      apply rowLift_ext
      intro j
      rw [if_neg (by omega), if_neg (by omega), if_neg (by omega)]
    · rw [if_neg c4]
      by_cases c3 : r = 2 * t + 3
      · subst c3
        rw [if_pos rfl, if_neg (by omega), if_pos (by omega)]
        unfold filteredM
        apply rowLift_ext
        intro j
        rw [if_neg (by omega), if_neg (by omega)]
      · rw [if_neg c3]
        by_cases c2 : r < 2 * t + 2
        · rw [if_pos c2, if_pos c2]
        · rw [if_neg c2, if_neg c2]
          by_cases c1 : r = 2 * t + 2
          · rw [if_pos c1, if_pos (by omega)]
          · rw [if_neg c1, if_neg (by omega)]
  obtain ⟨m3, hm3, hR3⟩ := forK_fwd_mid hR2' (a := 2 * t + 1) (b := 2 * t + 2)
    (c := 2 * t + 3) (e := 2 * t + 4) (by omega) (by omega) (by omega) (by omega)
    (by omega) (by omega) (by omega) row0 row1 row2 row3 e0 e1 e2 e3
  have hR3' : Rows m3 w h (fun r k =>
      if r < 2 * (t + 1) + 2 then transformedM S w h r k
      else if r = 2 * (t + 1) + 2 then filteredM S w r k else S r k) := by
    apply hR3.congr
    intro r k _ _
    try simp only
    rw [if_pos (show 2 * t + 1 < 2 * t + 2 by omega), if_neg (show ¬ 2 * t + 2 < 2 * t + 2 by omega),
      if_pos (show 2 * t + 2 ≤ 2 * t + 4 by omega), if_neg (show ¬ 2 * t + 3 < 2 * t + 2 by omega),
      if_pos (show 2 * t + 3 ≤ 2 * t + 4 by omega), if_neg (show ¬ 2 * t + 4 < 2 * t + 2 by omega),
      if_pos (show 2 * t + 4 ≤ 2 * t + 4 by omega)]
    have hD3 := transformedM_odd S w h (2 * t + 3) k h3 (by omega) (by omega)
    have hD2 := transformedM_even S w h (2 * t + 2) k h3 (by omega) (by omega) (by omega)
    have a1 : 2 * t + 3 - 1 = 2 * t + 2 := by omega
    have a2 : 2 * t + 3 + 1 = 2 * t + 4 := by omega
    have a3 : 2 * t + 2 - 1 = 2 * t + 1 := by omega
    have a4 : 2 * t + 2 + 1 = 2 * t + 3 := by omega
    rw [a1, a2] at hD3
    rw [a3, a4, hD3] at hD2
    by_cases c3 : r = 2 * t + 3
    · subst c3
      rw [if_pos rfl, if_pos (by omega), hD3]
    · rw [if_neg c3]
      by_cases c2 : r = 2 * t + 2
      · subst c2
        rw [if_pos rfl, if_pos (by omega), hD2]
      · rw [if_neg c2]
        by_cases c1 : r < 2 * t + 2
        · rw [if_pos c1, if_pos (show r < 2 * (t + 1) + 2 by omega)]
        · rw [if_neg c1, if_neg (show ¬ r < 2 * (t + 1) + 2 by omega)]
          by_cases c4 : r = 2 * t + 4
          · rw [if_pos (show r ≤ 2 * t + 4 by omega),
              if_pos (show r = 2 * (t + 1) + 2 by omega)]
          · rw [if_neg (show ¬ r ≤ 2 * t + 4 by omega),
              if_neg (show ¬ r = 2 * (t + 1) + 2 by omega)]
  have hL := LinearToMallat_scatteredRows_some (D := transformedM S w h) hR3' d0 (t + 1) (t + 1)
    (by omega) (by omega) hroom
    (fun k _ => if_pos (show 2 * (t + 1) < 2 * (t + 1) + 2 by omega))
    (fun k _ => if_pos (show 2 * (t + 1) + 1 < 2 * (t + 1) + 2 by omega))
    row1 row2 (by rw [e1]; congr 1) (by rw [e2]; congr 1)
  refine ⟨{ i := 2 * t + 3 + 2, row0 := row2, row1 := row3, row2 := row3 + w,
            row3 := row3 + w + w, mem := m3,
            d := scatteredRows d0 (transformedM S w h) w (t + 1 + 1) (t + 1 + 1) }, ?_, ?_, rfl⟩
  · simp only [hm1, hm2, hm3, hL, ok_bind, pure_eq_ok]
  · refine ⟨t + 1, by simp only; omega, by simp only; omega, ?_, ?_, ?_, ?_, hR3', rfl⟩
    · simp only; rw [e2]; congr 1
    · simp only; rw [e3]; congr 1
    · simp only; rw [e3]; ring
    · simp only; rw [e3]; ring

theorem scatteredRows_zero (d0 : Bands) (D : Nat → Nat → Int) (w h : Nat)
    (hroom : transformRoom d0 w h = true) : scatteredRows d0 D w 0 0 = d0 := by
  unfold transformRoom at hroom
  simp only [Bool.and_eq_true] at hroom
  obtain ⟨⟨⟨h1, h2⟩, h3⟩, h4⟩ := hroom
  obtain ⟨bll, hll, _⟩ := CSubband.hasRoom_iff _ _ h1
  obtain ⟨bhl, hhl, _⟩ := CSubband.hasRoom_iff _ _ h2
  obtain ⟨blh, hlh, _⟩ := CSubband.hasRoom_iff _ _ h3
  obtain ⟨bhh, hhh, _⟩ := CSubband.hasRoom_iff _ _ h4
  simp only [scatteredRows, rowMajor, CSubband.appended_nil _ _ hll,
    CSubband.appended_nil _ _ hhl, CSubband.appended_nil _ _ hlh, CSubband.appended_nil _ _ hhh]

/-- The row pass of the forward transform on a source of height 3 or more: it runs
without fault and scatters the separable transform of the source matrix. -/
theorem ForwardTransform.rows_tall (src : List Int) (S : Nat → Nat → Int) (d0 : Bands)
    (w h : Nat) (hR : Rows src w h S) (h3 : 3 ≤ h) (hroom : transformRoom d0 w h = true) :
    ForwardTransform.rows src d0 w h =
      .ok (scatteredRows d0 (transformedM S w h) w ((h + 1) / 2) (h / 2)) := by
  unfold ForwardTransform.rows
  rw [if_pos (show h ≥ FilterHeight by simpa [FilterHeight] using h3)]
  simp only
  -- top border handling
  obtain ⟨m1, hm1, hR1⟩ := ForwardRow_at hR (a := 0) (by omega) 0 (by simp)
  obtain ⟨m2, hm2, hR2⟩ := ForwardRow_at hR1 (a := 1) (by omega) (0 + w) (by simp)
  obtain ⟨m3, hm3, hR3⟩ := ForwardRow_at hR2 (a := 2) (by omega) (0 + w + w) (by ring)
  have hR3' : Rows m3 w h (fun r k => if r ≤ 2 then filteredM S w r k else S r k) := by
    apply hR3.congr
    intro r k _ _
    beta_reduce
    by_cases c2 : r = 2
    · subst c2
      rw [if_pos rfl, if_pos (by omega)]
      unfold filteredM
      apply rowLift_ext
      intro j
      rw [if_neg (by omega), if_neg (by omega)]
    · rw [if_neg c2]
      by_cases c1 : r = 1
      · subst c1
        rw [if_pos rfl, if_pos (by omega)]
        unfold filteredM
        apply rowLift_ext
        intro j
        rw [if_neg (by omega)]
      · rw [if_neg c1]
        by_cases c0 : r = 0
        · subst c0
          rw [if_pos rfl, if_pos (by omega)]
          rfl
        · rw [if_neg c0, if_neg (by omega)]
  obtain ⟨m4, hm4, hR4⟩ := forK_fwd_top hR3' (a := 0) (b := 1) (c := 2) (by omega) (by omega)
    (by omega) (by omega) (by omega) 0 (0 + w) (0 + w + w) (by simp) (by simp) (by ring)
  have hR4' : Rows m4 w h (fun r k =>
      if r < 2 * 0 + 2 then transformedM S w h r k
      else if r = 2 * 0 + 2 then filteredM S w r k else S r k) := by
    apply hR4.congr
    intro r k _ _
    beta_reduce
    rw [if_pos (show 0 ≤ 2 by omega), if_pos (show 1 ≤ 2 by omega),
      if_pos (show 2 ≤ 2 by omega)]
    have hD1 := transformedM_odd S w h 1 k h3 (by omega) (by omega)
    have hD0 := transformedM_zero S w h k h3
    simp only [Nat.sub_self] at hD1
    rw [hD1] at hD0
    by_cases c1 : r = 1
    · subst c1
      rw [if_pos rfl, if_pos (by omega), hD1]
    · rw [if_neg c1]
      by_cases c0 : r = 0
      · subst c0
        rw [if_pos rfl, if_pos (by omega), hD0]
      · rw [if_neg c0, if_neg (show ¬ r < 2 * 0 + 2 by omega)]
        by_cases c2 : r = 2
        · rw [if_pos (show r ≤ 2 by omega), if_pos (show r = 2 * 0 + 2 by omega)]
        · rw [if_neg (show ¬ r ≤ 2 by omega), if_neg (show ¬ r = 2 * 0 + 2 by omega)]
  have hL := LinearToMallat_scatteredRows_some (D := transformedM S w h) hR4' d0 0 0
    (by omega) (by omega) hroom
    (fun k _ => if_pos (show 2 * 0 < 2 * 0 + 2 by omega))
    (fun k _ => if_pos (show 2 * 0 + 1 < 2 * 0 + 2 by omega))
    0 (0 + w) (by simp) (by simp)
  rw [scatteredRows_zero d0 _ w h hroom] at hL
  simp only [hm1, hm2, hm3, hm4, hL, ok_bind]
  -- middle part
  obtain ⟨s, hrun, hI, hc⟩ := whileLoop_inv
    (fun (s : RowState) => decide (s.i < h - 1))
    (fun (s : RowState) => (do
        let src ← ForwardRow s.mem s.row2 w
        let src ← ForwardRow src s.row3 w
        let src ← forK w (fun k mem => do
          let mem ← subAt mem (s.row2 + k)
            (((← rd mem (s.row1 + k)) + (← rd mem (s.row3 + k)) + c1) >>> 1)
          addAt mem (s.row1 + k) (((← rd mem (s.row0 + k)) + (← rd mem (s.row2 + k)) + c2) >>> 2))
          src
        let d ← LinearToMallat s.d src s.row1 (some s.row2) w
        pure { i := s.i + 2, row0 := s.row2, row1 := s.row3, row2 := s.row3 + w,
               row3 := s.row3 + w + w, mem := src, d := d } : Exec RowState))
    (ForwardRowsInv S d0 w h) (fun s => h - s.i)
    (by
      intro s hI hc
      have hlt : s.i < h - 1 := by simpa using hc
      obtain ⟨s', hb, hI', hi'⟩ := ForwardTransform.rows_step S d0 w h h3 hroom s hI hlt
      exact ⟨s', hb, hI', by simp only; omega⟩)
    h { i := 3, row0 := 0 + w, row1 := 0 + w + w, row2 := 0 + w + w + w,
        row3 := 0 + w + w + w + w, mem := m4,
        d := scatteredRows d0 (transformedM S w h) w (0 + 1) (0 + 1) }
    ⟨0, rfl, h3, by simp, by ring, by ring, by ring, hR4', rfl⟩
    (by simp only; omega)
  rw [hrun, ok_bind]
  obtain ⟨i, row0, row1, row2, row3, mem, d⟩ := s
  obtain ⟨t, hi, hle, e0, e1, e2, e3, hRs, hd⟩ := hI
  simp only at hi hle e0 e1 e2 e3 hRs hd hc ⊢
  subst hi hd
  have hge : ¬ 2 * t + 3 < h - 1 := by simpa using hc
  -- bottom border handling
  by_cases hodd : h % 2 = 1
  · have hh : h = 2 * t + 3 := by omega
    rw [if_pos hodd]
    obtain ⟨m5, hm5, hR5⟩ := forK_fwd_bottom_odd hRs (a := 2 * t + 1) (b := 2 * t + 2)
      (by omega) (by omega) (by omega) row0 row1 e0 e1
    have hR5' : Rows m5 w h (transformedM S w h) := by
      apply hR5.congr
      intro r k hr _
      beta_reduce
      rw [if_pos (show 2 * t + 1 < 2 * t + 2 by omega),
        if_neg (show ¬ 2 * t + 2 < 2 * t + 2 by omega), if_pos rfl]
      have hD := transformedM_even_last S w h (2 * t + 2) k h3 (by omega) (by omega) (by omega)
      have a3 : 2 * t + 2 - 1 = 2 * t + 1 := by omega
      rw [a3] at hD
      by_cases c2 : r = 2 * t + 2
      · subst c2
        rw [if_pos rfl, hD]
      · rw [if_neg c2, if_pos (show r < 2 * t + 2 by omega)]
    have hL5 := LinearToMallat_scatteredRows_none (D := transformedM S w h) hR5' d0 (t + 1)
      (t + 1) (by omega) hroom (fun k _ => rfl) row1 (by rw [e1]; congr 1)
    simp only [hm5, hL5, ok_bind]
    congr 2 <;> omega
  · have hh : h = 2 * t + 4 := by omega
    rw [if_neg hodd]
    obtain ⟨m5, hm5, hR5⟩ := ForwardRow_at hRs (a := 2 * t + 3) (by omega) row2 e2
    have hR5' : Rows m5 w h (fun r k =>
        if r < 2 * t + 2 then transformedM S w h r k else filteredM S w r k) := by
      apply hR5.congr
      intro r k hr _
      beta_reduce
      by_cases c3 : r = 2 * t + 3
      · subst c3
        rw [if_pos rfl, if_neg (by omega)]
        unfold filteredM
        apply rowLift_ext
        intro j
        rw [if_neg (by omega), if_neg (by omega)]
      · rw [if_neg c3]
        by_cases c1 : r < 2 * t + 2
        · rw [if_pos c1, if_pos c1]
        · rw [if_neg c1, if_neg c1, if_pos (by omega)]
    obtain ⟨m6, hm6, hR6⟩ := forK_fwd_bottom_even hR5' (a := 2 * t + 1) (b := 2 * t + 2)
      (c := 2 * t + 3) (by omega) (by omega) (by omega) (by omega) (by omega)
      row0 row1 row2 e0 e1 e2
    have hR6' : Rows m6 w h (transformedM S w h) := by
      apply hR6.congr
      intro r k hr _
      beta_reduce
      rw [if_pos (show 2 * t + 1 < 2 * t + 2 by omega),
        if_neg (show ¬ 2 * t + 2 < 2 * t + 2 by omega),
        if_neg (show ¬ 2 * t + 3 < 2 * t + 2 by omega)]
      have hD3 := transformedM_odd_last S w h (2 * t + 3) k h3 (by omega) (by omega)
      have hD2 := transformedM_even S w h (2 * t + 2) k h3 (by omega) (by omega) (by omega)
      have a1 : 2 * t + 3 - 1 = 2 * t + 2 := by omega
      have a3 : 2 * t + 2 - 1 = 2 * t + 1 := by omega
      have a4 : 2 * t + 2 + 1 = 2 * t + 3 := by omega
      rw [a1] at hD3
      rw [a3, a4, hD3] at hD2
      by_cases c3 : r = 2 * t + 3
      · subst c3
        rw [if_pos rfl, hD3]
      · rw [if_neg c3]
        by_cases c2 : r = 2 * t + 2
        · subst c2
          rw [if_pos rfl, hD2]
        · rw [if_neg c2, if_pos (show r < 2 * t + 2 by omega)]
    have hL6 := LinearToMallat_scatteredRows_some (D := transformedM S w h) hR6' d0 (t + 1)
      (t + 1) (by omega) (by omega) hroom (fun k _ => rfl) (fun k _ => rfl)
      row1 row2 (by rw [e1]; congr 1) (by rw [e2]; congr 1)
    simp only [hm5, hm6, hL6, ok_bind]
    congr 2 <;> omega

theorem whileLoop_succ {σ : Type} (cond : σ → Bool) (body : σ → Exec σ) (n : Nat) (s : σ)
    (hc : cond s = true) :
    whileLoop cond body (n + 1) s = body s >>= whileLoop cond body n := by
  simp [whileLoop, hc]

theorem whileLoop_done {σ : Type} (cond : σ → Bool) (body : σ → Exec σ) (n : Nat) (s : σ)
    (hc : cond s = false) : whileLoop cond body n s = .ok s := by
  cases n <;> simp [whileLoop, hc]

/-- The row pass of the forward transform on a source of height 2: the two rows are
row-filtered and scattered, without column filtering. -/
theorem ForwardTransform.rows_two (src : List Int) (S : Nat → Nat → Int) (d0 : Bands)
    (w : Nat) (hR : Rows src w 2 S) (hroom : transformRoom d0 w 2 = true) :
    ForwardTransform.rows src d0 w 2 =
      .ok (scatteredRows d0 (transformedM S w 2) w ((2 + 1) / 2) (2 / 2)) := by
  unfold ForwardTransform.rows
  rw [if_neg (show ¬ 2 ≥ FilterHeight by simp [FilterHeight])]
  simp only
  obtain ⟨m1, hm1, hR1⟩ := ForwardRow_at hR (a := 0) (by omega) 0 (by simp)
  obtain ⟨m2, hm2, hR2⟩ := ForwardRow_at hR1 (a := 1) (by omega) (0 + w) (by simp)
  have hR2' : Rows m2 w 2 (transformedM S w 2) := by
    apply hR2.congr
    intro r k hr _
    beta_reduce
    rw [transformedM_small S w 2 r k (by omega)]
    by_cases c1 : r = 1
    · subst c1
      rw [if_pos rfl]
      unfold filteredM
      apply rowLift_ext
      intro j
      rw [if_neg (by omega)]
    · have c0 : r = 0 := by omega
      subst c0
      rw [if_neg (by omega), if_pos rfl]
      rfl
  have hL := LinearToMallat_scatteredRows_some (D := transformedM S w 2) hR2' d0 0 0
    (by omega) (by omega) hroom (fun k _ => rfl) (fun k _ => rfl)
    0 (0 + w) (by simp) (by simp)
  rw [scatteredRows_zero d0 _ w 2 hroom] at hL
  rw [whileLoop_succ _ _ 1 _ (by simp)]
  simp only [hm1, hm2, hL, ok_bind, pure_eq_ok]
  rw [whileLoop_done _ _ 1 _ (by simp)]
  simp only [ok_bind]
  rfl

/-! ## The forward transform against the separable reference -/

theorem Rows_matrixOf (mem : List Int) (w h : Nat) (hl : mem.length = h * w) :
    Rows mem w h (matrixOf mem w) :=
  ⟨hl, fun _ _ _ _ => rfl⟩

theorem rowOf_length (mem : List Int) (row w : Nat) : (rowOf mem row w).length = w := by
  simp [rowOf]

theorem rowMajor_congr (cols rows : Nat) (M N : Nat → Nat → Int)
    (h : ∀ a j, a < rows → j < cols → M a j = N a j) :
    rowMajor cols M rows = rowMajor cols N rows := by
  induction rows with
  | zero => rfl
  | succ n ih =>
    simp only [rowMajor]
    rw [ih (fun a j ha hj => h a j (by omega) hj)]
    congr 1
    apply List.map_congr_left
    intro j hj
    exact h n j (by omega) (List.mem_range.mp hj)

theorem ForwardTransform.rows_ok (src : List Int) (S : Nat → Nat → Int) (d0 : Bands)
    (w h : Nat) (hR : Rows src w h S) (h2 : 2 ≤ h) (hroom : transformRoom d0 w h = true) :
    ForwardTransform.rows src d0 w h =
      .ok (scatteredRows d0 (transformedM S w h) w ((h + 1) / 2) (h / 2)) := by
  by_cases h3 : 3 ≤ h
  · exact ForwardTransform.rows_tall src S d0 w h hR h3 hroom
  · have e : h = 2 := by omega
    subst e
    exact ForwardTransform.rows_two src S d0 w hR hroom

theorem CSubband.freshFor_alloc (b : CSubband) (bw bh : Nat) (h : b.freshFor bw bh = true) :
    ∃ buf, (b.AllocMemory true).1 = true ∧ (b.AllocMemory true).2.buffer = some buf ∧
      buf.length = bw * bh ∧ (b.AllocMemory true).2.cursor = 0 := by
  unfold CSubband.freshFor at h
  simp only [Bool.and_eq_true, decide_eq_true_eq] at h
  obtain ⟨⟨⟨hw, hh⟩, hc⟩, hb⟩ := h
  unfold CSubband.AllocMemory
  cases hbuf : b.buffer with
  | none =>
    refine ⟨List.replicate (b.width * b.height) 0, rfl, rfl, ?_, hc⟩
    rw [List.length_replicate, hw, hh]
  | some buf =>
    rw [hbuf] at hb
    exact ⟨buf, rfl, hbuf, by simpa using hb, hc⟩

theorem CSubband.appended_full (b : CSubband) (buf L : List Int) (hb : b.buffer = some buf)
    (hc : b.cursor = 0) (hl : L.length = buf.length) : (b.appended L).buffer = some L := by
  rw [CSubband.appended_buffer b buf L hb, hc]
  simp [hl]

theorem allocBands_fresh (dest : Bands) (w h : Nat) (hf : dest.freshFor w h = true) :
    (allocBands dest (fun _ => true)).1 = true ∧
      transformRoom (allocBands dest (fun _ => true)).2 w h = true ∧
      (∀ D, (scatteredRows (allocBands dest (fun _ => true)).2 D w ((h + 1) / 2) (h / 2)).buffers =
        [some (rowMajor ((w + 1) / 2) (fun a j => D (2 * a) (2 * j)) ((h + 1) / 2)),
         some (rowMajor (w / 2) (fun a j => D (2 * a) (2 * j + 1)) ((h + 1) / 2)),
         some (rowMajor ((w + 1) / 2) (fun a j => D (2 * a + 1) (2 * j)) (h / 2)),
         some (rowMajor (w / 2) (fun a j => D (2 * a + 1) (2 * j + 1)) (h / 2))]) := by
  unfold Bands.freshFor at hf
  simp only [Bool.and_eq_true] at hf
  obtain ⟨⟨⟨f1, f2⟩, f3⟩, f4⟩ := hf
  obtain ⟨bll, a1, b1, l1, c1⟩ := CSubband.freshFor_alloc _ _ _ f1
  obtain ⟨bhl, a2, b2, l2, c2⟩ := CSubband.freshFor_alloc _ _ _ f2
  obtain ⟨blh, a3, b3, l3, c3⟩ := CSubband.freshFor_alloc _ _ _ f3
  obtain ⟨bhh, a4, b4, l4, c4⟩ := CSubband.freshFor_alloc _ _ _ f4
  have e : allocBands dest (fun _ => true) =
      (true, { ll := (dest.ll.AllocMemory true).2, hl := (dest.hl.AllocMemory true).2,
               lh := (dest.lh.AllocMemory true).2, hh := (dest.hh.AllocMemory true).2 }) := by
    unfold allocBands
    simp [a1, a2, a3, a4]
  rw [e]
  refine ⟨rfl, ?_, ?_⟩
  · unfold transformRoom CSubband.hasRoom
    simp only [b1, b2, b3, b4, c1, c2, c3, c4, l1, l2, l3, l4, Nat.zero_add,
      Bool.and_eq_true, decide_eq_true_eq]
    exact ⟨⟨⟨by rw [Nat.mul_comm], by rw [Nat.mul_comm]⟩, by rw [Nat.mul_comm]⟩,
      by rw [Nat.mul_comm]⟩
  · intro D
    unfold scatteredRows Bands.buffers
    simp only
    rw [CSubband.appended_full _ bll _ b1 c1 (by rw [length_rowMajor, l1, Nat.mul_comm]),
      CSubband.appended_full _ bhl _ b2 c2 (by rw [length_rowMajor, l2, Nat.mul_comm]),
      CSubband.appended_full _ blh _ b3 c3 (by rw [length_rowMajor, l3, Nat.mul_comm]),
      CSubband.appended_full _ bhh _ b4 c4 (by rw [length_rowMajor, l4, Nat.mul_comm])]

theorem quantizeBands_zero (m_nLevels destLevel : Nat) (d : Bands) :
    quantizeBands (quantizedSet 0 destLevel m_nLevels) (0 : Int).toNat d = d := by
  simp [quantizeBands, quantizedSet]

/-! ## The inverse row pass -/

theorem colUnliftedM_eq (D : Nat → Nat → Int) (h r k : Nat) (h3 : 3 ≤ h) :
    colUnliftedM D h r k = unliftCell (fun r' => D r' k) h r := by
  unfold colUnliftedM colUnlift
  rw [if_neg (by simp [FilterHeight]; omega)]

theorem colUnliftedM_small (D : Nat → Nat → Int) (h r k : Nat) (h3 : h < 3) :
    colUnliftedM D h r k = D r k := by
  unfold colUnliftedM colUnlift
  rw [if_pos (by simp [FilterHeight]; omega)]

theorem colUnliftedM_zero (D : Nat → Nat → Int) (h k : Nat) (h3 : 3 ≤ h) :
    colUnliftedM D h 0 k = D 0 k - ((D 1 k + 1) >>> 1) := by
  rw [colUnliftedM_eq D h 0 k h3]
  unfold unliftCell
  rw [if_pos (by omega)]
  unfold unliftEven
  rw [if_pos rfl]

theorem colUnliftedM_even (D : Nat → Nat → Int) (h r k : Nat) (h3 : 3 ≤ h)
    (hr : r % 2 = 0) (h0 : 0 < r) (hlt : r + 1 < h) :
    colUnliftedM D h r k = D r k - ((D (r - 1) k + D (r + 1) k + 2) >>> 2) := by
  rw [colUnliftedM_eq D h r k h3]
  unfold unliftCell
  rw [if_pos hr]
  unfold unliftEven
  rw [if_neg (by omega), if_pos hlt]

theorem colUnliftedM_even_last (D : Nat → Nat → Int) (h r k : Nat) (h3 : 3 ≤ h)
    (hr : r % 2 = 0) (h0 : 0 < r) (hlt : r + 1 = h) :
    colUnliftedM D h r k = D r k - ((D (r - 1) k + 1) >>> 1) := by
  rw [colUnliftedM_eq D h r k h3]
  unfold unliftCell
  rw [if_pos hr]
  unfold unliftEven
  rw [if_neg (by omega), if_neg (by omega)]

theorem colUnliftedM_odd (D : Nat → Nat → Int) (h r k : Nat) (h3 : 3 ≤ h)
    (hr : r % 2 = 1) (hlt : r + 1 < h) :
    colUnliftedM D h r k =
      D r k + ((colUnliftedM D h (r - 1) k + colUnliftedM D h (r + 1) k + 1) >>> 1) := by
  rw [colUnliftedM_eq D h r k h3, colUnliftedM_eq D h (r - 1) k h3,
    colUnliftedM_eq D h (r + 1) k h3]
  have e1 : unliftCell (fun r' => D r' k) h (r - 1) = unliftEven (fun r' => D r' k) h (r - 1) := by
    unfold unliftCell
    rw [if_pos (by omega)]
  have e2 : unliftCell (fun r' => D r' k) h (r + 1) = unliftEven (fun r' => D r' k) h (r + 1) := by
    unfold unliftCell
    rw [if_pos (by omega)]
  rw [e1, e2]
  unfold unliftCell
  rw [if_neg (by omega), if_pos hlt]

theorem colUnliftedM_odd_last (D : Nat → Nat → Int) (h r k : Nat) (h3 : 3 ≤ h)
    (hr : r % 2 = 1) (hlt : r + 1 = h) :
    colUnliftedM D h r k = D r k + colUnliftedM D h (r - 1) k := by
  rw [colUnliftedM_eq D h r k h3, colUnliftedM_eq D h (r - 1) k h3]
  have e1 : unliftCell (fun r' => D r' k) h (r - 1) = unliftEven (fun r' => D r' k) h (r - 1) := by
    unfold unliftCell
    rw [if_pos (by omega)]
  rw [e1]
  unfold unliftCell
  rw [if_neg (by omega), if_neg (by omega)]

/-- The inverse separable transform undoes the separable transform on the `h × w` cells. -/
theorem restoredM_transformedM (S : Nat → Nat → Int) (w h r k : Nat) (hr : r < h)
    (hk : k < w) : restoredM (transformedM S w h) w h r k = S r k := by
  unfold restoredM
  have e : colUnliftedM (transformedM S w h) h r = rowLift w (S r) := by
    funext k'
    unfold colUnliftedM transformedM
    exact colUnlift_colLift h (fun r' => rowLift w (S r') k') r hr
  rw [e]
  exact rowUnlift_rowLift w (S r) k hk

theorem rows_disjoint {a b : Nat} (w : Nat) (h : a ≠ b) :
    a * w + w ≤ b * w ∨ b * w + w ≤ a * w := by
  rcases Nat.lt_or_gt_of_ne h with c | c
  · left
    have : (a + 1) * w ≤ b * w := Nat.mul_le_mul_right w c
    have e : (a + 1) * w = a * w + w := by ring
    omega
  · right
    have : (b + 1) * w ≤ a * w := Nat.mul_le_mul_right w c
    have e : (b + 1) * w = b * w + w := by ring
    omega

theorem gathered_rowMajor (a b : CSubband) (E O : Nat → Nat → Int) (w N n k : Nat)
    (ha : a.buffer = some (rowMajor ((w + 1) / 2) E N)) (ca : a.cursor = 0)
    (hb : b.buffer = some (rowMajor (w / 2) O N)) (cb : b.cursor = 0)
    (hn : n < N) (hk : k < w) :
    gathered (a.advanced (n * ((w + 1) / 2))) (b.advanced (n * (w / 2))) k =
      if k % 2 = 0 then E n (k / 2) else O n (k / 2) := by
  unfold gathered CSubband.advanced
  simp only [ha, hb, ca, cb, Option.getD_some, Nat.zero_add]
  by_cases c : k % 2 = 0
  · rw [if_pos c, if_pos c]
    exact ld_rowMajor _ _ _ _ _ hn (by omega)
  · rw [if_neg c, if_neg c]
    exact ld_rowMajor _ _ _ _ _ hn (by omega)

theorem CSubband.advanced_advanced (b : CSubband) (n q : Nat) :
    (b.advanced (n * q)).advanced q = b.advanced ((n + 1) * q) := by
  unfold CSubband.advanced
  simp only
  congr 1
  ring

theorem MallatToLinear_Rows_some {mem : List Int} {w h : Nat} {M D : Nat → Nat → Int}
    (hR : Rows mem w h M) (d0 : Bands) (hH : d0.holds D w h) (n m : Nat)
    (hn : 2 * n < h) (hm : 2 * m + 1 < h) (p q : Nat) (hp : p = 2 * n * w)
    (hq : q = (2 * m + 1) * w) :
    ∃ mem', MallatToLinear (gatheredRows d0 w n m) mem p (some q) w =
        .ok (gatheredRows d0 w (n + 1) (m + 1), mem') ∧
      Rows mem' w h (fun r k =>
        if r = 2 * n then D r k else if r = 2 * m + 1 then D r k else M r k) := by
  subst hp hq
  obtain ⟨⟨b1, c1⟩, ⟨b2, c2⟩, ⟨b3, c3⟩, ⟨b4, c4⟩⟩ := hH
  have hlen := hR.1
  obtain ⟨mem', hrun, hl, he, ho, hf⟩ := MallatToLinear_some (gatheredRows d0 w n m) mem
    (2 * n * w) ((2 * m + 1) * w) w _ _ _ _ b1 b2 b3 b4
    (by simp only [gatheredRows, CSubband.advanced, c1, length_rowMajor]
        exact room_step (c := 0) (N := (h + 1) / 2) (by omega) (by omega))
    (by simp only [gatheredRows, CSubband.advanced, c2, length_rowMajor]
        exact room_step (c := 0) (N := (h + 1) / 2) (by omega) (by omega))
    (by simp only [gatheredRows, CSubband.advanced, c3, length_rowMajor]
        exact room_step (c := 0) (N := h / 2) (by omega) (by omega))
    (by simp only [gatheredRows, CSubband.advanced, c4, length_rowMajor]
        exact room_step (c := 0) (N := h / 2) (by omega) (by omega))
    (by rw [hlen]; exact row_le hn) (by rw [hlen]; exact row_le hm)
    (rows_disjoint w (by omega))
  refine ⟨mem', ?_, ?_⟩
  · rw [hrun]
    simp only [gatheredRows, CSubband.advanced_advanced]
  · refine ⟨by rw [hl, hlen], ?_⟩
    intro r k hr hk
    beta_reduce
    by_cases ce : r = 2 * n
    · subst ce
      rw [if_pos rfl, he k hk]
      have := gathered_rowMajor d0.ll d0.hl _ _ w ((h + 1) / 2) n k b1 c1 b2 c2 (by omega) hk
      simp only [gatheredRows]
      rw [this]
      by_cases c : k % 2 = 0
      · rw [if_pos c]
        congr 1
        omega
      · rw [if_neg c]
        congr 1
        omega
    · rw [if_neg ce]
      by_cases co : r = 2 * m + 1
      · subst co
        rw [if_pos rfl, ho k hk]
        have := gathered_rowMajor d0.lh d0.hh _ _ w (h / 2) m k b3 c3 b4 c4 (by omega) hk
        simp only [gatheredRows]
        rw [this]
        by_cases c : k % 2 = 0
        · rw [if_pos c]
          congr 1
          omega
        · rw [if_neg c]
          congr 1
          omega
      · rw [if_neg co, hf _ (cell_outside hk ce) (cell_outside hk co)]
        exact hR.2 r k hr hk

theorem MallatToLinear_Rows_none {mem : List Int} {w h : Nat} {M D : Nat → Nat → Int}
    (hR : Rows mem w h M) (d0 : Bands) (hH : d0.holds D w h) (n m : Nat)
    (hn : 2 * n < h) (p : Nat) (hp : p = 2 * n * w) :
    ∃ mem', MallatToLinear (gatheredRows d0 w n m) mem p none w =
        .ok (gatheredRows d0 w (n + 1) m, mem') ∧
      Rows mem' w h (fun r k => if r = 2 * n then D r k else M r k) := by
  subst hp
  obtain ⟨⟨b1, c1⟩, ⟨b2, c2⟩, _, _⟩ := hH
  have hlen := hR.1
  obtain ⟨mem', hrun, hl, he, hf⟩ := MallatToLinear_none (gatheredRows d0 w n m) mem
    (2 * n * w) w _ _ b1 b2
    (by simp only [gatheredRows, CSubband.advanced, c1, length_rowMajor]
        exact room_step (c := 0) (N := (h + 1) / 2) (by omega) (by omega))
    (by simp only [gatheredRows, CSubband.advanced, c2, length_rowMajor]
        exact room_step (c := 0) (N := (h + 1) / 2) (by omega) (by omega))
    (by rw [hlen]; exact row_le hn)
  refine ⟨mem', ?_, ?_⟩
  · rw [hrun]
    simp only [gatheredRows, CSubband.advanced_advanced]
  · refine ⟨by rw [hl, hlen], ?_⟩
    intro r k hr hk
    beta_reduce
    by_cases ce : r = 2 * n
    · subst ce
      rw [if_pos rfl, he k hk]
      have := gathered_rowMajor d0.ll d0.hl _ _ w ((h + 1) / 2) n k b1 c1 b2 c2 (by omega) hk
      simp only [gatheredRows]
      rw [this]
      by_cases c : k % 2 = 0
      · rw [if_pos c]
        congr 1
        omega
      · rw [if_neg c]
        congr 1
        omega
    · rw [if_neg ce, hf _ (cell_outside hk ce)]
      exact hR.2 r k hr hk

theorem rowUnlift_ext {w : Nat} {v v' : Nat → Int} (k : Nat) (h : ∀ j, v j = v' j) :
    rowUnlift w v k = rowUnlift w v' k := by
  rw [funext h]

theorem InverseTransform.inverse_rows_step (D Z : Nat → Nat → Int) (d0 : Bands) (w h : Nat)
    (h3 : 3 ≤ h) (hH : d0.holds D w h) (s : RowState)
    (hI : InverseRowsInv D Z d0 w h s) (hc : s.i < h - 1) :
    ∃ s', (fun (s : RowState) => (do
        let (d, dest) ← MallatToLinear s.d s.mem s.row2 (some s.row3) w
        let dest ← forK w (fun k mem => do
          let mem ← subAt mem (s.row2 + k)
            (((← rd mem (s.row1 + k)) + (← rd mem (s.row3 + k)) + c2) >>> 2)
          addAt mem (s.row1 + k) (((← rd mem (s.row0 + k)) + (← rd mem (s.row2 + k)) + c1) >>> 1))
          dest
        let dest ← InverseRow dest s.row0 w
        let dest ← InverseRow dest s.row1 w
        pure { i := s.i + 2, row0 := s.row2, row1 := s.row3, row2 := s.row3 + w,
               row3 := s.row3 + w + w, mem := dest, d := d } : Exec RowState)) s = .ok s' ∧
      InverseRowsInv D Z d0 w h s' ∧ s'.i = s.i + 2 := by
  obtain ⟨i, row0, row1, row2, row3, mem, d⟩ := s
  obtain ⟨t, hi, hle, e0, e1, e2, e3, hR, hd⟩ := hI
  simp only at hi hle e0 e1 e2 e3 hR hd hc ⊢
  subst hi hd
  have hlt : 2 * t + 3 < h := by omega
  obtain ⟨m1, hm1, hR1⟩ := MallatToLinear_Rows_some hR d0 hH (t + 1) (t + 1) (by omega)
    (by omega) row2 row3 (by rw [e2]; congr 1) (by rw [e3]; congr 1)
  have hR1' : Rows m1 w h (fun r k =>
      if r < 2 * t then restoredM D w h r k
      else if r = 2 * t then colUnliftedM D h r k
      else if r ≤ 2 * t + 3 then D r k else Z r k) := by
    apply hR1.congr
    intro r k _ _
    beta_reduce
    by_cases c2 : r = 2 * (t + 1)
    · rw [if_pos c2, if_neg (show ¬ r < 2 * t by omega), if_neg (show ¬ r = 2 * t by omega),
        if_pos (show r ≤ 2 * t + 3 by omega)]
    · rw [if_neg c2]
      by_cases c3 : r = 2 * (t + 1) + 1
      · rw [if_pos c3, if_neg (show ¬ r < 2 * t by omega), if_neg (show ¬ r = 2 * t by omega),
          if_pos (show r ≤ 2 * t + 3 by omega)]
      · rw [if_neg c3]
        by_cases c0 : r < 2 * t
        · rw [if_pos c0, if_pos c0]
        · rw [if_neg c0, if_neg c0]
          by_cases c1 : r = 2 * t
          · rw [if_pos c1, if_pos c1]
          · rw [if_neg c1, if_neg c1]
            by_cases c4 : r = 2 * t + 1
            · rw [if_pos c4, if_pos (show r ≤ 2 * t + 3 by omega)]
            · rw [if_neg c4, if_neg (show ¬ r ≤ 2 * t + 3 by omega)]
  obtain ⟨m2, hm2, hR2⟩ := forK_inv_mid hR1' (a := 2 * t) (b := 2 * t + 1)
    (c := 2 * t + 2) (e := 2 * t + 3) (by omega) (by omega) (by omega) (by omega)
    (by omega) (by omega) (by omega) row0 row1 row2 row3 e0 e1 e2 e3
  have hR2' : Rows m2 w h (fun r k =>
      if r < 2 * t then restoredM D w h r k
      else if r ≤ 2 * t + 2 then colUnliftedM D h r k
      else if r = 2 * t + 3 then D r k else Z r k) := by
    apply hR2.congr
    intro r k _ _
    beta_reduce
    rw [if_neg (show ¬ 2 * t + 2 < 2 * t by omega), if_neg (show ¬ 2 * t + 2 = 2 * t by omega),
      if_pos (show 2 * t + 2 ≤ 2 * t + 3 by omega),
      if_neg (show ¬ 2 * t + 1 < 2 * t by omega), if_neg (show ¬ 2 * t + 1 = 2 * t by omega),
      if_pos (show 2 * t + 1 ≤ 2 * t + 3 by omega),
      if_neg (show ¬ 2 * t + 3 < 2 * t by omega), if_neg (show ¬ 2 * t + 3 = 2 * t by omega),
      if_pos (show 2 * t + 3 ≤ 2 * t + 3 by omega),
      if_neg (show ¬ 2 * t < 2 * t by omega), if_pos rfl]
    have hC2 := colUnliftedM_even D h (2 * t + 2) k h3 (by omega) (by omega) (by omega)
    have hC1 := colUnliftedM_odd D h (2 * t + 1) k h3 (by omega) (by omega)
    have a1 : 2 * t + 2 - 1 = 2 * t + 1 := by omega
    have a2 : 2 * t + 2 + 1 = 2 * t + 3 := by omega
    have a3 : 2 * t + 1 - 1 = 2 * t := by omega
    have a4 : 2 * t + 1 + 1 = 2 * t + 2 := by omega
    rw [a1, a2] at hC2
    rw [a3, a4, hC2] at hC1
    by_cases c2 : r = 2 * t + 2
    · subst c2
      rw [if_pos rfl, if_neg (by omega), if_pos (by omega), hC2]
    · rw [if_neg c2]
      by_cases c1 : r = 2 * t + 1
      · subst c1
        rw [if_pos rfl, if_neg (by omega), if_pos (by omega), hC1]
      · rw [if_neg c1]
        by_cases c0 : r < 2 * t
        · rw [if_pos c0, if_pos c0]
        · rw [if_neg c0, if_neg c0]
          by_cases c00 : r = 2 * t
          · rw [if_pos c00, if_pos (show r ≤ 2 * t + 2 by omega)]
          · rw [if_neg c00, if_neg (show ¬ r ≤ 2 * t + 2 by omega)]
            by_cases c3 : r = 2 * t + 3
            · rw [if_pos (show r ≤ 2 * t + 3 by omega), if_pos c3]
            · rw [if_neg (show ¬ r ≤ 2 * t + 3 by omega), if_neg c3]
  obtain ⟨m3, hm3, hR3⟩ := InverseRow_at hR2' (a := 2 * t) (by omega) row0 e0
  obtain ⟨m4, hm4, hR4⟩ := InverseRow_at hR3 (a := 2 * t + 1) (by omega) row1 e1
  have hR4' : Rows m4 w h (fun r k =>
      if r < 2 * (t + 1) then restoredM D w h r k
      else if r = 2 * (t + 1) then colUnliftedM D h r k
      else if r = 2 * (t + 1) + 1 then D r k else Z r k) := by
    apply hR4.congr
    intro r k _ _
    beta_reduce
    by_cases c1 : r = 2 * t + 1
    · subst c1
      rw [if_pos rfl, if_pos (by omega)]
      unfold restoredM
      apply rowUnlift_ext
      intro j
      rw [if_neg (by omega), if_neg (by omega), if_pos (by omega)]
    · rw [if_neg c1]
      by_cases c0 : r = 2 * t
      · subst c0
        rw [if_pos rfl, if_pos (by omega)]
        unfold restoredM
        apply rowUnlift_ext
        intro j
        rw [if_neg (by omega), if_pos (by omega)]
      · rw [if_neg c0]
        by_cases c00 : r < 2 * t
        · rw [if_pos c00, if_pos (show r < 2 * (t + 1) by omega)]
        · rw [if_neg c00, if_neg (show ¬ r < 2 * (t + 1) by omega)]
          by_cases c2 : r = 2 * t + 2
          · rw [if_pos (show r ≤ 2 * t + 2 by omega), if_pos (show r = 2 * (t + 1) by omega)]
          · rw [if_neg (show ¬ r ≤ 2 * t + 2 by omega),
              if_neg (show ¬ r = 2 * (t + 1) by omega)]
            by_cases c3 : r = 2 * t + 3
            · rw [if_pos c3, if_pos (show r = 2 * (t + 1) + 1 by omega)]
            · rw [if_neg c3, if_neg (show ¬ r = 2 * (t + 1) + 1 by omega)]
  refine ⟨{ i := 2 * t + 2 + 2, row0 := row2, row1 := row3, row2 := row3 + w,
            row3 := row3 + w + w, mem := m4,
            d := gatheredRows d0 w (t + 1 + 1) (t + 1 + 1) }, ?_, ?_, rfl⟩
  · simp only [hm1, hm2, hm3, hm4, ok_bind, pure_eq_ok]
  · refine ⟨t + 1, by simp only; omega, by simp only; omega, ?_, ?_, ?_, ?_, hR4', rfl⟩
    · simp only; rw [e2]; congr 1
    · simp only; rw [e3]; congr 1
    · simp only; rw [e3]; ring
    · simp only; rw [e3]; ring

theorem gatheredRows_zero (d0 : Bands) (w : Nat) : gatheredRows d0 w 0 0 = d0 := by
  unfold gatheredRows CSubband.advanced
  simp

theorem InverseTransform.inverse_rows_tall (dest : List Int) (D Z : Nat → Nat → Int) (d0 : Bands)
    (w h : Nat) (hR : Rows dest w h Z) (h3 : 3 ≤ h) (hH : d0.holds D w h) :
    ∃ dest', InverseTransform.rows dest d0 w h =
        .ok (dest', gatheredRows d0 w ((h + 1) / 2) (h / 2)) ∧
      Rows dest' w h (restoredM D w h) := by
  unfold InverseTransform.rows
  simp only
  rw [if_pos (show h ≥ FilterHeight by simpa [FilterHeight] using h3)]
  -- top border handling
  obtain ⟨m1, hm1, hR1⟩ := MallatToLinear_Rows_some hR d0 hH 0 0 (by omega) (by omega)
    0 (0 + w) (by simp) (by simp)
  rw [gatheredRows_zero] at hm1
  obtain ⟨m2, hm2, hR2⟩ := forK_inv_top hR1 (a := 0) (b := 1) (by omega) (by omega)
    (by omega) 0 (0 + w) (by simp) (by simp)
  have hR2' : Rows m2 w h (fun r k =>
      if r < 2 * 0 then restoredM D w h r k
      else if r = 2 * 0 then colUnliftedM D h r k
      else if r = 2 * 0 + 1 then D r k else Z r k) := by
    apply hR2.congr
    intro r k _ _
    beta_reduce
    rw [if_pos (show 0 = 2 * 0 by omega), if_neg (show ¬ 1 = 2 * 0 by omega),
      if_pos (show 1 = 2 * 0 + 1 by omega), if_neg (show ¬ r < 2 * 0 by omega)]
    by_cases c0 : r = 0
    · subst c0
      rw [if_pos rfl, if_pos (by omega), colUnliftedM_zero D h k h3]
    · rw [if_neg c0, if_neg (show ¬ r = 2 * 0 by omega), if_neg (show ¬ r = 2 * 0 by omega)]
  simp only [hm1, hm2, ok_bind]
  -- middle part
  obtain ⟨s, hrun, hI, hc⟩ := whileLoop_inv
    (fun (s : RowState) => decide (s.i < h - 1))
    (fun (s : RowState) => (do
        let (d, dest) ← MallatToLinear s.d s.mem s.row2 (some s.row3) w
        let dest ← forK w (fun k mem => do
          let mem ← subAt mem (s.row2 + k)
            (((← rd mem (s.row1 + k)) + (← rd mem (s.row3 + k)) + c2) >>> 2)
          addAt mem (s.row1 + k) (((← rd mem (s.row0 + k)) + (← rd mem (s.row2 + k)) + c1) >>> 1))
          dest
        let dest ← InverseRow dest s.row0 w
        let dest ← InverseRow dest s.row1 w
        pure { i := s.i + 2, row0 := s.row2, row1 := s.row3, row2 := s.row3 + w,
               row3 := s.row3 + w + w, mem := dest, d := d } : Exec RowState))
    (InverseRowsInv D Z d0 w h) (fun s => h - s.i)
    (by
      intro s hI hc
      have hlt : s.i < h - 1 := by simpa using hc
      obtain ⟨s', hb, hI', hi'⟩ := InverseTransform.inverse_rows_step D Z d0 w h h3 hH s hI hlt
      exact ⟨s', hb, hI', by simp only; omega⟩)
    h { i := 0 + 2, row0 := 0, row1 := 0 + w, row2 := 0 + w + w,
        row3 := 0 + w + w + w, mem := m2, d := gatheredRows d0 w (0 + 1) (0 + 1) }
    ⟨0, rfl, by simp only; omega, by simp, by simp, by ring, by ring, hR2', rfl⟩
    (by simp only; omega)
  rw [hrun, ok_bind]
  obtain ⟨i, row0, row1, row2, row3, mem, d⟩ := s
  obtain ⟨t, hi, hle, e0, e1, e2, e3, hRs, hd⟩ := hI
  simp only at hi hle e0 e1 e2 e3 hRs hd hc ⊢
  subst hi hd
  have hge : ¬ 2 * t + 2 < h - 1 := by simpa using hc
  -- bottom border handling
  by_cases hodd : h % 2 = 1
  · have hh : h = 2 * t + 3 := by omega
    rw [if_pos hodd]
    obtain ⟨m5, hm5, hR5⟩ := MallatToLinear_Rows_none hRs d0 hH (t + 1) (t + 1) (by omega)
      row2 (by rw [e2]; congr 1)
    obtain ⟨m6, hm6, hR6⟩ := forK_inv_bottom_odd hR5 (a := 2 * t) (b := 2 * t + 1)
      (c := 2 * t + 2) (by omega) (by omega) (by omega) (by omega) (by omega)
      row0 row1 row2 e0 e1 e2
    have hR6' : Rows m6 w h (fun r k =>
        if r < 2 * t then restoredM D w h r k else colUnliftedM D h r k) := by
      apply hR6.congr
      intro r k hr _
      beta_reduce
      rw [if_pos (show 2 * t + 2 = 2 * (t + 1) by omega),
        if_neg (show ¬ 2 * t + 1 = 2 * (t + 1) by omega),
        if_neg (show ¬ 2 * t + 1 < 2 * t by omega), if_neg (show ¬ 2 * t + 1 = 2 * t by omega),
        if_pos rfl, if_neg (show ¬ 2 * t = 2 * (t + 1) by omega),
        if_neg (show ¬ 2 * t < 2 * t by omega), if_pos rfl]
      have hC2 := colUnliftedM_even_last D h (2 * t + 2) k h3 (by omega) (by omega) (by omega)
      have hC1 := colUnliftedM_odd D h (2 * t + 1) k h3 (by omega) (by omega)
      have a1 : 2 * t + 2 - 1 = 2 * t + 1 := by omega
      have a3 : 2 * t + 1 - 1 = 2 * t := by omega
      have a4 : 2 * t + 1 + 1 = 2 * t + 2 := by omega
      rw [a1] at hC2
      rw [a3, a4, hC2] at hC1
      by_cases c2 : r = 2 * t + 2
      · subst c2
        rw [if_pos rfl, if_neg (by omega), hC2]
      · rw [if_neg c2]
        by_cases c1 : r = 2 * t + 1
        · subst c1
          rw [if_pos rfl, if_neg (by omega), hC1]
        · rw [if_neg c1, if_neg (show ¬ r = 2 * (t + 1) by omega)]
          by_cases c0 : r < 2 * t
          · rw [if_pos c0, if_pos c0]
          · rw [if_neg c0, if_neg c0, if_pos (show r = 2 * t by omega)]
    obtain ⟨m7, hm7, hR7⟩ := InverseRow_at hR6' (a := 2 * t) (by omega) row0 e0
    obtain ⟨m8, hm8, hR8⟩ := InverseRow_at hR7 (a := 2 * t + 1) (by omega) row1 e1
    obtain ⟨m9, hm9, hR9⟩ := InverseRow_at hR8 (a := 2 * t + 2) (by omega) row2 e2
    refine ⟨m9, ?_, ?_⟩
    · simp only [hm5, hm6, hm7, hm8, hm9, ok_bind, pure_eq_ok]
      congr 3 <;> omega
    · apply hR9.congr
      intro r k hr _
      beta_reduce
      by_cases c2 : r = 2 * t + 2
      · subst c2
        rw [if_pos rfl]
        unfold restoredM
        apply rowUnlift_ext
        intro j
        rw [if_neg (by omega), if_neg (by omega), if_neg (by omega)]
      · rw [if_neg c2]
        by_cases c1 : r = 2 * t + 1
        · subst c1
          rw [if_pos rfl]
          unfold restoredM
          apply rowUnlift_ext
          intro j
          rw [if_neg (by omega), if_neg (by omega)]
        · rw [if_neg c1]
          by_cases c0 : r = 2 * t
          · subst c0
            rw [if_pos rfl]
            unfold restoredM
            apply rowUnlift_ext
            intro j
            rw [if_neg (by omega)]
          · rw [if_neg c0, if_pos (show r < 2 * t by omega)]
  · have hh : h = 2 * t + 2 := by omega
    rw [if_neg hodd]
    obtain ⟨m5, hm5, hR5⟩ := forK_inv_bottom_even hRs (a := 2 * t) (b := 2 * t + 1)
      (by omega) (by omega) (by omega) row0 row1 e0 e1
    have hR5' : Rows m5 w h (fun r k =>
        if r < 2 * t then restoredM D w h r k else colUnliftedM D h r k) := by
      apply hR5.congr
      intro r k hr _
      beta_reduce
      rw [if_neg (show ¬ 2 * t + 1 < 2 * t by omega), if_neg (show ¬ 2 * t + 1 = 2 * t by omega),
        if_pos rfl, if_neg (show ¬ 2 * t < 2 * t by omega), if_pos rfl]
      have hC1 := colUnliftedM_odd_last D h (2 * t + 1) k h3 (by omega) (by omega)
      have a3 : 2 * t + 1 - 1 = 2 * t := by omega
      rw [a3] at hC1
      by_cases c1 : r = 2 * t + 1
      · subst c1
        rw [if_pos rfl, if_neg (by omega), hC1]
      · rw [if_neg c1]
        by_cases c0 : r < 2 * t
        · rw [if_pos c0, if_pos c0]
        · rw [if_neg c0, if_neg c0, if_pos (show r = 2 * t by omega)]
    obtain ⟨m7, hm7, hR7⟩ := InverseRow_at hR5' (a := 2 * t) (by omega) row0 e0
    obtain ⟨m8, hm8, hR8⟩ := InverseRow_at hR7 (a := 2 * t + 1) (by omega) row1 e1
    refine ⟨m8, ?_, ?_⟩
    · simp only [hm5, hm7, hm8, ok_bind, pure_eq_ok]
      congr 3 <;> omega
    · apply hR8.congr
      intro r k hr _
      beta_reduce
      by_cases c1 : r = 2 * t + 1
      · subst c1
        rw [if_pos rfl]
        unfold restoredM
        apply rowUnlift_ext
        intro j
        rw [if_neg (by omega), if_neg (by omega)]
      · rw [if_neg c1]
        by_cases c0 : r = 2 * t
        · subst c0
          rw [if_pos rfl]
          unfold restoredM
          apply rowUnlift_ext
          intro j
          rw [if_neg (by omega)]
        · rw [if_neg c0, if_pos (show r < 2 * t by omega)]

/-- The inverse row pass at height 2 (the small-height branch): the two rows are gathered
and their row filter is undone, without column filtering. -/
theorem InverseTransform.inverse_rows_two (dest : List Int) (D Z : Nat → Nat → Int) (d0 : Bands)
    (w : Nat) (hR : Rows dest w 2 Z) (hH : d0.holds D w 2) :
    ∃ dest', InverseTransform.rows dest d0 w 2 =
        .ok (dest', gatheredRows d0 w ((2 + 1) / 2) (2 / 2)) ∧
      Rows dest' w 2 (restoredM D w 2) := by
  unfold InverseTransform.rows
  simp only
  rw [if_neg (show ¬ 2 ≥ FilterHeight by simp [FilterHeight])]
  obtain ⟨m1, hm1, hR1⟩ := MallatToLinear_Rows_some hR d0 hH 0 0 (by omega) (by omega)
    0 (0 + w) (by simp) (by simp)
  rw [gatheredRows_zero] at hm1
  obtain ⟨m2, hm2, hR2⟩ := InverseRow_at hR1 (a := 0) (by omega) 0 (by simp)
  obtain ⟨m3, hm3, hR3⟩ := InverseRow_at hR2 (a := 1) (by omega) (0 + w) (by simp)
  refine ⟨m3, ?_, ?_⟩
  · rw [whileLoop_succ _ _ 1 _ (by simp)]
    simp only [hm1, hm2, hm3, ok_bind, pure_eq_ok]
    rw [whileLoop_done _ _ 1 _ (by simp)]
    simp only [ok_bind]
    rfl
  · apply hR3.congr
    intro r k hr _
    beta_reduce
    by_cases c1 : r = 1
    · subst c1
      rw [if_pos rfl]
      unfold restoredM
      apply rowUnlift_ext
      intro j
      rw [if_neg (by omega), if_neg (by omega), if_pos (by omega),
        colUnliftedM_small D 2 1 j (by omega)]
    · have c0 : r = 0 := by omega
      subst c0
      rw [if_neg (by omega), if_pos rfl]
      unfold restoredM
      apply rowUnlift_ext
      intro j
      rw [if_pos (by omega), colUnliftedM_small D 2 0 j (by omega)]

/-- The inverse row pass of `InverseTransform` on a destination of height 2 or more, for
subbands that hold the matrix `D` in Mallat order: the pass runs without fault, every
subband cursor ends behind the last row, and the destination holds the inverse separable
transform of `D`. -/
theorem InverseTransform.inverse_rows_ok (dest : List Int) (D Z : Nat → Nat → Int) (d0 : Bands)
    (w h : Nat) (hR : Rows dest w h Z) (h2 : 2 ≤ h) (hH : d0.holds D w h) :
    ∃ dest', InverseTransform.rows dest d0 w h =
        .ok (dest', gatheredRows d0 w ((h + 1) / 2) (h / 2)) ∧
      Rows dest' w h (restoredM D w h) := by
  by_cases h3 : 3 ≤ h
  · exact InverseTransform.inverse_rows_tall dest D Z d0 w h hR h3 hH
  · have e : h = 2 := by omega
    subst e
    exact InverseTransform.inverse_rows_two dest D Z d0 w hR hH

theorem Rows.unique {a b : List Int} {w h : Nat} {M N : Nat → Nat → Int}
    (ha : Rows a w h M) (hb : Rows b w h N)
    (hMN : ∀ r k, r < h → k < w → M r k = N r k) : a = b := by
  apply List.ext_getElem?
  intro p
  by_cases hp : p < h * w
  · have hw : 0 < w := by
      rcases Nat.eq_zero_or_pos w with c | c
      · subst c; simp at hp
      · exact c
    have hr : p / w < h := by
      rw [Nat.div_lt_iff_lt_mul hw]; exact hp
    have hk : p % w < w := Nat.mod_lt _ hw
    have e : p / w * w + p % w = p := Nat.div_add_mod' p w
    have h1 := ha.2 (p / w) (p % w) hr hk
    have h2 := hb.2 (p / w) (p % w) hr hk
    rw [e] at h1 h2
    have pa : p < a.length := by rw [ha.1]; exact hp
    have pb : p < b.length := by rw [hb.1]; exact hp
    rw [ld_eq_getElem?, List.getElem?_eq_getElem pa, Option.getD_some] at h1
    rw [ld_eq_getElem?, List.getElem?_eq_getElem pb, Option.getD_some] at h2
    rw [List.getElem?_eq_getElem pa, List.getElem?_eq_getElem pb, h1, h2,
      hMN _ _ hr hk]
  · rw [List.getElem?_eq_none (by rw [ha.1]; omega), List.getElem?_eq_none (by rw [hb.1]; omega)]

theorem ld_replicate_zero (n p : Nat) : ld (List.replicate n (0 : Int)) p = 0 := by
  rw [ld_eq_getElem?, List.getElem?_replicate]
  split <;> rfl

theorem Bands.holds_of_buffers (d : Bands) (D : Nat → Nat → Int) (w h : Nat)
    (hb : d.buffers =
      [some (rowMajor ((w + 1) / 2) (fun a j => D (2 * a) (2 * j)) ((h + 1) / 2)),
       some (rowMajor (w / 2) (fun a j => D (2 * a) (2 * j + 1)) ((h + 1) / 2)),
       some (rowMajor ((w + 1) / 2) (fun a j => D (2 * a + 1) (2 * j)) (h / 2)),
       some (rowMajor (w / 2) (fun a j => D (2 * a + 1) (2 * j + 1)) (h / 2))]) :
    Bands.holds { ll := d.ll.InitBuffPos, hl := d.hl.InitBuffPos, lh := d.lh.InitBuffPos,
                  hh := d.hh.InitBuffPos } D w h := by
  unfold Bands.buffers at hb
  simp only [List.cons.injEq, and_true] at hb
  obtain ⟨b1, b2, b3, b4⟩ := hb
  exact ⟨⟨b1, rfl⟩, ⟨b2, rfl⟩, ⟨b3, rfl⟩, ⟨b4, rfl⟩⟩

/-- The inverse transform of a level whose row pass runs without fault, with the
destination LL not allocated yet and the memory granted: the call returns `NoError` and
hands out the width, the height and the buffer filled by the row pass. -/
theorem InverseTransform_of_rows (t : CWaveletTransform) (level : Nat)
    (destBands src : Bands) (dest : List Int) (d : Bands)
    (hd : t.bands level = .ok destBands) (hs : t.bands (level + 1) = .ok src)
    (hnone : destBands.ll.buffer = none)
    (hrows : InverseTransform.rows (List.replicate (destBands.ll.width * destBands.ll.height) 0)
      { ll := src.ll.InitBuffPos, hl := src.hl.InitBuffPos, lh := src.lh.InitBuffPos,
        hh := src.hh.InitBuffPos } destBands.ll.width destBands.ll.height = .ok (dest, d)) :
    ∃ t2, InverseTransform t (level + 1) true =
      .ok (.NoError, some (destBands.ll.width, destBands.ll.height, dest), t2) := by
  unfold InverseTransform
  rw [if_neg (Nat.succ_ne_zero level)]
  simp only [Nat.add_sub_cancel, hd, hs, ok_bind, CSubband.AllocMemory, hnone, if_true,
    Bool.not_true, Bool.false_eq_true, if_false, hrows]
  exact ⟨_, rfl⟩

/-- The round trip through one level, call by call: with the source buffer `src` of `h ≥ 2`
rows of width `w` at `level` and the subbands of `level + 1` as `InitSubbands` leaves them
for a `w × h` source, `ForwardTransform(level, 0)` returns `NoError` with a pyramid on
which `InverseTransform(level + 1)` returns `NoError` and hands out `w`, `h` and a buffer
that equals `src`. -/
theorem ForwardTransform_then_InverseTransform (t : CWaveletTransform) (level : Nat)
    (dest srcBands : Bands) (src : List Int) (w h : Nat)
    (hd : t.bands (level + 1) = .ok dest) (hs : t.bands level = .ok srcBands)
    (hbuf : srcBands.ll.buffer = some src) (hw : srcBands.ll.width = w)
    (hh : srcBands.ll.height = h) (hlen : src.length = h * w)
    (hfresh : dest.freshFor w h = true) (h2 : 2 ≤ h) :
    ∃ t1 t2, ForwardTransform t level 0 (fun _ => true) = .ok (.NoError, t1) ∧
      InverseTransform t1 (level + 1) true = .ok (.NoError, some (w, h, src), t2) := by
  subst hw hh
  obtain ⟨ha, hroom, hbufs⟩ := allocBands_fresh dest _ _ hfresh
  have hS := Rows_matrixOf src _ _ hlen
  have hrows := ForwardTransform.rows_ok src (matrixOf src srcBands.ll.width) _ _ _ hS h2 hroom
  have hH := Bands.holds_of_buffers _ _ _ _ (hbufs (transformedM (matrixOf src srcBands.ll.width)
    srcBands.ll.width srcBands.ll.height))
  have hZ : Rows (List.replicate (srcBands.ll.width * srcBands.ll.height) (0 : Int))
      srcBands.ll.width srcBands.ll.height (fun _ _ => 0) :=
    ⟨by rw [List.length_replicate, Nat.mul_comm], fun r k _ _ => ld_replicate_zero _ _⟩
  obtain ⟨dest', hinv, hR'⟩ := InverseTransform.inverse_rows_ok _ _ _ _ _ _ hZ h2 hH
  have hsame : dest' = src :=
    hR'.unique hS (fun r k hr hk => restoredM_transformedM _ _ _ r k hr hk)
  subst hsame
  obtain ⟨t2, hq⟩ := InverseTransform_of_rows
    ((t.setBands (level + 1) (scatteredRows (allocBands dest (fun _ => true)).2
      (transformedM (matrixOf dest' srcBands.ll.width) srcBands.ll.width srcBands.ll.height)
      srcBands.ll.width ((srcBands.ll.height + 1) / 2) (srcBands.ll.height / 2))).setBands level
        { srcBands with ll := srcBands.ll.FreeMemory })
    level { srcBands with ll := srcBands.ll.FreeMemory } _ dest' _
    (CWaveletTransform.bands_setBands
      ((CWaveletTransform.bands_setBands_ne (Nat.succ_ne_self level)).trans hs))
    ((CWaveletTransform.bands_setBands_ne (Nat.ne_add_one level)).trans
      (CWaveletTransform.bands_setBands hd))
    rfl hinv
  refine ⟨_, t2, ?_, hq⟩
  rw [ForwardTransform_of_rows t level 0 _ dest srcBands _ dest' hd hs hbuf ha hrows,
    quantizeBands_zero]

/-- C29: for a source LL of height 2 or more and any width, `ForwardTransform(level, 0)`
followed by `InverseTransform(level + 1)` returns the original LL buffer element for
element, with the original width and height. The coefficients are exact integers; the
subbands of level `level + 1` are as `InitSubbands` leaves them for a `w × h` source, and
both calls return `NoError`. -/
theorem InverseTransform_ForwardTransform (t : CWaveletTransform) (level : Nat)
    (dest srcBands : Bands) (src : List Int) (w h : Nat)
    (hd : t.bands (level + 1) = .ok dest) (hs : t.bands level = .ok srcBands)
    (hbuf : srcBands.ll.buffer = some src) (hw : srcBands.ll.width = w)
    (hh : srcBands.ll.height = h) (hlen : src.length = h * w)
    (hfresh : dest.freshFor w h = true) (h2 : 2 ≤ h) :
    (do let r ← ForwardTransform t level 0 (fun _ => true)
        let q ← InverseTransform r.2 (level + 1) true
        pure (r.1, q.1, q.2.1)) =
      .ok (.NoError, .NoError, some (w, h, src)) := by
  obtain ⟨t1, t2, h1, h2⟩ := ForwardTransform_then_InverseTransform t level dest srcBands src
    w h hd hs hbuf hw hh hlen hfresh h2
  rw [h1, ok_bind]
  show (do let q ← InverseTransform t1 (level + 1) true
           pure (OSError.NoError, q.1, q.2.1)) = _
  rw [h2, ok_bind]
  rfl

theorem InverseTransform_ForwardTransform_witness :
    ((CWaveletTransform.new 3 2 1 (some [5, -2, 7, 0, 11, 4])).bands (0 + 1) = .ok
        { ll := CSubband.Initialize 2 1 1 .LL, hl := CSubband.Initialize 1 1 1 .HL,
          lh := CSubband.Initialize 2 1 1 .LH, hh := CSubband.Initialize 1 1 1 .HH } ∧
      (CWaveletTransform.new 3 2 1 (some [5, -2, 7, 0, 11, 4])).bands 0 = .ok
        { ll := (CSubband.Initialize 3 2 0 .LL).SetBuffer [5, -2, 7, 0, 11, 4],
          hl := CSubband.Initialize 3 2 0 .HL, lh := CSubband.Initialize 3 2 0 .LH,
          hh := CSubband.Initialize 3 2 0 .HH } ∧
      ([5, -2, 7, 0, 11, 4] : List Int).length = 2 * 3 ∧ 2 ≤ 2) ∧
    (do let r ← ForwardTransform (CWaveletTransform.new 3 2 1 (some [5, -2, 7, 0, 11, 4])) 0 0
          (fun _ => true)
        let q ← InverseTransform r.2 (0 + 1) true
        pure (r.1, q.1, q.2.1)) =
      .ok (.NoError, .NoError, some (3, 2, [5, -2, 7, 0, 11, 4])) :=
  ⟨⟨by decide, by decide, by decide, by decide⟩,
    InverseTransform_ForwardTransform (CWaveletTransform.new 3 2 1 (some [5, -2, 7, 0, 11, 4])) 0
      { ll := CSubband.Initialize 2 1 1 .LL, hl := CSubband.Initialize 1 1 1 .HL,
        lh := CSubband.Initialize 2 1 1 .LH, hh := CSubband.Initialize 1 1 1 .HH }
      { ll := (CSubband.Initialize 3 2 0 .LL).SetBuffer [5, -2, 7, 0, 11, 4],
        hl := CSubband.Initialize 3 2 0 .HL, lh := CSubband.Initialize 3 2 0 .LH,
        hh := CSubband.Initialize 3 2 0 .HH }
      [5, -2, 7, 0, 11, 4] 3 2 (by decide) (by decide) rfl rfl rfl (by decide)
      (by decide) (by decide)⟩

theorem CWaveletTransform.new_one_level (W H : Nat) (B : List Int)
    (hW : W + 1 < 2 ^ 32) (hH : H + 1 < 2 ^ 32) :
    (CWaveletTransform.new W H 1 (some B)).bands 0 = .ok
        { ll := (CSubband.Initialize W H 0 .LL).SetBuffer B,
          hl := CSubband.Initialize W H 0 .HL, lh := CSubband.Initialize W H 0 .LH,
          hh := CSubband.Initialize W H 0 .HH } ∧
      (CWaveletTransform.new W H 1 (some B)).bands 1 = .ok
        { ll := CSubband.Initialize ((W + 1) / 2) ((H + 1) / 2) 1 .LL,
          hl := CSubband.Initialize (W / 2) ((H + 1) / 2) 1 .HL,
          lh := CSubband.Initialize ((W + 1) / 2) (H / 2) 1 .LH,
          hh := CSubband.Initialize (W / 2) (H / 2) 1 .HH } := by
  have e1 : ((W + 1) % 2 ^ 32) >>> 1 = (W + 1) / 2 := by
    rw [Nat.mod_eq_of_lt hW, Nat.shiftRight_eq_div_pow, pow_one]
  have e2 : ((H + 1) % 2 ^ 32) >>> 1 = (H + 1) / 2 := by
    rw [Nat.mod_eq_of_lt hH, Nat.shiftRight_eq_div_pow, pow_one]
  norm_num at e1 e2
  have e3 : W >>> 1 = W / 2 := by rw [Nat.shiftRight_eq_div_pow, pow_one]
  have e4 : H >>> 1 = H / 2 := by rw [Nat.shiftRight_eq_div_pow, pow_one]
  constructor
  · simp [CWaveletTransform.new, CWaveletTransform.bands, InitSubbands, InitSubbands.loop]
  · simp [CWaveletTransform.new, CWaveletTransform.bands, InitSubbands, InitSubbands.loop,
      e1, e2, e3, e4]

/-- The one-level round trip of C1 for every buffer of height 2 or more whose sizes the
`UINT32` arithmetic of `InitSubbands` can halve: `ForwardTransform(0, 0)` followed by
`InverseTransform(1)` on the pyramid of the constructor returns `NoError`, `W`, `H` and a
buffer that equals `B`. -/
theorem roundTripOneLevel_ok (W H : Nat) (B : List Int) (hW : W + 1 < 2 ^ 32)
    (hH : H + 1 < 2 ^ 32) (h2 : 2 ≤ H) (hB : B.length = H * W) :
    roundTripOneLevel W H B = .ok (.NoError, some (W, H, B)) := by
  obtain ⟨b0, b1⟩ := CWaveletTransform.new_one_level W H B hW hH
  obtain ⟨t1, t2, h1, h2⟩ := ForwardTransform_then_InverseTransform
    (CWaveletTransform.new W H 1 (some B)) 0 _ _ B W H b1 b0 rfl rfl rfl hB
    (by simp [Bands.freshFor, CSubband.freshFor, CSubband.Initialize]) h2
  unfold roundTripOneLevel
  simp only [h1, ok_bind, h2]
  rfl

/-! ## Height-one levels: scatter targets, source bounds, ROI origin -/

/-- C24 (failing input): a 5 × 1 source LL `[3, 1, 4, 1, 5]`, whose filtered row is
`[2, -3, 2, -4, 3]`. `ForwardTransform(0, 0)` leaves the source buffer. Followed with
memory behind every buffer (the cells `9, 2, 6, 5, 3` and `5, 8, 9, 7, 9` behind the
source), the row pass does store the even and odd columns of the filtered row 0 in LL and
HL, but it also filters the two rows of memory behind the source, stores three
coefficients in LH and two in HH, and stores a second row in LL and HL: the pair loop for
heights below 3 runs on the single row. For the 5 × 2 source the four subbands receive
the columns of the two filtered rows, as the claim says. -/
theorem ForwardTransform_height_one_scatters :
    ForwardRow [3, 1, 4, 1, 5] 0 5 = .ok [2, -3, 2, -4, 3] ∧
      ForwardRow [9, 2, 6, 5, 3] 0 5 = .ok [6, -6, 5, 0, 3] ∧
      ForwardTransform (CWaveletTransform.new 5 1 1 (some [3, 1, 4, 1, 5])) 0 0 (fun _ => true)
        = .error .outOfBounds ∧
      ((CWaveletTransform.new 5 1 1 none).bands 1).bind (fun d =>
          (ForwardTransform.rows [3, 1, 4, 1, 5, 9, 2, 6, 5, 3, 5, 8, 9, 7, 9]
            (d.withRoom 8) 5 1).map (fun r => (r.buffers, r.cursors)))
        = .ok ([some [2, 2, 3, 5, 9, 9, 0, 0], some [-3, -4, 8, 7, 0, 0, 0, 0],
                some [6, 5, 3, 0, 0, 0, 0, 0], some [-6, 0, 0, 0, 0, 0, 0, 0]],
               (6, 4, 3, 2)) ∧
      (ForwardTransform (CWaveletTransform.new 5 2 1 (some [3, 1, 4, 1, 5, 9, 2, 6, 5, 3]))
          0 0 (fun _ => true)).map (fun r => (r.1, (r.2.bands 1).map Bands.buffers))
        = .ok (.NoError, .ok [some [2, 2, 3], some [-3, -4], some [6, 5, 3], some [-6, 0]]) :=
  ⟨by decide, by decide, by decide, by decide, by decide⟩

/-- C30 (failing input): a 6 × 1 source LL `[2, 7, 1, 8, 2, 8]`. `ForwardTransform(0, 0)`
leaves the source buffer, also when every destination subband has memory to spare: the
pair loop for heights below 3 hands the row at offset 6 (row index 1, not below the
height 1) to `ForwardRow` and to `LinearToMallat`, and the bottom step the row at offset
12. The row pass runs through only when the buffer has 18 cells, three rows. The 6 × 2
source is transformed inside its 12 cells. -/
theorem ForwardTransform_height_one_leaves_source :
    ForwardTransform (CWaveletTransform.new 6 1 1 (some [2, 7, 1, 8, 2, 8])) 0 0 (fun _ => true)
        = .error .outOfBounds ∧
      ForwardRow [2, 7, 1, 8, 2, 8] (0 + 6) 6 = .error .outOfBounds ∧
      ((CWaveletTransform.new 6 1 1 none).bands 1).bind (fun d =>
          (ForwardTransform.rows [2, 7, 1, 8, 2, 8] (d.withRoom 16) 6 1).map
            (fun r => r.cursors))
        = .error .outOfBounds ∧
      ((CWaveletTransform.new 6 1 1 none).bands 1).bind (fun d =>
          (ForwardTransform.rows ([2, 7, 1, 8, 2, 8] ++ List.replicate 11 0) (d.withRoom 16) 6
            1).map (fun r => r.cursors))
        = .error .outOfBounds ∧
      ((CWaveletTransform.new 6 1 1 none).bands 1).bind (fun d =>
          (ForwardTransform.rows ([2, 7, 1, 8, 2, 8] ++ List.replicate 12 0) (d.withRoom 16) 6
            1).map (fun r => r.cursors))
        = .ok (6, 6, 3, 3) ∧
      ((CWaveletTransform.new 6 2 1 none).bands 1).bind (fun d =>
          (ForwardTransform.rows [2, 7, 1, 8, 2, 8, 1, 8, 2, 8, 4, 5]
            (allocBands d (fun _ => true)).2 6 2).map (fun r => r.cursors))
        = .ok (3, 3, 3, 3) :=
  ⟨by decide, by decide, by decide, by decide, by decide, by decide⟩

/-- C27 (failing input): a 2 × 3 image with one level and the ROI `(0, 1, 2, 3)`, whose
top is odd and whose height is 2. The destination LL of `InverseTransform(1)` has this
ROI and a buffer of 2 × 2 = 4 coefficients, and the call leaves the buffers. Followed with
memory behind every buffer, the row pass with the locals of the call after the ROI update
(`origin = 2`, `destWidth = destHeight = width = 2`, `height = 1`, `top = 2`,
`bottom = 3`) leaves row 0 alone, but it writes the cells 2 to 7: the pair loop for
heights below 3 runs on the single row and the bottom step stores a third row. For the 7 × 7 image with the ROI
`(3, 3, 7, 7)`, whose top and left are odd, the call fills the 4 × 4 buffer and writes
neither its first row nor its first column. -/
theorem InverseTransformROI_odd_top_height_two :
    ((do let p ← (CWaveletTransform.new 2 3 1 none).SetROI ((CRoiIndices.new).SetLevels 2)
                  ⟨0, 1, 2, 3⟩
         let b ← p.2.bands 0
         pure (b.ll.GetROI, (b.ll.AllocMemoryROI true).2.buffer)) :
        Exec (PGFRect × Option (List Int)))
        = .ok (⟨0, 1, 2, 3⟩, some [0, 0, 0, 0]) ∧
      decodeROI 2 3 1 ⟨0, 1, 2, 3⟩ 1 (fillBands [1, 2] [3, 4] [5] [6]) = .error .outOfBounds ∧
      ((do let p ← (CWaveletTransform.new 2 3 1 none).SetROI ((CRoiIndices.new).SetLevels 2)
                  ⟨0, 1, 2, 3⟩
           let b ← p.2.bands 1
           let b := fillBands (List.replicate 8 1) (List.replicate 8 2) (List.replicate 8 3)
             (List.replicate 8 4) b
           let r ← InverseTransformROI.rows (List.replicate 8 0)
             { ll := initSourcePos b.ll 0 2, hl := initSourcePos b.hl 0 2,
               lh := initSourcePos b.lh 0 2, hh := initSourcePos b.hh 0 2 } 2 2 2 2 1 2 3
           pure r.1) : Exec (List Int))
        = .ok [0, 0, 1, 2, 3, 4, 1, 2] ∧
      decodeROI 7 7 1 ⟨3, 3, 7, 7⟩ 1 (fillBands (List.replicate 16 1) (List.replicate 12 2)
          (List.replicate 12 3) (List.replicate 9 4))
        = .ok ⟨⟨3, 3, 7, 7⟩, .NoError,
            some (4, 3, [0, 0, 0, 0, 0, -1, 0, -1, 0, 2, 4, 2, 0, -1, 0, -1])⟩ :=
  ⟨by decide, by decide, by decide, by decide⟩

/-! ## Clamping to 6 bits -/

theorem testBit_mask6 (i : Nat) :
    Nat.testBit 0xFFFFFFC0 i = (decide (6 ≤ i) && decide (i < 32)) := by
  have e : (0xFFFFFFC0 : Nat) = (2 ^ 26 - 1) <<< 6 := by decide
  rw [e, Nat.testBit_shiftLeft, Nat.testBit_two_pow_sub_one]
  by_cases h6 : 6 ≤ i
  · by_cases h32 : i < 32
    · simp [h6, h32]; omega
    · simp [h6, h32]; omega
  · simp [h6]

theorem land_mask6_eq_zero_iff (x : Nat) (hx : x < 2 ^ 32) :
    x &&& 0xFFFFFFC0 = 0 ↔ x < 64 := by
  constructor
  · intro h
    have : x < 2 ^ 6 := by
      apply Nat.lt_pow_two_of_testBit
      intro i hi
      by_cases h32 : i < 32
      · have hb : (x &&& 0xFFFFFFC0).testBit i = false := by rw [h]; exact Nat.zero_testBit i
        rw [Nat.testBit_and, testBit_mask6] at hb
        simpa [hi, h32] using hb
      · apply Nat.testBit_lt_two_pow
        calc x < 2 ^ 32 := hx
          _ ≤ 2 ^ i := Nat.pow_le_pow_right (by decide) (by omega)
    simpa using this
  · intro h
    apply Nat.eq_of_testBit_eq
    intro i
    rw [Nat.testBit_and, testBit_mask6, Nat.zero_testBit]
    by_cases h6 : 6 ≤ i
    · have : x.testBit i = false := by
        apply Nat.testBit_lt_two_pow
        calc x < 2 ^ 6 := by simpa using h
          _ ≤ 2 ^ i := Nat.pow_le_pow_right (by decide) h6
      simp [this]
    · simp [h6]

/-- C38 (as stated) fails: for `v = 32`, which has exactly bit 5 set and sign bit 0,
`Clamp6` returns 32, not 63: no bit of `0xFFFFFFC0` is set in 32. -/
theorem Clamp6_32_not_63 :
    (32 : Nat) &&& 0xFFFFFFC0 = 0 ∧ CPGFImage.Clamp6 32 = 32 ∧ CPGFImage.Clamp6 32 ≠ 63 := by
  decide

/-- C38 (amended): `Clamp6` on a 32-bit value `v` clamps to the range `[0, 63]`: it
returns 0 for a negative `v`, 63 for `v > 63` and `v` itself for `0 ≤ v ≤ 63`; so a value
with exactly bit 5 set and sign bit 0 (`v = 32`) comes back as 32. -/
theorem Clamp6_clamps (v : Int) (hlo : -2 ^ 31 ≤ v) (hhi : v < 2 ^ 31) :
    CPGFImage.Clamp6 v = if v < 0 then 0 else if 63 < v then 63 else v.toNat := by
  unfold CPGFImage.Clamp6
  have hp : (((2 ^ 32 : Nat) : Int)) = 4294967296 := by norm_num
  have hq : (((2 ^ 16 : Nat) : Int)) = 65536 := by norm_num
  rw [hp, hq]
  norm_num at hlo hhi
  have hx : (v % 4294967296).toNat < 2 ^ 32 := by
    have := Int.emod_lt_of_pos v (show (0 : Int) < 4294967296 by decide)
    have := Int.emod_nonneg v (show (4294967296 : Int) ≠ 0 by decide)
    omega
  by_cases hneg : v < 0
  · have hge : ¬ (v % 4294967296).toNat < 64 := by omega
    have hne : (v % 4294967296).toNat &&& 0xFFFFFFC0 ≠ 0 :=
      fun h => hge ((land_mask6_eq_zero_iff _ hx).mp h)
    rw [if_pos hne, if_pos hneg, if_pos hneg]
  · rw [if_neg hneg]
    by_cases hbig : 63 < v
    · have hge : ¬ (v % 4294967296).toNat < 64 := by omega
      have hne : (v % 4294967296).toNat &&& 0xFFFFFFC0 ≠ 0 :=
        fun h => hge ((land_mask6_eq_zero_iff _ hx).mp h)
      rw [if_pos hne, if_neg hneg, if_pos hbig]
    · have hlt : (v % 4294967296).toNat < 64 := by omega
      have he : (v % 4294967296).toNat &&& 0xFFFFFFC0 = 0 :=
        (land_mask6_eq_zero_iff _ hx).mpr hlt
      rw [if_neg (by simpa using he), if_neg hbig,
        Int.emod_eq_of_lt (by omega) (by omega), if_neg hneg]

theorem Clamp6_clamps_witness :
    (-2 ^ 31 ≤ (32 : Int) ∧ (32 : Int) < 2 ^ 31) ∧
      CPGFImage.Clamp6 32 = if (32 : Int) < 0 then 0 else if 63 < (32 : Int) then 63
        else (32 : Int).toNat :=
  ⟨by decide, Clamp6_clamps 32 (by decide) (by decide)⟩

/-! ## The source subband after `ForwardTransform` -/

/-- C37: `ForwardTransform` and its source on allocation failure. For a source LL that
holds the buffer `src`, every call that returns does so with `InsufficientMemory` exactly
when the allocation of a destination subband failed, and with `NoError` exactly when it
succeeded. After `InsufficientMemory` the subbands of the source level are the ones
before the call (the LL buffer is still `src`, no filter step has run); after `NoError`
the source LL buffer is freed and nothing else of the source level has changed. -/
theorem ForwardTransform_source_atomic (t : CWaveletTransform) (level : Nat) (quant : Int)
    (alloc : Orientation → Bool) (dest srcBands : Bands) (src : List Int) (e : OSError)
    (t' : CWaveletTransform)
    (hd : t.bands (level + 1) = .ok dest) (hs : t.bands level = .ok srcBands)
    (hbuf : srcBands.ll.buffer = some src)
    (hr : ForwardTransform t level quant alloc = .ok (e, t')) :
    decide (e = .InsufficientMemory) = !(allocBands dest alloc).1 ∧
      decide (e = .NoError) = (allocBands dest alloc).1 ∧
      t'.bands level = .ok (if e = .InsufficientMemory then srcBands
        else { srcBands with ll := srcBands.ll.FreeMemory }) ∧
      (t'.bands level).map (fun b => b.ll.buffer) =
        .ok (if e = .InsufficientMemory then some src else none) := by
  unfold ForwardTransform at hr
  simp only [hd, hs, ok_bind] at hr
  cases ha : (allocBands dest alloc).1 with
  | false =>
    simp only [ha, Bool.not_false, if_true, pure_eq_ok, Except.ok.injEq, Prod.mk.injEq] at hr
    obtain ⟨rfl, rfl⟩ := hr
    have hb : (t.setBands (level + 1) (allocBands dest alloc).2).bands level = .ok srcBands :=
      (CWaveletTransform.bands_setBands_ne (Nat.succ_ne_self level)).trans hs
    refine ⟨by decide, by decide, ?_, ?_⟩
    · rw [hb, if_pos rfl]
    · rw [hb, if_pos rfl]
      simp [Except.map, hbuf]
  | true =>
    simp only [ha, Bool.not_true, Bool.false_eq_true, if_false, hbuf] at hr
    obtain ⟨d, _, hr⟩ := bind_eq_ok hr
    have key : ∃ d', e = .NoError ∧ t' = (t.setBands (level + 1) d').setBands level
        { srcBands with ll := srcBands.ll.FreeMemory } := by
      split at hr
      · obtain ⟨_, _, hr⟩ := bind_eq_ok hr
        obtain ⟨_, _, hr⟩ := bind_eq_ok hr
        obtain ⟨_, _, hr⟩ := bind_eq_ok hr
        split at hr
        · obtain ⟨_, _, hr⟩ := bind_eq_ok hr
          simp only [pure_eq_ok, ok_bind, Except.ok.injEq, Prod.mk.injEq] at hr
          exact ⟨_, hr.1.symm, hr.2.symm⟩
        · simp only [pure_eq_ok, ok_bind, Except.ok.injEq, Prod.mk.injEq] at hr
          exact ⟨_, hr.1.symm, hr.2.symm⟩
      · simp only [pure_eq_ok, ok_bind, Except.ok.injEq, Prod.mk.injEq] at hr
        exact ⟨_, hr.1.symm, hr.2.symm⟩
    obtain ⟨d', rfl, rfl⟩ := key
    have hb : ((t.setBands (level + 1) d').setBands level
        { srcBands with ll := srcBands.ll.FreeMemory }).bands level =
        .ok { srcBands with ll := srcBands.ll.FreeMemory } :=
      CWaveletTransform.bands_setBands
        ((CWaveletTransform.bands_setBands_ne (Nat.succ_ne_self level)).trans hs)
    refine ⟨by decide, by decide, ?_, ?_⟩
    · rw [hb, if_neg (by decide)]
    · rw [hb, if_neg (by decide)]
      simp [Except.map, CSubband.FreeMemory]

theorem ForwardTransform_source_atomic_witness :
    ((CWaveletTransform.new 2 2 1 (some [7, 8, 9, 10])).bands (0 + 1) = .ok
        { ll := CSubband.Initialize 1 1 1 .LL, hl := CSubband.Initialize 1 1 1 .HL,
          lh := CSubband.Initialize 1 1 1 .LH, hh := CSubband.Initialize 1 1 1 .HH } ∧
      (CWaveletTransform.new 2 2 1 (some [7, 8, 9, 10])).bands 0 = .ok
        { ll := (CSubband.Initialize 2 2 0 .LL).SetBuffer [7, 8, 9, 10],
          hl := CSubband.Initialize 2 2 0 .HL, lh := CSubband.Initialize 2 2 0 .LH,
          hh := CSubband.Initialize 2 2 0 .HH } ∧
      ((CSubband.Initialize 2 2 0 .LL).SetBuffer [7, 8, 9, 10]).buffer = some [7, 8, 9, 10] ∧
      ForwardTransform (CWaveletTransform.new 2 2 1 (some [7, 8, 9, 10])) 0 3
          (fun o => decide (o ≠ .LH)) =
        .ok (.InsufficientMemory, (CWaveletTransform.new 2 2 1 (some [7, 8, 9, 10])).setBands 1
          { ll := (CSubband.Initialize 1 1 1 .LL).SetBuffer [0],
            hl := (CSubband.Initialize 1 1 1 .HL).SetBuffer [0],
            lh := CSubband.Initialize 1 1 1 .LH, hh := CSubband.Initialize 1 1 1 .HH })) ∧
    (decide (OSError.InsufficientMemory = .InsufficientMemory) =
        !(allocBands
          { ll := CSubband.Initialize 1 1 1 .LL, hl := CSubband.Initialize 1 1 1 .HL,
            lh := CSubband.Initialize 1 1 1 .LH, hh := CSubband.Initialize 1 1 1 .HH }
          (fun o => decide (o ≠ .LH))).1 ∧
      decide (OSError.InsufficientMemory = .NoError) =
        (allocBands
          { ll := CSubband.Initialize 1 1 1 .LL, hl := CSubband.Initialize 1 1 1 .HL,
            lh := CSubband.Initialize 1 1 1 .LH, hh := CSubband.Initialize 1 1 1 .HH }
          (fun o => decide (o ≠ .LH))).1 ∧
      ((CWaveletTransform.new 2 2 1 (some [7, 8, 9, 10])).setBands 1
          { ll := (CSubband.Initialize 1 1 1 .LL).SetBuffer [0],
            hl := (CSubband.Initialize 1 1 1 .HL).SetBuffer [0],
            lh := CSubband.Initialize 1 1 1 .LH, hh := CSubband.Initialize 1 1 1 .HH }).bands 0 =
        .ok (if OSError.InsufficientMemory = .InsufficientMemory then
          { ll := (CSubband.Initialize 2 2 0 .LL).SetBuffer [7, 8, 9, 10],
            hl := CSubband.Initialize 2 2 0 .HL, lh := CSubband.Initialize 2 2 0 .LH,
            hh := CSubband.Initialize 2 2 0 .HH }
        else
          { ll := ((CSubband.Initialize 2 2 0 .LL).SetBuffer [7, 8, 9, 10]).FreeMemory,
            hl := CSubband.Initialize 2 2 0 .HL, lh := CSubband.Initialize 2 2 0 .LH,
            hh := CSubband.Initialize 2 2 0 .HH }) ∧
      (((CWaveletTransform.new 2 2 1 (some [7, 8, 9, 10])).setBands 1
          { ll := (CSubband.Initialize 1 1 1 .LL).SetBuffer [0],
            hl := (CSubband.Initialize 1 1 1 .HL).SetBuffer [0],
            lh := CSubband.Initialize 1 1 1 .LH, hh := CSubband.Initialize 1 1 1 .HH }).bands
          0).map (fun b => b.ll.buffer) =
        .ok (if OSError.InsufficientMemory = .InsufficientMemory then some [7, 8, 9, 10]
          else none)) :=
  ⟨⟨by decide, by decide, by decide, by decide⟩,
    ForwardTransform_source_atomic (CWaveletTransform.new 2 2 1 (some [7, 8, 9, 10])) 0 3
      (fun o => decide (o ≠ .LH))
      { ll := CSubband.Initialize 1 1 1 .LL, hl := CSubband.Initialize 1 1 1 .HL,
        lh := CSubband.Initialize 1 1 1 .LH, hh := CSubband.Initialize 1 1 1 .HH }
      { ll := (CSubband.Initialize 2 2 0 .LL).SetBuffer [7, 8, 9, 10],
        hl := CSubband.Initialize 2 2 0 .HL, lh := CSubband.Initialize 2 2 0 .LH,
        hh := CSubband.Initialize 2 2 0 .HH }
      [7, 8, 9, 10] .InsufficientMemory
      ((CWaveletTransform.new 2 2 1 (some [7, 8, 9, 10])).setBands 1
        { ll := (CSubband.Initialize 1 1 1 .LL).SetBuffer [0],
          hl := (CSubband.Initialize 1 1 1 .HL).SetBuffer [0],
          lh := CSubband.Initialize 1 1 1 .LH, hh := CSubband.Initialize 1 1 1 .HH })
      (by decide) (by decide) (by decide) (by decide)⟩

/-! ## The four subbands tile their parent -/

/-- C33 (as stated) fails at the largest `UINT32` size: for the width and height
`2 ^ 32 - 1` the sum `loWidth + 1` wraps to 0, so at level 1 LL is 0 wide and 0 high while
HL is `2 ^ 31 - 1` wide and LH `2 ^ 31 - 1` high: the widths of LL and HL do not add up
to the width of the parent, nor do the heights of LL and LH. -/
theorem InitSubbands_max_size_not_tiled :
    (InitSubbands 2 4294967295 4294967295 none).map
        (fun b => (b.ll.width, b.hl.width, b.ll.height, b.lh.height)) =
      [(4294967295, 4294967295, 4294967295, 4294967295), (0, 2147483647, 0, 2147483647)] ∧
      0 + 2147483647 ≠ 4294967295 := by
  decide

/-- C33 (amended): for an image of width `W` and height `H` of at most `2 ^ 32 - 2` and
every level `l` with `1 ≤ l < m_nLevels`, the four subbands that `InitSubbands` creates
at level `l` tile the LL subband of level `l - 1`: the widths of LL and HL add up to the
parent width, the heights of LL and LH to the parent height, LL and LH share a width, HL
and HH share a width, LL and HL share a height, LH and HH share a height, and the four
subbands together hold as many coefficients as the parent. -/
theorem InitSubbands_tiles_parent (m_nLevels W H : Nat) (data : Option (List Int))
    (hW : W + 1 < 2 ^ 32) (hH : H + 1 < 2 ^ 32)
    (l : Nat) (hl1 : 1 ≤ l) (hl : l < m_nLevels) :
    ∃ p q, (InitSubbands m_nLevels W H data)[l - 1]? = some p ∧
      (InitSubbands m_nLevels W H data)[l]? = some q ∧
      q.ll.width + q.hl.width = p.ll.width ∧ q.ll.height + q.lh.height = p.ll.height ∧
      q.lh.width = q.ll.width ∧ q.hh.width = q.hl.width ∧
      q.hl.height = q.ll.height ∧ q.hh.height = q.lh.height ∧
      q.ll.width * q.ll.height + q.hl.width * q.hl.height + q.lh.width * q.lh.height +
        q.hh.width * q.hh.height = p.ll.width * p.ll.height := by
  obtain ⟨k, rfl⟩ : ∃ k, l = k + 1 := ⟨l - 1, by omega⟩
  obtain ⟨p, hp, pw, ph, -⟩ := InitSubbands_get m_nLevels W H data k (by omega)
  obtain ⟨q, hq, q1, q2, q3, q4, q5, q6, q7, q8⟩ :=
    InitSubbands_get m_nLevels W H data (k + 1) hl
  have hpw : p.ll.width + 1 < 2 ^ 32 := by
    have := halveUp_iterate_le k W
    omega
  have hph : p.ll.height + 1 < 2 ^ 32 := by
    have := halveUp_iterate_le k H
    omega
  have ew : halveUp^[k + 1] W = (p.ll.width + 1) / 2 := by
    rw [Function.iterate_succ_apply', ← pw, halveUp_eq _ hpw]
  have eh : halveUp^[k + 1] H = (p.ll.height + 1) / 2 := by
    rw [Function.iterate_succ_apply', ← ph, halveUp_eq _ hph]
  have fw : hiAfter W W (k + 1) = p.ll.width / 2 := by
    simp only [hiAfter]
    rw [← pw, Nat.shiftRight_eq_div_pow]
  have fh : hiAfter H H (k + 1) = p.ll.height / 2 := by
    simp only [hiAfter]
    rw [← ph, Nat.shiftRight_eq_div_pow]
  rw [ew] at q1 q5
  rw [eh] at q2 q4
  rw [fw] at q3 q7
  rw [fh] at q6 q8
  have sw : q.ll.width + q.hl.width = p.ll.width := by rw [q1, q3]; omega
  have sh : q.ll.height + q.lh.height = p.ll.height := by rw [q2, q6]; omega
  refine ⟨p, q, by simpa using hp, hq, sw, sh, by rw [q5, q1], by rw [q7, q3],
    by rw [q4, q2], by rw [q8, q6], ?_⟩
  rw [← sw, ← sh, q5, q7, q4, q8, ← q1, ← q3, ← q2, ← q6]
  ring

theorem InitSubbands_tiles_parent_witness :
    (5 + 1 < 2 ^ 32 ∧ 3 + 1 < 2 ^ 32 ∧ 1 ≤ 1 ∧ 1 < 3) ∧
    ∃ p q, (InitSubbands 3 5 3 none)[1 - 1]? = some p ∧
      (InitSubbands 3 5 3 none)[1]? = some q ∧
      q.ll.width + q.hl.width = p.ll.width ∧ q.ll.height + q.lh.height = p.ll.height ∧
      q.lh.width = q.ll.width ∧ q.hh.width = q.hl.width ∧
      q.hl.height = q.ll.height ∧ q.hh.height = q.lh.height ∧
      q.ll.width * q.ll.height + q.hl.width * q.hl.height + q.lh.width * q.lh.height +
        q.hh.width * q.hh.height = p.ll.width * p.ll.height :=
  ⟨by decide, InitSubbands_tiles_parent 3 5 3 none (by decide) (by decide) 1 (by decide)
    (by decide)⟩

/-! ## The unsigned geometry arithmetic -/

theorem descend_range (pos len : Nat) (hlen : 2 * len < 2 ^ 32) :
    ∀ (k ti mn mx : Nat), mn ≤ mx → mx ≤ len →
      (descend pos k (ti, mn, mx)).2.1 ≤ (descend pos k (ti, mn, mx)).2.2 ∧
        (descend pos k (ti, mn, mx)).2.2 ≤ len := by
  intro k
  induction k with
  | zero =>
    intro ti mn mx h1 h2
    exact ⟨h1, h2⟩
  | succ k ih =>
    intro ti mn mx h1 h2
    have hm : (mn + mx) % 2 ^ 32 = mn + mx := Nat.mod_eq_of_lt (by omega)
    simp only [descend, hm]
    split_ifs
    · exact ih _ _ _ (by omega) h2
    · exact ih _ _ _ (by omega) (by omega)

/-- C36 (as stated) fails near `2 ^ 32`: the halving `(loWidth + 1) >> 1` of
`loWidth = 2 ^ 32 - 1` is 0, not `ceil(loWidth / 2) = 2 ^ 31`; and on an axis of length
`2 ^ 32 - 1` the descent for the position `2 ^ 32 - 2` has `tileMin = 2 ^ 31 - 1` and
`tileMax = 2 ^ 32 - 1` after one round, whose sum wraps: the midpoint computed in the
second round is `2 ^ 30 - 1`, below `tileMin`, while the exact midpoint is
`3 * 2 ^ 30 - 1`. -/
theorem geometry_arithmetic_wraps :
    halveUp 4294967295 = 0 ∧ ⌈((4294967295 : Nat) : ℚ) / 2⌉₊ = 2147483648 ∧
      descend 4294967294 1 (0, 0, 4294967295) = (1, 2147483647, 4294967295) ∧
      descend 4294967294 2 (0, 0, 4294967295) = (3, 1073741823, 4294967295) ∧
      (2147483647 + 4294967295) / 2 = 3221225471 ∧ 1073741823 < 2147483647 := by
  refine ⟨by decide, ?_, by decide, by decide, by decide, by decide⟩
  rw [natCeil_half]

/-- C36 (amended): on an axis of a length below `2 ^ 31`, for every position and in every
round of the descent of `ComputeTileIndex`, the midpoint computed on `UINT32` from
`tileMin` and `tileMax` is the exact `floor((tileMin + tileMax) / 2)` and lies in
`[tileMin, tileMax]`, with `tileMax` at most the axis length; and for every `loWidth` of
at most `2 ^ 32 - 2` the halving `(loWidth + 1) >> 1` of `InitSubbands` is
`ceil(loWidth / 2)`. -/
theorem geometry_arithmetic_exact (len pos k loWidth : Nat) (hlen : len < 2 ^ 31)
    (hlo : loWidth + 1 < 2 ^ 32) :
    (((descend pos k (0, 0, len)).2.1 + (descend pos k (0, 0, len)).2.2) % 2 ^ 32) / 2 =
        ((descend pos k (0, 0, len)).2.1 + (descend pos k (0, 0, len)).2.2) / 2 ∧
      (descend pos k (0, 0, len)).2.1 ≤
        ((descend pos k (0, 0, len)).2.1 + (descend pos k (0, 0, len)).2.2) / 2 ∧
      ((descend pos k (0, 0, len)).2.1 + (descend pos k (0, 0, len)).2.2) / 2 ≤
        (descend pos k (0, 0, len)).2.2 ∧
      (descend pos k (0, 0, len)).2.2 ≤ len ∧
      halveUp loWidth = ⌈(loWidth : ℚ) / 2⌉₊ := by
  obtain ⟨h1, h2⟩ := descend_range pos len (by omega) k 0 0 len (Nat.zero_le _) (Nat.le_refl _)
  have hm : ((descend pos k (0, 0, len)).2.1 + (descend pos k (0, 0, len)).2.2) % 2 ^ 32 =
      (descend pos k (0, 0, len)).2.1 + (descend pos k (0, 0, len)).2.2 :=
    Nat.mod_eq_of_lt (by omega)
  refine ⟨by rw [hm], by omega, by omega, h2, ?_⟩
  rw [halveUp_eq _ hlo, natCeil_half]

theorem geometry_arithmetic_exact_witness :
    ((1000 : Nat) < 2 ^ 31 ∧ 999 + 1 < 2 ^ 32) ∧
    ((((descend 700 3 (0, 0, 1000)).2.1 + (descend 700 3 (0, 0, 1000)).2.2) % 2 ^ 32) / 2 =
        ((descend 700 3 (0, 0, 1000)).2.1 + (descend 700 3 (0, 0, 1000)).2.2) / 2 ∧
      (descend 700 3 (0, 0, 1000)).2.1 ≤
        ((descend 700 3 (0, 0, 1000)).2.1 + (descend 700 3 (0, 0, 1000)).2.2) / 2 ∧
      ((descend 700 3 (0, 0, 1000)).2.1 + (descend 700 3 (0, 0, 1000)).2.2) / 2 ≤
        (descend 700 3 (0, 0, 1000)).2.2 ∧
      (descend 700 3 (0, 0, 1000)).2.2 ≤ 1000 ∧
      halveUp 999 = ⌈((999 : Nat) : ℚ) / 2⌉₊) :=
  ⟨by decide, geometry_arithmetic_exact 1000 700 3 999 (by decide) (by decide)⟩

/-! ## The row filters stay inside the row -/

/-- C31: `ForwardRow` and `InverseRow` on a row of `w` cells at offset `b` of a buffer
that contains the row (`b + w ≤ mem.length`, the buffer may be exactly the row). Both
calls return: no load or store leaves the buffer, border steps included, for odd and even
`w`. The buffer keeps its length and every cell `p` outside the row keeps its value. For
`w < 5` both functions return the buffer `mem'` they are given, whatever the buffer and
the offset `b'`, an empty buffer included: nothing is loaded or stored. -/
theorem ForwardRow_InverseRow_in_bounds (mem mem' : List Int) (b w p b' : Nat)
    (hb : b + w ≤ mem.length) :
    ∃ d t, ForwardRow mem b w = .ok d ∧ InverseRow mem b w = .ok t ∧
      d.length = mem.length ∧ t.length = mem.length ∧
      ((b ≤ p ∧ p < b + w) ∨ (ld d p = ld mem p ∧ ld t p = ld mem p)) ∧
      (5 ≤ w ∨ (ForwardRow mem' b' w = .ok mem' ∧ InverseRow mem' b' w = .ok mem')) := by
  by_cases hw : 5 ≤ w
  · obtain ⟨d, hd, hF⟩ := ForwardRow_spec mem b w hw hb
    obtain ⟨t, ht, hG⟩ := InverseRow_spec mem b w hw hb
    refine ⟨d, t, hd, ht, hF.1, hG.1, ?_, Or.inl hw⟩
    by_cases hp : b ≤ p ∧ p < b + w
    · exact Or.inl hp
    · exact Or.inr ⟨hF.2.1 p (by omega), hG.2.1 p (by omega)⟩
  · have hlt : ¬ w ≥ FilterWidth := by simpa [FilterWidth] using hw
    have e1 : ∀ (m : List Int) (c : Nat), ForwardRow m c w = .ok m := by
      intro m c
      simp [ForwardRow, hlt, pure_eq_ok]
    have e2 : ∀ (m : List Int) (c : Nat), InverseRow m c w = .ok m := by
      intro m c
      simp [InverseRow, hlt, pure_eq_ok]
    exact ⟨mem, mem, e1 mem b, e2 mem b, rfl, rfl, Or.inr ⟨rfl, rfl⟩,
      Or.inr ⟨e1 mem' b', e2 mem' b'⟩⟩

theorem ForwardRow_InverseRow_in_bounds_witness :
    (0 + 6 ≤ ([5, 1, -2, 3, 4, 7] : List Int).length) ∧
    ∃ d t, ForwardRow [5, 1, -2, 3, 4, 7] 0 6 = .ok d ∧
      InverseRow [5, 1, -2, 3, 4, 7] 0 6 = .ok t ∧
      d.length = ([5, 1, -2, 3, 4, 7] : List Int).length ∧
      t.length = ([5, 1, -2, 3, 4, 7] : List Int).length ∧
      ((0 ≤ 6 ∧ 6 < 0 + 6) ∨
        (ld d 6 = ld [5, 1, -2, 3, 4, 7] 6 ∧ ld t 6 = ld [5, 1, -2, 3, 4, 7] 6)) ∧
      (5 ≤ 6 ∨ (ForwardRow [] 0 6 = .ok [] ∧ InverseRow [] 0 6 = .ok [])) :=
  ⟨by decide, ForwardRow_InverseRow_in_bounds [5, 1, -2, 3, 4, 7] [] 0 6 6 0 (by decide)⟩

/-! ## The transform of a constant image -/

theorem shiftRight_one_eq_div (x : Int) : x >>> (1 : Int) = x / 2 := by
  have e := shiftRight_int_eq x 1
  rw [Nat.cast_one] at e
  rw [e, Int.shiftRight_eq_div_pow]
  norm_num

theorem rowMajor_const (cols rows : Nat) (c : Int) :
    rowMajor cols (fun _ _ => c) rows = List.replicate (rows * cols) c := by
  induction rows with
  | zero => simp [rowMajor]
  | succ n ih =>
    have e : (List.range cols).map (fun _ => c) = List.replicate cols c := by
      apply List.ext_getElem
      · simp
      · intro i h1 h2
        simp
    simp only [rowMajor]
    rw [ih, e, show (n + 1) * cols = n * cols + cols by ring, List.replicate_add]

/-! ## The ROI build with the default ROI -/

/-- Partial-correctness rule for `whileLoop` with the loop condition: a property that
every fault-free run of the body keeps holds after every fault-free run of the loop,
together with the negated condition. -/
theorem whileLoop_exit {σ : Type} (cond : σ → Bool) (body : σ → Exec σ) (I : σ → Prop)
    (step : ∀ s s', I s → cond s = true → body s = .ok s' → I s') :
    ∀ (fuel : Nat) (s s' : σ), I s → whileLoop cond body fuel s = .ok s' →
      I s' ∧ cond s' = false := by
  intro fuel
  induction fuel with
  | zero =>
    intro s s' hI h
    by_cases hc : cond s = true
    · simp [whileLoop, hc] at h
    · simp [whileLoop, hc] at h
      cases h
      exact ⟨hI, by simpa using hc⟩
  | succ n ih =>
    intro s s' hI h
    by_cases hc : cond s = true
    · simp only [whileLoop, hc, if_true] at h
      obtain ⟨s1, h1, h2⟩ := bind_eq_ok h
      exact ih s1 s' (step s s1 hI hc h1) h2
    · simp [whileLoop, hc] at h
      cases h
      exact ⟨hI, by simpa using hc⟩

theorem bind_congr_ok {α β : Type} {x : Exec α} {f g : α → Exec β}
    (h : ∀ a, x = .ok a → f a = g a) : (x >>= f) = (x >>= g) := by
  cases x with
  | error e => rfl
  | ok a => exact h a rfl

/-- Two loops with the same condition run alike when their bodies agree on the states of
an invariant that the body keeps. -/
theorem whileLoop_congr {σ : Type} (cond : σ → Bool) (body1 body2 : σ → Exec σ)
    (I : σ → Prop) (hbody : ∀ s, I s → body1 s = body2 s)
    (hkeep : ∀ s s', I s → body2 s = .ok s' → I s') :
    ∀ (fuel : Nat) (s : σ), I s →
      whileLoop cond body1 fuel s = whileLoop cond body2 fuel s := by
  intro fuel
  induction fuel with
  | zero =>
    intro s _
    simp [whileLoop]
  | succ n ih =>
    intro s hI
    simp only [whileLoop]
    by_cases hc : cond s = true
    · rw [if_pos hc, if_pos hc, hbody s hI]
      exact bind_congr_ok (fun s' hs' => ih s' (hkeep s s' hI hs'))
    · rw [if_neg hc, if_neg hc]

theorem CSubband.ReadBuffer_ok {b b' : CSubband} {v : Int} (h : b.ReadBuffer = .ok (v, b')) :
    b' = b.advanced 1 ∧ b.cursor < (b.buffer.getD []).length := by
  unfold CSubband.ReadBuffer at h
  cases hb : b.buffer with
  | none => simp [hb] at h
  | some data =>
    simp only [hb] at h
    obtain ⟨x, hx, h⟩ := bind_eq_ok h
    simp only [pure_eq_ok, Except.ok.injEq, Prod.mk.injEq] at h
    refine ⟨?_, ?_⟩
    · rw [← h.2]
      unfold CSubband.advanced
      rw [← hb]
    simp only [Option.getD_some]
    unfold rd at hx
    by_contra hc
    rw [List.getElem?_eq_none (by omega)] at hx
    cases hx

theorem CSubband.advanced_add (b : CSubband) (n m : Nat) :
    (b.advanced n).advanced m = b.advanced (n + m) := by
  unfold CSubband.advanced
  simp only
  congr 1
  ring

theorem MallatToLinear_ok_some {d : Bands} {mem : List Int} {lo hi w : Nat}
    {r : Bands × List Int} (h : MallatToLinear d mem lo (some hi) w = .ok r) :
    r.1 = { ll := d.ll.advanced ((w + 1) / 2), hl := d.hl.advanced (w / 2),
            lh := d.lh.advanced ((w + 1) / 2), hh := d.hh.advanced (w / 2) } ∧
      (0 < (w + 1) / 2 → d.ll.cursor + (w + 1) / 2 ≤ (d.ll.buffer.getD []).length) ∧
      (0 < w / 2 → d.hl.cursor + w / 2 ≤ (d.hl.buffer.getD []).length) ∧
      (0 < (w + 1) / 2 → d.lh.cursor + (w + 1) / 2 ≤ (d.lh.buffer.getD []).length) ∧
      (0 < w / 2 → d.hh.cursor + w / 2 ≤ (d.hh.buffer.getD []).length) := by
  have hq : w >>> 1 = w / 2 := by rw [Nat.shiftRight_eq_div_pow, pow_one]
  unfold MallatToLinear at h
  simp only [hq] at h
  obtain ⟨s, hloop, h⟩ := bind_eq_ok h
  obtain ⟨⟨hi1, hd, hbd⟩, hc⟩ := whileLoop_exit _ _
    (fun (s : MallatState) => s.i ≤ w / 2 ∧
      s.d = { ll := d.ll.advanced s.i, hl := d.hl.advanced s.i,
              lh := d.lh.advanced s.i, hh := d.hh.advanced s.i } ∧
      (0 < s.i → d.ll.cursor + s.i ≤ (d.ll.buffer.getD []).length ∧
        d.hl.cursor + s.i ≤ (d.hl.buffer.getD []).length ∧
        d.lh.cursor + s.i ≤ (d.lh.buffer.getD []).length ∧
        d.hh.cursor + s.i ≤ (d.hh.buffer.getD []).length))
    (by
      intro s s' hK hc hb
      obtain ⟨i, loRow, hiRow, sd, smem⟩ := s
      obtain ⟨k1, k2, _⟩ := hK
      simp only at k1 k2 hc hb
      subst k2
      have hlt : i < w / 2 := by simpa using hc
      obtain ⟨⟨v1, ll⟩, h1, hb⟩ := bind_eq_ok hb
      simp only at hb
      obtain ⟨m1, _, hb⟩ := bind_eq_ok hb
      obtain ⟨⟨v2, hl⟩, h2, hb⟩ := bind_eq_ok hb
      simp only at hb
      obtain ⟨m2, _, hb⟩ := bind_eq_ok hb
      obtain ⟨⟨v3, lh⟩, h3, hb⟩ := bind_eq_ok hb
      simp only at hb
      obtain ⟨m3, _, hb⟩ := bind_eq_ok hb
      obtain ⟨⟨v4, hh⟩, h4, hb⟩ := bind_eq_ok hb
      simp only at hb
      obtain ⟨m4, _, hb⟩ := bind_eq_ok hb
      simp only [pure_eq_ok, Except.ok.injEq] at hb
      subst hb
      obtain ⟨e1, b1⟩ := CSubband.ReadBuffer_ok h1
      obtain ⟨e2, b2⟩ := CSubband.ReadBuffer_ok h2
      obtain ⟨e3, b3⟩ := CSubband.ReadBuffer_ok h3
      obtain ⟨e4, b4⟩ := CSubband.ReadBuffer_ok h4
      simp only [CSubband.advanced] at b1 b2 b3 b4
      refine ⟨by simp only; omega, ?_, ?_⟩
      · simp only
        rw [e1, e2, e3, e4, CSubband.advanced_add, CSubband.advanced_add,
          CSubband.advanced_add, CSubband.advanced_add]
      · intro _
        simp only
        omega)
    (w / 2) { i := 0, loRow := lo, hiRow := hi, d := d, mem := mem } s
    ⟨Nat.zero_le _, rfl, fun h0 => by simp at h0⟩ hloop
  obtain ⟨i, loRow, hiRow, sd, smem⟩ := s
  simp only at hi1 hd hbd hc h
  subst hd
  have hi2 : i = w / 2 := by
    have : ¬ i < w / 2 := by simpa using hc
    omega
  subst hi2
  by_cases hr : w % 2 = 1
  · rw [if_pos hr] at h
    obtain ⟨⟨v1, ll⟩, h1, h⟩ := bind_eq_ok h
    simp only at h
    obtain ⟨m1, _, h⟩ := bind_eq_ok h
    obtain ⟨⟨v3, lh⟩, h3, h⟩ := bind_eq_ok h
    simp only at h
    obtain ⟨m3, _, h⟩ := bind_eq_ok h
    simp only [pure_eq_ok, Except.ok.injEq] at h
    subst h
    obtain ⟨e1, b1⟩ := CSubband.ReadBuffer_ok h1
    obtain ⟨e3, b3⟩ := CSubband.ReadBuffer_ok h3
    simp only [CSubband.advanced] at b1 b3
    have hw2 : (w + 1) / 2 = w / 2 + 1 := by omega
    refine ⟨?_, ?_, ?_, ?_, ?_⟩
    · simp only
      rw [e1, e3, CSubband.advanced_add, CSubband.advanced_add, hw2]
    · intro _; omega
    · intro h0; exact (hbd h0).2.1
    · intro _; omega
    · intro h0; exact (hbd h0).2.2.2
  · rw [if_neg hr] at h
    simp only [pure_eq_ok, Except.ok.injEq] at h
    subst h
    have hw2 : (w + 1) / 2 = w / 2 := by omega
    refine ⟨?_, ?_, ?_, ?_, ?_⟩
    · simp only
      rw [hw2]
    · intro h0; rw [hw2] at h0 ⊢; exact (hbd h0).1
    · intro h0; exact (hbd h0).2.1
    · intro h0; rw [hw2] at h0 ⊢; exact (hbd h0).2.2.1
    · intro h0; exact (hbd h0).2.2.2

theorem MallatToLinear_ok_none {d : Bands} {mem : List Int} {lo w : Nat}
    {r : Bands × List Int} (h : MallatToLinear d mem lo none w = .ok r) :
    r.1 = { d with ll := d.ll.advanced ((w + 1) / 2), hl := d.hl.advanced (w / 2) } ∧
      (0 < (w + 1) / 2 → d.ll.cursor + (w + 1) / 2 ≤ (d.ll.buffer.getD []).length) ∧
      (0 < w / 2 → d.hl.cursor + w / 2 ≤ (d.hl.buffer.getD []).length) := by
  have hq : w >>> 1 = w / 2 := by rw [Nat.shiftRight_eq_div_pow, pow_one]
  unfold MallatToLinear at h
  simp only [hq] at h
  obtain ⟨s, hloop, h⟩ := bind_eq_ok h
  obtain ⟨⟨hi1, hd, hbd⟩, hc⟩ := whileLoop_exit _ _
    (fun (s : MallatState) => s.i ≤ w / 2 ∧
      s.d = { d with ll := d.ll.advanced s.i, hl := d.hl.advanced s.i } ∧
      (0 < s.i → d.ll.cursor + s.i ≤ (d.ll.buffer.getD []).length ∧
        d.hl.cursor + s.i ≤ (d.hl.buffer.getD []).length))
    (by
      intro s s' hK hc hb
      obtain ⟨i, loRow, hiRow, sd, smem⟩ := s
      obtain ⟨k1, k2, _⟩ := hK
      simp only at k1 k2 hc hb
      subst k2
      have hlt : i < w / 2 := by simpa using hc
      obtain ⟨⟨v1, ll⟩, h1, hb⟩ := bind_eq_ok hb
      simp only at hb
      obtain ⟨m1, _, hb⟩ := bind_eq_ok hb
      obtain ⟨⟨v2, hl⟩, h2, hb⟩ := bind_eq_ok hb
      simp only at hb
      obtain ⟨m2, _, hb⟩ := bind_eq_ok hb
      simp only [pure_eq_ok, Except.ok.injEq] at hb
      subst hb
      obtain ⟨e1, b1⟩ := CSubband.ReadBuffer_ok h1
      obtain ⟨e2, b2⟩ := CSubband.ReadBuffer_ok h2
      simp only [CSubband.advanced] at b1 b2
      refine ⟨by simp only; omega, ?_, ?_⟩
      · simp only
        rw [e1, e2, CSubband.advanced_add, CSubband.advanced_add]
      · intro _
        simp only
        omega)
    (w / 2) { i := 0, loRow := lo, hiRow := 0, d := d, mem := mem } s
    ⟨Nat.zero_le _, rfl, fun h0 => by simp at h0⟩ hloop
  obtain ⟨i, loRow, hiRow, sd, smem⟩ := s
  simp only at hi1 hd hbd hc h
  subst hd
  have hi2 : i = w / 2 := by
    have : ¬ i < w / 2 := by simpa using hc
    omega
  subst hi2
  by_cases hr : w % 2 = 1
  · rw [if_pos hr] at h
    obtain ⟨⟨v1, ll⟩, h1, h⟩ := bind_eq_ok h
    simp only at h
    obtain ⟨m1, _, h⟩ := bind_eq_ok h
    simp only [pure_eq_ok, Except.ok.injEq] at h
    subst h
    obtain ⟨e1, b1⟩ := CSubband.ReadBuffer_ok h1
    simp only [CSubband.advanced] at b1
    have hw2 : (w + 1) / 2 = w / 2 + 1 := by omega
    refine ⟨?_, ?_, ?_⟩
    · simp only
      rw [e1, CSubband.advanced_add, hw2]
    · intro _; omega
    · intro h0; exact (hbd h0).2
  · rw [if_neg hr] at h
    simp only [pure_eq_ok, Except.ok.injEq] at h
    subst h
    have hw2 : (w + 1) / 2 = w / 2 := by omega
    refine ⟨?_, ?_, ?_⟩
    · simp only
      rw [hw2]
    · intro h0; rw [hw2] at h0 ⊢; exact (hbd h0).1
    · intro h0; exact (hbd h0).2

theorem CSubband.gatherReady_advanced {b : CSubband} {n : Nat} (h : b.gatherReady n)
    (hb : 0 < n → b.cursor + n ≤ (b.buffer.getD []).length) :
    (b.advanced n).gatherReady n ∧ (b.advanced n).IncBuffRow b.GetBuffPos = b.advanced n := by
  obtain ⟨h1, h2, h3⟩ := h
  have hle : b.cursor + n ≤ (b.buffer.getD []).length := by
    rcases Nat.eq_zero_or_pos n with c | c
    · omega
    · exact hb c
  refine ⟨⟨h1, hle, h3⟩, ?_⟩
  unfold CSubband.IncBuffRow CSubband.GetBuffPos
  have e : (b.advanced n).BufferWidth = n := h1
  rw [e, Nat.mod_eq_of_lt (by omega)]
  rfl

theorem MallatToLinear_gatherReady {d : Bands} {mem : List Int} {lo w : Nat}
    {hi : Option Nat} {r : Bands × List Int} (hG : d.gatherReady w)
    (h : MallatToLinear d mem lo hi w = .ok r) : r.1.gatherReady w := by
  obtain ⟨g1, g2, g3, g4⟩ := hG
  cases hi with
  | some hi =>
    obtain ⟨e, b1, b2, b3, b4⟩ := MallatToLinear_ok_some h
    rw [e]
    exact ⟨(CSubband.gatherReady_advanced g1 b1).1, (CSubband.gatherReady_advanced g2 b2).1,
      (CSubband.gatherReady_advanced g3 b3).1, (CSubband.gatherReady_advanced g4 b4).1⟩
  | none =>
    obtain ⟨e, b1, b2⟩ := MallatToLinear_ok_none h
    rw [e]
    exact ⟨(CSubband.gatherReady_advanced g1 b1).1, (CSubband.gatherReady_advanced g2 b2).1,
      g3, g4⟩

/-- With the default ROI the gather of the ROI build is the gather of the build without
ROI support: the cursors that `IncBuffRow` sets are the cursors the reads have reached. -/
theorem MallatToLinearROI_eq (d : Bands) (mem : List Int) (lo : Nat) (hi : Option Nat)
    (w : Nat) (hG : d.gatherReady w) :
    MallatToLinearROI d mem lo hi w = MallatToLinear d mem lo hi w := by
  obtain ⟨g1, g2, g3, g4⟩ := hG
  unfold MallatToLinearROI
  cases hi with
  | some hi =>
    simp only
    cases hm : MallatToLinear d mem lo (some hi) w with
    | error e => rfl
    | ok r =>
      obtain ⟨e, b1, b2, b3, b4⟩ := MallatToLinear_ok_some hm
      rw [ok_bind]
      by_cases hst : w >>> 1 < d.ll.BufferWidth
      · simp only [hst, decide_True, if_true, pure_eq_ok]
        obtain ⟨r1, r2⟩ := r
        simp only at e
        subst e
        simp only
        rw [(CSubband.gatherReady_advanced g1 b1).2, (CSubband.gatherReady_advanced g2 b2).2,
          (CSubband.gatherReady_advanced g3 b3).2, (CSubband.gatherReady_advanced g4 b4).2]
      · simp only [hst, decide_False, Bool.false_eq_true, if_false, pure_eq_ok]
  | none =>
    simp only
    cases hm : MallatToLinear d mem lo none w with
    | error e => rfl
    | ok r =>
      obtain ⟨e, b1, b2⟩ := MallatToLinear_ok_none hm
      rw [ok_bind]
      by_cases hst : w >>> 1 < d.ll.BufferWidth
      · simp only [hst, decide_True, if_true, pure_eq_ok]
        obtain ⟨r1, r2⟩ := r
        simp only at e
        subst e
        simp only
        rw [(CSubband.gatherReady_advanced g1 b1).2, (CSubband.gatherReady_advanced g2 b2).2]
      · simp only [hst, decide_False, Bool.false_eq_true, if_false, pure_eq_ok]

theorem InverseTransformROI.rows_default (dest : List Int) (d : Bands) (w h : Nat)
    (hG : d.gatherReady w) :
    InverseTransformROI.rows dest d 0 w h w h 0 h = InverseTransform.rows dest d w h := by
  unfold InverseTransformROI.rows InverseTransform.rows
  simp only
  by_cases h3 : h ≥ FilterHeight
  · rw [if_pos h3, if_pos h3, MallatToLinearROI_eq _ _ _ _ _ hG]
    refine bind_congr_ok (fun r hr => ?_)
    obtain ⟨d1, m1⟩ := r
    have G1 : d1.gatherReady w := MallatToLinear_gatherReady hG hr
    simp only
    refine bind_congr_ok (fun m2 _ => ?_)
    have hkeep : ∀ (s s' : RowState), s.d.gatherReady w →
        (do
          let (d, dest) ← MallatToLinear s.d s.mem s.row2 (some s.row3) w
          let dest ← forK w (fun k mem => do
            let mem ← subAt mem (s.row2 + k)
              (((← rd mem (s.row1 + k)) + (← rd mem (s.row3 + k)) + c2) >>> 2)
            addAt mem (s.row1 + k)
              (((← rd mem (s.row0 + k)) + (← rd mem (s.row2 + k)) + c1) >>> 1))
            dest
          let dest ← InverseRow dest s.row0 w
          let dest ← InverseRow dest s.row1 w
          pure { i := s.i + 2, row0 := s.row2, row1 := s.row3, row2 := s.row3 + w,
                 row3 := s.row3 + w + w, mem := dest, d := d } : Exec RowState) = .ok s' →
        s'.d.gatherReady w := by
      intro s s' hI hb
      obtain ⟨⟨d', m'⟩, hm, hb⟩ := bind_eq_ok hb
      simp only at hb
      obtain ⟨_, _, hb⟩ := bind_eq_ok hb
      obtain ⟨_, _, hb⟩ := bind_eq_ok hb
      obtain ⟨_, _, hb⟩ := bind_eq_ok hb
      simp only [pure_eq_ok, Except.ok.injEq] at hb
      subst hb
      exact MallatToLinear_gatherReady hI hm
    have hl := whileLoop_congr (fun (s : RowState) => decide (s.i < h - 1))
      (fun (s : RowState) => (do
          let (d, dest) ← MallatToLinearROI s.d s.mem s.row2 (some s.row3) w
          let dest ← forK w (fun k mem => do
            let mem ← subAt mem (s.row2 + k)
              (((← rd mem (s.row1 + k)) + (← rd mem (s.row3 + k)) + c2) >>> 2)
            addAt mem (s.row1 + k)
              (((← rd mem (s.row0 + k)) + (← rd mem (s.row2 + k)) + c1) >>> 1))
            dest
          let dest ← InverseRow dest s.row0 w
          let dest ← InverseRow dest s.row1 w
          pure { i := s.i + 2, row0 := s.row2, row1 := s.row3, row2 := s.row3 + w,
                 row3 := s.row3 + w + w, mem := dest, d := d } : Exec RowState))
      (fun (s : RowState) => (do
          let (d, dest) ← MallatToLinear s.d s.mem s.row2 (some s.row3) w
          let dest ← forK w (fun k mem => do
            let mem ← subAt mem (s.row2 + k)
              (((← rd mem (s.row1 + k)) + (← rd mem (s.row3 + k)) + c2) >>> 2)
            addAt mem (s.row1 + k)
              (((← rd mem (s.row0 + k)) + (← rd mem (s.row2 + k)) + c1) >>> 1))
            dest
          let dest ← InverseRow dest s.row0 w
          let dest ← InverseRow dest s.row1 w
          pure { i := s.i + 2, row0 := s.row2, row1 := s.row3, row2 := s.row3 + w,
                 row3 := s.row3 + w + w, mem := dest, d := d } : Exec RowState))
      (fun s => s.d.gatherReady w)
      (fun s hI => by
        simp only
        rw [MallatToLinearROI_eq _ _ _ _ _ hI])
      hkeep h
      { i := 0 + 2, row0 := 0, row1 := 0 + w, row2 := 0 + w + w, row3 := 0 + w + w + w,
        mem := m2, d := d1 } G1
    rw [hl]
    refine bind_congr_ok (fun s hs => ?_)
    have Gs : s.d.gatherReady w :=
      whileLoop_keeps _ _ (fun (s : RowState) => s.d.gatherReady w) hkeep h _ s G1 hs
    by_cases hodd : h % 2 = 1
    · rw [if_pos hodd, if_pos hodd, MallatToLinearROI_eq _ _ _ _ _ Gs]
    · rw [if_neg hodd, if_neg hodd]
  · rw [if_neg h3, if_neg h3]
    have hkeep : ∀ (s s' : RowState), s.d.gatherReady w →
        (do
          let (d, dest) ← MallatToLinear s.d s.mem s.row0 (some s.row1) w
          let dest ← InverseRow dest s.row0 w
          let dest ← InverseRow dest s.row1 w
          pure { s with i := s.i + 2, row0 := s.row0 + (w <<< 1) % 2 ^ 32,
                        row1 := s.row1 + (w <<< 1) % 2 ^ 32, mem := dest, d := d } :
            Exec RowState) = .ok s' →
        s'.d.gatherReady w := by
      intro s s' hI hb
      obtain ⟨⟨d', m'⟩, hm, hb⟩ := bind_eq_ok hb
      simp only at hb
      obtain ⟨_, _, hb⟩ := bind_eq_ok hb
      obtain ⟨_, _, hb⟩ := bind_eq_ok hb
      simp only [pure_eq_ok, Except.ok.injEq] at hb
      subst hb
      exact MallatToLinear_gatherReady hI hm
    have hl := whileLoop_congr (fun (s : RowState) => decide (s.i < h))
      (fun (s : RowState) => (do
          let (d, dest) ← MallatToLinearROI s.d s.mem s.row0 (some s.row1) w
          let dest ← InverseRow dest s.row0 w
          let dest ← InverseRow dest s.row1 w
          pure { s with i := s.i + 2, row0 := s.row0 + (w <<< 1) % 2 ^ 32,
                        row1 := s.row1 + (w <<< 1) % 2 ^ 32, mem := dest, d := d } :
            Exec RowState))
      (fun (s : RowState) => (do
          let (d, dest) ← MallatToLinear s.d s.mem s.row0 (some s.row1) w
          let dest ← InverseRow dest s.row0 w
          let dest ← InverseRow dest s.row1 w
          pure { s with i := s.i + 2, row0 := s.row0 + (w <<< 1) % 2 ^ 32,
                        row1 := s.row1 + (w <<< 1) % 2 ^ 32, mem := dest, d := d } :
            Exec RowState))
      (fun s => s.d.gatherReady w)
      (fun s hI => by
        simp only
        rw [MallatToLinearROI_eq _ _ _ _ _ hI])
      hkeep h
      { i := 0, row0 := 0, row1 := 0 + w, row2 := 0, row3 := 0, mem := dest, d := d } hG
    rw [hl]
    refine bind_congr_ok (fun s hs => ?_)
    have Gs : s.d.gatherReady w :=
      whileLoop_keeps _ _ (fun (s : RowState) => s.d.gatherReady w) hkeep h _ s hG hs
    by_cases hodd : h % 2 = 1
    · rw [if_pos hodd, if_pos hodd, MallatToLinearROI_eq _ _ _ _ _ Gs]
    · rw [if_neg hodd, if_neg hodd]

theorem CSubband.AllocMemoryROI_eq (b : CSubband) (ok : Bool)
    (hroi : b.roi = ⟨0, 0, b.width, b.height⟩) (hw : b.width < 2 ^ 32)
    (hh : b.height < 2 ^ 32) : b.AllocMemoryROI ok = b.AllocMemory ok := by
  unfold CSubband.AllocMemoryROI CSubband.AllocMemory CSubband.BufferWidth PGFRect.Width
    PGFRect.Height
  rw [hroi]
  simp only [Nat.sub_zero, Nat.add_mod_right, Nat.mod_eq_of_lt hw, Nat.mod_eq_of_lt hh]

theorem initSourcePos_default (b : CSubband) (hroi : b.roi = ⟨0, 0, b.width, b.height⟩) :
    initSourcePos b 0 0 = b.InitBuffPos := by
  unfold initSourcePos CSubband.InitBuffPosAt CSubband.GetROI CSubband.InitBuffPos
  rw [hroi]
  simp

theorem CSubband.wholeROI_gatherReady {b : CSubband} {n : Nat} (h : b.wholeROI n = true)
    (hn : n < 2 ^ 32) :
    b.roi = ⟨0, 0, b.width, b.height⟩ ∧ b.InitBuffPos.gatherReady n := by
  unfold CSubband.wholeROI at h
  simp only [Bool.and_eq_true, decide_eq_true_eq] at h
  obtain ⟨⟨h1, h2⟩, h3⟩ := h
  refine ⟨h1, ?_, Nat.zero_le _, h3⟩
  unfold CSubband.InitBuffPos CSubband.BufferWidth PGFRect.Width
  simp only
  rw [h1]
  simp only [Nat.sub_zero, Nat.add_mod_right]
  rw [h2, Nat.mod_eq_of_lt hn]

theorem CSubband.AllocMemory_geometry (b : CSubband) (ok : Bool) :
    (b.AllocMemory ok).2.roi = b.roi ∧ (b.AllocMemory ok).2.width = b.width ∧
      (b.AllocMemory ok).2.height = b.height := by
  unfold CSubband.AllocMemory
  cases hb : b.buffer with
  | some data => simp
  | none => cases ok <;> simp

/-- C35: with the default ROI in every subband (the whole subband: `left = top = 0`,
`right = width`, `bottom = height`), sizes that fit a `UINT32`, and source subbands as
wide as the halves of the destination, `InverseTransform` of the build with
`__PGFROISUPPORT__`, with its `MallatToLinear`, gives the result of the build without ROI
support: the same error code, the same returned width, height and destination buffer,
and the same pyramid; for every destination width and height. -/
theorem InverseTransformROI_default_roi (t : CWaveletTransform) (srcLevel : Nat)
    (alloc : Bool) (destBands src : Bands)
    (hd : t.bands (srcLevel - 1) = .ok destBands) (hs : t.bands srcLevel = .ok src)
    (hroi : destBands.ll.roi = ⟨0, 0, destBands.ll.width, destBands.ll.height⟩)
    (hw : destBands.ll.width < 2 ^ 32) (hh : destBands.ll.height < 2 ^ 32)
    (hsrc : src.wholeROI destBands.ll.width = true) :
    InverseTransformROI t srcLevel alloc = InverseTransform t srcLevel alloc := by
  unfold Bands.wholeROI at hsrc
  simp only [Bool.and_eq_true] at hsrc
  obtain ⟨⟨⟨s1, s2⟩, s3⟩, s4⟩ := hsrc
  obtain ⟨r1, g1⟩ := CSubband.wholeROI_gatherReady s1 (by omega)
  obtain ⟨r2, g2⟩ := CSubband.wholeROI_gatherReady s2 (by omega)
  obtain ⟨r3, g3⟩ := CSubband.wholeROI_gatherReady s3 (by omega)
  obtain ⟨r4, g4⟩ := CSubband.wholeROI_gatherReady s4 (by omega)
  unfold InverseTransformROI InverseTransform
  by_cases h0 : srcLevel = 0
  · rw [if_pos h0, if_pos h0]
  · rw [if_neg h0, if_neg h0]
    simp only [hd, hs, ok_bind, CSubband.AllocMemoryROI_eq _ _ hroi hw hh]
    cases ha : (destBands.ll.AllocMemory alloc).1 with
    | false => rfl
    | true =>
      simp only [Bool.not_true, Bool.false_eq_true, if_false]
      obtain ⟨k1, k2, k3⟩ := CSubband.AllocMemory_geometry destBands.ll alloc
      generalize (destBands.ll.AllocMemory alloc).2 = A at k1 k2 k3
      cases hbuf : A.buffer with
      | none => rfl
      | some dest =>
        have eW : PGFRect.Width ⟨0, 0, destBands.ll.width, destBands.ll.height⟩ =
            destBands.ll.width := by
          unfold PGFRect.Width
          simp only [Nat.sub_zero, Nat.add_mod_right, Nat.mod_eq_of_lt hw]
        have eH : PGFRect.Height ⟨0, 0, destBands.ll.width, destBands.ll.height⟩ =
            destBands.ll.height := by
          unfold PGFRect.Height
          simp only [Nat.sub_zero, Nat.add_mod_right, Nat.mod_eq_of_lt hh]
        have e0 : ¬ (0 % 2 = 1) := by decide
        simp only [CSubband.GetROI, k1, hroi, k2, k3, eW, eH, if_neg e0,
          initSourcePos_default _ r1, initSourcePos_default _ r2, initSourcePos_default _ r3,
          initSourcePos_default _ r4]
        rw [InverseTransformROI.rows_default _ _ _ _ ⟨g1, g2, g3, g4⟩]

theorem InverseTransformROI_default_roi_witness :
    (((CWaveletTransform.new 3 2 1 none).setBands 1
          { ll := (CSubband.Initialize 2 1 1 .LL).SetBuffer [5, 6],
            hl := (CSubband.Initialize 1 1 1 .HL).SetBuffer [7],
            lh := (CSubband.Initialize 2 1 1 .LH).SetBuffer [1, 2],
            hh := (CSubband.Initialize 1 1 1 .HH).SetBuffer [3] }).bands (1 - 1) = .ok
        { ll := CSubband.Initialize 3 2 0 .LL, hl := CSubband.Initialize 3 2 0 .HL,
          lh := CSubband.Initialize 3 2 0 .LH, hh := CSubband.Initialize 3 2 0 .HH } ∧
      ((CWaveletTransform.new 3 2 1 none).setBands 1
          { ll := (CSubband.Initialize 2 1 1 .LL).SetBuffer [5, 6],
            hl := (CSubband.Initialize 1 1 1 .HL).SetBuffer [7],
            lh := (CSubband.Initialize 2 1 1 .LH).SetBuffer [1, 2],
            hh := (CSubband.Initialize 1 1 1 .HH).SetBuffer [3] }).bands 1 = .ok
        { ll := (CSubband.Initialize 2 1 1 .LL).SetBuffer [5, 6],
          hl := (CSubband.Initialize 1 1 1 .HL).SetBuffer [7],
          lh := (CSubband.Initialize 2 1 1 .LH).SetBuffer [1, 2],
          hh := (CSubband.Initialize 1 1 1 .HH).SetBuffer [3] } ∧
      (CSubband.Initialize 3 2 0 .LL).roi = ⟨0, 0, 3, 2⟩ ∧ 3 < 2 ^ 32 ∧ 2 < 2 ^ 32 ∧
      Bands.wholeROI
        { ll := (CSubband.Initialize 2 1 1 .LL).SetBuffer [5, 6],
          hl := (CSubband.Initialize 1 1 1 .HL).SetBuffer [7],
          lh := (CSubband.Initialize 2 1 1 .LH).SetBuffer [1, 2],
          hh := (CSubband.Initialize 1 1 1 .HH).SetBuffer [3] } 3 = true) ∧
    InverseTransformROI ((CWaveletTransform.new 3 2 1 none).setBands 1
        { ll := (CSubband.Initialize 2 1 1 .LL).SetBuffer [5, 6],
          hl := (CSubband.Initialize 1 1 1 .HL).SetBuffer [7],
          lh := (CSubband.Initialize 2 1 1 .LH).SetBuffer [1, 2],
          hh := (CSubband.Initialize 1 1 1 .HH).SetBuffer [3] }) 1 true =
      InverseTransform ((CWaveletTransform.new 3 2 1 none).setBands 1
        { ll := (CSubband.Initialize 2 1 1 .LL).SetBuffer [5, 6],
          hl := (CSubband.Initialize 1 1 1 .HL).SetBuffer [7],
          lh := (CSubband.Initialize 2 1 1 .LH).SetBuffer [1, 2],
          hh := (CSubband.Initialize 1 1 1 .HH).SetBuffer [3] }) 1 true :=
  ⟨⟨by decide, by decide, by decide, by decide, by decide, by decide⟩,
    InverseTransformROI_default_roi ((CWaveletTransform.new 3 2 1 none).setBands 1
        { ll := (CSubband.Initialize 2 1 1 .LL).SetBuffer [5, 6],
          hl := (CSubband.Initialize 1 1 1 .HL).SetBuffer [7],
          lh := (CSubband.Initialize 2 1 1 .LH).SetBuffer [1, 2],
          hh := (CSubband.Initialize 1 1 1 .HH).SetBuffer [3] }) 1 true
      { ll := CSubband.Initialize 3 2 0 .LL, hl := CSubband.Initialize 3 2 0 .HL,
        lh := CSubband.Initialize 3 2 0 .LH, hh := CSubband.Initialize 3 2 0 .HH }
      { ll := (CSubband.Initialize 2 1 1 .LL).SetBuffer [5, 6],
        hl := (CSubband.Initialize 1 1 1 .HL).SetBuffer [7],
        lh := (CSubband.Initialize 2 1 1 .LH).SetBuffer [1, 2],
        hh := (CSubband.Initialize 1 1 1 .HH).SetBuffer [3] }
      (by decide) (by decide) (by decide) (by decide) (by decide) (by decide)⟩

/-- Both builds on a 3 × 2 destination with the default ROI and the decoded subbands
LL `[5, 6]`, HL `[7]`, LH `[1, 2]`, HH `[3]`: each returns `NoError`, the width 3, the
height 2 and the buffer `[5, 7, 6, 1, 3, 2]`. -/
theorem InverseTransformROI_default_roi_runs :
    (InverseTransformROI ((CWaveletTransform.new 3 2 1 none).setBands 1
        { ll := (CSubband.Initialize 2 1 1 .LL).SetBuffer [5, 6],
          hl := (CSubband.Initialize 1 1 1 .HL).SetBuffer [7],
          lh := (CSubband.Initialize 2 1 1 .LH).SetBuffer [1, 2],
          hh := (CSubband.Initialize 1 1 1 .HH).SetBuffer [3] }) 1 true).map
        (fun q => (q.1, q.2.1)) = .ok (.NoError, some (3, 2, [5, 7, 6, 1, 3, 2])) ∧
      (InverseTransform ((CWaveletTransform.new 3 2 1 none).setBands 1
        { ll := (CSubband.Initialize 2 1 1 .LL).SetBuffer [5, 6],
          hl := (CSubband.Initialize 1 1 1 .HL).SetBuffer [7],
          lh := (CSubband.Initialize 2 1 1 .LH).SetBuffer [1, 2],
          hh := (CSubband.Initialize 1 1 1 .HH).SetBuffer [3] }) 1 true).map
        (fun q => (q.1, q.2.1)) = .ok (.NoError, some (3, 2, [5, 7, 6, 1, 3, 2])) :=
  ⟨by decide, by decide⟩

/-! ## Error codes of the transform functions -/

/-- The error codes on evaluated calls: a refused subband gives `InsufficientMemory`, a
granted 2 × 2 source with `quant = 3` gives `NoError`, and so does the inverse transform of
a 3 × 2 level; a refused destination LL gives `InsufficientMemory`. Height 1: with the
buffers as declared, the runs on a 2 × 1 level leave their buffers; followed with memory
behind every buffer (a source and a destination LL of 6 cells, 8 cells in every subband of
the other level), both calls return `NoError`. -/
theorem transform_error_codes :
    (ForwardTransform (CWaveletTransform.new 2 2 1 (some [7, 8, 9, 10])) 0 3
        (fun o => decide (o ≠ .HH))).map (fun r => r.1) = .ok .InsufficientMemory ∧
      (ForwardTransform (CWaveletTransform.new 2 2 1 (some [7, 8, 9, 10])) 0 3
        (fun _ => true)).map (fun r => r.1) = .ok .NoError ∧
      (InverseTransform ((CWaveletTransform.new 3 2 1 none).setBands 1
          (fillBands [5, 6] [7] [1, 2] [3]
            { ll := CSubband.Initialize 2 1 1 .LL, hl := CSubband.Initialize 1 1 1 .HL,
              lh := CSubband.Initialize 2 1 1 .LH, hh := CSubband.Initialize 1 1 1 .HH }))
          (0 + 1) true).map (fun r => r.1) = .ok .NoError ∧
      (InverseTransform ((CWaveletTransform.new 3 2 1 none).setBands 1
          (fillBands [5, 6] [7] [1, 2] [3]
            { ll := CSubband.Initialize 2 1 1 .LL, hl := CSubband.Initialize 1 1 1 .HL,
              lh := CSubband.Initialize 2 1 1 .LH, hh := CSubband.Initialize 1 1 1 .HH }))
          (0 + 1) false).map (fun r => r.1) = .ok .InsufficientMemory ∧
      ForwardTransform (CWaveletTransform.new 2 1 1 (some [7, 8])) 0 0 (fun _ => true)
        = .error .outOfBounds ∧
      decodeLevel 2 1 1 1 (fillBands [7] [8] [] []) = .error .outOfBounds ∧
      ((CWaveletTransform.new 2 1 1 (some [7, 8, 0, 0, 0, 0])).bands 1).bind (fun d =>
          (ForwardTransform
            ((CWaveletTransform.new 2 1 1 (some [7, 8, 0, 0, 0, 0])).setBands 1 (d.withRoom 8))
            0 0 (fun _ => true)).map (fun r => r.1)) = .ok .NoError ∧
      ((CWaveletTransform.new 2 1 1 (some [0, 0, 0, 0, 0, 0])).bands 1).bind (fun d =>
          (InverseTransform
            ((CWaveletTransform.new 2 1 1 (some [0, 0, 0, 0, 0, 0])).setBands 1 (d.withRoom 8))
            1 true).map (fun r => r.1)) = .ok .NoError :=
  ⟨by decide, by decide, by decide, by decide, by decide, by decide, by decide, by decide⟩

/-! ## Row filters on `DataT` -/

theorem toDataT_sub_dvd (bits : Nat) (x : Int) :
    ((2 ^ bits : Nat) : Int) ∣ toDataT bits x - x := by
  unfold toDataT
  have h := Int.emod_add_ediv (x + ((2 ^ (bits - 1) : Nat) : Int)) ((2 ^ bits : Nat) : Int)
  refine ⟨-((x + ((2 ^ (bits - 1) : Nat) : Int)) / ((2 ^ bits : Nat) : Int)), ?_⟩
  linarith

theorem toDataT_congr (bits : Nat) (x y : Int) (h : ((2 ^ bits : Nat) : Int) ∣ x - y) :
    toDataT bits x = toDataT bits y := by
  unfold toDataT
  congr 1
  apply Int.emod_eq_emod_iff_emod_sub_eq_zero.mpr
  apply Int.emod_eq_zero_of_dvd
  have e : x + ((2 ^ (bits - 1) : Nat) : Int) - (y + ((2 ^ (bits - 1) : Nat) : Int)) = x - y := by
    ring
  rw [e]
  exact h

theorem pow_dvd_int (bits : Nat) (hbits : bits ≤ 32) :
    ((2 ^ bits : Nat) : Int) ∣ ((2 ^ 32 : Nat) : Int) :=
  Int.natCast_dvd_natCast.mpr (Nat.pow_dvd_pow 2 hbits)

/-- A conversion to `DataT` of at most 32 bits does not see the wrap of `int`. -/
theorem toDataT_toInt (bits : Nat) (x : Int) (hbits : bits ≤ 32) :
    toDataT bits (toDataT 32 x) = toDataT bits x :=
  toDataT_congr bits _ _ ((pow_dvd_int bits hbits).trans (toDataT_sub_dvd 32 x))

theorem toDataT_subInt (bits : Nat) (x v : Int) (hbits : bits ≤ 32) :
    toDataT bits (subInt x v) = toDataT bits (x - v) :=
  toDataT_toInt bits _ hbits

theorem toDataT_addInt (bits : Nat) (x v : Int) (hbits : bits ≤ 32) :
    toDataT bits (addInt x v) = toDataT bits (x + v) :=
  toDataT_toInt bits _ hbits

/-- Adding back what was subtracted restores a `DataT` value, whatever wrapped on the
way. -/
theorem toDataT_subInt_addInt (bits : Nat) (a p : Int) (hbits : bits ≤ 32) :
    toDataT bits (addInt (toDataT bits (subInt a p)) p) = toDataT bits a := by
  rw [toDataT_addInt bits _ _ hbits]
  apply toDataT_congr
  have h1 := toDataT_sub_dvd bits (subInt a p)
  have h2 := (pow_dvd_int bits hbits).trans (toDataT_sub_dvd 32 (a - p))
  have e : toDataT bits (subInt a p) + p - a =
      (toDataT bits (subInt a p) - subInt a p) + (toDataT 32 (a - p) - (a - p)) := by
    unfold subInt
    ring
  rw [e]
  exact dvd_add h1 h2

/-- Subtracting what was added restores a `DataT` value, whatever wrapped on the way. -/
theorem toDataT_addInt_subInt (bits : Nat) (a u : Int) (hbits : bits ≤ 32) :
    toDataT bits (subInt (toDataT bits (addInt a u)) u) = toDataT bits a := by
  rw [toDataT_subInt bits _ _ hbits]
  apply toDataT_congr
  have h1 := toDataT_sub_dvd bits (addInt a u)
  have h2 := (pow_dvd_int bits hbits).trans (toDataT_sub_dvd 32 (a + u))
  have e : toDataT bits (addInt a u) - u - a =
      (toDataT bits (addInt a u) - addInt a u) + (toDataT 32 (a + u) - (a + u)) := by
    unfold addInt
    ring
  rw [e]
  exact dvd_add h1 h2

/-- A value of the `DataT` range is its own conversion. -/
theorem toDataT_of_range (bits : Nat) (x : Int) (h1 : -((2 ^ (bits - 1) : Nat) : Int) ≤ x)
    (h2 : x < ((2 ^ (bits - 1) : Nat) : Int)) (hb : 1 ≤ bits) : toDataT bits x = x := by
  unfold toDataT
  have e : (2 ^ bits : Nat) = 2 * 2 ^ (bits - 1) := by
    rw [← pow_succ']
    congr 1
    omega
  rw [e]
  push_cast at h1 h2 ⊢
  rw [Int.emod_eq_of_lt (by linarith) (by linarith)]
  ring

theorem toDataT_range (bits : Nat) (x : Int) (hb : 1 ≤ bits) :
    -((2 ^ (bits - 1) : Nat) : Int) ≤ toDataT bits x ∧
      toDataT bits x < ((2 ^ (bits - 1) : Nat) : Int) := by
  unfold toDataT
  have e : (2 ^ bits : Nat) = 2 * 2 ^ (bits - 1) := by
    rw [← pow_succ']
    congr 1
    omega
  rw [e]
  have hp : (0 : Int) < ((2 ^ (bits - 1) : Nat) : Int) := by positivity
  have h1 := Int.emod_nonneg (x + ((2 ^ (bits - 1) : Nat) : Int))
    (show ((2 * 2 ^ (bits - 1) : Nat) : Int) ≠ 0 by positivity)
  have h2 := Int.emod_lt_of_pos (x + ((2 ^ (bits - 1) : Nat) : Int))
    (show (0 : Int) < ((2 * 2 ^ (bits - 1) : Nat) : Int) by positivity)
  push_cast at h1 h2 hp ⊢
  constructor <;> linarith

theorem subAtT_ok (bits : Nat) {mem : List Int} {p : Nat} (h : p < mem.length) (v : Int) :
    subAtT bits mem p v = .ok (mem.set p (toDataT bits (subInt (ld mem p) v))) := by
  simp [subAtT, rd_ok h, wr_ok h, ok_bind]

theorem addAtT_ok (bits : Nat) {mem : List Int} {p : Nat} (h : p < mem.length) (v : Int) :
    addAtT bits mem p v = .ok (mem.set p (toDataT bits (addInt (ld mem p) v))) := by
  simp [addAtT, rd_ok h, wr_ok h, ok_bind]

theorem ForwardRowT_body_inv (bits : Nat) (s : List Int) (b w : Nat) (hb : b + w ≤ s.length)
    (st : Nat × List Int) (hI : ForwardRowInvT bits s b w st) (hc : st.1 < w - 1) :
    ∃ st', (do
        let i := st.1
        let mem := st.2
        let mem ← subAtT bits mem (b + i)
          ((addInt (addInt (← rd mem (b + (i - 1))) (← rd mem (b + (i + 1)))) c1) >>> 1)
        let mem ← addAtT bits mem (b + (i - 1))
          ((addInt (addInt (← rd mem (b + (i - 2))) (← rd mem (b + i))) c2) >>> 2)
        pure (i + 2, mem) : Exec (Nat × List Int)) = .ok st' ∧
      ForwardRowInvT bits s b w st' ∧ w - st'.1 < w - st.1 := by
  obtain ⟨i, m⟩ := st
  obtain ⟨hodd, h3, hiw, hlen, hframe, hun, hodds, h0, hev⟩ := hI
  simp only at hodd h3 hiw hlen hframe hun hodds h0 hev hc
  have hi1 : b + (i - 1) < m.length := by omega
  have hi2 : b + (i - 2) < m.length := by omega
  have hi : b + i < m.length := by omega
  have hi' : b + (i + 1) < m.length := by omega
  simp only [rd_ok hi1, rd_ok hi', subAtT_ok bits hi, ok_bind]
  have hl1 : ∀ v, b + (i - 1) < (m.set (b + i) v).length := by intro v; simpa using hi1
  have hl2 : ∀ v, b + (i - 2) < (m.set (b + i) v).length := by intro v; simpa using hi2
  have hl0 : ∀ v, b + i < (m.set (b + i) v).length := by intro v; simpa using hi
  simp only [rd_ok (hl2 _), rd_ok (hl0 _), addAtT_ok bits (hl1 _), ok_bind, pure_eq_ok]
  refine ⟨_, rfl, ?_, ?_⟩
  · simp only [c1, c2]
    generalize hv1 :
      toDataT bits (subInt (ld m (b + i)) ((addInt (addInt (ld m (b + (i - 1))) (ld m (b + (i + 1)))) 1) >>> 1)) = v1
    rw [ld_set_ne _ _ _ _ (show b + (i - 1) ≠ b + i by omega),
      ld_set_ne _ _ _ _ (show b + (i - 2) ≠ b + i by omega), ld_set_eq _ _ _ hi]
    generalize hv2 :
      toDataT bits (addInt (ld m (b + (i - 1))) ((addInt (addInt (ld m (b + (i - 2))) v1) 2) >>> 2)) = v2
    have key : ∀ q, ld ((m.set (b + i) v1).set (b + (i - 1)) v2) q =
        if q = b + (i - 1) then v2 else if q = b + i then v1 else ld m q :=
      fun q => ld_set2 m _ _ q v1 v2 hi hi1
    have e1 : ld m (b + i) = ld s (b + i) := hun i (by omega) (by omega)
    have e2 : ld m (b + (i - 1)) = ld s (b + (i - 1)) := hun (i - 1) (by omega) (by omega)
    have e3 : ld m (b + (i + 1)) = ld s (b + (i + 1)) := hun (i + 1) (by omega) (by omega)
    rw [e1, e2, e3] at hv1
    rw [e2] at hv2
    refine ⟨by omega, by omega, by omega, by simpa using hlen, ?_, ?_, ?_, ?_, ?_⟩
    · intro p hp
      rw [key, if_neg (by omega), if_neg (by omega)]
      exact hframe p hp
    · intro j h1 h2
      simp only at h1
      rw [key, if_neg (by omega), if_neg (by omega)]
      exact hun j (by omega) h2
    · intro j hj1 hj2
      simp only at hj2 ⊢
      rw [key, if_neg (by omega)]
      by_cases hji : j = i
      · subst hji
        rw [if_pos rfl, ← hv1]
      · rw [if_neg (by omega)]
        exact hodds j hj1 (by omega)
    · simp only
      rw [key, key, if_neg (by omega), if_neg (by omega), if_neg (by omega), if_neg (by omega)]
      exact h0
    · intro j hj0 hj2 hj3
      simp only at hj3 ⊢
      rw [key, key, key]
      by_cases hji : j = i - 1
      · subst hji
        rw [if_pos rfl, if_neg (by omega), if_neg (by omega), if_neg (by omega),
          if_pos (by omega), ← hv2]
        have : i - 1 - 1 = i - 2 := by omega
        rw [this]
      · rw [if_neg (by omega), if_neg (by omega), if_neg (by omega), if_neg (by omega),
          if_neg (by omega), if_neg (by omega)]
        exact hev j hj0 hj2 (by omega)
  · simp only; omega

theorem ForwardRowT_spec (bits : Nat) (s : List Int) (b w : Nat) (hw : 5 ≤ w) (hb : b + w ≤ s.length) :
    ∃ d, ForwardRowT bits s b w = .ok d ∧ ForwardRowPostT bits s d b w := by
  have p0 : b + 0 < s.length := by omega
  have p1 : b + 1 < s.length := by omega
  have p2 : b + 2 < s.length := by omega
  unfold ForwardRowT
  rw [if_pos (show w ≥ FilterWidth by simpa [FilterWidth] using hw)]
  simp only [rd_ok p0, rd_ok p2, subAtT_ok bits p1, ok_bind]
  have q0 : ∀ v, b + 0 < (s.set (b + 1) v).length := by intro v; simpa using p0
  have q1 : ∀ v, b + 1 < (s.set (b + 1) v).length := by intro v; simpa using p1
  simp only [rd_ok (q1 _), addAtT_ok bits (q0 _), ok_bind, c1, c2]
  rw [ld_set_eq _ _ _ p1, ld_set_ne _ _ _ _ (show b + 0 ≠ b + 1 by omega)]
  generalize hv1 :
      toDataT bits (subInt (ld s (b + 1)) ((addInt (addInt (ld s (b + 0)) (ld s (b + 2))) 1) >>> 1)) = v1
  generalize hv0 :
      toDataT bits (addInt (ld s (b + 0)) ((addInt v1 1) >>> 1)) = v0
  have key : ∀ q, ld ((s.set (b + 1) v1).set (b + 0) v0) q =
      if q = b + 0 then v0 else if q = b + 1 then v1 else ld s q :=
    fun q => ld_set2 s _ _ q v1 v0 p1 p0
  have hinit : ForwardRowInvT bits s b w (3, (s.set (b + 1) v1).set (b + 0) v0) := by
    refine ⟨by simp, by simp, by simpa using (show 3 ≤ w by omega), by simp, ?_, ?_, ?_, ?_, ?_⟩
    · intro p hp
      simp only
      rw [key, if_neg (by omega), if_neg (by omega)]
    · intro j h1 h2
      simp only at h1 ⊢
      rw [key, if_neg (by omega), if_neg (by omega)]
    · intro j hj1 hj2
      simp only at hj2 ⊢
      have hj : j = 1 := by omega
      subst hj
      rw [key, if_neg (by omega), if_pos rfl, ← hv1]
    · simp only
      rw [key, key, if_pos (by omega), if_neg (by omega), if_pos rfl, ← hv0]
      simp
    · intro j hj0 hj2 hj3
      simp only at hj3
      omega
  obtain ⟨⟨i, m⟩, hrun, hI, hcond⟩ :=
    whileLoop_inv (fun (st : Nat × List Int) => decide (st.1 < w - 1)) _
      (ForwardRowInvT bits s b w) (fun st => w - st.1)
      (fun st hI hc => ForwardRowT_body_inv bits s b w hb st hI (by simpa using hc))
      w (3, (s.set (b + 1) v1).set (b + 0) v0) hinit (by simp)
  simp only [c1, c2] at hrun
  rw [hrun]
  simp only [ok_bind]
  obtain ⟨hodd, h3, hiw, hlen, hframe, hun, hodds, h0, hev⟩ := hI
  simp only at hodd h3 hiw hlen hframe hun hodds h0 hev
  have hge : w - 1 ≤ i := by simpa using hcond
  have hi1 : b + (i - 1) < m.length := by omega
  have hi2 : b + (i - 2) < m.length := by omega
  by_cases hpar : w % 2 = 1
  · -- odd width
    have hiw' : i = w := by omega
    subst hiw'
    rw [if_pos hpar]
    simp only [rd_ok hi2, addAtT_ok bits hi1, ok_bind]
    refine ⟨_, rfl, by simpa using hlen, ?_, ?_, ?_, ?_, ?_, ?_⟩
    · intro p hp
      rw [ld_set_ne _ _ _ _ (by omega)]
      exact hframe p hp
    · intro j hj1 hj2
      rw [ld_set_ne _ _ _ _ (by omega)]
      exact hodds j hj1 hj2
    · rw [ld_set_ne _ _ _ _ (by omega), ld_set_ne _ _ _ _ (by omega)]
      exact h0
    · intro j hj0 hj2 hj3
      rw [ld_set_ne _ _ _ _ (by omega), ld_set_ne _ _ _ _ (by omega),
        ld_set_ne _ _ _ _ (by omega)]
      exact hev j hj0 hj2 (by omega)
    · intro _
      rw [ld_set_eq _ _ _ hi1, ld_set_ne _ _ _ _ (by omega),
        hun (i - 1) (by omega) (by omega)]
    · intro h; omega
  · -- even width
    have hiw' : i = w - 1 := by omega
    have hi : b + i < m.length := by omega
    rw [if_neg hpar]
    simp only [rd_ok hi1, subAtT_ok bits hi, ok_bind]
    have r1 : ∀ v, b + (i - 1) < (m.set (b + i) v).length := by intro v; simpa using hi1
    have r2 : ∀ v, b + (i - 2) < (m.set (b + i) v).length := by intro v; simpa using hi2
    have r0 : ∀ v, b + i < (m.set (b + i) v).length := by intro v; simpa using hi
    simp only [rd_ok (r2 _), rd_ok (r0 _), addAtT_ok bits (r1 _), ok_bind]
    rw [ld_set_ne _ _ _ _ (show b + (i - 1) ≠ b + i by omega),
      ld_set_ne _ _ _ _ (show b + (i - 2) ≠ b + i by omega), ld_set_eq _ _ _ hi]
    generalize hw1 :
      toDataT bits (subInt (ld m (b + i)) (ld m (b + (i - 1)))) = u1
    generalize hw2 :
      toDataT bits (addInt (ld m (b + (i - 1))) ((addInt (addInt (ld m (b + (i - 2))) u1) 2) >>> 2)) = u2
    have key2 : ∀ q, ld ((m.set (b + i) u1).set (b + (i - 1)) u2) q =
        if q = b + (i - 1) then u2 else if q = b + i then u1 else ld m q :=
      fun q => ld_set2 m _ _ q u1 u2 hi hi1
    have e1 : ld m (b + i) = ld s (b + i) := hun i (by omega) (by omega)
    have e2 : ld m (b + (i - 1)) = ld s (b + (i - 1)) := hun (i - 1) (by omega) (by omega)
    rw [e1, e2] at hw1
    rw [e2] at hw2
    refine ⟨_, rfl, by simpa using hlen, ?_, ?_, ?_, ?_, ?_, ?_⟩
    · intro p hp
      rw [key2, if_neg (by omega), if_neg (by omega)]
      exact hframe p hp
    · intro j hj1 hj2
      rw [key2, if_neg (by omega), if_neg (by omega)]
      exact hodds j hj1 (by omega)
    · rw [key2, key2, if_neg (by omega), if_neg (by omega), if_neg (by omega),
        if_neg (by omega)]
      exact h0
    · intro j hj0 hj2 hj3
      rw [key2, key2, key2]
      by_cases hji : j = i - 1
      · subst hji
        rw [if_pos rfl, if_neg (by omega), if_neg (by omega), if_neg (by omega),
          if_pos (by omega), ← hw2]
        have : i - 1 - 1 = i - 2 := by omega
        rw [this]
      · rw [if_neg (by omega), if_neg (by omega), if_neg (by omega), if_neg (by omega),
          if_neg (by omega), if_neg (by omega)]
        exact hev j hj0 hj2 (by omega)
    · intro h; omega
    · intro _
      have a1 : w - 1 = i := by omega
      have a2 : w - 2 = i - 1 := by omega
      rw [a1, a2, key2, if_neg (by omega), if_pos rfl, ← hw1]

theorem InverseRowT_body_inv (bits : Nat) (d : List Int) (b w : Nat) (hb : b + w ≤ d.length)
    (st : Nat × List Int) (hI : InverseRowInvT bits d b w st) (hc : st.1 < w - 1) :
    ∃ st', (do
        let i := st.1
        let mem := st.2
        let mem ← subAtT bits mem (b + i)
          ((addInt (addInt (← rd mem (b + (i - 1))) (← rd mem (b + (i + 1)))) c2) >>> 2)
        let mem ← addAtT bits mem (b + (i - 1))
          ((addInt (addInt (← rd mem (b + (i - 2))) (← rd mem (b + i))) c1) >>> 1)
        pure (i + 2, mem) : Exec (Nat × List Int)) = .ok st' ∧
      InverseRowInvT bits d b w st' ∧ w - st'.1 < w - st.1 := by
  obtain ⟨i, m⟩ := st
  obtain ⟨hpar, h2, hiw, hlen, hframe, hun, h0, hev, hodds⟩ := hI
  simp only at hpar h2 hiw hlen hframe hun h0 hev hodds hc
  have hi1 : b + (i - 1) < m.length := by omega
  have hi2 : b + (i - 2) < m.length := by omega
  have hi : b + i < m.length := by omega
  have hi' : b + (i + 1) < m.length := by omega
  simp only [rd_ok hi1, rd_ok hi', subAtT_ok bits hi, ok_bind]
  have hl1 : ∀ v, b + (i - 1) < (m.set (b + i) v).length := by intro v; simpa using hi1
  have hl2 : ∀ v, b + (i - 2) < (m.set (b + i) v).length := by intro v; simpa using hi2
  have hl0 : ∀ v, b + i < (m.set (b + i) v).length := by intro v; simpa using hi
  simp only [rd_ok (hl2 _), rd_ok (hl0 _), addAtT_ok bits (hl1 _), ok_bind, pure_eq_ok]
  refine ⟨_, rfl, ?_, ?_⟩
  · simp only [c1, c2]
    generalize hv1 :
      toDataT bits (subInt (ld m (b + i)) ((addInt (addInt (ld m (b + (i - 1))) (ld m (b + (i + 1)))) 2) >>> 2)) = v1
    rw [ld_set_ne _ _ _ _ (show b + (i - 1) ≠ b + i by omega),
      ld_set_ne _ _ _ _ (show b + (i - 2) ≠ b + i by omega), ld_set_eq _ _ _ hi]
    generalize hv2 :
      toDataT bits (addInt (ld m (b + (i - 1))) ((addInt (addInt (ld m (b + (i - 2))) v1) 1) >>> 1)) = v2
    have key : ∀ q, ld ((m.set (b + i) v1).set (b + (i - 1)) v2) q =
        if q = b + (i - 1) then v2 else if q = b + i then v1 else ld m q :=
      fun q => ld_set2 m _ _ q v1 v2 hi hi1
    have e1 : ld m (b + i) = ld d (b + i) := hun i (by omega) (by omega)
    have e2 : ld m (b + (i - 1)) = ld d (b + (i - 1)) := hun (i - 1) (by omega) (by omega)
    have e3 : ld m (b + (i + 1)) = ld d (b + (i + 1)) := hun (i + 1) (by omega) (by omega)
    rw [e1, e2, e3] at hv1
    rw [e2] at hv2
    refine ⟨by omega, by omega, by omega, by simpa using hlen, ?_, ?_, ?_, ?_, ?_⟩
    · intro p hp
      rw [key, if_neg (by omega), if_neg (by omega)]
      exact hframe p hp
    · intro j h1 h2
      simp only at h1
      rw [key, if_neg (by omega), if_neg (by omega)]
      exact hun j (by omega) h2
    · simp only
      rw [key, if_neg (by omega), if_neg (by omega)]
      exact h0
    · intro j hj0 hj2 hj3
      simp only at hj3 ⊢
      rw [key, if_neg (by omega)]
      by_cases hji : j = i
      · subst hji
        rw [if_pos rfl, ← hv1]
      · rw [if_neg (by omega)]
        exact hev j hj0 hj2 (by omega)
    · intro j hj1 hj3
      simp only at hj3 ⊢
      rw [key, key, key]
      by_cases hji : j = i - 1
      · subst hji
        rw [if_pos rfl, if_neg (by omega), if_neg (by omega), if_neg (by omega),
          if_pos (by omega), ← hv2]
        have : i - 1 - 1 = i - 2 := by omega
        rw [this]
      · rw [if_neg (by omega), if_neg (by omega), if_neg (by omega), if_neg (by omega),
          if_neg (by omega), if_neg (by omega)]
        exact hodds j hj1 (by omega)
  · simp only; omega

theorem InverseRowT_spec (bits : Nat) (d : List Int) (b w : Nat) (hw : 5 ≤ w) (hb : b + w ≤ d.length) :
    ∃ t, InverseRowT bits d b w = .ok t ∧ InverseRowPostT bits d t b w := by
  have p0 : b + 0 < d.length := by omega
  have p1 : b + 1 < d.length := by omega
  unfold InverseRowT
  rw [if_pos (show w ≥ FilterWidth by simpa [FilterWidth] using hw)]
  simp only [rd_ok p1, subAtT_ok bits p0, ok_bind]
  generalize hv0 :
      toDataT bits (subInt (ld d (b + 0)) ((addInt (ld d (b + 1)) c1) >>> 1)) = v0
  have hinit : InverseRowInvT bits d b w (2, d.set (b + 0) v0) := by
    refine ⟨by simp, by simp, by simpa using (show 2 ≤ w by omega), by simp, ?_, ?_, ?_, ?_, ?_⟩
    · intro p hp
      simp only
      rw [ld_set_ne _ _ _ _ (by omega)]
    · intro j h1 h2
      simp only at h1 ⊢
      rw [ld_set_ne _ _ _ _ (by omega)]
    · simp only
      rw [show b = b + 0 by omega, ld_set_eq _ _ _ p0, ← hv0]
      simp [c1]
    · intro j hj0 hj2 hj3
      simp only at hj3
      omega
    · intro j hj1 hj3
      simp only at hj3
      omega
  obtain ⟨⟨i, m⟩, hrun, hI, hcond⟩ :=
    whileLoop_inv (fun (st : Nat × List Int) => decide (st.1 < w - 1)) _
      (InverseRowInvT bits d b w) (fun st => w - st.1)
      (fun st hI hc => InverseRowT_body_inv bits d b w hb st hI (by simpa using hc))
      w (2, d.set (b + 0) v0) hinit (by simp)
  simp only at hrun
  rw [hrun]
  simp only [ok_bind, c1, c2]
  obtain ⟨hpar, h2, hiw, hlen, hframe, hun, h0, hev, hodds⟩ := hI
  simp only at hpar h2 hiw hlen hframe hun h0 hev hodds
  have hge : w - 1 ≤ i := by simpa using hcond
  have hi1 : b + (i - 1) < m.length := by omega
  have hi2 : b + (i - 2) < m.length := by omega
  by_cases hwpar : w % 2 = 1
  · -- odd width
    have hiw' : i = w - 1 := by omega
    have hi : b + i < m.length := by omega
    rw [if_pos hwpar]
    simp only [rd_ok hi1, subAtT_ok bits hi, ok_bind]
    have r1 : ∀ v, b + (i - 1) < (m.set (b + i) v).length := by intro v; simpa using hi1
    have r2 : ∀ v, b + (i - 2) < (m.set (b + i) v).length := by intro v; simpa using hi2
    have r0 : ∀ v, b + i < (m.set (b + i) v).length := by intro v; simpa using hi
    simp only [rd_ok (r2 _), rd_ok (r0 _), addAtT_ok bits (r1 _), ok_bind]
    rw [ld_set_ne _ _ _ _ (show b + (i - 1) ≠ b + i by omega),
      ld_set_ne _ _ _ _ (show b + (i - 2) ≠ b + i by omega), ld_set_eq _ _ _ hi]
    generalize hw1 :
      toDataT bits (subInt (ld m (b + i)) ((addInt (ld m (b + (i - 1))) 1) >>> 1)) = u1
    generalize hw2 :
      toDataT bits (addInt (ld m (b + (i - 1))) ((addInt (addInt (ld m (b + (i - 2))) u1) 1) >>> 1)) = u2
    have key2 : ∀ q, ld ((m.set (b + i) u1).set (b + (i - 1)) u2) q =
        if q = b + (i - 1) then u2 else if q = b + i then u1 else ld m q :=
      fun q => ld_set2 m _ _ q u1 u2 hi hi1
    have e1 : ld m (b + i) = ld d (b + i) := hun i (by omega) (by omega)
    have e2 : ld m (b + (i - 1)) = ld d (b + (i - 1)) := hun (i - 1) (by omega) (by omega)
    rw [e1, e2] at hw1
    rw [e2] at hw2
    refine ⟨_, rfl, by simpa using hlen, ?_, ?_, ?_, ?_, ?_, ?_⟩
    · intro p hp
      rw [key2, if_neg (by omega), if_neg (by omega)]
      exact hframe p hp
    · rw [key2, if_neg (by omega), if_neg (by omega)]
      exact h0
    · intro j hj0 hj2 hj3
      rw [key2, if_neg (by omega), if_neg (by omega)]
      exact hev j hj0 hj2 (by omega)
    · intro j hj1 hj3
      rw [key2, key2, key2]
      by_cases hji : j = i - 1
      · subst hji
        rw [if_pos rfl, if_neg (by omega), if_neg (by omega), if_neg (by omega),
          if_pos (by omega), ← hw2]
        have : i - 1 - 1 = i - 2 := by omega
        rw [this]
      · rw [if_neg (by omega), if_neg (by omega), if_neg (by omega), if_neg (by omega),
          if_neg (by omega), if_neg (by omega)]
        exact hodds j hj1 (by omega)
    · intro _
      have a1 : w - 1 = i := by omega
      have a2 : w - 2 = i - 1 := by omega
      rw [a1, a2, key2, if_neg (by omega), if_pos rfl, ← hw1]
    · intro h; omega
  · -- even width
    have hiw' : i = w := by omega
    subst hiw'
    rw [if_neg hwpar]
    simp only [rd_ok hi2, addAtT_ok bits hi1, ok_bind]
    refine ⟨_, rfl, by simpa using hlen, ?_, ?_, ?_, ?_, ?_, ?_⟩
    · intro p hp
      rw [ld_set_ne _ _ _ _ (by omega)]
      exact hframe p hp
    · rw [ld_set_ne _ _ _ _ (by omega)]
      exact h0
    · intro j hj0 hj2 hj3
      rw [ld_set_ne _ _ _ _ (by omega)]
      exact hev j hj0 hj2 hj3
    · intro j hj1 hj3
      rw [ld_set_ne _ _ _ _ (by omega), ld_set_ne _ _ _ _ (by omega),
        ld_set_ne _ _ _ _ (by omega)]
      exact hodds j hj1 (by omega)
    · intro h; omega
    · intro _
      rw [ld_set_eq _ _ _ hi1, ld_set_ne _ _ _ _ (by omega),
        hun (i - 1) (by omega) (by omega)]

theorem InverseRowPostT_ForwardRowPostT (bits : Nat) (s d t : List Int) (b w : Nat)
    (hbits : bits ≤ 32) (hw : 5 ≤ w)
    (hr : ∀ j, j < w → toDataT bits (ld s (b + j)) = ld s (b + j))
    (hF : ForwardRowPostT bits s d b w) (hG : InverseRowPostT bits d t b w) : t = s := by
  obtain ⟨fl, fframe, fodd, f0, fev, fbo, fbe⟩ := hF
  obtain ⟨gl, gframe, g0, gev, godd, gbo, gbe⟩ := hG
  have hE : ∀ j, j % 2 = 0 → j < w → ld t (b + j) = ld s (b + j) := by
    intro j hj hjw
    by_cases hj0 : j = 0
    · subst hj0
      have h := hr 0 (by omega)
      simp only [Nat.add_zero] at h ⊢
      rw [g0, f0, toDataT_addInt_subInt bits _ _ hbits, h]
    · by_cases hlast : j + 1 < w
      · rw [gev j hj (by omega) hlast, fev j hj (by omega) hlast, toDataT_addInt_subInt bits _ _ hbits,
          hr j hjw]
      · have hjw' : j = w - 1 := by omega
        have hwodd : w % 2 = 1 := by omega
        subst hjw'
        rw [gbo hwodd, fbo hwodd, toDataT_addInt_subInt bits _ _ hbits, hr (w - 1) hjw]
  have hO : ∀ j, j % 2 = 1 → j < w → ld t (b + j) = ld s (b + j) := by
    intro j hj hjw
    by_cases hlast : j + 1 < w
    · rw [godd j hj hlast, hE (j - 1) (by omega) (by omega), hE (j + 1) (by omega) (by omega),
        fodd j hj hlast, toDataT_subInt_addInt bits _ _ hbits, hr j hjw]
    · have hjw' : j = w - 1 := by omega
      have hweven : w % 2 = 0 := by omega
      subst hjw'
      rw [gbe hweven, hE (w - 2) (by omega) (by omega), fbe hweven, toDataT_subInt_addInt bits _ _ hbits,
        hr (w - 1) hjw]
  apply ext_ld (by omega)
  intro p _
  by_cases hp : p < b ∨ b + w ≤ p
  · rw [gframe p hp, fframe p hp]
  · obtain ⟨j, rfl⟩ : ∃ j, p = b + j := ⟨p - b, by omega⟩
    by_cases hj : j % 2 = 0
    · exact hE j hj (by omega)
    · exact hO j (by omega) (by omega)

theorem InverseRowT_ForwardRowT_at (bits : Nat) (hbits : bits ≤ 32) (s : List Int)
    (b w : Nat) (hb : b + w ≤ s.length)
    (hr : ∀ j, j < w → toDataT bits (ld s (b + j)) = ld s (b + j)) :
    (ForwardRowT bits s b w >>= fun d => InverseRowT bits d b w) = .ok s := by
  by_cases hw : 5 ≤ w
  · obtain ⟨d, hd, hF⟩ := ForwardRowT_spec bits s b w hw hb
    obtain ⟨t, ht, hG⟩ := InverseRowT_spec bits d b w hw (by rw [hF.1]; exact hb)
    rw [hd, ok_bind, ht, InverseRowPostT_ForwardRowPostT bits s d t b w hbits hw hr hF hG]
  · have hlt : ¬ w ≥ FilterWidth := by simpa [FilterWidth] using hw
    simp [ForwardRowT, InverseRowT, hlt, pure_eq_ok, ok_bind]

theorem ld_map_toDataT (bits : Nat) (s : List Int) (j : Nat) (hj : j < s.length)
    (hs : s.map (toDataT bits) = s) : toDataT bits (ld s j) = ld s j := by
  have h : ld (s.map (toDataT bits)) j = toDataT bits (ld s j) := by
    simp [ld_eq_getElem?, List.getElem?_map, List.getElem?_eq_getElem hj]
  rw [← h, hs]

theorem toDataT_idem (bits : Nat) (x : Int) : toDataT bits (toDataT bits x) = toDataT bits x :=
  toDataT_congr bits _ _ (toDataT_sub_dvd bits x)

theorem addInt_addInt (a b c : Int) : addInt (addInt a b) c = toDataT 32 (a + b + c) := by
  unfold addInt
  apply toDataT_congr
  have e : toDataT 32 (a + b) + c - (a + b + c) = toDataT 32 (a + b) - (a + b) := by ring
  rw [e]
  exact toDataT_sub_dvd 32 (a + b)

/-- Every cell of a row that `ForwardRowT` has filtered is a `DataT` value. -/
theorem ForwardRowPostT_range (bits : Nat) (s d : List Int) (b w : Nat) (hw : 5 ≤ w)
    (hF : ForwardRowPostT bits s d b w) (j : Nat) (hj : j < w) :
    toDataT bits (ld d (b + j)) = ld d (b + j) := by
  obtain ⟨_, _, fodd, f0, fev, fbo, fbe⟩ := hF
  by_cases h1 : j % 2 = 1
  · by_cases h2 : j + 1 < w
    · rw [fodd j h1 h2, toDataT_idem]
    · have e : j = w - 1 := by omega
      rw [e, fbe (by omega), toDataT_idem]
  · by_cases h0 : j = 0
    · subst h0
      rw [Nat.add_zero, f0, toDataT_idem]
    · by_cases h2 : j + 1 < w
      · rw [fev j (by omega) (by omega) h2, toDataT_idem]
      · have e : j = w - 1 := by omega
        rw [e, fbo (by omega), toDataT_idem]

theorem map_toDataT_of_ld (bits : Nat) (d : List Int)
    (h : ∀ j, j < d.length → toDataT bits (ld d j) = ld d j) : d.map (toDataT bits) = d := by
  apply ext_ld (by simp)
  intro p hp
  have hp' : p < d.length := by simpa using hp
  have e : ld (d.map (toDataT bits)) p = toDataT bits (ld d p) := by
    simp [ld_eq_getElem?, List.getElem?_map, List.getElem?_eq_getElem hp']
  rw [e, h p hp']

/-- C2: on a `DataT` of 16 or of 32 bits, for every row of `n` cells inside a buffer (at
offset `b`; every `n ≥ 1` is covered), whatever `DataT` values it holds, running
`ForwardRow` on the row and then `InverseRow` on the result succeeds and gives back the
buffer as it was: the row is restored (odd and even `n`, and `n` below the filter width 5,
included) and no other cell has changed. Sums and differences are those of `int`, stores convert to `DataT`, and
nothing is assumed about overflow. -/
theorem InverseRow_ForwardRow_DataT (bits : Nat) (mem : List Int) (b n : Nat)
    (hbits : bits = 16 ∨ bits = 32) (hb : b + n ≤ mem.length)
    (hrange : ∀ j, j < n → toDataT bits (ld mem (b + j)) = ld mem (b + j)) :
    (ForwardRowT bits mem b n >>= fun d => InverseRowT bits d b n) = .ok mem :=
  InverseRowT_ForwardRowT_at bits (by omega) mem b n hb hrange

theorem InverseRow_ForwardRow_DataT_witness :
    ((16 = 16 ∨ 16 = 32) ∧ 1 + 6 ≤ ([9, 5, 1, -2, 3, 4, 7, 9] : List Int).length ∧
      ∀ j, j < 6 → toDataT 16 (ld [9, 5, 1, -2, 3, 4, 7, 9] (1 + j)) =
        ld [9, 5, 1, -2, 3, 4, 7, 9] (1 + j)) ∧
    (ForwardRowT 16 [9, 5, 1, -2, 3, 4, 7, 9] 1 6 >>= fun d => InverseRowT 16 d 1 6)
      = .ok [9, 5, 1, -2, 3, 4, 7, 9] :=
  ⟨⟨by decide, by decide, by decide⟩,
    InverseRow_ForwardRow_DataT 16 [9, 5, 1, -2, 3, 4, 7, 9] 1 6 (by decide) (by decide)
      (by decide)⟩

/-- C32: with `DataT` a two's-complement integer of 16 bits, or of 32 bits with
`__PGF32SUPPORT__`, the sums and differences taken in the 32-bit `int` (wrapping modulo
`2 ^ 32`) and every store converted to `DataT` (modulo `2 ^ bits`): for every row `s` of
`DataT` values, of every width, `ForwardRow` returns a row `d` of `DataT` values and
`InverseRow` returns `s` from it, also when sums or stored coefficients have left the
coefficient width on the way. -/
theorem InverseRowT_ForwardRowT (bits : Nat) (s : List Int) (w : Nat)
    (hbits : bits = 16 ∨ bits = 32) (hs : s.length = w)
    (hrange : s.map (toDataT bits) = s) :
    ∃ d, ForwardRowT bits s 0 w = .ok d ∧ d.length = w ∧ d.map (toDataT bits) = d ∧
      InverseRowT bits d 0 w = .ok s := by
  have hr : ∀ j, j < w → toDataT bits (ld s (0 + j)) = ld s (0 + j) := by
    intro j hj
    rw [Nat.zero_add]
    exact ld_map_toDataT bits s j (by omega) hrange
  have hrt := InverseRowT_ForwardRowT_at bits (by omega) s 0 w (by omega) hr
  by_cases hw : 5 ≤ w
  · obtain ⟨d, hd, hF⟩ := ForwardRowT_spec bits s 0 w hw (by omega)
    rw [hd, ok_bind] at hrt
    refine ⟨d, hd, by rw [hF.1, hs], ?_, hrt⟩
    apply map_toDataT_of_ld
    intro j hj
    have := ForwardRowPostT_range bits s d 0 w hw hF j (by rw [hF.1, hs] at hj; exact hj)
    rwa [Nat.zero_add] at this
  · have hlt : ¬ w ≥ FilterWidth := by simpa [FilterWidth] using hw
    refine ⟨s, by simp [ForwardRowT, hlt, pure_eq_ok], hs, hrange, ?_⟩
    simp [InverseRowT, hlt, pure_eq_ok]

theorem InverseRowT_ForwardRowT_witness :
    (((16 = 16 ∨ 16 = 32) ∧
        ([32767, -32768, 32767, -32768, 32767, 100] : List Int).length = 6 ∧
        ([32767, -32768, 32767, -32768, 32767, 100] : List Int).map (toDataT 16) =
          [32767, -32768, 32767, -32768, 32767, 100]) ∧
      ∃ d, ForwardRowT 16 [32767, -32768, 32767, -32768, 32767, 100] 0 6 = .ok d ∧
        d.length = 6 ∧ d.map (toDataT 16) = d ∧
        InverseRowT 16 d 0 6 = .ok [32767, -32768, 32767, -32768, 32767, 100]) ∧
    (((32 = 16 ∨ 32 = 32) ∧
        ([2147483647, -2147483648, 2147483647, -2147483648, 2147483647] : List Int).length
          = 5 ∧
        ([2147483647, -2147483648, 2147483647, -2147483648, 2147483647] : List Int).map
            (toDataT 32) =
          [2147483647, -2147483648, 2147483647, -2147483648, 2147483647]) ∧
      ∃ d, ForwardRowT 32 [2147483647, -2147483648, 2147483647, -2147483648, 2147483647] 0 5
          = .ok d ∧
        d.length = 5 ∧ d.map (toDataT 32) = d ∧
        InverseRowT 32 d 0 5 =
          .ok [2147483647, -2147483648, 2147483647, -2147483648, 2147483647]) :=
  ⟨⟨⟨by decide, by decide, by decide⟩,
      InverseRowT_ForwardRowT 16 [32767, -32768, 32767, -32768, 32767, 100] 6 (by decide)
        (by decide) (by decide)⟩,
    ⟨⟨by decide, by decide, by decide⟩,
      InverseRowT_ForwardRowT 32 [2147483647, -2147483648, 2147483647, -2147483648, 2147483647]
        5 (by decide) (by decide) (by decide)⟩⟩

/-- Rows that overflow. On a 16-bit `DataT` the row
`[32767, -32768, 32767, -32768, 32767, 100]` has the predicted cell
`-32768 - 32767 = -65535`, stored as 1. On a 32-bit `DataT` the row
`[2147483647, -2147483648, 2147483647, -2147483648, 2147483647]` has the sum
`2147483647 + 2147483647 + 1`, which is `-1` on `int`, so the predicted cell 1 is
`-2147483648 - (-1) = -2147483647`. -/
theorem ForwardRowT_overflow :
    ForwardRowT 16 [32767, -32768, 32767, -32768, 32767, 100] 0 6 =
        .ok [-32768, 1, -32768, 1, 24601, -32667] ∧
      ForwardRowT 32 [2147483647, -2147483648, 2147483647, -2147483648, 2147483647] 0 5 =
        .ok [1073741824, -2147483647, -2147483648, -2147483647, 1073741824] := by
  refine ⟨by decide, by decide⟩

/-- C22 (as stated) fails on `DataT`: the row `[32767, -32768, 32767, -32768, 32767, 100]`
of 16-bit values has width 6, and `ForwardRow` stores 1 in cell 1, not
`s[1] - floor((s[0] + s[2] + 1) / 2) = -32768 - 32767 = -65535`, which is no 16-bit
value. -/
theorem ForwardRowT_cell_wraps :
    ([32767, -32768, 32767, -32768, 32767, 100] : List Int).map (toDataT 16) =
        [32767, -32768, 32767, -32768, 32767, 100] ∧
      ForwardRowT 16 [32767, -32768, 32767, -32768, 32767, 100] 0 6 =
        .ok [-32768, 1, -32768, 1, 24601, -32667] ∧
      ld [-32768, 1, -32768, 1, 24601, -32667] 1 = 1 ∧
      ld [32767, -32768, 32767, -32768, 32767, 100] 1 -
          ⌊((ld [32767, -32768, 32767, -32768, 32767, 100] 0 +
              ld [32767, -32768, 32767, -32768, 32767, 100] 2 + 1 : Int) : ℚ) / 2⌋ = -65535 := by
  refine ⟨by decide, by decide, by decide, ?_⟩
  rw [← shiftRight_one_eq_floor]
  decide

/-- C22 (amended): `ForwardRow` on a row `s` of width `w`, cell by cell, on a `DataT` of
16 or of 32 bits. The call succeeds and keeps the width. For `w < 5` every cell keeps its
value. For `w ≥ 5` the output `d` satisfies the equations of the claim with every sum
taken in the 32-bit `int` (`toDataT 32`, which changes nothing while the sum is within the
range of `int`) and every right-hand side converted to `DataT` (`toDataT bits`): an odd
cell `i ≤ w - 2` is `s[i] - floor((s[i-1] + s[i+1] + 1) / 2)`; the last cell of an even
width is `s[w-1] - s[w-2]`; cell 0 is `s[0] + floor((d[1] + 1) / 2)`; an even cell
`2 ≤ i ≤ w - 2` is `s[i] + floor((d[i-1] + d[i+1] + 2) / 4)`; the last cell of an odd
width is `s[w-1] + floor((d[w-2] + 1) / 2)`. The floor is the floor of the rational
quotient, for negative sums as well. -/
theorem ForwardRowT_cells (bits : Nat) (s : List Int) (w i : Nat)
    (hbits : bits = 16 ∨ bits = 32) (hs : s.length = w) (hi : i < w) :
    ∃ d, ForwardRowT bits s 0 w = .ok d ∧ d.length = w ∧
      ld d i =
        if w < 5 then ld s i
        else if i % 2 = 1 then
          (if i + 1 < w then
            toDataT bits
              (ld s i - ⌊((toDataT 32 (ld s (i - 1) + ld s (i + 1) + 1) : Int) : ℚ) / 2⌋)
           else toDataT bits (ld s i - ld s (i - 1)))
        else if i = 0 then
          toDataT bits (ld s 0 + ⌊((toDataT 32 (ld d 1 + 1) : Int) : ℚ) / 2⌋)
        else if i + 1 < w then
          toDataT bits
            (ld s i + ⌊((toDataT 32 (ld d (i - 1) + ld d (i + 1) + 2) : Int) : ℚ) / 4⌋)
        else toDataT bits (ld s i + ⌊((toDataT 32 (ld d (i - 1) + 1) : Int) : ℚ) / 2⌋) := by
  have hb32 : bits ≤ 32 := by omega
  by_cases hw : 5 ≤ w
  · obtain ⟨d, hd, hl, _, hodd, h0, hev, hbo, hbe⟩ := ForwardRowT_spec bits s 0 w hw (by omega)
    refine ⟨d, hd, by omega, ?_⟩
    rw [if_neg (by omega)]
    simp only [Nat.zero_add] at hodd h0 hev hbo hbe
    by_cases hp : i % 2 = 1
    · rw [if_pos hp]
      by_cases hlast : i + 1 < w
      · rw [if_pos hlast, hodd i hp hlast, toDataT_subInt bits _ _ hb32, addInt_addInt,
          shiftRight_one_eq_floor]
      · rw [if_neg hlast]
        have hwi : i = w - 1 := by omega
        have := hbe (by omega)
        rw [hwi, this, toDataT_subInt bits _ _ hb32]
        congr 2
    · rw [if_neg hp]
      by_cases hz : i = 0
      · rw [if_pos hz, hz, h0, toDataT_addInt bits _ _ hb32, shiftRight_one_eq_floor]
        rfl
      · rw [if_neg hz]
        by_cases hlast : i + 1 < w
        · rw [if_pos hlast, hev i (by omega) (by omega) hlast, toDataT_addInt bits _ _ hb32,
            addInt_addInt, shiftRight_two_eq_floor]
        · rw [if_neg hlast]
          have hwi : i = w - 1 := by omega
          have := hbo (by omega)
          rw [hwi, this, toDataT_addInt bits _ _ hb32, shiftRight_one_eq_floor]
          have e : w - 1 - 1 = w - 2 := by omega
          rw [e]
          rfl
  · have hlt : ¬ w ≥ FilterWidth := by simpa [FilterWidth] using hw
    refine ⟨s, by simp [ForwardRowT, hlt, pure_eq_ok], hs, ?_⟩
    rw [if_pos (by omega)]

theorem ForwardRowT_cells_witness :
    ((16 = 16 ∨ 16 = 32) ∧
      ([32767, -32768, 32767, -32768, 32767, 100] : List Int).length = 6 ∧ 1 < 6) ∧
    ∃ d, ForwardRowT 16 [32767, -32768, 32767, -32768, 32767, 100] 0 6 = .ok d ∧
      d.length = 6 ∧
      ld d 1 =
        if 6 < 5 then ld [32767, -32768, 32767, -32768, 32767, 100] 1
        else if 1 % 2 = 1 then
          (if 1 + 1 < 6 then
            toDataT 16
              (ld [32767, -32768, 32767, -32768, 32767, 100] 1 -
                ⌊((toDataT 32 (ld [32767, -32768, 32767, -32768, 32767, 100] (1 - 1) +
                    ld [32767, -32768, 32767, -32768, 32767, 100] (1 + 1) + 1) : Int) : ℚ)
                  / 2⌋)
           else toDataT 16 (ld [32767, -32768, 32767, -32768, 32767, 100] 1 -
              ld [32767, -32768, 32767, -32768, 32767, 100] (1 - 1)))
        else if 1 = 0 then
          toDataT 16 (ld [32767, -32768, 32767, -32768, 32767, 100] 0 +
            ⌊((toDataT 32 (ld d 1 + 1) : Int) : ℚ) / 2⌋)
        else if 1 + 1 < 6 then
          toDataT 16
            (ld [32767, -32768, 32767, -32768, 32767, 100] 1 +
              ⌊((toDataT 32 (ld d (1 - 1) + ld d (1 + 1) + 2) : Int) : ℚ) / 4⌋)
        else toDataT 16 (ld [32767, -32768, 32767, -32768, 32767, 100] 1 +
            ⌊((toDataT 32 (ld d (1 - 1) + 1) : Int) : ℚ) / 2⌋) :=
  ⟨by decide, ForwardRowT_cells 16 [32767, -32768, 32767, -32768, 32767, 100] 6 1
    (by decide) (by decide) (by decide)⟩

/-! ## The forward transform on `DataT`: buffers as matrices, the column steps -/

theorem Rows.subAtT (bits : Nat) {mem : List Int} {w h : Nat} {M : Nat → Nat → Int} (hR : Rows mem w h M)
    {a k : Nat} (ha : a < h) (hk : k < w) (v : Int) :
    ∃ m', subAtT bits mem (a * w + k) v = .ok m' ∧
      Rows m' w h (fun r c => if r = a ∧ c = k then toDataT bits (subInt (M a k) v) else M r c) := by
  refine ⟨_, subAtT_ok bits (by rw [hR.1]; exact cell_lt ha hk) v, ?_⟩
  rw [hR.2 a k ha hk]
  exact hR.set ha hk _

theorem Rows.addAtT (bits : Nat) {mem : List Int} {w h : Nat} {M : Nat → Nat → Int} (hR : Rows mem w h M)
    {a k : Nat} (ha : a < h) (hk : k < w) (v : Int) :
    ∃ m', addAtT bits mem (a * w + k) v = .ok m' ∧
      Rows m' w h (fun r c => if r = a ∧ c = k then toDataT bits (addInt (M a k) v) else M r c) := by
  refine ⟨_, addAtT_ok bits (by rw [hR.1]; exact cell_lt ha hk) v, ?_⟩
  rw [hR.2 a k ha hk]
  exact hR.set ha hk _

theorem liftOddT_congr (bits : Nat) {v v' : Nat → Int} {n j : Nat} (h : ∀ i, i < n → v i = v' i)
    (hj : j < n) (hodd : j % 2 = 1) : liftOddT bits v n j = liftOddT bits v' n j := by
  unfold liftOddT
  by_cases h1 : j + 1 < n
  · rw [if_pos h1, if_pos h1, h j hj, h (j - 1) (by omega), h (j + 1) h1]
  · rw [if_neg h1, if_neg h1, h j hj, h (j - 1) (by omega)]

theorem liftCellT_congr (bits : Nat) {v v' : Nat → Int} {n i : Nat} (h : ∀ i, i < n → v i = v' i)
    (hn : 2 ≤ n) (hi : i < n) : liftCellT bits v n i = liftCellT bits v' n i := by
  unfold liftCellT
  by_cases h1 : i % 2 = 1
  · rw [if_pos h1, if_pos h1, liftOddT_congr bits h hi h1]
  · rw [if_neg h1, if_neg h1]
    by_cases h0 : i = 0
    · rw [if_pos h0, if_pos h0, h 0 (by omega), liftOddT_congr bits h (by omega) (by omega)]
    · rw [if_neg h0, if_neg h0]
      by_cases h2 : i + 1 < n
      · rw [if_pos h2, if_pos h2, h i hi, liftOddT_congr bits h (by omega) (by omega),
          liftOddT_congr bits h h2 (by omega)]
      · rw [if_neg h2, if_neg h2, h i hi, liftOddT_congr bits h (by omega) (by omega)]

theorem liftCellT_odd (bits : Nat) (v : Nat → Int) (n i : Nat) (h : i % 2 = 1) :
    liftCellT bits v n i = liftOddT bits v n i := by
  unfold liftCellT
  rw [if_pos h]

theorem ForwardRowPostT_liftCellT (bits : Nat) (s d : List Int) (b w : Nat) (hw : 5 ≤ w)
    (hF : ForwardRowPostT bits s d b w) (j : Nat) (hj : j < w) :
    ld d (b + j) = liftCellT bits (fun i => ld s (b + i)) w j := by
  obtain ⟨_, _, fodd, f0, fev, fbo, fbe⟩ := hF
  have hodd : ∀ i, i % 2 = 1 → i < w →
      ld d (b + i) = liftOddT bits (fun i => ld s (b + i)) w i := by
    intro i hi hlt
    unfold liftOddT
    by_cases h1 : i + 1 < w
    · rw [if_pos h1]
      exact fodd i hi h1
    · rw [if_neg h1]
      have e : i = w - 1 := by omega
      have e2 : i - 1 = w - 2 := by omega
      simp only
      rw [e2, e]
      exact fbe (by omega)
  unfold liftCellT
  by_cases h1 : j % 2 = 1
  · rw [if_pos h1]
    exact hodd j h1 hj
  · rw [if_neg h1]
    by_cases h0 : j = 0
    · subst h0
      rw [if_pos rfl, ← hodd 1 (by decide) (by omega)]
      exact f0
    · rw [if_neg h0]
      by_cases h2 : j + 1 < w
      · rw [if_pos h2, ← hodd (j - 1) (by omega) (by omega), ← hodd (j + 1) (by omega) h2]
        exact fev j (by omega) (by omega) h2
      · rw [if_neg h2, ← hodd (j - 1) (by omega) (by omega)]
        have e : j = w - 1 := by omega
        have e2 : j - 1 = w - 2 := by omega
        simp only
        rw [e2, e]
        exact fbo (by omega)

theorem ForwardRowT_Rows (bits : Nat) {mem : List Int} {w h : Nat} {M : Nat → Nat → Int}
    (hR : Rows mem w h M) {a : Nat} (ha : a < h) :
    ∃ mem', ForwardRowT bits mem (a * w) w = .ok mem' ∧
      Rows mem' w h (fun r k => if r = a then rowLiftT bits w (M a) k else M r k) := by
  by_cases hw : 5 ≤ w
  · obtain ⟨d, hd, hF⟩ := ForwardRowT_spec bits mem (a * w) w hw (by rw [hR.1]; exact row_le ha)
    refine ⟨d, hd, by rw [hF.1, hR.1], ?_⟩
    intro r k hr hk
    simp only
    by_cases e : r = a
    · subst e
      rw [if_pos rfl, ForwardRowPostT_liftCellT bits mem d (r * w) w hw hF k hk]
      unfold rowLiftT
      rw [if_neg (by simp [FilterWidth]; omega)]
      exact liftCellT_congr bits (fun i hi => hR.2 r i hr hi) (by omega) hk
    · rw [if_neg e, hF.2.1 _ (cell_outside hk e), hR.2 r k hr hk]
  · have hlt : ¬ w ≥ FilterWidth := by simpa [FilterWidth] using hw
    refine ⟨mem, by simp [ForwardRowT, hlt, pure_eq_ok], hR.congr ?_⟩
    intro r k _ _
    by_cases e : r = a
    · subst e
      simp [rowLiftT, FilterWidth]
      omega
    · simp [e]

theorem ForwardRowT_at (bits : Nat) {mem : List Int} {w h : Nat} {M : Nat → Nat → Int}
    (hR : Rows mem w h M) {a : Nat} (ha : a < h) (p : Nat) (hp : p = a * w) :
    ∃ mem', ForwardRowT bits mem p w = .ok mem' ∧
      Rows mem' w h (fun r k => if r = a then rowLiftT bits w (M a) k else M r k) := by
  subst hp
  exact ForwardRowT_Rows bits hR ha

theorem forK_fwdT_mid (bits : Nat) {mem : List Int} {w h : Nat} {M : Nat → Nat → Int}
    (hR : Rows mem w h M) {a b c e : Nat} (ha : a < h) (hb : b < h) (hc : c < h) (he : e < h)
    (hac : a ≠ c) (hbc : b ≠ c) (hec : e ≠ c) (p0 p1 p2 p3 : Nat)
    (e0 : p0 = a * w) (e1 : p1 = b * w) (e2 : p2 = c * w) (e3 : p3 = e * w) :
    ∃ m', forK w (fun k mem => do
        let mem ← subAtT bits mem (p2 + k) ((addInt (addInt (← rd mem (p1 + k)) (← rd mem (p3 + k))) c1) >>> 1)
        addAtT bits mem (p1 + k) ((addInt (addInt (← rd mem (p0 + k)) (← rd mem (p2 + k))) c2) >>> 2)) mem
        = .ok m' ∧
      Rows m' w h (fun r k =>
        if r = c then toDataT bits (subInt (M c k) ((addInt (addInt (M b k) (M e k)) 1) >>> 1))
        else if r = b then
          toDataT bits (addInt (M b k) ((addInt (addInt (M a k) (toDataT bits (subInt (M c k) ((addInt (addInt (M b k) (M e k)) 1) >>> 1)))) 2) >>> 2))
        else M r k) := by
  subst e0 e1 e2 e3
  apply forK_cols w h _ mem M _ hR
  intro k m hk hRk
  have r1 := hRk.rd hb hk
  have r3 := hRk.rd he hk
  simp only [Nat.lt_irrefl, if_false] at r1 r3
  obtain ⟨m1, hs, hR1⟩ := hRk.subAtT bits hc hk ((addInt (addInt (M b k) (M e k)) c1) >>> 1)
  have r0 := hR1.rd ha hk
  have r2 := hR1.rd hc hk
  simp only [Nat.lt_irrefl, if_false, hac, false_and, true_and, if_true] at r0 r2
  obtain ⟨m2, hadd, hR2⟩ := hR1.addAtT bits hb hk
    ((addInt (addInt (M a k) (toDataT bits (subInt (M c k) ((addInt (addInt (M b k) (M e k)) c1) >>> 1)))) c2) >>> 2)
  refine ⟨m2, ?_, hR2.congr ?_⟩
  · simp only [r1, r3, ok_bind, hs, r0, r2, hadd]
  · intro r c' _ _
    simp only [c1, c2, Nat.lt_irrefl, if_false, hbc, false_and]
    by_cases h1 : c' = k
    · subst h1
      simp only [and_true, Nat.lt_succ_self, if_true]
      by_cases h2 : r = b
      · subst h2
        simp [hbc]
      · by_cases h3 : r = c
        · subst h3
          simp [h2]
        · simp [h2, h3]
    · have h4 : (c' < k + 1) = (c' < k) := by
        apply propext; omega
      simp only [h1, and_false, if_false, h4]

theorem forK_fwdT_top (bits : Nat) {mem : List Int} {w h : Nat} {M : Nat → Nat → Int}
    (hR : Rows mem w h M) {a b c : Nat} (ha : a < h) (hb : b < h) (hc : c < h)
    (hab : a ≠ b) (hcb : c ≠ b) (p0 p1 p2 : Nat)
    (e0 : p0 = a * w) (e1 : p1 = b * w) (e2 : p2 = c * w) :
    ∃ m', forK w (fun k mem => do
        let mem ← subAtT bits mem (p1 + k) ((addInt (addInt (← rd mem (p0 + k)) (← rd mem (p2 + k))) c1) >>> 1)
        addAtT bits mem (p0 + k) ((addInt (← rd mem (p1 + k)) c1) >>> 1)) mem
        = .ok m' ∧
      Rows m' w h (fun r k =>
        if r = b then toDataT bits (subInt (M b k) ((addInt (addInt (M a k) (M c k)) 1) >>> 1))
        else if r = a then toDataT bits (addInt (M a k) ((addInt (toDataT bits (subInt (M b k) ((addInt (addInt (M a k) (M c k)) 1) >>> 1))) 1) >>> 1))
        else M r k) := by
  subst e0 e1 e2
  apply forK_cols w h _ mem M _ hR
  intro k m hk hRk
  have r0 := hRk.rd ha hk
  have r2 := hRk.rd hc hk
  simp only [Nat.lt_irrefl, if_false] at r0 r2
  obtain ⟨m1, hs, hR1⟩ := hRk.subAtT bits hb hk ((addInt (addInt (M a k) (M c k)) c1) >>> 1)
  have r1 := hR1.rd hb hk
  simp only [Nat.lt_irrefl, if_false, and_self, if_true] at r1
  obtain ⟨m2, hadd, hR2⟩ := hR1.addAtT bits ha hk
    ((addInt (toDataT bits (subInt (M b k) ((addInt (addInt (M a k) (M c k)) c1) >>> 1))) c1) >>> 1)
  refine ⟨m2, ?_, hR2.congr ?_⟩
  · simp only [r0, r2, ok_bind, hs, r1, hadd]
  · intro r c' _ _
    simp only [c1, Nat.lt_irrefl, if_false, hab, false_and]
    by_cases h1 : c' = k
    · subst h1
      simp only [and_true, Nat.lt_succ_self, if_true]
      by_cases h2 : r = a
      · subst h2
        simp [hab]
      · by_cases h3 : r = b
        · subst h3
          simp [h2]
        · simp [h2, h3]
    · have h4 : (c' < k + 1) = (c' < k) := by
        apply propext; omega
      simp only [h1, and_false, if_false, h4]

theorem forK_fwdT_bottom_odd (bits : Nat) {mem : List Int} {w h : Nat} {M : Nat → Nat → Int}
    (hR : Rows mem w h M) {a b : Nat} (ha : a < h) (hb : b < h)
    (hab : a ≠ b) (p0 p1 : Nat) (e0 : p0 = a * w) (e1 : p1 = b * w) :
    ∃ m', forK w (fun k mem =>
        do addAtT bits mem (p1 + k) ((addInt (← rd mem (p0 + k)) c1) >>> 1)) mem
        = .ok m' ∧
      Rows m' w h (fun r k =>
        if r = b then toDataT bits (addInt (M b k) ((addInt (M a k) 1) >>> 1)) else M r k) := by
  subst e0 e1
  apply forK_cols w h _ mem M _ hR
  intro k m hk hRk
  have r0 := hRk.rd ha hk
  simp only [Nat.lt_irrefl, if_false] at r0
  obtain ⟨m2, hadd, hR2⟩ := hRk.addAtT bits hb hk ((addInt (M a k) c1) >>> 1)
  refine ⟨m2, ?_, hR2.congr ?_⟩
  · simp only [r0, ok_bind, hadd]
  · intro r c' _ _
    simp only [c1, Nat.lt_irrefl, if_false]
    by_cases h1 : c' = k
    · subst h1
      simp only [and_true, Nat.lt_succ_self, if_true]
      by_cases h3 : r = b
      · subst h3
        simp
      · simp [h3]
    · have h4 : (c' < k + 1) = (c' < k) := by
        apply propext; omega
      simp only [h1, and_false, if_false, h4]

theorem forK_fwdT_bottom_even (bits : Nat) {mem : List Int} {w h : Nat} {M : Nat → Nat → Int}
    (hR : Rows mem w h M) {a b c : Nat} (ha : a < h) (hb : b < h) (hc : c < h)
    (hac : a ≠ c) (hbc : b ≠ c) (p0 p1 p2 : Nat)
    (e0 : p0 = a * w) (e1 : p1 = b * w) (e2 : p2 = c * w) :
    ∃ m', forK w (fun k mem => do
        let mem ← subAtT bits mem (p2 + k) (← rd mem (p1 + k))
        addAtT bits mem (p1 + k) ((addInt (addInt (← rd mem (p0 + k)) (← rd mem (p2 + k))) c2) >>> 2)) mem
        = .ok m' ∧
      Rows m' w h (fun r k =>
        if r = c then toDataT bits (subInt (M c k) (M b k))
        else if r = b then toDataT bits (addInt (M b k) ((addInt (addInt (M a k) (toDataT bits (subInt (M c k) (M b k)))) 2) >>> 2))
        else M r k) := by
  subst e0 e1 e2
  apply forK_cols w h _ mem M _ hR
  intro k m hk hRk
  have r1 := hRk.rd hb hk
  simp only [Nat.lt_irrefl, if_false] at r1
  obtain ⟨m1, hs, hR1⟩ := hRk.subAtT bits hc hk (M b k)
  have r0 := hR1.rd ha hk
  have r2 := hR1.rd hc hk
  simp only [Nat.lt_irrefl, if_false, hac, false_and, true_and, if_true] at r0 r2
  obtain ⟨m2, hadd, hR2⟩ := hR1.addAtT bits hb hk ((addInt (addInt (M a k) (toDataT bits (subInt (M c k) (M b k)))) c2) >>> 2)
  refine ⟨m2, ?_, hR2.congr ?_⟩
  · simp only [r1, ok_bind, hs, r0, r2, hadd]
  · intro r c' _ _
    simp only [c2, Nat.lt_irrefl, if_false, hbc, false_and]
    by_cases h1 : c' = k
    · subst h1
      simp only [and_true, Nat.lt_succ_self, if_true]
      by_cases h2 : r = b
      · subst h2
        simp [hbc]
      · by_cases h3 : r = c
        · subst h3
          simp [h2]
        · simp [h2, h3]
    · have h4 : (c' < k + 1) = (c' < k) := by
        apply propext; omega
      simp only [h1, and_false, if_false, h4]

/-! ## The forward transform on `DataT`, for heights of 2 and more -/

theorem liftCellT_zero (bits : Nat) (v : Nat → Int) (n : Nat) :
    liftCellT bits v n 0 = toDataT bits (addInt (v 0) ((addInt (liftCellT bits v n 1) 1) >>> 1)) := by
  rw [liftCellT_odd bits v n 1 (by decide)]
  unfold liftCellT
  rw [if_neg (by decide), if_pos rfl]

theorem liftCellT_even (bits : Nat) (v : Nat → Int) (n r : Nat) (hr : r % 2 = 0) (h2 : 2 ≤ r)
    (hlt : r + 1 < n) :
    liftCellT bits v n r =
      toDataT bits (addInt (v r) ((addInt (addInt (liftCellT bits v n (r - 1)) (liftCellT bits v n (r + 1))) 2) >>> 2)) := by
  rw [liftCellT_odd bits v n (r - 1) (by omega), liftCellT_odd bits v n (r + 1) (by omega)]
  unfold liftCellT
  rw [if_neg (by omega), if_neg (by omega), if_pos hlt]

theorem liftCellT_even_last (bits : Nat) (v : Nat → Int) (n r : Nat) (hr : r % 2 = 0) (h2 : 2 ≤ r)
    (hlt : ¬ r + 1 < n) :
    liftCellT bits v n r = toDataT bits (addInt (v r) ((addInt (liftCellT bits v n (r - 1)) 1) >>> 1)) := by
  rw [liftCellT_odd bits v n (r - 1) (by omega)]
  unfold liftCellT
  rw [if_neg (by omega), if_neg (by omega), if_neg hlt]

theorem transformedMT_eq (bits : Nat) (S : Nat → Nat → Int) (w h r k : Nat) (h3 : 3 ≤ h) :
    transformedMT bits S w h r k = liftCellT bits (fun r' => filteredMT bits S w r' k) h r := by
  unfold transformedMT colLiftT filteredMT
  rw [if_neg (by simp [FilterHeight]; omega)]

theorem transformedMT_odd (bits : Nat) (S : Nat → Nat → Int) (w h r k : Nat) (h3 : 3 ≤ h)
    (hr : r % 2 = 1) (hlt : r + 1 < h) :
    transformedMT bits S w h r k =
      toDataT bits (subInt (filteredMT bits S w r k) ((addInt (addInt (filteredMT bits S w (r - 1) k) (filteredMT bits S w (r + 1) k)) 1) >>> 1)) := by
  rw [transformedMT_eq bits S w h r k h3, liftCellT_odd bits _ _ _ hr]
  unfold liftOddT
  rw [if_pos hlt]

theorem transformedMT_odd_last (bits : Nat) (S : Nat → Nat → Int) (w h r k : Nat) (h3 : 3 ≤ h)
    (hr : r % 2 = 1) (hlt : r + 1 = h) :
    transformedMT bits S w h r k =
      toDataT bits (subInt (filteredMT bits S w r k) (filteredMT bits S w (r - 1) k)) := by
  rw [transformedMT_eq bits S w h r k h3, liftCellT_odd bits _ _ _ hr]
  unfold liftOddT
  rw [if_neg (by omega)]

theorem transformedMT_zero (bits : Nat) (S : Nat → Nat → Int) (w h k : Nat) (h3 : 3 ≤ h) :
    transformedMT bits S w h 0 k =
      toDataT bits (addInt (filteredMT bits S w 0 k) ((addInt (transformedMT bits S w h 1 k) 1) >>> 1)) := by
  rw [transformedMT_eq bits S w h 0 k h3, transformedMT_eq bits S w h 1 k h3, liftCellT_zero bits]

theorem transformedMT_even (bits : Nat) (S : Nat → Nat → Int) (w h r k : Nat) (h3 : 3 ≤ h)
    (hr : r % 2 = 0) (h2 : 2 ≤ r) (hlt : r + 1 < h) :
    transformedMT bits S w h r k =
      toDataT bits (addInt (filteredMT bits S w r k) ((addInt (addInt (transformedMT bits S w h (r - 1) k) (transformedMT bits S w h (r + 1) k)) 2) >>> 2)) := by
  rw [transformedMT_eq bits S w h r k h3, transformedMT_eq bits S w h (r - 1) k h3,
    transformedMT_eq bits S w h (r + 1) k h3, liftCellT_even bits _ _ _ hr h2 hlt]

theorem transformedMT_even_last (bits : Nat) (S : Nat → Nat → Int) (w h r k : Nat) (h3 : 3 ≤ h)
    (hr : r % 2 = 0) (h2 : 2 ≤ r) (hlt : r + 1 = h) :
    transformedMT bits S w h r k =
      toDataT bits (addInt (filteredMT bits S w r k) ((addInt (transformedMT bits S w h (r - 1) k) 1) >>> 1)) := by
  rw [transformedMT_eq bits S w h r k h3, transformedMT_eq bits S w h (r - 1) k h3,
    liftCellT_even_last bits _ _ _ hr h2 (by omega)]

theorem transformedMT_small (bits : Nat) (S : Nat → Nat → Int) (w h r k : Nat) (h3 : h < 3) :
    transformedMT bits S w h r k = filteredMT bits S w r k := by
  unfold transformedMT colLiftT filteredMT
  rw [if_pos (by simp [FilterHeight]; omega)]

theorem rowLiftT_ext (bits : Nat) {w : Nat} {v v' : Nat → Int} (k : Nat) (h : ∀ j, v j = v' j) :
    rowLiftT bits w v k = rowLiftT bits w v' k := by
  rw [funext h]

theorem ForwardTransformT.rowsT_step (bits : Nat) (S : Nat → Nat → Int) (d0 : Bands) (w h : Nat)
    (h3 : 3 ≤ h) (hroom : transformRoom d0 w h = true) (s : RowState)
    (hI : ForwardRowsInvT bits S d0 w h s) (hc : s.i < h - 1) :
    ∃ s', (fun (s : RowState) => (do
        let src ← ForwardRowT bits s.mem s.row2 w
        let src ← ForwardRowT bits src s.row3 w
        let src ← forK w (fun k mem => do
          let mem ← subAtT bits mem (s.row2 + k)
            ((addInt (addInt (← rd mem (s.row1 + k)) (← rd mem (s.row3 + k))) c1) >>> 1)
          addAtT bits mem (s.row1 + k) ((addInt (addInt (← rd mem (s.row0 + k)) (← rd mem (s.row2 + k))) c2) >>> 2))
          src
        let d ← LinearToMallat s.d src s.row1 (some s.row2) w
        pure { i := s.i + 2, row0 := s.row2, row1 := s.row3, row2 := s.row3 + w,
               row3 := s.row3 + w + w, mem := src, d := d } : Exec RowState)) s = .ok s' ∧
      ForwardRowsInvT bits S d0 w h s' ∧ s'.i = s.i + 2 := by
  obtain ⟨i, row0, row1, row2, row3, mem, d⟩ := s
  obtain ⟨t, hi, hle, e0, e1, e2, e3, hR, hd⟩ := hI
  simp only at hi hle e0 e1 e2 e3 hR hd hc ⊢
  subst hi hd
  have hlt : 2 * t + 4 < h := by omega
  obtain ⟨m1, hm1, hR1⟩ := ForwardRowT_at bits hR (a := 2 * t + 3) (by omega) row2 e2
  obtain ⟨m2, hm2, hR2⟩ := ForwardRowT_at bits hR1 (a := 2 * t + 4) (by omega) row3 e3
  have hR2' : Rows m2 w h (fun r k =>
      if r < 2 * t + 2 then transformedMT bits S w h r k
      else if r ≤ 2 * t + 4 then filteredMT bits S w r k else S r k) := by
    apply hR2.congr
    intro r k _ _
    try simp only
    by_cases c4 : r = 2 * t + 4
    · subst c4
      rw [if_pos rfl, if_neg (by omega), if_pos (by omega)]
      unfold filteredMT
      apply rowLiftT_ext bits
      intro j
      rw [if_neg (by omega), if_neg (by omega), if_neg (by omega)]
    · rw [if_neg c4]
      by_cases c3 : r = 2 * t + 3
      · subst c3
        rw [if_pos rfl, if_neg (by omega), if_pos (by omega)]
        unfold filteredMT
        apply rowLiftT_ext bits
        intro j
        rw [if_neg (by omega), if_neg (by omega)]
      · rw [if_neg c3]
        by_cases c2 : r < 2 * t + 2
        · rw [if_pos c2, if_pos c2]
        · rw [if_neg c2, if_neg c2]
          by_cases c1 : r = 2 * t + 2
          · rw [if_pos c1, if_pos (by omega)]
          · rw [if_neg c1, if_neg (by omega)]
  obtain ⟨m3, hm3, hR3⟩ := forK_fwdT_mid bits hR2' (a := 2 * t + 1) (b := 2 * t + 2)
    (c := 2 * t + 3) (e := 2 * t + 4) (by omega) (by omega) (by omega) (by omega)
    (by omega) (by omega) (by omega) row0 row1 row2 row3 e0 e1 e2 e3
  have hR3' : Rows m3 w h (fun r k =>
      if r < 2 * (t + 1) + 2 then transformedMT bits S w h r k
      else if r = 2 * (t + 1) + 2 then filteredMT bits S w r k else S r k) := by
    apply hR3.congr
    intro r k _ _
    try simp only
    rw [if_pos (show 2 * t + 1 < 2 * t + 2 by omega), if_neg (show ¬ 2 * t + 2 < 2 * t + 2 by omega),
      if_pos (show 2 * t + 2 ≤ 2 * t + 4 by omega), if_neg (show ¬ 2 * t + 3 < 2 * t + 2 by omega),
      if_pos (show 2 * t + 3 ≤ 2 * t + 4 by omega), if_neg (show ¬ 2 * t + 4 < 2 * t + 2 by omega),
      if_pos (show 2 * t + 4 ≤ 2 * t + 4 by omega)]
    have hD3 := transformedMT_odd bits S w h (2 * t + 3) k h3 (by omega) (by omega)
    have hD2 := transformedMT_even bits S w h (2 * t + 2) k h3 (by omega) (by omega) (by omega)
    have a1 : 2 * t + 3 - 1 = 2 * t + 2 := by omega
    have a2 : 2 * t + 3 + 1 = 2 * t + 4 := by omega
    have a3 : 2 * t + 2 - 1 = 2 * t + 1 := by omega
    have a4 : 2 * t + 2 + 1 = 2 * t + 3 := by omega
    rw [a1, a2] at hD3
    rw [a3, a4, hD3] at hD2
    by_cases c3 : r = 2 * t + 3
    · subst c3
      rw [if_pos rfl, if_pos (by omega), hD3]
    · rw [if_neg c3]
      by_cases c2 : r = 2 * t + 2
      · subst c2
        rw [if_pos rfl, if_pos (by omega), hD2]
      · rw [if_neg c2]
        by_cases c1 : r < 2 * t + 2
        · rw [if_pos c1, if_pos (show r < 2 * (t + 1) + 2 by omega)]
        · rw [if_neg c1, if_neg (show ¬ r < 2 * (t + 1) + 2 by omega)]
          by_cases c4 : r = 2 * t + 4
          · rw [if_pos (show r ≤ 2 * t + 4 by omega),
              if_pos (show r = 2 * (t + 1) + 2 by omega)]
          · rw [if_neg (show ¬ r ≤ 2 * t + 4 by omega),
              if_neg (show ¬ r = 2 * (t + 1) + 2 by omega)]
  have hL := LinearToMallat_scatteredRows_some (D := transformedMT bits S w h) hR3' d0 (t + 1) (t + 1)
    (by omega) (by omega) hroom
    (fun k _ => if_pos (show 2 * (t + 1) < 2 * (t + 1) + 2 by omega))
    (fun k _ => if_pos (show 2 * (t + 1) + 1 < 2 * (t + 1) + 2 by omega))
    row1 row2 (by rw [e1]; congr 1) (by rw [e2]; congr 1)
  refine ⟨{ i := 2 * t + 3 + 2, row0 := row2, row1 := row3, row2 := row3 + w,
            row3 := row3 + w + w, mem := m3,
            d := scatteredRows d0 (transformedMT bits S w h) w (t + 1 + 1) (t + 1 + 1) }, ?_, ?_, rfl⟩
  · simp only [hm1, hm2, hm3, hL, ok_bind, pure_eq_ok]
  · refine ⟨t + 1, by simp only; omega, by simp only; omega, ?_, ?_, ?_, ?_, hR3', rfl⟩
    · simp only; rw [e2]; congr 1
    · simp only; rw [e3]; congr 1
    · simp only; rw [e3]; ring
    · simp only; rw [e3]; ring

/-- The row pass of the forward transform on a source of height 3 or more: it runs
without fault and scatters the separable transform of the source matrix. -/
theorem ForwardTransformT.rowsT_tall (bits : Nat) (src : List Int) (S : Nat → Nat → Int) (d0 : Bands)
    (w h : Nat) (hR : Rows src w h S) (h3 : 3 ≤ h) (hroom : transformRoom d0 w h = true) :
    ForwardTransformT.rows bits src d0 w h =
      .ok (scatteredRows d0 (transformedMT bits S w h) w ((h + 1) / 2) (h / 2)) := by
  unfold ForwardTransformT.rows
  rw [if_pos (show h ≥ FilterHeight by simpa [FilterHeight] using h3)]
  simp only
  -- top border handling
  obtain ⟨m1, hm1, hR1⟩ := ForwardRowT_at bits hR (a := 0) (by omega) 0 (by simp)
  obtain ⟨m2, hm2, hR2⟩ := ForwardRowT_at bits hR1 (a := 1) (by omega) (0 + w) (by simp)
  obtain ⟨m3, hm3, hR3⟩ := ForwardRowT_at bits hR2 (a := 2) (by omega) (0 + w + w) (by ring)
  have hR3' : Rows m3 w h (fun r k => if r ≤ 2 then filteredMT bits S w r k else S r k) := by
    apply hR3.congr
    intro r k _ _
    beta_reduce
    by_cases c2 : r = 2
    · subst c2
      rw [if_pos rfl, if_pos (by omega)]
      unfold filteredMT
      apply rowLiftT_ext bits
      intro j
      rw [if_neg (by omega), if_neg (by omega)]
    · rw [if_neg c2]
      by_cases c1 : r = 1
      · subst c1
        rw [if_pos rfl, if_pos (by omega)]
        unfold filteredMT
        apply rowLiftT_ext bits
        intro j
        rw [if_neg (by omega)]
      · rw [if_neg c1]
        by_cases c0 : r = 0
        · subst c0
          rw [if_pos rfl, if_pos (by omega)]
          rfl
        · rw [if_neg c0, if_neg (by omega)]
  obtain ⟨m4, hm4, hR4⟩ := forK_fwdT_top bits hR3' (a := 0) (b := 1) (c := 2) (by omega) (by omega)
    (by omega) (by omega) (by omega) 0 (0 + w) (0 + w + w) (by simp) (by simp) (by ring)
  have hR4' : Rows m4 w h (fun r k =>
      if r < 2 * 0 + 2 then transformedMT bits S w h r k
      else if r = 2 * 0 + 2 then filteredMT bits S w r k else S r k) := by
    apply hR4.congr
    intro r k _ _
    beta_reduce
    rw [if_pos (show 0 ≤ 2 by omega), if_pos (show 1 ≤ 2 by omega),
      if_pos (show 2 ≤ 2 by omega)]
    have hD1 := transformedMT_odd bits S w h 1 k h3 (by omega) (by omega)
    have hD0 := transformedMT_zero bits S w h k h3
    simp only [Nat.sub_self] at hD1
    rw [hD1] at hD0
    by_cases c1 : r = 1
    · subst c1
      rw [if_pos rfl, if_pos (by omega), hD1]
    · rw [if_neg c1]
      by_cases c0 : r = 0
      · subst c0
        rw [if_pos rfl, if_pos (by omega), hD0]
      · rw [if_neg c0, if_neg (show ¬ r < 2 * 0 + 2 by omega)]
        by_cases c2 : r = 2
        · rw [if_pos (show r ≤ 2 by omega), if_pos (show r = 2 * 0 + 2 by omega)]
        · rw [if_neg (show ¬ r ≤ 2 by omega), if_neg (show ¬ r = 2 * 0 + 2 by omega)]
  have hL := LinearToMallat_scatteredRows_some (D := transformedMT bits S w h) hR4' d0 0 0
    (by omega) (by omega) hroom
    (fun k _ => if_pos (show 2 * 0 < 2 * 0 + 2 by omega))
    (fun k _ => if_pos (show 2 * 0 + 1 < 2 * 0 + 2 by omega))
    0 (0 + w) (by simp) (by simp)
  rw [scatteredRows_zero d0 _ w h hroom] at hL
  simp only [hm1, hm2, hm3, hm4, hL, ok_bind]
  -- middle part
  obtain ⟨s, hrun, hI, hc⟩ := whileLoop_inv
    (fun (s : RowState) => decide (s.i < h - 1))
    (fun (s : RowState) => (do
        let src ← ForwardRowT bits s.mem s.row2 w
        let src ← ForwardRowT bits src s.row3 w
        let src ← forK w (fun k mem => do
          let mem ← subAtT bits mem (s.row2 + k)
            ((addInt (addInt (← rd mem (s.row1 + k)) (← rd mem (s.row3 + k))) c1) >>> 1)
          addAtT bits mem (s.row1 + k) ((addInt (addInt (← rd mem (s.row0 + k)) (← rd mem (s.row2 + k))) c2) >>> 2))
          src
        let d ← LinearToMallat s.d src s.row1 (some s.row2) w
        pure { i := s.i + 2, row0 := s.row2, row1 := s.row3, row2 := s.row3 + w,
               row3 := s.row3 + w + w, mem := src, d := d } : Exec RowState))
    (ForwardRowsInvT bits S d0 w h) (fun s => h - s.i)
    (by
      intro s hI hc
      have hlt : s.i < h - 1 := by simpa using hc
      obtain ⟨s', hb, hI', hi'⟩ := ForwardTransformT.rowsT_step bits S d0 w h h3 hroom s hI hlt
      exact ⟨s', hb, hI', by simp only; omega⟩)
    h { i := 3, row0 := 0 + w, row1 := 0 + w + w, row2 := 0 + w + w + w,
        row3 := 0 + w + w + w + w, mem := m4,
        d := scatteredRows d0 (transformedMT bits S w h) w (0 + 1) (0 + 1) }
    ⟨0, rfl, h3, by simp, by ring, by ring, by ring, hR4', rfl⟩
    (by simp only; omega)
  rw [hrun, ok_bind]
  obtain ⟨i, row0, row1, row2, row3, mem, d⟩ := s
  obtain ⟨t, hi, hle, e0, e1, e2, e3, hRs, hd⟩ := hI
  simp only at hi hle e0 e1 e2 e3 hRs hd hc ⊢
  subst hi hd
  have hge : ¬ 2 * t + 3 < h - 1 := by simpa using hc
  -- bottom border handling
  by_cases hodd : h % 2 = 1
  · have hh : h = 2 * t + 3 := by omega
    rw [if_pos hodd]
    obtain ⟨m5, hm5, hR5⟩ := forK_fwdT_bottom_odd bits hRs (a := 2 * t + 1) (b := 2 * t + 2)
      (by omega) (by omega) (by omega) row0 row1 e0 e1
    have hR5' : Rows m5 w h (transformedMT bits S w h) := by
      apply hR5.congr
      intro r k hr _
      beta_reduce
      rw [if_pos (show 2 * t + 1 < 2 * t + 2 by omega),
        if_neg (show ¬ 2 * t + 2 < 2 * t + 2 by omega), if_pos rfl]
      have hD := transformedMT_even_last bits S w h (2 * t + 2) k h3 (by omega) (by omega) (by omega)
      have a3 : 2 * t + 2 - 1 = 2 * t + 1 := by omega
      rw [a3] at hD
      by_cases c2 : r = 2 * t + 2
      · subst c2
        rw [if_pos rfl, hD]
      · rw [if_neg c2, if_pos (show r < 2 * t + 2 by omega)]
    have hL5 := LinearToMallat_scatteredRows_none (D := transformedMT bits S w h) hR5' d0 (t + 1)
      (t + 1) (by omega) hroom (fun k _ => rfl) row1 (by rw [e1]; congr 1)
    simp only [hm5, hL5, ok_bind]
    congr 2 <;> omega
  · have hh : h = 2 * t + 4 := by omega
    rw [if_neg hodd]
    obtain ⟨m5, hm5, hR5⟩ := ForwardRowT_at bits hRs (a := 2 * t + 3) (by omega) row2 e2
    have hR5' : Rows m5 w h (fun r k =>
        if r < 2 * t + 2 then transformedMT bits S w h r k else filteredMT bits S w r k) := by
      apply hR5.congr
      intro r k hr _
      beta_reduce
      by_cases c3 : r = 2 * t + 3
      · subst c3
        rw [if_pos rfl, if_neg (by omega)]
        unfold filteredMT
        apply rowLiftT_ext bits
        intro j
        rw [if_neg (by omega), if_neg (by omega)]
      · rw [if_neg c3]
        by_cases c1 : r < 2 * t + 2
        · rw [if_pos c1, if_pos c1]
        · rw [if_neg c1, if_neg c1, if_pos (by omega)]
    obtain ⟨m6, hm6, hR6⟩ := forK_fwdT_bottom_even bits hR5' (a := 2 * t + 1) (b := 2 * t + 2)
      (c := 2 * t + 3) (by omega) (by omega) (by omega) (by omega) (by omega)
      row0 row1 row2 e0 e1 e2
    have hR6' : Rows m6 w h (transformedMT bits S w h) := by
      apply hR6.congr
      intro r k hr _
      beta_reduce
      rw [if_pos (show 2 * t + 1 < 2 * t + 2 by omega),
        if_neg (show ¬ 2 * t + 2 < 2 * t + 2 by omega),
        if_neg (show ¬ 2 * t + 3 < 2 * t + 2 by omega)]
      have hD3 := transformedMT_odd_last bits S w h (2 * t + 3) k h3 (by omega) (by omega)
      have hD2 := transformedMT_even bits S w h (2 * t + 2) k h3 (by omega) (by omega) (by omega)
      have a1 : 2 * t + 3 - 1 = 2 * t + 2 := by omega
      have a3 : 2 * t + 2 - 1 = 2 * t + 1 := by omega
      have a4 : 2 * t + 2 + 1 = 2 * t + 3 := by omega
      rw [a1] at hD3
      rw [a3, a4, hD3] at hD2
      by_cases c3 : r = 2 * t + 3
      · subst c3
        rw [if_pos rfl, hD3]
      · rw [if_neg c3]
        by_cases c2 : r = 2 * t + 2
        · subst c2
          rw [if_pos rfl, hD2]
        · rw [if_neg c2, if_pos (show r < 2 * t + 2 by omega)]
    have hL6 := LinearToMallat_scatteredRows_some (D := transformedMT bits S w h) hR6' d0 (t + 1)
      (t + 1) (by omega) (by omega) hroom (fun k _ => rfl) (fun k _ => rfl)
      row1 row2 (by rw [e1]; congr 1) (by rw [e2]; congr 1)
    simp only [hm5, hm6, hL6, ok_bind]
    congr 2 <;> omega

/-- The row pass of the forward transform on a source of height 2: the two rows are
row-filtered and scattered, without column filtering. -/
theorem ForwardTransformT.rowsT_two (bits : Nat) (src : List Int) (S : Nat → Nat → Int) (d0 : Bands)
    (w : Nat) (hR : Rows src w 2 S) (hroom : transformRoom d0 w 2 = true) :
    ForwardTransformT.rows bits src d0 w 2 =
      .ok (scatteredRows d0 (transformedMT bits S w 2) w ((2 + 1) / 2) (2 / 2)) := by
  unfold ForwardTransformT.rows
  rw [if_neg (show ¬ 2 ≥ FilterHeight by simp [FilterHeight])]
  simp only
  obtain ⟨m1, hm1, hR1⟩ := ForwardRowT_at bits hR (a := 0) (by omega) 0 (by simp)
  obtain ⟨m2, hm2, hR2⟩ := ForwardRowT_at bits hR1 (a := 1) (by omega) (0 + w) (by simp)
  have hR2' : Rows m2 w 2 (transformedMT bits S w 2) := by
    apply hR2.congr
    intro r k hr _
    beta_reduce
    rw [transformedMT_small bits S w 2 r k (by omega)]
    by_cases c1 : r = 1
    · subst c1
      rw [if_pos rfl]
      unfold filteredMT
      apply rowLiftT_ext bits
      intro j
      rw [if_neg (by omega)]
    · have c0 : r = 0 := by omega
      subst c0
      rw [if_neg (by omega), if_pos rfl]
      rfl
  have hL := LinearToMallat_scatteredRows_some (D := transformedMT bits S w 2) hR2' d0 0 0
    (by omega) (by omega) hroom (fun k _ => rfl) (fun k _ => rfl)
    0 (0 + w) (by simp) (by simp)
  rw [scatteredRows_zero d0 _ w 2 hroom] at hL
  rw [whileLoop_succ _ _ 1 _ (by simp)]
  simp only [hm1, hm2, hL, ok_bind, pure_eq_ok]
  rw [whileLoop_done _ _ 1 _ (by simp)]
  simp only [ok_bind]
  rfl

theorem refRowT_eq (bits : Nat) (src : List Int) (w r k : Nat) (hk : k < w) :
    refRowT bits src w r k = filteredMT bits (matrixOf src w) w r k := by
  have hR : Rows (rowOf src (r * w) w) w 1 (fun _ j => matrixOf src w r j) := by
    refine ⟨by rw [rowOf_length]; simp, ?_⟩
    intro a j ha hj
    have : a = 0 := by omega
    subst this
    rw [Nat.zero_mul, Nat.zero_add]
    unfold rowOf
    rw [ld_range_map _ _ _ hj]
    rfl
  obtain ⟨d, hd, hRd⟩ := ForwardRowT_at bits hR (a := 0) (by omega) 0 (by simp)
  unfold refRowT
  rw [hd]
  have := hRd.2 0 k (by omega) hk
  rw [Nat.zero_mul, Nat.zero_add] at this
  show ld d k = _
  rw [this]
  rfl

theorem refCellT_eq (bits : Nat) (src : List Int) (w h r k : Nat) (h3 : 3 ≤ h) (hr : r < h) (hk : k < w) :
    refCellT bits src w h r k = transformedMT bits (matrixOf src w) w h r k := by
  rw [transformedMT_eq bits _ w h r k h3]
  unfold refCellT
  exact liftCellT_congr bits (fun i _ => refRowT_eq bits src w i k hk) (by omega) hr

theorem ForwardTransformT.rowsT_ok (bits : Nat) (src : List Int) (S : Nat → Nat → Int) (d0 : Bands)
    (w h : Nat) (hR : Rows src w h S) (h2 : 2 ≤ h) (hroom : transformRoom d0 w h = true) :
    ForwardTransformT.rows bits src d0 w h =
      .ok (scatteredRows d0 (transformedMT bits S w h) w ((h + 1) / 2) (h / 2)) := by
  by_cases h3 : 3 ≤ h
  · exact ForwardTransformT.rowsT_tall bits src S d0 w h hR h3 hroom
  · have e : h = 2 := by omega
    subst e
    exact ForwardTransformT.rowsT_two bits src S d0 w hR hroom

/-! ## The forward transform on `DataT` against the separable reference -/

theorem ForwardTransformT.rowsT_allocated (bits : Nat) {src : List Int} {d d' : Bands} {width height : Nat}
    (hd : d.allocated) (h : ForwardTransformT.rows bits src d width height = .ok d') :
    d'.allocated := by
  unfold ForwardTransformT.rows at h
  split at h
  · obtain ⟨_, _, h⟩ := bind_eq_ok h
    obtain ⟨_, _, h⟩ := bind_eq_ok h
    obtain ⟨_, _, h⟩ := bind_eq_ok h
    obtain ⟨_, _, h⟩ := bind_eq_ok h
    obtain ⟨d1, hd1, h⟩ := bind_eq_ok h
    have h1 := LinearToMallat_allocated hd hd1
    obtain ⟨s, hs, h⟩ := bind_eq_ok h
    have hI : s.d.allocated := by
      refine whileLoop_keeps _ _ (fun (s : RowState) => s.d.allocated) ?_ _ _ _ h1 hs
      intro a a' ha hb
      obtain ⟨_, _, hb⟩ := bind_eq_ok hb
      obtain ⟨_, _, hb⟩ := bind_eq_ok hb
      obtain ⟨_, _, hb⟩ := bind_eq_ok hb
      obtain ⟨d2, hd2, hb⟩ := bind_eq_ok hb
      cases hb
      exact LinearToMallat_allocated ha hd2
    split at h
    · obtain ⟨_, _, h⟩ := bind_eq_ok h
      exact LinearToMallat_allocated hI h
    · obtain ⟨_, _, h⟩ := bind_eq_ok h
      obtain ⟨_, _, h⟩ := bind_eq_ok h
      exact LinearToMallat_allocated hI h
  · obtain ⟨s, hs, h⟩ := bind_eq_ok h
    have hI : s.d.allocated := by
      refine whileLoop_keeps _ _ (fun (s : RowState) => s.d.allocated) ?_ _ _ _ hd hs
      intro a a' ha hb
      obtain ⟨_, _, hb⟩ := bind_eq_ok hb
      obtain ⟨_, _, hb⟩ := bind_eq_ok hb
      obtain ⟨d2, hd2, hb⟩ := bind_eq_ok hb
      cases hb
      exact LinearToMallat_allocated ha hd2
    split at h
    · exact LinearToMallat_allocated hI h
    · cases h
      exact hI

/-- The forward transform of a level whose row pass runs without fault: the call returns
`NoError`, the destination level holds the result `d` of the row pass with the subbands
of `quantizedSet` quantized and the others untouched, and the source LL is freed. -/
theorem ForwardTransformT_of_rows (bits : Nat) (t : CWaveletTransform) (level : Nat) (quant : Int)
    (alloc : Orientation → Bool) (dest srcBands d : Bands) (src : List Int)
    (hd : t.bands (level + 1) = .ok dest) (hs : t.bands level = .ok srcBands)
    (hbuf : srcBands.ll.buffer = some src) (halloc : (allocBands dest alloc).1 = true)
    (hrows : ForwardTransformT.rows bits src (allocBands dest alloc).2 srcBands.ll.width
      srcBands.ll.height = .ok d) :
    ForwardTransformT bits t level quant alloc =
      .ok (.NoError, (t.setBands (level + 1)
        (quantizeBands (quantizedSet quant (level + 1) t.m_nLevels) quant.toNat d)).setBands
          level { srcBands with ll := srcBands.ll.FreeMemory }) := by
  have hall : d.allocated := ForwardTransformT.rowsT_allocated bits (allocBands_allocated halloc) hrows
  obtain ⟨a1, a2, a3, a4⟩ := hall
  unfold ForwardTransformT
  simp only [hd, hs, ok_bind, halloc, Bool.not_true, Bool.false_eq_true, if_false, hbuf, hrows]
  by_cases hq : quant > 0
  · by_cases hl : level + 1 = t.m_nLevels - 1
    · simp [hq, hl, CSubband.Quantize_ok _ a1, CSubband.Quantize_ok _ a2,
        CSubband.Quantize_ok _ a3, CSubband.Quantize_ok _ a4, ok_bind, pure_eq_ok,
        quantizeBands, quantizedSet]
    · simp [hq, hl, CSubband.Quantize_ok _ a2,
        CSubband.Quantize_ok _ a3, CSubband.Quantize_ok _ a4, ok_bind, pure_eq_ok,
        quantizeBands, quantizedSet]
  · simp [hq, pure_eq_ok, ok_bind, quantizeBands, quantizedSet]

/-- C23: on a `DataT` of 16 or of 32 bits (the theorem holds for every bit count), for a
source LL of height 3 or more (any width) the streaming `ForwardTransform` with quant 0
equals the separable reference transform, whatever the coefficients and whether or not a
sum or a stored coefficient leaves the range on the way. With the source buffer `src` of
`h` rows of width `w` and the destination subbands as `InitSubbands` leaves them, the call
returns `NoError` and the buffers of LL, HL, LH and HH of the next level are those of
`referenceTransformT`: `ForwardRow` applied to every row, every column lifted by the
vertical predict, update and border steps, and element `(r, c)` sent to LL, HL, LH or HH
by the parities of `r` and `c`, each subband in row-major order. -/
theorem ForwardTransformT_separable (bits : Nat) (t : CWaveletTransform) (level : Nat)
    (dest srcBands : Bands) (src : List Int) (w h : Nat)
    (hd : t.bands (level + 1) = .ok dest) (hs : t.bands level = .ok srcBands)
    (hbuf : srcBands.ll.buffer = some src) (hw : srcBands.ll.width = w)
    (hh : srcBands.ll.height = h) (hlen : src.length = h * w)
    (hfresh : dest.freshFor w h = true) (h3 : 3 ≤ h) :
    (ForwardTransformT bits t level 0 (fun _ => true)).map
        (fun r => (r.1, (r.2.bands (level + 1)).map Bands.buffers)) =
      .ok (.NoError, .ok (referenceTransformT bits src w h)) := by
  subst hw hh
  obtain ⟨ha, hroom, hbufs⟩ := allocBands_fresh dest _ _ hfresh
  have hrows := ForwardTransformT.rowsT_ok bits src (matrixOf src srcBands.ll.width) _ _ _
    (Rows_matrixOf src _ _ hlen) (by omega) hroom
  rw [ForwardTransformT_of_rows bits t level 0 _ dest srcBands _ src hd hs hbuf ha hrows]
  simp only [Except.map]
  rw [CWaveletTransform.bands_setBands_ne (Nat.ne_add_one level),
    CWaveletTransform.bands_setBands hd, quantizeBands_zero]
  show Except.ok (OSError.NoError, Except.ok (Bands.buffers _)) = _
  rw [hbufs]
  unfold referenceTransformT
  rw [rowMajor_congr _ _ _ (fun a j => refCellT bits src _ _ (2 * a) (2 * j))
      (fun a j ha hj => (refCellT_eq bits src _ _ _ _ h3 (by omega) (by omega)).symm),
    rowMajor_congr _ _ _ (fun a j => refCellT bits src _ _ (2 * a) (2 * j + 1))
      (fun a j ha hj => (refCellT_eq bits src _ _ _ _ h3 (by omega) (by omega)).symm),
    rowMajor_congr _ _ _ (fun a j => refCellT bits src _ _ (2 * a + 1) (2 * j))
      (fun a j ha hj => (refCellT_eq bits src _ _ _ _ h3 (by omega) (by omega)).symm),
    rowMajor_congr _ _ _ (fun a j => refCellT bits src _ _ (2 * a + 1) (2 * j + 1))
      (fun a j ha hj => (refCellT_eq bits src _ _ _ _ h3 (by omega) (by omega)).symm)]

theorem ForwardTransformT_separable_witness :
    ((CWaveletTransform.new 5 3 1 (some [32767, -32768, 32767, -32768, 32767,
          -32768, 32767, -32768, 32767, -32768, 32767, -32768, 32767, -32768, 32767])).bands
          (0 + 1) = .ok
        { ll := CSubband.Initialize 3 2 1 .LL, hl := CSubband.Initialize 2 2 1 .HL,
          lh := CSubband.Initialize 3 1 1 .LH, hh := CSubband.Initialize 2 1 1 .HH } ∧
      (CWaveletTransform.new 5 3 1 (some [32767, -32768, 32767, -32768, 32767,
          -32768, 32767, -32768, 32767, -32768, 32767, -32768, 32767, -32768, 32767])).bands 0
          = .ok
        { ll := (CSubband.Initialize 5 3 0 .LL).SetBuffer [32767, -32768, 32767, -32768, 32767,
            -32768, 32767, -32768, 32767, -32768, 32767, -32768, 32767, -32768, 32767],
          hl := CSubband.Initialize 5 3 0 .HL, lh := CSubband.Initialize 5 3 0 .LH,
          hh := CSubband.Initialize 5 3 0 .HH } ∧
      ([32767, -32768, 32767, -32768, 32767, -32768, 32767, -32768, 32767, -32768,
          32767, -32768, 32767, -32768, 32767] : List Int).length = 3 * 5 ∧ 3 ≤ 3) ∧
    (ForwardTransformT 16 (CWaveletTransform.new 5 3 1 (some [32767, -32768, 32767, -32768,
          32767, -32768, 32767, -32768, 32767, -32768, 32767, -32768, 32767, -32768, 32767]))
        0 0 (fun _ => true)).map (fun r => (r.1, (r.2.bands (0 + 1)).map Bands.buffers)) =
      .ok (.NoError, .ok (referenceTransformT 16 [32767, -32768, 32767, -32768, 32767,
          -32768, 32767, -32768, 32767, -32768, 32767, -32768, 32767, -32768, 32767] 5 3)) :=
  ⟨⟨by decide, by decide, by decide, by decide⟩,
    ForwardTransformT_separable 16 (CWaveletTransform.new 5 3 1 (some [32767, -32768, 32767,
        -32768, 32767, -32768, 32767, -32768, 32767, -32768, 32767, -32768, 32767, -32768,
        32767])) 0
      { ll := CSubband.Initialize 3 2 1 .LL, hl := CSubband.Initialize 2 2 1 .HL,
        lh := CSubband.Initialize 3 1 1 .LH, hh := CSubband.Initialize 2 1 1 .HH }
      { ll := (CSubband.Initialize 5 3 0 .LL).SetBuffer [32767, -32768, 32767, -32768, 32767,
          -32768, 32767, -32768, 32767, -32768, 32767, -32768, 32767, -32768, 32767],
        hl := CSubband.Initialize 5 3 0 .HL, lh := CSubband.Initialize 5 3 0 .LH,
        hh := CSubband.Initialize 5 3 0 .HH }
      [32767, -32768, 32767, -32768, 32767, -32768, 32767, -32768, 32767, -32768, 32767,
        -32768, 32767, -32768, 32767] 5 3 (by decide) (by decide) rfl rfl rfl (by decide)
      (by decide) (by decide)⟩

/-- The streaming transform and the reference on a 16-bit source whose liftings overflow:
both give these subbands, and the transform on exact integers gives others. -/
theorem ForwardTransformT_separable_overflow :
    (ForwardTransformT 16 (CWaveletTransform.new 3 3 1 (some [32767, -32768, 32767,
          -32768, 32767, -32768, 32767, -32768, 32767])) 0 0 (fun _ => true)).map
        (fun r => (r.1, (r.2.bands (0 + 1)).map Bands.buffers)) =
      .ok (.NoError, .ok (referenceTransformT 16
        [32767, -32768, 32767, -32768, 32767, -32768, 32767, -32768, 32767] 3 3)) ∧
    (ForwardTransformT 16 (CWaveletTransform.new 3 3 1 (some [32767, -32768, 32767,
          -32768, 32767, -32768, 32767, -32768, 32767])) 0 0 (fun _ => true)).map
        (fun r => (r.1, (r.2.bands (0 + 1)).map Bands.buffers)) ≠
      (ForwardTransform (CWaveletTransform.new 3 3 1 (some [32767, -32768, 32767,
          -32768, 32767, -32768, 32767, -32768, 32767])) 0 0 (fun _ => true)).map
        (fun r => (r.1, (r.2.bands (0 + 1)).map Bands.buffers)) := by
  refine ⟨by decide, by decide⟩

/-- For a column of height 5 or more the vertical lifting is `ForwardRowT bits` applied to the
column. -/
theorem ForwardRowT_liftCellT (bits : Nat) (v : List Int) (n r : Nat) (hn : 5 ≤ n) (hv : v.length = n)
    (hr : r < n) : ∃ d, ForwardRowT bits v 0 n = .ok d ∧ ld d r = liftCellT bits (fun i => ld v i) n r := by
  obtain ⟨d, hd, hF⟩ := ForwardRowT_spec bits v 0 n hn (by omega)
  refine ⟨d, hd, ?_⟩
  have := ForwardRowPostT_liftCellT bits v d 0 n hn hF r hr
  simpa using this

/-! ## The transform of a constant image on `DataT` -/

theorem toInt_of_range (x : Int) (h1 : -2147483648 ≤ x) (h2 : x < 2147483648) :
    toDataT 32 x = x := by
  unfold toDataT
  norm_num
  omega

/-- The lifting steps on a constant `c` for which `c + c + 1` fits an `int`: a predicted
cell is 0 and an updated cell is `c`. -/
theorem lifting_const (bits : Nat) (c : Int) (hb : 1 ≤ bits) (hc : toDataT bits c = c)
    (hlo : -1073741824 ≤ c) (hhi : c < 1073741824) :
    toDataT bits (subInt c ((addInt (addInt c c) 1) >>> 1)) = 0 ∧
      toDataT bits (subInt c c) = 0 ∧
      toDataT bits (addInt c ((addInt 0 1) >>> 1)) = c ∧
      toDataT bits (addInt c ((addInt (addInt 0 0) 2) >>> 2)) = c := by
  have z : toDataT bits 0 = 0 := toDataT_of_range bits 0 (by simp) (by positivity) hb
  have e1 : addInt (addInt c c) 1 = c + c + 1 := by
    rw [addInt_addInt]
    exact toInt_of_range _ (by omega) (by omega)
  have e2 : (c + c + 1) >>> (1 : Int) = c := by
    rw [shiftRight_one_eq_div]
    omega
  have e3 : subInt c c = 0 := by
    unfold subInt
    rw [sub_self]
    exact toInt_of_range 0 (by omega) (by omega)
  have e4 : addInt 0 1 = 1 := by decide
  have e5 : addInt (addInt 0 0) 2 = 2 := by decide
  have e6 : addInt c 0 = c := by
    unfold addInt
    rw [add_zero]
    exact toInt_of_range c (by omega) (by omega)
  refine ⟨?_, ?_, ?_, ?_⟩
  · rw [e1, e2, e3, z]
  · rw [e3, z]
  · rw [e4, show (1 : Int) >>> (1 : Int) = 0 by decide, e6, hc]
  · rw [e5, show (2 : Int) >>> (2 : Int) = 0 by decide, e6, hc]

theorem liftOddT_const (bits : Nat) {v : Nat → Int} {n j : Nat} (c : Int) (hb : 1 ≤ bits)
    (hc : toDataT bits c = c) (hlo : -1073741824 ≤ c) (hhi : c < 1073741824)
    (h : ∀ i, i < n → v i = c) (hj : j < n) (hodd : j % 2 = 1) : liftOddT bits v n j = 0 := by
  obtain ⟨l1, l2, -, -⟩ := lifting_const bits c hb hc hlo hhi
  unfold liftOddT
  by_cases hlt : j + 1 < n
  · rw [if_pos hlt, h j hj, h (j - 1) (by omega), h (j + 1) hlt, l1]
  · rw [if_neg hlt, h j hj, h (j - 1) (by omega), l2]

theorem liftCellT_const (bits : Nat) {v : Nat → Int} {n i : Nat} (c : Int) (hb : 1 ≤ bits)
    (hc : toDataT bits c = c) (hlo : -1073741824 ≤ c) (hhi : c < 1073741824)
    (h : ∀ i, i < n → v i = c) (hn : 2 ≤ n) (hi : i < n) :
    liftCellT bits v n i = if i % 2 = 1 then 0 else c := by
  obtain ⟨-, -, l3, l4⟩ := lifting_const bits c hb hc hlo hhi
  unfold liftCellT
  by_cases hodd : i % 2 = 1
  · rw [if_pos hodd, if_pos hodd, liftOddT_const bits c hb hc hlo hhi h hi hodd]
  · rw [if_neg hodd, if_neg hodd]
    by_cases h0 : i = 0
    · subst h0
      rw [if_pos rfl, liftOddT_const bits c hb hc hlo hhi h (by omega) (by omega), h 0 hi, l3]
    · rw [if_neg h0]
      by_cases hlt : i + 1 < n
      · rw [if_pos hlt,
          liftOddT_const bits c hb hc hlo hhi h (show i - 1 < n by omega) (by omega),
          liftOddT_const bits c hb hc hlo hhi h hlt (by omega), h i hi, l4]
      · rw [if_neg hlt,
          liftOddT_const bits c hb hc hlo hhi h (show i - 1 < n by omega) (by omega), h i hi,
          l3]

theorem transformedMT_const (bits : Nat) (S : Nat → Nat → Int) (w h : Nat) (c : Int)
    (hb : 1 ≤ bits) (hc : toDataT bits c = c) (hlo : -1073741824 ≤ c)
    (hhi : c < 1073741824)
    (hS : ∀ r k, r < h → k < w → S r k = c) (h5 : 5 ≤ w) (h3 : 3 ≤ h) (r k : Nat)
    (hr : r < h) (hk : k < w) :
    transformedMT bits S w h r k = if r % 2 = 1 ∨ k % 2 = 1 then 0 else c := by
  have z : toDataT bits 0 = 0 := toDataT_of_range bits 0 (by simp) (by positivity) hb
  have hrow : ∀ r', r' < h → filteredMT bits S w r' k = if k % 2 = 1 then 0 else c := by
    intro r' hr'
    unfold filteredMT rowLiftT
    rw [if_neg (by simp [FilterWidth]; omega)]
    exact liftCellT_const bits c hb hc hlo hhi (fun i hi => hS r' i hr' hi) (by omega) hk
  rw [transformedMT_eq bits S w h r k h3]
  by_cases c2 : k % 2 = 1
  · simp only [c2, if_true] at hrow
    rw [liftCellT_const bits 0 hb z (by omega) (by omega) hrow (by omega) hr]
    simp [c2]
  · simp only [c2, if_false] at hrow
    rw [liftCellT_const bits c hb hc hlo hhi hrow (by omega) hr]
    simp [c2]

/-- C34 (as stated) fails on a 32-bit `DataT`: for the constant `c = 2 ^ 30` and a 5 × 3
source, the sum `c + c + 1` leaves the range of `int`; the LL subband comes out as all 0
and HL, LH and HH hold `2 ^ 30` and `-2 ^ 31`. -/
theorem ForwardTransformT_constant_wraps :
    (List.replicate (3 * 5) (1073741824 : Int)).map (toDataT 32) =
        List.replicate (3 * 5) 1073741824 ∧
    (ForwardTransformT 32
        (CWaveletTransform.new 5 3 1 (some (List.replicate (3 * 5) 1073741824))) 0 0
        (fun _ => true)).map (fun r => (r.1, (r.2.bands (0 + 1)).map Bands.buffers)) =
      .ok (.NoError, .ok
        [some [0, 0, 0, 0, 0, 0],
         some [1073741824, 1073741824, 1073741824, 1073741824],
         some [0, -2147483648, 0],
         some [-2147483648, -2147483648]]) := by
  refine ⟨by decide, by decide⟩

/-- C34 (amended): on a `DataT` of 16 or of 32 bits, for every constant `c` of `DataT`
with `-2 ^ 30 ≤ c < 2 ^ 30` (which is every constant of a 16-bit `DataT`) and a source LL
of width `w ≥ 5` and height `h ≥ 3` whose coefficients all equal `c`, with the destination
subbands as `InitSubbands` leaves them, `ForwardTransform` with quant 0 returns `NoError`;
every coefficient of the LL subband of the next level is `c` and every coefficient of HL,
LH and HH is 0. -/
theorem ForwardTransformT_constant (bits : Nat) (t : CWaveletTransform) (level : Nat)
    (dest srcBands : Bands) (c : Int) (w h : Nat) (hbits : bits = 16 ∨ bits = 32)
    (hc : toDataT bits c = c) (hlo : -2 ^ 30 ≤ c) (hhi : c < 2 ^ 30)
    (hd : t.bands (level + 1) = .ok dest) (hs : t.bands level = .ok srcBands)
    (hbuf : srcBands.ll.buffer = some (List.replicate (h * w) c))
    (hw : srcBands.ll.width = w) (hh : srcBands.ll.height = h)
    (hfresh : dest.freshFor w h = true) (h5 : 5 ≤ w) (h3 : 3 ≤ h) :
    (ForwardTransformT bits t level 0 (fun _ => true)).map
        (fun r => (r.1, (r.2.bands (level + 1)).map Bands.buffers)) =
      .ok (.NoError, .ok
        [some (List.replicate ((h + 1) / 2 * ((w + 1) / 2)) c),
         some (List.replicate ((h + 1) / 2 * (w / 2)) 0),
         some (List.replicate (h / 2 * ((w + 1) / 2)) 0),
         some (List.replicate (h / 2 * (w / 2)) 0)]) := by
  subst hw hh
  obtain ⟨ha, hroom, hbufs⟩ := allocBands_fresh dest _ _ hfresh
  have hS := Rows_matrixOf (List.replicate (srcBands.ll.height * srcBands.ll.width) c) _ _
    (List.length_replicate _ _)
  have hcell : ∀ r k, r < srcBands.ll.height → k < srcBands.ll.width →
      matrixOf (List.replicate (srcBands.ll.height * srcBands.ll.width) c)
        srcBands.ll.width r k = c := by
    intro r k hr hk
    unfold matrixOf
    rw [ld_eq_getElem?, List.getElem?_replicate, if_pos (cell_lt hr hk)]
    rfl
  have hrows := ForwardTransformT.rowsT_ok bits _ _ _ _ _ hS (by omega) hroom
  rw [ForwardTransformT_of_rows bits t level 0 _ dest srcBands _ _ hd hs hbuf ha hrows]
  simp only [Except.map]
  rw [CWaveletTransform.bands_setBands_ne (Nat.ne_add_one level),
    CWaveletTransform.bands_setBands hd, quantizeBands_zero]
  show Except.ok (OSError.NoError, Except.ok (Bands.buffers _)) = _
  rw [hbufs]
  have hD := transformedMT_const bits _ _ _ c (by omega) hc (by norm_num at hlo; exact hlo)
    (by norm_num at hhi; exact hhi) hcell h5 h3
  have e1 : rowMajor ((srcBands.ll.width + 1) / 2)
      (fun a j => transformedMT bits (matrixOf (List.replicate (srcBands.ll.height *
        srcBands.ll.width) c) srcBands.ll.width) srcBands.ll.width srcBands.ll.height
        (2 * a) (2 * j)) ((srcBands.ll.height + 1) / 2) =
      rowMajor ((srcBands.ll.width + 1) / 2) (fun _ _ => c) ((srcBands.ll.height + 1) / 2) := by
    apply rowMajor_congr
    intro a j ha hj
    beta_reduce
    rw [hD _ _ (by omega) (by omega), if_neg (by omega)]
  have e2 : rowMajor (srcBands.ll.width / 2)
      (fun a j => transformedMT bits (matrixOf (List.replicate (srcBands.ll.height *
        srcBands.ll.width) c) srcBands.ll.width) srcBands.ll.width srcBands.ll.height
        (2 * a) (2 * j + 1)) ((srcBands.ll.height + 1) / 2) =
      rowMajor (srcBands.ll.width / 2) (fun _ _ => 0) ((srcBands.ll.height + 1) / 2) := by
    apply rowMajor_congr
    intro a j ha hj
    beta_reduce
    rw [hD _ _ (by omega) (by omega), if_pos (by omega)]
  have e3 : rowMajor ((srcBands.ll.width + 1) / 2)
      (fun a j => transformedMT bits (matrixOf (List.replicate (srcBands.ll.height *
        srcBands.ll.width) c) srcBands.ll.width) srcBands.ll.width srcBands.ll.height
        (2 * a + 1) (2 * j)) (srcBands.ll.height / 2) =
      rowMajor ((srcBands.ll.width + 1) / 2) (fun _ _ => 0) (srcBands.ll.height / 2) := by
    apply rowMajor_congr
    intro a j ha hj
    beta_reduce
    rw [hD _ _ (by omega) (by omega), if_pos (by omega)]
  have e4 : rowMajor (srcBands.ll.width / 2)
      (fun a j => transformedMT bits (matrixOf (List.replicate (srcBands.ll.height *
        srcBands.ll.width) c) srcBands.ll.width) srcBands.ll.width srcBands.ll.height
        (2 * a + 1) (2 * j + 1)) (srcBands.ll.height / 2) =
      rowMajor (srcBands.ll.width / 2) (fun _ _ => 0) (srcBands.ll.height / 2) := by
    apply rowMajor_congr
    intro a j ha hj
    beta_reduce
    rw [hD _ _ (by omega) (by omega), if_pos (by omega)]
  rw [e1, e2, e3, e4, rowMajor_const, rowMajor_const, rowMajor_const, rowMajor_const]

theorem ForwardTransformT_constant_witness :
    ((32 = 16 ∨ 32 = 32) ∧ toDataT 32 (-1073741824) = -1073741824 ∧
      (-2 ^ 30 : Int) ≤ -1073741824 ∧ (-1073741824 : Int) < 2 ^ 30 ∧
      (CWaveletTransform.new 5 3 1 (some (List.replicate (3 * 5) (-1073741824)))).bands (0 + 1)
          = .ok
        { ll := CSubband.Initialize 3 2 1 .LL, hl := CSubband.Initialize 2 2 1 .HL,
          lh := CSubband.Initialize 3 1 1 .LH, hh := CSubband.Initialize 2 1 1 .HH } ∧
      (CWaveletTransform.new 5 3 1 (some (List.replicate (3 * 5) (-1073741824)))).bands 0
          = .ok
        { ll := (CSubband.Initialize 5 3 0 .LL).SetBuffer
            (List.replicate (3 * 5) (-1073741824)),
          hl := CSubband.Initialize 5 3 0 .HL, lh := CSubband.Initialize 5 3 0 .LH,
          hh := CSubband.Initialize 5 3 0 .HH } ∧
      5 ≤ 5 ∧ 3 ≤ 3) ∧
    (ForwardTransformT 32
        (CWaveletTransform.new 5 3 1 (some (List.replicate (3 * 5) (-1073741824)))) 0 0
        (fun _ => true)).map (fun r => (r.1, (r.2.bands (0 + 1)).map Bands.buffers)) =
      .ok (.NoError, .ok
        [some (List.replicate ((3 + 1) / 2 * ((5 + 1) / 2)) (-1073741824)),
         some (List.replicate ((3 + 1) / 2 * (5 / 2)) 0),
         some (List.replicate (3 / 2 * ((5 + 1) / 2)) 0),
         some (List.replicate (3 / 2 * (5 / 2)) 0)]) :=
  ⟨⟨by decide, by decide, by decide, by decide, by decide, by decide, by decide, by decide⟩,
    ForwardTransformT_constant 32
      (CWaveletTransform.new 5 3 1 (some (List.replicate (3 * 5) (-1073741824)))) 0
      { ll := CSubband.Initialize 3 2 1 .LL, hl := CSubband.Initialize 2 2 1 .HL,
        lh := CSubband.Initialize 3 1 1 .LH, hh := CSubband.Initialize 2 1 1 .HH }
      { ll := (CSubband.Initialize 5 3 0 .LL).SetBuffer (List.replicate (3 * 5) (-1073741824)),
        hl := CSubband.Initialize 5 3 0 .HL, lh := CSubband.Initialize 5 3 0 .LH,
        hh := CSubband.Initialize 5 3 0 .HH }
      (-1073741824) 5 3 (by decide) (by decide) (by decide) (by decide) (by decide)
      (by decide) rfl rfl rfl (by decide) (by decide) (by decide)⟩
end PGF
